import Mathlib

/-!
# klee-cl core: object states, memory access log, state forking

A shallow embedding of `lib/Core/Memory.cpp` and of the forking part of
`lib/Core/Executor.cpp`.  Pointers to execution states are state identifiers,
C++ vectors are lists, `unsigned` arithmetic that can wrap is taken modulo
`2 ^ 32`, and a failed `assert` is the result `none`.
-/

namespace klee

/-! ## Expressions (klee/Expr.h) -/

/-- Width of `Expr::Bool`. -/
def Expr.BoolWidth : Nat := 1
/-- Width of `Expr::Int8`. -/
def Expr.Int8 : Nat := 8
/-- Width of `Expr::Int16`. -/
def Expr.Int16 : Nat := 16
/-- Width of `Expr::Int32`. -/
def Expr.Int32 : Nat := 32
/-- Width of `Expr::Int64`. -/
def Expr.Int64 : Nat := 64

/-- A constant expression: an unsigned value of a given bit width. -/
structure ConstantExpr where
  value : Nat
  width : Nat
  deriving DecidableEq

/-- Embeds `ConstantExpr::create(v, w)`: the value is truncated to `w` bits. -/
def ConstantExpr.create (v : Nat) (w : Nat) : ConstantExpr :=
  { value := v % 2 ^ w, width := w }

/-- Embeds `ConstantExpr::getZExtValue`. -/
def ConstantExpr.getZExtValue (c : ConstantExpr) : Nat := c.value

/-- Embeds `ConstantExpr::isTrue`: the one-bit constant 1. -/
def ConstantExpr.isTrue (c : ConstantExpr) : Bool :=
  c.width == Expr.BoolWidth && c.value == 1

/-- Embeds `ConstantExpr::isFalse`: the one-bit constant 0. -/
def ConstantExpr.isFalse (c : ConstantExpr) : Bool :=
  c.width == Expr.BoolWidth && c.value == 0

/-- An array of the expression language: `constantValues` is empty for a
symbolic array.  The source appends a process-wide serial number to `name`;
the embedding keeps the prefix only. -/
structure Array where
  name : String
  size : Nat
  constantValues : List ConstantExpr := []
  domain : Nat := 32
  range : Nat := 8
  deriving DecidableEq

mutual
/-- Expression nodes: a constant, or an operator applied to other nodes. -/
inductive Expr where
  | Constant (c : ConstantExpr)
  | Read (updates : UpdateList) (index : Expr)
  | Select (cond t f : Expr)
  | Concat (l r : Expr)
  | Extract (e : Expr) (offset : Nat) (width : Nat)
  | ZExt (e : Expr) (width : Nat)
  | Add (l r : Expr)
  | Eq (l r : Expr)
  | Ne (l r : Expr)
  | And (l r : Expr)
  | Or (l r : Expr)
/-- An update list: a root array and the writes on top of it, newest first. -/
inductive UpdateList where
  | mk (root : Option Array) (head : List UpdateNode)
/-- One write of an update list. -/
inductive UpdateNode where
  | mk (index value : Expr)
end

/-- Root array of an update list (`none` is the null pointer). -/
def UpdateList.root : UpdateList → Option Array
  | .mk r _ => r

/-- Writes of an update list, newest first. -/
def UpdateList.head : UpdateList → List UpdateNode
  | .mk _ h => h

/-- Index of a write. -/
def UpdateNode.index : UpdateNode → Expr
  | .mk i _ => i

/-- Value of a write. -/
def UpdateNode.value : UpdateNode → Expr
  | .mk _ v => v

/-- Embeds `UpdateList::extend`: push a write in front of the list. -/
def UpdateList.extend (ul : UpdateList) (index value : Expr) : UpdateList :=
  .mk ul.root (.mk index value :: ul.head)

/-- Embeds `dyn_cast<ConstantExpr>`. -/
def Expr.asConstant : Expr → Option ConstantExpr
  | .Constant c => some c
  | _ => none

/-- Embeds `isa<ConstantExpr>`. -/
def Expr.isConstant (e : Expr) : Bool := e.asConstant.isSome

/-- Embeds `Expr::getWidth`. -/
def Expr.getWidth : Expr → Nat
  | .Constant c => c.width
  | .Read ul _ =>
    match ul.root with
    | some a => a.range
    | none => Expr.Int8
  | .Select _ t _ => t.getWidth
  | .Concat l r => l.getWidth + r.getWidth
  | .Extract _ _ w => w
  | .ZExt _ w => w
  | .Add l _ => l.getWidth
  | .Eq _ _ => Expr.BoolWidth
  | .Ne _ _ => Expr.BoolWidth
  | .And l _ => l.getWidth
  | .Or l _ => l.getWidth

/-- Embeds `ReadExpr::create`: a read of an update list at an index. -/
def ReadExpr.create (ul : UpdateList) (index : Expr) : Expr := .Read ul index

/-- Modelled from the spec: `ConcatExpr::create` (Expr.cpp) is not among the
sources.  A symbolic value is "constant or built from other values via an
operator"; two constants concatenate to the constant whose high part is the
left operand, so that a multi-byte read of concrete bytes is the constant
written. -/
def ConcatExpr.create (l r : Expr) : Expr :=
  match l.asConstant, r.asConstant with
  | some a, some b =>
    .Constant (ConstantExpr.create (a.value * 2 ^ b.width + b.value) (a.width + b.width))
  | _, _ => .Concat l r

/-- Modelled from the spec: `ExtractExpr::create` (Expr.cpp) is not among the
sources.  Bits `offset .. offset + width - 1` of the operand, folded on a
constant. -/
def ExtractExpr.create (e : Expr) (offset : Nat) (width : Nat) : Expr :=
  match e.asConstant with
  | some c => .Constant (ConstantExpr.create (c.value / 2 ^ offset) width)
  | none => .Extract e offset width

/-- Modelled from the spec: `ZExtExpr::create` (Expr.cpp) is not among the
sources.  Zero extension to `width` bits (a truncation when the operand is
wider), the identity at equal width, folded on a constant. -/
def ZExtExpr.create (e : Expr) (width : Nat) : Expr :=
  if e.getWidth = width then e
  else if width < e.getWidth then ExtractExpr.create e 0 width
  else
    match e.asConstant with
    | some c => .Constant (ConstantExpr.create c.value width)
    | none => .ZExt e width

/-- Modelled from the spec: `EqExpr::create` (Expr.cpp) is not among the
sources.  Equality test, folded on two constants. -/
def EqExpr.create (l r : Expr) : Expr :=
  match l.asConstant, r.asConstant with
  | some a, some b => .Constant (ConstantExpr.create (if a.value = b.value then 1 else 0) Expr.BoolWidth)
  | _, _ => .Eq l r

/-- Modelled from the spec: `NeExpr::create` (Expr.cpp) is not among the
sources.  Disequality test, folded on two constants. -/
def NeExpr.create (l r : Expr) : Expr :=
  match l.asConstant, r.asConstant with
  | some a, some b => .Constant (ConstantExpr.create (if a.value = b.value then 0 else 1) Expr.BoolWidth)
  | _, _ => .Ne l r

/-- Modelled from the spec: `AndExpr::create` (Expr.cpp) is not among the
sources.  Bitwise conjunction, folded on two constants. -/
def AndExpr.create (l r : Expr) : Expr :=
  match l.asConstant, r.asConstant with
  | some a, some b => .Constant (ConstantExpr.create (a.value &&& b.value) a.width)
  | _, _ => .And l r

/-- Modelled from the spec: `OrExpr::create` (Expr.cpp) is not among the
sources.  Bitwise disjunction, folded on two constants. -/
def OrExpr.create (l r : Expr) : Expr :=
  match l.asConstant, r.asConstant with
  | some a, some b => .Constant (ConstantExpr.create (a.value ||| b.value) a.width)
  | _, _ => .Or l r

/-- Modelled from the spec: `SelectExpr::create` (Expr.cpp) is not among the
sources.  Choice between two values, folded on a constant condition. -/
def SelectExpr.create (c t f : Expr) : Expr :=
  match c.asConstant with
  | some k => if k.isTrue then t else f
  | none => .Select c t f

/-- Modelled from the spec: `Expr::createIsZero` (Expr.h) is not among the
sources.  The "negated condition" of a branch: the test that the operand
equals zero at its own width. -/
def Expr.createIsZero (e : Expr) : Expr :=
  EqExpr.create e (.Constant (ConstantExpr.create 0 e.getWidth))

/-! ## Threads and execution states (klee/Threading.h, klee/ExecutionState.h) -/

/-- A call instruction as seen by the fork tag: only its `vulnerable` mark. -/
structure KCallInstruction where
  vulnerable : Bool := false
  deriving DecidableEq

/-- An instruction as seen by `bindLocal`: the register it writes, and
`getWidthForLLVMType` of its result type. -/
structure KInstruction where
  dest : Nat := 0
  typeWidth : Nat := 32

/-- A stack frame: the calling instruction (null for the entry frame), the
function executed and the values of its registers (a null cell is `none`). -/
structure StackFrame where
  caller : Option KCallInstruction := none
  kf : Nat := 0
  locals : List (Option Expr) := []

/-- A logical thread.  `tuid` is the pair (thread id, process id); a thread
starts enabled, in workgroup 0 and on no waiting list. -/
structure Thread where
  tuid : Nat × Nat := (0, 0)
  workgroupId : Nat := 0
  enabled : Bool := true
  waitingList : Nat := 0
  pc : Nat := 0
  prevPC : Nat := 0
  stack : List StackFrame := []

/-- Embeds `Thread::getTid`. -/
def Thread.getTid (t : Thread) : Nat := t.tuid.1

/-- Embeds `Thread::getWorkgroupId`. -/
def Thread.getWorkgroupId (t : Thread) : Nat := t.workgroupId

/-- The allocation descriptor, as far as the object state and the executor
use it. -/
structure MemoryObject where
  id : Nat := 0
  address : Nat := 0
  size : Nat
  name : String := ""
  deriving DecidableEq

/-- One exploration path.  `threads` is the thread table in key order and
`crtThreadIt` the position of the running thread in it (`threads.length` is
`threads.end()`).  The address space is not part of the embedding. -/
structure ExecutionState where
  constraints : List Expr := []
  threads : List Thread := []
  crtThreadIt : Nat := 0
  depth : Nat := 0
  forkDisabled : Bool := false
  coveredNew : Bool := false
  coveredLines : List (Nat × Nat) := []
  pathOS : List Bool := []
  symPathOS : List Bool := []
  ptreeNode : Nat := 0
  preemptions : Nat := 0
  arrayNames : List String := []
  symbolics : List (MemoryObject × Array) := []

/-- Embeds `ExecutionState::crtThread`. -/
def ExecutionState.crtThread (s : ExecutionState) : Thread :=
  s.threads.getD s.crtThreadIt {}

/-- Replace the running thread of a state. -/
def ExecutionState.setCrtThread (s : ExecutionState) (t : Thread) : ExecutionState :=
  { s with threads := s.threads.set s.crtThreadIt t }

/-- Embeds `ExecutionState::stack`: the call stack of the running thread. -/
def ExecutionState.stack (s : ExecutionState) : List StackFrame := s.crtThread.stack

/-- Answers of `Solver::evaluate`. -/
inductive Validity where
  | True
  | False
  | Unknown
  deriving DecidableEq

/-- The solver oracle.  `evaluate` may fail (`none`: no answer within the
timeout), which the engine handles.  For the other queries the engine asserts
success, so a failure there aborts the whole run and these are total here;
`mustBeTrue` is false also when the query fails. -/
structure TimingSolver where
  evaluate : ExecutionState → Expr → Option Validity
  mayBeTrue : ExecutionState → Expr → Bool
  mustBeFalse : ExecutionState → Expr → Bool
  getValue : ExecutionState → Expr → ConstantExpr
  mustBeTrue : ExecutionState → Expr → Bool := fun _ _ => false

/-! ## Memory access log (Memory.cpp, MemoryLog) -/

/-- Modelled from the spec: `MemoryLogEntry` is declared in Memory.h, which is
not among the sources.  The fields are the six that `MemoryLog::makeSymbolic`
copies, all zero in a fresh entry. -/
structure MemoryLogEntry where
  threadId : Nat := 0
  wgid : Nat := 0
  read : Bool := false
  write : Bool := false
  manyRead : Bool := false
  wgManyRead : Bool := false
  deriving DecidableEq

/-- Modelled from the spec: `MemoryLogEntry::matches` is declared in Memory.h,
which is not among the sources.  An access is classified "by comparing the
incoming (threadId, groupId)" against the recorded pair, and an access by "a
different thread" is a race.  A recorded thread id 0 is a cleared owner
(thread 0 "never participates in race accounting", and `logRead` itself tests
`entry.threadId != 0 && entry.threadId != threadId`), so it matches every
thread of the recorded group. -/
def MemoryLogEntry.matches (e : MemoryLogEntry) (threadId wgid : Nat) : Bool :=
  (e.threadId == 0 || e.threadId == threadId) && e.wgid == wgid

/-- Kinds of race reported in `MemoryRace::raceType`. -/
inductive RaceType where
  | RT_readwrite
  | RT_writewrite
  deriving DecidableEq

/-- Out-parameter of the log operations. -/
structure MemoryRace where
  raceType : RaceType := RaceType.RT_readwrite
  op1ThreadId : Nat := 0
  op2ThreadId : Nat := 0
  deriving DecidableEq

/-- The six per-byte update lists of a log in symbolic form. -/
structure MemoryLogUpdates where
  threadId : UpdateList
  wgid : UpdateList
  read : UpdateList
  write : UpdateList
  manyRead : UpdateList
  wgManyRead : UpdateList

/-- The access log of one object: a vector of concrete entries, or, once
`updates` is set, six update lists. -/
structure MemoryLog where
  size : Nat
  concreteEntries : List MemoryLogEntry := []
  updates : Option MemoryLogUpdates := none

/-- Embeds `MemoryLog::MemoryLog(unsigned size)`. -/
def MemoryLog.new (size : Nat) : MemoryLog := { size := size }

/-- Embeds `MemoryLog::isSymbolic`: the update lists exist. -/
def MemoryLog.isSymbolic (log : MemoryLog) : Bool := log.updates.isSome

/-- Embeds `std::vector::resize(n, v)`. -/
def vectorResize {α : Type} (xs : List α) (n : Nat) (v : α) : List α :=
  xs.take n ++ List.replicate (n - xs.length) v

/-- Backing array of one field of a symbolic log: the concrete column padded
with zeros up to `size`. -/
def MemoryLog.column (log : MemoryLog) (name : String) (width : Nat)
    (field : MemoryLogEntry → Nat) : Array :=
  let col := log.concreteEntries.map fun e => ConstantExpr.create (field e) width
  let col := if log.concreteEntries.length < log.size then
      vectorResize col log.size (ConstantExpr.create 0 width) else col
  { name := name, size := log.size, constantValues := col,
    domain := Expr.Int32, range := width }

/-- Embeds `MemoryLog::makeSymbolic`. -/
def MemoryLog.makeSymbolic (log : MemoryLog) : MemoryLog :=
  if log.isSymbolic then log
  else
    { log with updates := some {
          threadId := .mk (some (log.column "threadId_" Expr.Int32 fun e => e.threadId)) []
          wgid := .mk (some (log.column "wgid_" Expr.Int32 fun e => e.wgid)) []
          read := .mk (some (log.column "read_" Expr.BoolWidth fun e => e.read.toNat)) []
          write := .mk (some (log.column "write_" Expr.BoolWidth fun e => e.write.toNat)) []
          manyRead := .mk (some (log.column "manyRead_" Expr.BoolWidth
            fun e => e.manyRead.toNat)) []
          wgManyRead := .mk (some (log.column "wgManyRead_" Expr.BoolWidth
            fun e => e.wgManyRead.toNat)) [] } }

/-- The update lists of a log that is in symbolic form. -/
def MemoryLog.symUpdates (log : MemoryLog) : MemoryLogUpdates :=
  match log.updates with
  | some u => u
  | none => ⟨.mk none [], .mk none [], .mk none [], .mk none [], .mk none [], .mk none []⟩

/-- Embeds `MemoryLog::logRead` with an expression offset.  The result is the
returned flag, `raceInfo` and the log afterwards. -/
def MemoryLog.logReadExpr (log : MemoryLog) (state : Option ExecutionState)
    (solver : TimingSolver) (offset : Expr) (raceInfo : MemoryRace) :
    Bool × MemoryRace × MemoryLog :=
  match state with
  | none => (false, raceInfo, log)
  | some st =>
    let threadId := st.crtThread.getTid
    let wgid := st.crtThread.getWorkgroupId
    if threadId = 0 then (false, raceInfo, log)
    else
      let log := log.makeSymbolic
      let updates := log.symUpdates
      let oldWrite := ReadExpr.create updates.write offset
      let oldThreadId := ReadExpr.create updates.threadId offset
      let oldWgid := ReadExpr.create updates.wgid offset
      let threadIdConst := Expr.Constant (ConstantExpr.create threadId Expr.Int32)
      let wgidConst := Expr.Constant (ConstantExpr.create wgid Expr.Int32)
      let threadIdMismatch := NeExpr.create oldThreadId threadIdConst
      let wgidMismatch := NeExpr.create oldWgid wgidConst
      let query := AndExpr.create oldWrite (AndExpr.create threadIdMismatch wgidMismatch)
      if solver.mayBeTrue st query then
        (true, { raceType := RaceType.RT_readwrite, op1ThreadId := 1, op2ThreadId := 2 }, log)
      else
        let trueConst := Expr.Constant (ConstantExpr.create 1 Expr.BoolWidth)
        let oldRead := ReadExpr.create updates.read offset
        let oldManyRead := ReadExpr.create updates.manyRead offset
        let oldWgManyRead := ReadExpr.create updates.wgManyRead offset
        let threadIdNonZero :=
          NeExpr.create oldThreadId (Expr.Constant (ConstantExpr.create 0 Expr.Int32))
        let newManyRead :=
          SelectExpr.create
            (AndExpr.create oldRead (AndExpr.create threadIdNonZero threadIdMismatch))
            trueConst oldManyRead
        let newWgManyRead :=
          SelectExpr.create (AndExpr.create oldRead wgidMismatch) trueConst oldWgManyRead
        (false, raceInfo,
          { log with updates := some {
                updates with
                manyRead := updates.manyRead.extend offset newManyRead
                wgManyRead := updates.wgManyRead.extend offset newWgManyRead
                threadId := updates.threadId.extend offset threadIdConst
                wgid := updates.wgid.extend offset wgidConst
                read := updates.read.extend offset trueConst } })

/-- The entry vector after `if (size() < offset+1) resize(offset+1)`, with the
`unsigned` sum taken modulo `2 ^ 32`. -/
def MemoryLog.grow (entries : List MemoryLogEntry) (offset : Nat) : List MemoryLogEntry :=
  if entries.length < (offset + 1) % 2 ^ 32 then
    vectorResize entries ((offset + 1) % 2 ^ 32) {}
  else entries

/-- Embeds `MemoryLog::logRead` with a concrete offset. -/
def MemoryLog.logRead (log : MemoryLog) (state : Option ExecutionState)
    (solver : TimingSolver) (offset : Nat) (raceInfo : MemoryRace) :
    Bool × MemoryRace × MemoryLog :=
  match state with
  | none => (false, raceInfo, log)
  | some st =>
    let threadId := st.crtThread.getTid
    let wgid := st.crtThread.getWorkgroupId
    if threadId = 0 then (false, raceInfo, log)
    else if log.isSymbolic then
      log.logReadExpr state solver (.Constant (ConstantExpr.create offset Expr.Int32)) raceInfo
    else
      let entries := MemoryLog.grow log.concreteEntries offset
      let entry := entries.getD offset {}
      if entry.write && !entry.matches threadId wgid then
        (true,
          { raceType := RaceType.RT_readwrite, op1ThreadId := threadId,
            op2ThreadId := entry.threadId },
          { log with concreteEntries := entries })
      else
        let entry :=
          if entry.read then
            let entry :=
              if entry.threadId ≠ 0 ∧ entry.threadId ≠ threadId then
                { entry with manyRead := true } else entry
            if entry.wgid ≠ wgid then { entry with wgManyRead := true } else entry
          else entry
        let entry := { entry with threadId := threadId, wgid := wgid, read := true }
        (false, raceInfo, { log with concreteEntries := entries.set offset entry })

/-- Embeds `MemoryLog::logWrite` with an expression offset. -/
def MemoryLog.logWriteExpr (log : MemoryLog) (state : Option ExecutionState)
    (solver : TimingSolver) (offset : Expr) (raceInfo : MemoryRace) :
    Bool × MemoryRace × MemoryLog :=
  match state with
  | none => (false, raceInfo, log)
  | some st =>
    let threadId := st.crtThread.getTid
    let wgid := st.crtThread.getWorkgroupId
    if threadId = 0 then (false, raceInfo, log)
    else
      let log := log.makeSymbolic
      let updates := log.symUpdates
      let oldThreadId := ReadExpr.create updates.threadId offset
      let oldWgid := ReadExpr.create updates.wgid offset
      let oldRead := ReadExpr.create updates.read offset
      let oldWrite := ReadExpr.create updates.write offset
      let oldManyRead := ReadExpr.create updates.manyRead offset
      let oldWgManyRead := ReadExpr.create updates.wgManyRead offset
      let threadIdConst := Expr.Constant (ConstantExpr.create threadId Expr.Int32)
      let wgidConst := Expr.Constant (ConstantExpr.create wgid Expr.Int32)
      let threadIdMismatch := NeExpr.create oldThreadId threadIdConst
      let wgidMismatch := NeExpr.create oldWgid wgidConst
      let query :=
        OrExpr.create (OrExpr.create oldManyRead oldWgManyRead)
          (AndExpr.create (OrExpr.create oldRead oldWrite)
            (AndExpr.create threadIdMismatch wgidMismatch))
      if solver.mayBeTrue st query then
        (true, { raceType := RaceType.RT_writewrite, op1ThreadId := 1, op2ThreadId := 2 }, log)
      else
        let trueConst := Expr.Constant (ConstantExpr.create 1 Expr.BoolWidth)
        (false, raceInfo,
          { log with updates := some {
                updates with
                threadId := updates.threadId.extend offset threadIdConst
                wgid := updates.wgid.extend offset wgidConst
                write := updates.write.extend offset trueConst } })

/-- Embeds `MemoryLog::logWrite` with a concrete offset. -/
def MemoryLog.logWrite (log : MemoryLog) (state : Option ExecutionState)
    (solver : TimingSolver) (offset : Nat) (raceInfo : MemoryRace) :
    Bool × MemoryRace × MemoryLog :=
  match state with
  | none => (false, raceInfo, log)
  | some st =>
    let threadId := st.crtThread.getTid
    let wgid := st.crtThread.getWorkgroupId
    if threadId = 0 then (false, raceInfo, log)
    else if log.isSymbolic then
      log.logWriteExpr state solver (.Constant (ConstantExpr.create offset Expr.Int32)) raceInfo
    else
      let entries := MemoryLog.grow log.concreteEntries offset
      let entry := entries.getD offset {}
      if entry.manyRead || entry.wgManyRead ||
          ((entry.read || entry.write) && !entry.matches threadId wgid) then
        (true,
          { raceType := if entry.read then RaceType.RT_readwrite else RaceType.RT_writewrite,
            op1ThreadId := entry.threadId, op2ThreadId := threadId },
          { log with concreteEntries := entries })
      else
        let entry := { entry with threadId := threadId, wgid := wgid, write := true }
        (false, raceInfo, { log with concreteEntries := entries.set offset entry })

/-! ## Object states (Memory.cpp, ObjectState) -/

/-- Modelled from the spec: `BitArray` (klee/util/BitArray.h) is not among the
sources.  A "bitmask" with one bit per byte of the object; only bits below the
object size are ever accessed. -/
structure BitArray where
  bits : Nat → Bool

/-- The mask of `size` bits all equal to `value`. -/
def BitArray.new (_size : Nat) (value : Bool) : BitArray := { bits := fun _ => value }

/-- Embeds `BitArray::get`. -/
def BitArray.get (b : BitArray) (idx : Nat) : Bool := b.bits idx

/-- Embeds `BitArray::set`. -/
def BitArray.set (b : BitArray) (idx : Nat) : BitArray :=
  { bits := fun i => if i = idx then true else b.bits i }

/-- Embeds `BitArray::unset`. -/
def BitArray.unset (b : BitArray) (idx : Nat) : BitArray :=
  { bits := fun i => if i = idx then false else b.bits i }

/-- The byte store of one object.  `concreteStore` and `knownSymbolics` are
indexed by byte offset; a null mask or table is `none`. -/
structure ObjectState where
  copyOnWriteOwner : Nat := 0
  refCount : Nat := 0
  object : MemoryObject
  concreteStore : Nat → Nat
  concreteMask : Option BitArray := none
  flushMask : Option BitArray := none
  knownSymbolics : Option (Nat → Option Expr) := none
  updates : UpdateList := .mk none []
  memoryLog : MemoryLog
  size : Nat
  readOnly : Bool := false
  isShared : Bool := false

/-- Embeds `Context::get()`: the target's byte order. -/
structure Context where
  isLittleEndian : Bool

/-- Embeds `ObjectState::isByteConcrete`. -/
def ObjectState.isByteConcrete (os : ObjectState) (offset : Nat) : Bool :=
  match os.concreteMask with
  | none => true
  | some m => m.get offset

/-- Embeds `ObjectState::isByteFlushed`. -/
def ObjectState.isByteFlushed (os : ObjectState) (offset : Nat) : Bool :=
  match os.flushMask with
  | none => false
  | some m => !m.get offset

/-- Embeds `ObjectState::isByteKnownSymbolic`. -/
def ObjectState.isByteKnownSymbolic (os : ObjectState) (offset : Nat) : Bool :=
  match os.knownSymbolics with
  | none => false
  | some ks => (ks offset).isSome

/-- Embeds `ObjectState::markByteConcrete`. -/
def ObjectState.markByteConcrete (os : ObjectState) (offset : Nat) : ObjectState :=
  match os.concreteMask with
  | none => os
  | some m => { os with concreteMask := some (m.set offset) }

/-- Embeds `ObjectState::markByteSymbolic`. -/
def ObjectState.markByteSymbolic (os : ObjectState) (offset : Nat) : ObjectState :=
  match os.concreteMask with
  | none => { os with concreteMask := some ((BitArray.new os.size true).unset offset) }
  | some m => { os with concreteMask := some (m.unset offset) }

/-- Embeds `ObjectState::markByteUnflushed`. -/
def ObjectState.markByteUnflushed (os : ObjectState) (offset : Nat) : ObjectState :=
  match os.flushMask with
  | none => os
  | some m => { os with flushMask := some (m.set offset) }

/-- Embeds `ObjectState::markByteFlushed`. -/
def ObjectState.markByteFlushed (os : ObjectState) (offset : Nat) : ObjectState :=
  match os.flushMask with
  | none => { os with flushMask := some (BitArray.new os.size false) }
  | some m => { os with flushMask := some (m.unset offset) }

/-- Embeds `ObjectState::setKnownSymbolic`; `value` may be null. -/
def ObjectState.setKnownSymbolic (os : ObjectState) (offset : Nat) (value : Option Expr) :
    ObjectState :=
  match os.knownSymbolics with
  | some ks =>
    { os with knownSymbolics := some fun i => if i = offset then value else ks i }
  | none =>
    match value with
    | some v =>
      { os with knownSymbolics := some fun i => if i = offset then some v else none }
    | none => os

/-- Embeds `ObjectState::makeConcrete`. -/
def ObjectState.makeConcrete (os : ObjectState) : ObjectState :=
  { os with concreteMask := none, flushMask := none, knownSymbolics := none }

/-- Embeds `ObjectState::makeSymbolic`; fails on an object that has updates. -/
def ObjectState.makeSymbolic (os : ObjectState) : Option ObjectState :=
  if os.updates.head.isEmpty then
    some ((List.range os.size).foldl
      (fun os i => ((os.markByteSymbolic i).setKnownSymbolic i none).markByteFlushed i) os)
  else none

/-- Embeds `ObjectState::initializeToZero`. -/
def ObjectState.initializeToZero (os : ObjectState) : ObjectState :=
  { os.makeConcrete with
    concreteStore := fun i => if i < os.size then 0 else os.concreteStore i }

/-- Embeds `ObjectState::initializeToRandom`. -/
def ObjectState.initializeToRandom (os : ObjectState) : ObjectState :=
  { os.makeConcrete with
    concreteStore := fun i => if i < os.size then 0xAB else os.concreteStore i }

/-- Embeds `ObjectState::ObjectState(const MemoryObject *mo)`.  `garbage` is
the content of the freshly allocated, uninitialised byte buffer. -/
def ObjectState.new (UseConstantArrays : Bool) (mo : MemoryObject) (garbage : Nat → Nat) :
    ObjectState :=
  { object := mo
    concreteStore := garbage
    updates :=
      if UseConstantArrays then .mk none []
      else .mk (some { name := "tmp_arr", size := mo.size }) []
    memoryLog := MemoryLog.new mo.size
    size := mo.size }

/-- Embeds `ObjectState::ObjectState(const MemoryObject *mo, const Array *array)`. -/
def ObjectState.newSymbolic (mo : MemoryObject) (array : Array) (garbage : Nat → Nat) :
    Option ObjectState :=
  ObjectState.makeSymbolic
    { object := mo
      concreteStore := garbage
      updates := .mk (some array) []
      memoryLog := MemoryLog.new mo.size
      size := mo.size }

/-- Embeds `ObjectState::ObjectState(const ObjectState &os)`; fails on a
read-only source.  `garbage` is the uninitialised part of the new buffer. -/
def ObjectState.copy (os : ObjectState) (garbage : Nat → Nat) : Option ObjectState :=
  if os.readOnly then none
  else some
    { copyOnWriteOwner := 0
      refCount := 0
      object := os.object
      concreteStore := fun i => if i < os.size then os.concreteStore i else garbage i
      concreteMask := os.concreteMask
      flushMask := os.flushMask
      knownSymbolics := os.knownSymbolics.map fun ks i => if i < os.size then ks i else none
      updates := os.updates
      memoryLog := os.memoryLog
      size := os.size
      readOnly := false
      isShared := os.isShared }

/-- The loop of `getUpdates` that moves the leading writes with a constant
index and a constant value (oldest first) into the contents of the backing
array; the result is the contents and the writes left over. -/
def pullConcreteWrites : List ConstantExpr → List UpdateNode →
    List ConstantExpr × List UpdateNode
  | Contents, [] => (Contents, [])
  | Contents, w :: ws =>
    match w.index.asConstant with
    | none => (Contents, w :: ws)
    | some Index =>
      match w.value.asConstant with
      | none => (Contents, w :: ws)
      | some Value => pullConcreteWrites (Contents.set Index.getZExtValue Value) ws

/-- Embeds `ObjectState::getUpdates`: the update list, built on first use, and
the object after the (mutable) update. -/
def ObjectState.getUpdates (os : ObjectState) : UpdateList × ObjectState :=
  match os.updates.root with
  | some _ => (os.updates, os)
  | none =>
    let Writes := os.updates.head.reverse
    let Contents := List.replicate os.size (ConstantExpr.create 0 Expr.Int8)
    let pulled := pullConcreteWrites Contents Writes
    let array : Array := { name := "const_arr", size := os.size, constantValues := pulled.1 }
    let updates := pulled.2.foldl (fun ul w => ul.extend w.index w.value) (.mk (some array) [])
    (updates, { os with updates := updates })

/-- Embeds `ObjectState::fastRangeCheckOffset`: the pair (base, size). -/
def ObjectState.fastRangeCheckOffset (os : ObjectState) (_offset : Expr) : Nat × Nat :=
  (0, os.size)

/-- One iteration of the loop of `flushRangeForRead`. -/
def ObjectState.flushByteForRead (os : ObjectState) (offset : Nat) : Option ObjectState :=
  if !os.isByteFlushed offset then
    let index := Expr.Constant (ConstantExpr.create offset Expr.Int32)
    let flushed := os.flushMask.map fun m => m.unset offset
    if os.isByteConcrete offset then
      some { os with
        updates := os.updates.extend index
          (.Constant (ConstantExpr.create (os.concreteStore offset) Expr.Int8))
        flushMask := flushed }
    else
      match os.knownSymbolics.bind fun ks => ks offset with
      | some v => some { os with updates := os.updates.extend index v, flushMask := flushed }
      | none => none
  else some os

/-- Embeds `ObjectState::flushRangeForRead`; fails when an unflushed byte has
no cached value. -/
def ObjectState.flushRangeForRead (os : ObjectState) (rangeBase rangeSize : Nat) :
    Option ObjectState :=
  let os := match os.flushMask with
    | none => { os with flushMask := some (BitArray.new os.size true) }
    | some _ => os
  (List.range' rangeBase rangeSize).foldlM (fun os offset => os.flushByteForRead offset) os

/-- One iteration of the loop of `flushRangeForWrite`. -/
def ObjectState.flushByteForWrite (os : ObjectState) (offset : Nat) : Option ObjectState :=
  if !os.isByteFlushed offset then
    let index := Expr.Constant (ConstantExpr.create offset Expr.Int32)
    if os.isByteConcrete offset then
      let os := { os with
        updates := os.updates.extend index
          (.Constant (ConstantExpr.create (os.concreteStore offset) Expr.Int8)) }
      let os := os.markByteSymbolic offset
      some { os with flushMask := os.flushMask.map fun m => m.unset offset }
    else
      match os.knownSymbolics.bind fun ks => ks offset with
      | some v =>
        let os := { os with updates := os.updates.extend index v }
        let os := os.setKnownSymbolic offset none
        some { os with flushMask := os.flushMask.map fun m => m.unset offset }
      | none => none
  else if os.isByteConcrete offset then some (os.markByteSymbolic offset)
  else if os.isByteKnownSymbolic offset then some (os.setKnownSymbolic offset none)
  else some os

/-- Embeds `ObjectState::flushRangeForWrite`; fails when an unflushed byte has
no cached value. -/
def ObjectState.flushRangeForWrite (os : ObjectState) (rangeBase rangeSize : Nat) :
    Option ObjectState :=
  let os := match os.flushMask with
    | none => { os with flushMask := some (BitArray.new os.size true) }
    | some _ => os
  (List.range' rangeBase rangeSize).foldlM (fun os offset => os.flushByteForWrite offset) os

/-- Embeds `ObjectState::read8` with a concrete offset: the byte read and the
object afterwards (the access log and the lazily built update list are
mutable).  The race diagnostic printed on a flagged access is not modelled.
Fails when the byte is neither cached nor flushed. -/
def ObjectState.read8 (os : ObjectState) (offset : Nat) (state : Option ExecutionState)
    (solver : TimingSolver) : Option (Expr × ObjectState) :=
  let os := { os with memoryLog := (os.memoryLog.logRead state solver offset {}).2.2 }
  if os.isByteConcrete offset then
    some (.Constant (ConstantExpr.create (os.concreteStore offset) Expr.Int8), os)
  else
    match os.knownSymbolics.bind fun ks => ks offset with
    | some v => some (v, os)
    | none =>
      if os.isByteFlushed offset then
        let r := os.getUpdates
        some (ReadExpr.create r.1 (.Constant (ConstantExpr.create offset Expr.Int32)), r.2)
      else none

/-- Embeds `ObjectState::read8` with an expression offset; fails on a constant
offset. -/
def ObjectState.read8Expr (os : ObjectState) (offset : Expr) (state : Option ExecutionState)
    (solver : TimingSolver) : Option (Expr × ObjectState) :=
  if offset.isConstant then none
  else
    let range := os.fastRangeCheckOffset offset
    match os.flushRangeForRead range.1 range.2 with
    | none => none
    | some os =>
      let os := { os with memoryLog := (os.memoryLog.logReadExpr state solver offset {}).2.2 }
      let r := os.getUpdates
      some (ReadExpr.create r.1 (ZExtExpr.create offset Expr.Int32), r.2)

/-- Embeds `ObjectState::write8(unsigned, uint8_t)`; `value` is cast to a byte. -/
def ObjectState.write8 (os : ObjectState) (offset : Nat) (value : Nat)
    (state : Option ExecutionState) (solver : TimingSolver) : ObjectState :=
  let os := { os with memoryLog := (os.memoryLog.logWrite state solver offset {}).2.2 }
  let os := { os with
    concreteStore := fun i => if i = offset then value % 256 else os.concreteStore i }
  let os := os.setKnownSymbolic offset none
  let os := os.markByteConcrete offset
  os.markByteUnflushed offset

/-- Embeds `ObjectState::write8(unsigned, ref<Expr>)`. -/
def ObjectState.write8Value (os : ObjectState) (offset : Nat) (value : Expr)
    (state : Option ExecutionState) (solver : TimingSolver) : ObjectState :=
  match value.asConstant with
  | some CE => os.write8 offset CE.getZExtValue state solver
  | none =>
    let os := { os with memoryLog := (os.memoryLog.logWrite state solver offset {}).2.2 }
    let os := os.setKnownSymbolic offset (some value)
    let os := os.markByteSymbolic offset
    os.markByteUnflushed offset

/-- Embeds `ObjectState::write8(ref<Expr>, ref<Expr>)`; fails on a constant
offset. -/
def ObjectState.write8Expr (os : ObjectState) (offset : Expr) (value : Expr)
    (state : Option ExecutionState) (solver : TimingSolver) : Option ObjectState :=
  if offset.isConstant then none
  else
    let range := os.fastRangeCheckOffset offset
    match os.flushRangeForWrite range.1 range.2 with
    | none => none
    | some os =>
      let os := { os with memoryLog := (os.memoryLog.logWriteExpr state solver offset {}).2.2 }
      some { os with updates := os.updates.extend (ZExtExpr.create offset Expr.Int32) value }

/-- Byte position of step `i` of a `NumBytes`-byte access. -/
def Context.byteIndex (ctx : Context) (NumBytes i : Nat) : Nat :=
  if ctx.isLittleEndian then i else NumBytes - i - 1

/-- The loop of `ObjectState::read(unsigned, Width)` over the steps in `steps`:
`Res` is the value assembled so far (null before the first step). -/
def ObjectState.readBytes (ctx : Context) (offset NumBytes : Nat)
    (state : Option ExecutionState) (solver : TimingSolver) :
    List Nat → Option Expr × ObjectState → Option (Option Expr × ObjectState)
  | [], acc => some acc
  | i :: steps, (Res, os) =>
    match os.read8 ((offset + ctx.byteIndex NumBytes i) % 2 ^ 32) state solver with
    | none => none
    | some (Byte, os) =>
      match i, Res with
      | 0, _ => ObjectState.readBytes ctx offset NumBytes state solver steps (some Byte, os)
      | _ + 1, some r =>
        ObjectState.readBytes ctx offset NumBytes state solver steps
          (some (ConcatExpr.create Byte r), os)
      | _ + 1, none => none

/-- Embeds `ObjectState::read(unsigned, Expr::Width)`.  Fails on a width that
is not a whole number of bytes, when a byte read fails, and on width 0 (the
source returns a null reference). -/
def ObjectState.read (os : ObjectState) (ctx : Context) (offset : Nat) (width : Nat)
    (state : Option ExecutionState) (solver : TimingSolver) : Option (Expr × ObjectState) :=
  if width = Expr.BoolWidth then
    match os.read8 offset state solver with
    | none => none
    | some (e, os) => some (ExtractExpr.create e 0 Expr.BoolWidth, os)
  else
    let NumBytes := width / 8
    if width = NumBytes * 8 then
      match ObjectState.readBytes ctx offset NumBytes state solver (List.range NumBytes)
          (none, os) with
      | some (some Res, os) => some (Res, os)
      | _ => none
    else none

/-- The common loop of `write16`, `write32` and `write64`: byte `i` of `value`
goes to position `byteIndex i`. -/
def ObjectState.writeBytes (os : ObjectState) (ctx : Context) (offset NumBytes value : Nat)
    (state : Option ExecutionState) (solver : TimingSolver) : ObjectState :=
  (List.range NumBytes).foldl
    (fun os i =>
      os.write8 ((offset + ctx.byteIndex NumBytes i) % 2 ^ 32) (value / 2 ^ (8 * i)) state solver)
    os

/-- Embeds `ObjectState::write16`. -/
def ObjectState.write16 (os : ObjectState) (ctx : Context) (offset value : Nat)
    (state : Option ExecutionState) (solver : TimingSolver) : ObjectState :=
  os.writeBytes ctx offset 2 (value % 2 ^ 16) state solver

/-- Embeds `ObjectState::write32`. -/
def ObjectState.write32 (os : ObjectState) (ctx : Context) (offset value : Nat)
    (state : Option ExecutionState) (solver : TimingSolver) : ObjectState :=
  os.writeBytes ctx offset 4 (value % 2 ^ 32) state solver

/-- Embeds `ObjectState::write64`. -/
def ObjectState.write64 (os : ObjectState) (ctx : Context) (offset value : Nat)
    (state : Option ExecutionState) (solver : TimingSolver) : ObjectState :=
  os.writeBytes ctx offset 8 (value % 2 ^ 64) state solver

/-- Embeds `ObjectState::write(unsigned, ref<Expr>)`.  Fails on a constant of
at most 64 bits whose width is none of 1, 8, 16, 32, 64 and on a non-constant
width that is not a whole number of bytes. -/
def ObjectState.write (os : ObjectState) (ctx : Context) (offset : Nat) (value : Expr)
    (state : Option ExecutionState) (solver : TimingSolver) : Option ObjectState :=
  let slow : Option ObjectState :=
    let w := value.getWidth
    if w = Expr.BoolWidth then
      some (os.write8Value offset (ZExtExpr.create value Expr.Int8) state solver)
    else
      let NumBytes := w / 8
      if w = NumBytes * 8 then
        some ((List.range NumBytes).foldl
          (fun os i =>
            os.write8Value ((offset + ctx.byteIndex NumBytes i) % 2 ^ 32)
              (ExtractExpr.create value (8 * i) Expr.Int8) state solver)
          os)
      else none
  match value.asConstant with
  | some CE =>
    let w := CE.width
    if w ≤ 64 then
      let val := CE.getZExtValue
      if w = Expr.BoolWidth ∨ w = Expr.Int8 then some (os.write8 offset val state solver)
      else if w = Expr.Int16 then some (os.write16 ctx offset val state solver)
      else if w = Expr.Int32 then some (os.write32 ctx offset val state solver)
      else if w = Expr.Int64 then some (os.write64 ctx offset val state solver)
      else none
    else slow
  | none => slow

/-! ## The executor: constraints, termination and forking (Executor.cpp) -/

/-- Address of an execution state on the heap. -/
abbrev StateId := Nat

/-- Fork classes of `klee.h`, the values a fork `reason` takes. -/
inductive ForkClass where
  | KLEE_FORK_DEFAULT
  | KLEE_FORK_FAULTINJ
  | KLEE_FORK_SCHEDULE
  | KLEE_FORK_INTERNAL
  | KLEE_FORK_MULTI
  deriving DecidableEq

/-- The tag attached to a fork in the process tree. -/
structure ForkTag where
  forkClass : ForkClass
  location : Option Nat := none
  fiVulnerable : Bool := false
  deriving DecidableEq

/-- Modelled from the spec: `KTestObject` (KTest.h) is not among the sources.
One of the "named byte-buffers" of a seed or replay input, "identified by a
name and byte length". -/
structure KTestObject where
  name : String := ""
  numBytes : Nat := 0
  bytes : List Nat := []
  deriving DecidableEq

/-- Modelled from the spec: `SeedInfo` (SeedInfo.h) is not among the sources.
A seed is "a concrete input assignment"; `patches` lists the constraints the
seed has been patched for, and `bindings` is `assignment.bindings`, the bytes
bound to each array, in the order the entries were created. -/
structure SeedInfo where
  assignment : Nat
  patches : List Expr := []
  bindings : List (Array × List Nat) := []

/-- Modelled from the spec: `SeedInfo::patchSeed` (SeedInfo.cpp) is not among
the sources; the seed records the constraint it was patched for. -/
def SeedInfo.patchSeed (seed : SeedInfo) (condition : Expr) : SeedInfo :=
  { seed with patches := seed.patches ++ [condition] }

/-- Modelled from the spec: `PTree` (PTree.cpp) is not among the sources.  The
"binary tree of fork decisions" is kept as the trace of the operations applied
to it. -/
inductive PTreeEvent where
  | clearData (node : Nat)
  | split (node : Nat) (leftData rightData : StateId) (tag : ForkTag) (left right : Nat)
  | remove (node : Nat)

/-- The process tree: the number of nodes created and the operations so far. -/
structure PTree where
  nodes : Nat := 1
  events : List PTreeEvent := []

/-- Modelled from the spec: `PTree::split` is not among the sources.  The node
gets two fresh children, the first for `leftData` and the second for
`rightData`, and "records the fork's classification". -/
def PTree.split (t : PTree) (node : Nat) (leftData rightData : StateId) (tag : ForkTag) :
    (Nat × Nat) × PTree :=
  ((t.nodes, t.nodes + 1),
    { nodes := t.nodes + 2
      events := t.events ++ [.split node leftData rightData tag t.nodes (t.nodes + 1)] })

/-- Modelled from the spec: the pseudo-random generator `theRNG` (RNG.cpp) is
not among the sources; it is an arbitrary stream of draws and a position. -/
structure RNG where
  draws : Nat → Nat
  pos : Nat := 0

/-- Embeds `RNG::getInt32`: the next draw, as a 32-bit value. -/
def RNG.getInt32 (r : RNG) : Nat × RNG := (r.draws r.pos % 2 ^ 32, { r with pos := r.pos + 1 })

/-- Embeds `RNG::getBool`: the next draw, as one bit. -/
def RNG.getBool (r : RNG) : Bool × RNG := (r.draws r.pos % 2 == 1, { r with pos := r.pos + 1 })

/-- The command-line options read by the functions embedded here, with their
defaults.  The percentage budgets are `double` in the source and rational
here. -/
structure Options where
  RandomizeFork : Bool := false
  OnlyOutputStatesCoveringNew : Bool := false
  AlwaysOutputSeeds : Bool := true
  OnlyReplaySeeds : Bool := false
  MaxStaticForkPct : ℚ := 1
  MaxStaticSolvePct : ℚ := 1
  MaxStaticCPForkPct : ℚ := 1
  MaxStaticCPSolvePct : ℚ := 1
  MaxForks : Nat := 2 ^ 32 - 1
  MaxDepth : Nat := 0
  MaxMemoryInhibit : Bool := true
  EmitAllErrors : Bool := false
  MaxPreemptions : Nat := 0
  ForkOnSchedule : Bool := false
  AllowSeedExtension : Bool := false
  ZeroSeedExtension : Bool := false
  AllowSeedTruncation : Bool := false
  NamedSeedMatching : Bool := false

/-- The statistics read by the static budgets of `fork`: the fork count and
solver time charged to the current instruction, the total solver time, and
the same two counters of the call path node of a state (none when the node is
null). -/
structure Statistics where
  forks : Nat := 0
  forksAtIndex : ℚ := 0
  solverTime : ℚ := 0
  solverTimeAtIndex : ℚ := 0
  callPath : StateId → Option (ℚ × ℚ) := fun _ => none

/-- A test case handed to `interpreterHandler->processTestCase`. -/
structure TestCase where
  state : StateId
  message : Option String
  suffix : Option String
  deriving DecidableEq

/-- The executor.  `heap` holds the execution states by address (a deleted
state is `none`); `seedMap` has no entry where it is `none`.  `emittedErrors`
is the static set of `terminateStateOnError`; `instructionInfo` gives the file
and line of an instruction, and `stackDump` is the text that the stack trace
of a thread is dumped as (`StackTrace::dump` is not among the sources).
`replayObjects` are the objects of `replayOut`; `getNextInput` is
`SeedInfo::getNextInput` (SeedInfo.cpp, not among the sources): the next input
object of a seed, if any, and the seed with its cursor moved. -/
structure Executor where
  opts : Options := {}
  solver : TimingSolver
  seedEvaluate : SeedInfo → Expr → Expr
  heap : List (Option ExecutionState) := []
  states : List StateId := []
  addedStates : List StateId := []
  removedStates : List StateId := []
  seedMap : StateId → Option (List SeedInfo) := fun _ => none
  stats : Statistics := {}
  elapsed : ℚ := 0
  atMemoryLimit : Bool := false
  inhibitForking : Bool := false
  replayOut : Bool := false
  replayPath : Option (List Bool) := none
  replayPosition : Nat := 0
  theRNG : RNG
  pathWriter : Bool := false
  symPathWriter : Bool := false
  processTree : PTree := {}
  testCases : List TestCase := []
  pathsExplored : Nat := 0
  emittedErrors : List (Nat × String) := []
  instructionInfo : Nat → String × Nat := fun _ => ("", 0)
  stackDump : Thread → String := fun _ => ""
  replayObjects : List KTestObject := []
  getNextInput : SeedInfo → MemoryObject → Bool → Option KTestObject × SeedInfo :=
    fun si _ _ => (none, si)

/-- The state at an address (the default state at a dangling address). -/
def Executor.getState (ex : Executor) (id : StateId) : ExecutionState :=
  (ex.heap.getD id none).getD {}

/-- Whether an address holds a state. -/
def Executor.isAllocated (ex : Executor) (id : StateId) : Bool :=
  (ex.heap.getD id none).isSome

/-- Overwrite the state at an address. -/
def Executor.setState (ex : Executor) (id : StateId) (s : ExecutionState) : Executor :=
  { ex with heap := ex.heap.set id (some s) }

/-- Embeds `new ExecutionState`: the state is put at a fresh address. -/
def Executor.newState (ex : Executor) (s : ExecutionState) : StateId × Executor :=
  (ex.heap.length, { ex with heap := ex.heap ++ [some s] })

/-- Embeds `delete &state`. -/
def Executor.deleteState (ex : Executor) (id : StateId) : Executor :=
  { ex with heap := ex.heap.set id none }

/-- Embeds `std::set::insert` on a set of addresses. -/
def setInsert (xs : List StateId) (x : StateId) : List StateId :=
  if x ∈ xs then xs else xs ++ [x]

/-- Update of a `std::map` at one key. -/
def mapSet {α : Type} (m : StateId → Option α) (k : StateId) (v : Option α) :
    StateId → Option α :=
  fun i => if i = k then v else m i

/-- Modelled from the spec: `ExecutionState::addConstraint` and the constraint
manager behind it are not among the sources; a fork "adds the branch's
constraint" to the path, so the constraint goes to the end of the set. -/
def ExecutionState.addConstraint (s : ExecutionState) (e : Expr) : ExecutionState :=
  { s with constraints := s.constraints ++ [e] }

/-- Modelled from the spec: `ExecutionState::branch` (ExecutionState.cpp) is
not among the sources; a fork does "clone the state".  The result is the state
itself after the call and its clone. -/
def ExecutionState.branch (s : ExecutionState) : ExecutionState × ExecutionState := (s, s)

/-- Embeds `Executor::getForkTag`. -/
def Executor.getForkTag (current : ExecutionState) (reason : ForkClass) : ForkTag :=
  if current.crtThreadIt = current.threads.length then { forkClass := reason }
  else
    { forkClass := reason
      location := current.stack.getLast?.map fun f => f.kf
      fiVulnerable :=
        if reason = ForkClass.KLEE_FORK_FAULTINJ then
          current.stack.any fun f =>
            match f.caller with
            | none => false
            | some callInst => callInst.vulnerable
        else false }

/-- Embeds `Executor::addConstraint`; fails on a constant that is not true.
Implied value concretization only writes to the state's memory, which is
outside this embedding. -/
def Executor.addConstraint (ex : Executor) (state : StateId) (condition : Expr) :
    Option Executor :=
  match condition.asConstant with
  | some CE => if CE.isTrue then some ex else none
  | none =>
    let st := ex.getState state
    let seedMap :=
      match ex.seedMap state with
      | none => ex.seedMap
      | some seeds =>
        mapSet ex.seedMap state (some (seeds.map fun seed =>
          if ex.solver.mustBeFalse st (ex.seedEvaluate seed condition) then
            seed.patchSeed condition
          else seed))
    some ({ ex with seedMap := seedMap }.setState state (st.addConstraint condition))

/-- Embeds `Executor::terminateState`. -/
def Executor.terminateState (ex : Executor) (state : StateId) : Executor :=
  let ex := { ex with pathsExplored := ex.pathsExplored + 1 }
  if state ∈ ex.addedStates then
    let node := (ex.getState state).ptreeNode
    let ex := { ex with
      seedMap := mapSet ex.seedMap state none
      addedStates := ex.addedStates.erase state
      processTree := { ex.processTree with
        events := ex.processTree.events ++ [PTreeEvent.remove node] } }
    ex.deleteState state
  else
    let st := ex.getState state
    let ex := ex.setState state (st.setCrtThread { st.crtThread with pc := st.crtThread.prevPC })
    { ex with removedStates := setInsert ex.removedStates state }

/-- Embeds `Executor::terminateStateEarly`. -/
def Executor.terminateStateEarly (ex : Executor) (state : StateId) (message : String) :
    Executor :=
  let ex :=
    if !ex.opts.OnlyOutputStatesCoveringNew || (ex.getState state).coveredNew ||
        (ex.opts.AlwaysOutputSeeds && (ex.seedMap state).isSome) then
      { ex with testCases := ex.testCases ++
          [{ state := state, message := some (message ++ "\n"), suffix := some "early" }] }
    else ex
  ex.terminateState state

/-- The pair of states returned by a fork; a null pointer is `none`. -/
abbrev StatePair := Option StateId × Option StateId

/-- The inner test of the static budgets of `fork`, with the operands laid out
as in the source (the last disjunct tests `MaxStaticCPForkPct` and multiplies
by `MaxStaticCPSolvePct`). -/
def Executor.staticBudgetExceeded (ex : Executor) (current : StateId) : Bool :=
  let o := ex.opts
  let forks : ℚ := ex.stats.forks
  let cpn := ex.stats.callPath current
  (decide (o.MaxStaticForkPct < 1) &&
      decide (ex.stats.forksAtIndex > forks * o.MaxStaticForkPct)) ||
    (decide (o.MaxStaticCPForkPct < 1) &&
      (match cpn with
        | some c => decide (c.1 > forks * o.MaxStaticCPForkPct)
        | none => false)) ||
    (decide (o.MaxStaticSolvePct < 1) &&
      decide (ex.stats.solverTimeAtIndex > ex.stats.solverTime * o.MaxStaticSolvePct)) ||
    (decide (o.MaxStaticCPForkPct < 1) &&
      (match cpn with
        | some c => decide (c.2 > ex.stats.solverTime * o.MaxStaticCPSolvePct)
        | none => false))

/-- Whether some static budget differs from its default of 1. -/
def Options.staticBudgetsSet (o : Options) : Bool :=
  decide (o.MaxStaticForkPct ≠ 1) || decide (o.MaxStaticSolvePct ≠ 1) ||
    decide (o.MaxStaticCPForkPct ≠ 1) || decide (o.MaxStaticCPSolvePct ≠ 1)

/-- First step of `fork` (lines 946-971): under an exceeded static budget the
condition is replaced by the value the solver gives it. -/
def Executor.forkStatic (ex : Executor) (current : StateId) (condition : Expr)
    (isSeeding : Bool) : Option (Expr × Executor) :=
  if !isSeeding && !condition.isConstant && ex.opts.staticBudgetsSet &&
      decide (ex.elapsed > 60) then
    if ex.staticBudgetExceeded current then
      let value := ex.solver.getValue (ex.getState current) condition
      match ex.addConstraint current (EqExpr.create (.Constant value) condition) with
      | none => none
      | some ex => some (.Constant value, ex)
    else some (condition, ex)
  else some (condition, ex)

/-- Whether a cap forbids branching (line 1008). -/
def Executor.forkCapped (ex : Executor) (current : StateId) : Bool :=
  (ex.opts.MaxMemoryInhibit && ex.atMemoryLimit) ||
    (ex.getState current).forkDisabled ||
    ex.inhibitForking ||
    (decide (ex.opts.MaxForks ≠ 2 ^ 32 - 1) && decide (ex.stats.forks ≥ ex.opts.MaxForks))

/-- Third step of `fork` (lines 985-1032): replay of a recorded path and the
caps, for a state without seeds. -/
def Executor.forkPolicy (ex : Executor) (current : StateId) (condition : Expr)
    (isInternal : Bool) (isSeeding : Bool) (res : Validity) : Option (Validity × Executor) :=
  if isSeeding then some (res, ex)
  else
    match ex.replayPath, isInternal with
    | some path, false =>
      if ex.replayPosition < path.length then
        let branch := path.getD ex.replayPosition false
        let ex := { ex with replayPosition := ex.replayPosition + 1 }
        match res with
        | Validity.True => if branch then some (res, ex) else none
        | Validity.False => if !branch then some (res, ex) else none
        | Validity.Unknown =>
          if branch then
            (ex.addConstraint current condition).map fun ex => (Validity.True, ex)
          else
            (ex.addConstraint current condition.createIsZero).map fun ex => (Validity.False, ex)
      else none
    | _, _ =>
      if res = Validity.Unknown then
        if ex.replayOut then none
        else if ex.forkCapped current then
          let draw := ex.theRNG.getBool
          let ex := { ex with theRNG := draw.2 }
          if draw.1 then
            (ex.addConstraint current condition).map fun ex => (Validity.True, ex)
          else
            (ex.addConstraint current condition.createIsZero).map fun ex => (Validity.False, ex)
        else some (res, ex)
      else some (res, ex)

/-- The loop of lines 1041-1055: which sides have a seed, stopping as soon as
both have one.  The accumulator is (trueSeed, falseSeed). -/
def Executor.seedSides (ex : Executor) (cur : ExecutionState) (condition : Expr) :
    List SeedInfo → Bool × Bool → Bool × Bool
  | [], acc => acc
  | seed :: rest, acc =>
    let acc : Bool × Bool :=
      if (ex.solver.getValue cur (ex.seedEvaluate seed condition)).isTrue then (true, acc.2)
      else (acc.1, true)
    if acc.1 && acc.2 then acc else Executor.seedSides ex cur condition rest acc

/-- Fourth step of `fork` (lines 1036-1062): with seeds and a disabled fork or
only-replay-seeds, the branch is fixed when the seeds agree on a side. -/
def Executor.forkSeedFix (ex : Executor) (current : StateId) (condition : Expr)
    (isSeeding : Bool) (res : Validity) : Option (Validity × Executor) :=
  if isSeeding && ((ex.getState current).forkDisabled || ex.opts.OnlyReplaySeeds) &&
      decide (res = Validity.Unknown) then
    let sides := ex.seedSides (ex.getState current) condition
      ((ex.seedMap current).getD []) (false, false)
    if !(sides.1 && sides.2) then
      if sides.1 || sides.2 then
        (ex.addConstraint current (if sides.1 then condition else condition.createIsZero)).map
          fun ex => (if sides.1 then Validity.True else Validity.False, ex)
      else none
    else some (res, ex)
  else some (res, ex)

/-- Lines 1100-1132 of `fork`: the seeds of the forked state are split between
the two sides by the value of the condition under each seed. -/
def Executor.forkSeeds (ex : Executor) (current trueState falseState : StateId)
    (condition : Expr) : Executor :=
  match ex.seedMap current with
  | none => ex
  | some seeds =>
    let cur := ex.getState current
    let isTrueSeed := fun seed : SeedInfo =>
      (ex.solver.getValue cur (ex.seedEvaluate seed condition)).isTrue
    let trueSeeds := seeds.filter isTrueSeed
    let falseSeeds := seeds.filter fun seed => !isTrueSeed seed
    let seedMap := mapSet ex.seedMap current (some [])
    let seedMap := mapSet seedMap trueState (some trueSeeds)
    let seedMap := mapSet seedMap falseState (some falseSeeds)
    let seedMap := if trueSeeds.isEmpty then mapSet seedMap trueState none else seedMap
    let seedMap := if falseSeeds.isEmpty then mapSet seedMap falseState none else seedMap
    let swapInfo :=
      (trueSeeds.isEmpty && decide (current = trueState)) ||
        (falseSeeds.isEmpty && decide (current = falseState))
    let ex := { ex with seedMap := seedMap }
    if swapInfo then
      let ts := ex.getState trueState
      let fs := ex.getState falseState
      let ex := ex.setState trueState
        { ts with coveredNew := fs.coveredNew, coveredLines := fs.coveredLines }
      ex.setState falseState
        { fs with coveredNew := ts.coveredNew, coveredLines := ts.coveredLines }
    else ex

/-- Lines 1140-1151 of `fork`: the path streams of the two sides. -/
def Executor.forkPaths (ex : Executor) (current trueState falseState : StateId) : Executor :=
  let ex :=
    if ex.pathWriter then
      let ex := ex.setState falseState
        { ex.getState falseState with pathOS := (ex.getState current).pathOS }
      let ex := ex.setState trueState
        { ex.getState trueState with pathOS := (ex.getState trueState).pathOS ++ [true] }
      ex.setState falseState
        { ex.getState falseState with pathOS := (ex.getState falseState).pathOS ++ [false] }
    else ex
  if ex.symPathWriter then
    let ex := ex.setState falseState
      { ex.getState falseState with symPathOS := (ex.getState current).symPathOS }
    let ex := ex.setState trueState
      { ex.getState trueState with symPathOS := (ex.getState trueState).symPathOS ++ [true] }
    ex.setState falseState
      { ex.getState falseState with symPathOS := (ex.getState falseState).symPathOS ++ [false] }
  else ex

/-- Lines 1089-1098 of `fork`: the fork is counted, the current state is
branched, the new state is registered as added, and randomize-fork may swap
the two sides.  The result is (trueState, falseState) and the executor. -/
def Executor.forkBranch (ex : Executor) (current : StateId) :
    (StateId × StateId) × Executor :=
  let ex := { ex with stats := { ex.stats with forks := ex.stats.forks + 1 } }
  let br := (ex.getState current).branch
  let ex := ex.setState current br.1
  let alloc := ex.newState br.2
  let ex := { alloc.2 with addedStates := setInsert alloc.2.addedStates alloc.1 }
  let draw := if ex.opts.RandomizeFork then ex.theRNG.getBool else (false, ex.theRNG)
  let ex := { ex with theRNG := draw.2 }
  ((if draw.1 then alloc.1 else current, if draw.1 then current else alloc.1), ex)

/-- Lines 1134-1151 of `fork`: the node of the current state is split in the
process tree and, for a fork that is not internal, the path streams of the two
sides are written. -/
def Executor.forkTree (ex : Executor) (current trueState falseState : StateId)
    (isInternal : Bool) (tag : ForkTag) : Executor :=
  let node := (ex.getState current).ptreeNode
  let split :=
    PTree.split
      { ex.processTree with events := ex.processTree.events ++ [PTreeEvent.clearData node] }
      node falseState trueState tag
  let ex := { ex with processTree := split.2 }
  let ex := ex.setState falseState { ex.getState falseState with ptreeNode := split.1.1 }
  let ex := ex.setState trueState { ex.getState trueState with ptreeNode := split.1.2 }
  if !isInternal then ex.forkPaths current trueState falseState else ex

/-- Lines 1153-1163 of `fork`: each side gets its constraint, and both sides
are terminated when the depth cap is exceeded. -/
def Executor.forkFinish (ex : Executor) (trueState falseState : StateId) (condition : Expr) :
    Option (StatePair × Executor) :=
  match ex.addConstraint trueState condition with
  | none => none
  | some ex =>
    match ex.addConstraint falseState condition.createIsZero with
    | none => none
    | some ex =>
      if ex.opts.MaxDepth ≠ 0 ∧ ex.opts.MaxDepth ≤ (ex.getState trueState).depth then
        let ex := ex.terminateStateEarly trueState "max-depth exceeded"
        let ex := ex.terminateStateEarly falseState "max-depth exceeded"
        some ((none, none), ex)
      else some ((some trueState, some falseState), ex)

/-- Lines 1088-1164 of `fork`: the real two-way fork. -/
def Executor.forkSplit (ex : Executor) (current : StateId) (condition : Expr)
    (isInternal : Bool) (tag : ForkTag) : Option (StatePair × Executor) :=
  let b := ex.forkBranch current
  let ex := b.2.forkSeeds current b.1.1 b.1.2 condition
  let ex := ex.forkTree current b.1.1 b.1.2 isInternal tag
  ex.forkFinish b.1.1 b.1.2 condition

/-- Embeds `Executor::fork(ExecutionState&, ref<Expr>, bool, int)`.  The result
is the returned pair and the executor afterwards; `none` is a failed
assertion.  Timers, warnings and the solver timeout setting are not
modelled. -/
def Executor.fork (ex : Executor) (current : StateId) (condition : Expr) (isInternal : Bool)
    (reason : ForkClass) : Option (StatePair × Executor) :=
  let tag := Executor.getForkTag (ex.getState current) reason
  let isSeeding := (ex.seedMap current).isSome
  match ex.forkStatic current condition isSeeding with
  | none => none
  | some (condition, ex) =>
    match ex.solver.evaluate (ex.getState current) condition with
    | none =>
      let st := ex.getState current
      let ex := ex.setState current (st.setCrtThread { st.crtThread with pc := st.crtThread.prevPC })
      some ((none, none), ex.terminateStateEarly current "query timed out")
    | some res =>
      match ex.forkPolicy current condition isInternal isSeeding res with
      | none => none
      | some (res, ex) =>
        match ex.forkSeedFix current condition isSeeding res with
        | none => none
        | some (Validity.True, ex) =>
          let st := ex.getState current
          let ex := if !isInternal && ex.pathWriter then
              ex.setState current { st with pathOS := st.pathOS ++ [true] } else ex
          some ((some current, none), ex)
        | some (Validity.False, ex) =>
          let st := ex.getState current
          let ex := if !isInternal && ex.pathWriter then
              ex.setState current { st with pathOS := st.pathOS ++ [false] } else ex
          some ((none, some current), ex)
        | some (Validity.Unknown, ex) => ex.forkSplit current condition isInternal tag

/-! ## The N-way branch (Executor.cpp, `Executor::branch`) -/

/-- The statements that `branch` (lines 876-883) and `fork(state, reason)`
(lines 1171-1181) have in common: the state `es` is branched, the new state is
registered as added, and the node of `es` is split in the process tree, the
first child going to the new state and the second to `es`.  The result is the
new state and the executor. -/
def Executor.cloneState (ex : Executor) (es : StateId) (tag : ForkTag) : StateId × Executor :=
  let br := (ex.getState es).branch
  let ex := ex.setState es br.1
  let alloc := ex.newState br.2
  let ns := alloc.1
  let ex := { alloc.2 with addedStates := setInsert alloc.2.addedStates ns }
  let node := (ex.getState es).ptreeNode
  let split :=
    PTree.split
      { ex.processTree with events := ex.processTree.events ++ [PTreeEvent.clearData node] }
      node ns es tag
  let ex := { ex with processTree := split.2 }
  let ex := ex.setState ns { ex.getState ns with ptreeNode := split.1.1 }
  let ex := ex.setState es { ex.getState es with ptreeNode := split.1.2 }
  (ns, ex)

/-- Embeds `Executor::fork(ExecutionState&, int)`: the pair is (newState,
lastState). -/
def Executor.forkReason (ex : Executor) (current : StateId) (reason : ForkClass) :
    (StateId × StateId) × Executor :=
  let tag := Executor.getForkTag (ex.getState current) reason
  let clone := ex.cloneState current tag
  ((clone.1, current), clone.2)

/-- One iteration of the clone loop of `branch` (lines 874-884), for index
`i`: a state drawn from the results so far is cloned and the clone is appended
to the results.  The accumulator is the result vector and the executor. -/
def Executor.branchClone (tag : ForkTag) (acc : List StateId × Executor) (i : Nat) :
    List StateId × Executor :=
  let draw := acc.2.theRNG.getInt32
  let es := acc.1.getD (draw.1 % i) 0
  let clone := Executor.cloneState { acc.2 with theRNG := draw.2 } es tag
  (acc.1 ++ [clone.1], clone.2)

/-- The inner loop of lines 903-912 of `branch`: the lowest index, counted
from `i`, of a condition that the seed makes true; the index past the last
condition when there is none. -/
def Executor.branchSeedIndex (ex : Executor) (st : ExecutionState) (seed : SeedInfo) :
    List Expr → Nat → Nat
  | [], i => i
  | c :: cs, i =>
    if (ex.solver.getValue st (ex.seedEvaluate seed c)).isTrue then i
    else Executor.branchSeedIndex ex st seed cs (i + 1)

/-- One iteration of the seed loop of `branch` (lines 900-920): the seed goes
to the result of the first condition it makes true, or to a result picked by
the RNG when it makes none true. -/
def Executor.branchSeed (state : StateId) (result : List StateId) (conditions : List Expr)
    (ex : Executor) (seed : SeedInfo) : Executor :=
  let N := conditions.length
  let i := ex.branchSeedIndex (ex.getState state) seed conditions 0
  let draw := if i = N then ex.theRNG.getInt32 else (i, ex.theRNG)
  let i := if i = N then draw.1 % N else i
  let target := result.getD i 0
  { ex with
    theRNG := draw.2
    seedMap := mapSet ex.seedMap target (some (((ex.seedMap target).getD []) ++ [seed])) }

/-- One iteration of the only-replay-seeds loop of `branch` (lines 922-929): a
result without seeds is terminated and its entry becomes null. -/
def Executor.branchPrune (acc : List (Option StateId) × Executor) (id : StateId) :
    List (Option StateId) × Executor :=
  if (acc.2.seedMap id).isSome then (acc.1 ++ [some id], acc.2)
  else (acc.1 ++ [none], acc.2.terminateState id)

/-- Lines 890-930 of `branch`: the seeds of the input state are redistributed
over the results. -/
def Executor.branchSeeds (ex : Executor) (state : StateId) (result : List StateId)
    (conditions : List Expr) : List (Option StateId) × Executor :=
  match ex.seedMap state with
  | none => (result.map some, ex)
  | some seeds =>
    let ex := { ex with seedMap := mapSet ex.seedMap state none }
    let ex := seeds.foldl (Executor.branchSeed state result conditions) ex
    if ex.opts.OnlyReplaySeeds then result.foldl Executor.branchPrune ([], ex)
    else (result.map some, ex)

/-- The last loop of `branch` (lines 932-934): every result that is not null
gets the condition of its index. -/
def Executor.branchConstraints : List (Option StateId) → List Expr → Executor → Option Executor
  | some id :: result, c :: conditions, ex =>
    match ex.addConstraint id c with
    | none => none
    | some ex => Executor.branchConstraints result conditions ex
  | none :: result, _ :: conditions, ex => Executor.branchConstraints result conditions ex
  | _, _, ex => some ex

/-- Embeds `Executor::branch`.  The result is the vector of states (null is
`none`) and the executor afterwards; `none` is a failed assertion. -/
def Executor.branch (ex : Executor) (state : StateId) (conditions : List Expr)
    (reason : ForkClass) : Option (List (Option StateId) × Executor) :=
  let N := conditions.length
  if N = 0 then none
  else
    let ex := { ex with stats := { ex.stats with forks := ex.stats.forks + (N - 1) } }
    let tag := Executor.getForkTag (ex.getState state) reason
    let clones := (List.range' 1 (N - 1)).foldl (Executor.branchClone tag) ([state], ex)
    let seeded := clones.2.branchSeeds state clones.1 conditions
    match Executor.branchConstraints seeded.1 conditions seeded.2 with
    | none => none
    | some ex => some (seeded.1, ex)

/-! ## The scheduler (Executor.cpp, `Executor::schedule`) -/

/-- Embeds `Executor::terminateStateOnError`; fails when the state has no
running thread.  The console messages are not modelled. -/
def Executor.terminateStateOnError (ex : Executor) (state : StateId) (message suffix : String)
    (info : String) : Option Executor :=
  let st := ex.getState state
  if st.crtThreadIt = st.threads.length then none
  else
    let inst := st.crtThread.prevPC
    let ii := ex.instructionInfo inst
    let emit := ex.opts.EmitAllErrors || !decide ((inst, message) ∈ ex.emittedErrors)
    let ex :=
      if ex.opts.EmitAllErrors then ex
      else if (inst, message) ∈ ex.emittedErrors then ex
      else { ex with emittedErrors := ex.emittedErrors ++ [(inst, message)] }
    let ex :=
      if emit then
        let msg := "Error: " ++ message ++ "\n" ++
          (if ii.1 ≠ "" then "File: " ++ ii.1 ++ "\n" ++ "Line: " ++ toString ii.2 ++ "\n"
            else "") ++
          "Stack: \n" ++ ex.stackDump st.crtThread ++
          (if info ≠ "" then "Info: \n" ++ info else "")
        { ex with testCases := ex.testCases ++
            [{ state := state, message := some msg, suffix := some suffix }] }
      else ex
    some (ex.terminateState state)

/-- Modelled from the spec: `ExecutionState::nextThread` (ExecutionState.h) is
not among the sources.  The scheduler does "advance round-robin": the position
after `it` in the thread table, wrapping around to the first. -/
def ExecutionState.nextThread (s : ExecutionState) (it : Nat) : Nat :=
  if it = s.threads.length then 0
  else if it + 1 = s.threads.length then 0
  else it + 1

/-- Modelled from the spec: `ExecutionState::scheduleNext` (ExecutionState.h)
is not among the sources; the thread at `it` becomes the active thread. -/
def ExecutionState.scheduleNext (s : ExecutionState) (it : Nat) : ExecutionState :=
  { s with crtThreadIt := it }

/-- Embeds `threads.find(tuid)` on the thread table: the position of the
thread with the key, `threads.end()` when there is none. -/
def ExecutionState.findThread (s : ExecutionState) (tuid : Nat × Nat) : Nat :=
  s.threads.findIdx fun t => t.tuid == tuid

/-- The loop of lines 3506-3507 of `schedule`: from position `it`, the first
position of an enabled thread, advancing round-robin.  `fuel` bounds the
number of advances; running out is `none`. -/
def ExecutionState.nextEnabled (s : ExecutionState) : Nat → Nat → Option Nat
  | 0, it => if (s.threads.getD it {}).enabled then some it else none
  | fuel + 1, it =>
    if (s.threads.getD it {}).enabled then some it
    else ExecutionState.nextEnabled s fuel (s.nextThread it)

/-- The body of the conditional of lines 3530-3542 of `schedule`: the last
state is forked, the new state gets the preemption count and the thread at
`it` as its active thread, and becomes the last state.  The accumulator is the
executor, the last state and the fork class. -/
def Executor.scheduleFork (state : StateId) (incPreemptions : Bool) (it : Nat)
    (acc : Executor × StateId × ForkClass) : Executor × StateId × ForkClass :=
  let sp := acc.1.forkReason acc.2.1 acc.2.2
  let ex := sp.2
  let first := sp.1.1
  let ex :=
    if incPreemptions then
      ex.setState first
        { ex.getState first with preemptions := (ex.getState state).preemptions + 1 }
    else ex
  let child := ex.getState first
  let ex := ex.setState first
    (child.scheduleNext (child.findThread ((ex.getState state).threads.getD it {}).tuid))
  (ex, first,
    if acc.2.2 = ForkClass.KLEE_FORK_SCHEDULE then ForkClass.KLEE_FORK_MULTI else acc.2.2)

/-- The loop of lines 3526-3546 of `schedule`, from position `it` until the
position `finalIt` is reached.  `fuel` bounds the number of iterations;
running out is `none`. -/
def Executor.scheduleForks (state : StateId) (yield incPreemptions : Bool)
    (oldIt finalIt : Nat) : Nat → Nat → Executor × StateId × ForkClass → Option Executor
  | fuel, it, acc =>
    if it = finalIt then some acc.1
    else
      match fuel with
      | 0 => none
      | fuel + 1 =>
        let acc :=
          if (((acc.1.getState state).threads.getD it {}).enabled &&
              (!yield || decide (it ≠ oldIt))) = true then
            Executor.scheduleFork state incPreemptions it acc
          else acc
        Executor.scheduleForks state yield incPreemptions oldIt finalIt fuel
          ((acc.1.getState state).nextThread it) acc

/-- Embeds `Executor::schedule`: the returned flag and the executor
afterwards; `none` is a failed assertion or a loop out of fuel.  Each loop
over the thread table gets as many iterations as the table has threads. -/
def Executor.schedule (ex : Executor) (state : StateId) (yield : Bool) :
    Option (Bool × Executor) :=
  let st := ex.getState state
  let enabledCount := st.threads.countP fun t => t.enabled
  if enabledCount = 0 then
    (ex.terminateStateOnError state " ******** hang (possible deadlock?)" "user.err" "").map
      fun ex => (false, ex)
  else
    let oldIt := st.crtThreadIt
    let chosen : Option (Executor × Bool × Bool) :=
      if (!st.crtThread.enabled || yield) = true then
        match st.nextEnabled st.threads.length (st.nextThread st.crtThreadIt) with
        | none => none
        | some it => some (ex.setState state (st.scheduleNext it), ex.opts.ForkOnSchedule, false)
      else if st.preemptions < ex.opts.MaxPreemptions then some (ex, true, true)
      else some (ex, false, false)
    match chosen with
    | none => none
    | some (ex, forkSchedule, incPreemptions) =>
      if forkSchedule then
        let finalIt := (ex.getState state).crtThreadIt
        (Executor.scheduleForks state yield incPreemptions oldIt finalIt
          (ex.getState state).threads.length ((ex.getState state).nextThread finalIt)
          (ex, state, ForkClass.KLEE_FORK_SCHEDULE)).map fun ex => (true, ex)
      else some (true, ex)


/-! ## Symbolic objects and seeds (Executor.cpp, `Executor::executeMakeSymbolic`) -/

/-- The loop of lines 3733-3737 of `executeMakeSymbolic`: the first of
`name`, `name_1`, `name_2`, ... that is not yet an array name of the state,
and the set of names with it inserted.  `fuel` bounds the number of retries;
running out is `none`. -/
def ExecutionState.uniqueArrayName (names : List String) (name : String) :
    Nat → Nat → String → Option (String × List String)
  | fuel, id, uniqueName =>
    if uniqueName ∉ names then some (uniqueName, names ++ [uniqueName])
    else
      match fuel with
      | 0 => none
      | fuel + 1 =>
        ExecutionState.uniqueArrayName names name fuel (id + 1)
          (name ++ "_" ++ toString (id + 1))

/-- Embeds `ExecutionState::addSymbolic`. -/
def ExecutionState.addSymbolic (s : ExecutionState) (mo : MemoryObject) (array : Array) :
    ExecutionState :=
  { s with symbolics := s.symbolics ++ [(mo, array)] }

/-- Embeds `bindings[array]` read: the bytes bound to an array, empty when
the map has no entry. -/
def SeedInfo.binding (si : SeedInfo) (array : Array) : List Nat :=
  ((si.bindings.find? fun p => p.1 == array).map fun p => p.2).getD []

/-- Embeds `bindings[array] = values`: the entry is created when there is
none. -/
def SeedInfo.bind (si : SeedInfo) (array : Array) (values : List Nat) : SeedInfo :=
  { si with bindings :=
      if si.bindings.any fun p => p.1 == array then
        si.bindings.map fun p => if p.1 == array then (array, values) else p
      else si.bindings ++ [(array, values)] }

/-- The test of lines 3764-3767 of `executeMakeSymbolic`: the seed object
does not fit the memory object and the seed policy does not allow it. -/
def Options.seedSizeMismatch (opts : Options) (numBytes size : Nat) : Bool :=
  decide (numBytes ≠ size) &&
    ((!(opts.AllowSeedExtension || opts.ZeroSeedExtension) && decide (numBytes < size)) ||
      (!opts.AllowSeedTruncation && decide (numBytes > size)))

/-- The body of the loop of lines 3748-3789 of `executeMakeSymbolic` for one
seed: the seed afterwards, and the message of the error that ends the loop, if
any. -/
def Executor.seedBinding (ex : Executor) (mo : MemoryObject) (array : Array)
    (si : SeedInfo) : SeedInfo × Option String :=
  let next := ex.getNextInput si mo ex.opts.NamedSeedMatching
  let si := next.2
  match next.1 with
  | none =>
    if ex.opts.ZeroSeedExtension then (si.bind array (List.replicate mo.size 0), none)
    else if !ex.opts.AllowSeedExtension then (si, some "ran out of inputs during seeding")
    else (si, none)
  | some obj =>
    if ex.opts.seedSizeMismatch obj.numBytes mo.size then
      (si, some ("replace size mismatch: " ++ mo.name ++ "[" ++ toString mo.size ++ "]" ++
        " vs " ++ obj.name ++ "[" ++ toString obj.numBytes ++ "]" ++ " in test\n"))
    else
      let values := (List.range (min obj.numBytes mo.size)).map (fun i => obj.bytes.getD i 0) ++
        si.binding array
      let values :=
        if ex.opts.ZeroSeedExtension then values ++ List.replicate (mo.size - obj.numBytes) 0
        else values
      (si.bind array values, none)

/-- The loop of lines 3748-3789 of `executeMakeSymbolic` over the seeds of the
state: the seeds afterwards, and the message of the error at which the loop
broke off, if any. -/
def Executor.seedBindings (ex : Executor) (mo : MemoryObject) (array : Array) :
    List SeedInfo → List SeedInfo × Option String
  | [] => ([], none)
  | si :: rest =>
    let r := ex.seedBinding mo array si
    match r.2 with
    | some msg => (r.1 :: rest, some msg)
    | none =>
      let rr := Executor.seedBindings ex mo array rest
      (r.1 :: rr.1, rr.2)

/-- Lines 3741-3790 of `executeMakeSymbolic`: in seed mode the new array gets
a binding in every seed of the state, until a seed raises an error, which
terminates the state. -/
def Executor.seedObject (ex : Executor) (state : StateId) (mo : MemoryObject)
    (array : Array) : Option Executor :=
  match ex.seedMap state with
  | none => some ex
  | some seeds =>
    let r := ex.seedBindings mo array seeds
    let ex := { ex with seedMap := mapSet ex.seedMap state (some r.1) }
    match r.2 with
    | some msg => ex.terminateStateOnError state msg "user.err" ""
    | none => some ex

/-- Embeds `Executor::executeMakeSymbolic`; `none` is a failed assertion or
the name loop out of fuel.  The address space is not part of the embedding, so
`bindObjectInState`, the `isShared` flag of the new object state and, under
replay, the `write8` loop leave no trace. -/
def Executor.executeMakeSymbolic (ex : Executor) (state : StateId) (mo : MemoryObject)
    (name : String) (_shared : Bool) : Option Executor :=
  if !ex.replayOut then
    let st := ex.getState state
    match ExecutionState.uniqueArrayName st.arrayNames name st.arrayNames.length 0 name with
    | none => none
    | some (uniqueName, names) =>
      let array : Array := { name := uniqueName, size := mo.size }
      let ex := ex.setState state
        ({ st with arrayNames := names }.addSymbolic mo array)
      ex.seedObject state mo array
  else
    if ex.replayPosition ≥ ex.replayObjects.length then
      ex.terminateStateOnError state "replay count mismatch" "user.err" ""
    else
      let obj := ex.replayObjects.getD ex.replayPosition {}
      let ex := { ex with replayPosition := ex.replayPosition + 1 }
      if obj.numBytes ≠ mo.size then
        ex.terminateStateOnError state "replay size mismatch" "user.err" ""
      else some ex

/-! ## Resets of the access log (Memory.cpp, `MemoryLog::localReset`) -/

/-- One iteration of the loop of `localReset` on a log in symbolic form. -/
def MemoryLogUpdates.localResetAt (updates : MemoryLogUpdates) (wgid ofs : Nat) :
    MemoryLogUpdates :=
  let zero1 := Expr.Constant (ConstantExpr.create 0 Expr.BoolWidth)
  let zero32 := Expr.Constant (ConstantExpr.create 0 Expr.Int32)
  let wgidConst := Expr.Constant (ConstantExpr.create wgid Expr.Int32)
  let offset := Expr.Constant (ConstantExpr.create ofs Expr.Int32)
  let oldWgid := ReadExpr.create updates.wgid offset
  let oldThreadId := ReadExpr.create updates.threadId offset
  let oldManyRead := ReadExpr.create updates.manyRead offset
  let match_ := EqExpr.create oldWgid wgidConst
  let newThreadId := SelectExpr.create match_ zero32 oldThreadId
  let newManyRead := SelectExpr.create match_ zero1 oldManyRead
  { updates with
    threadId := updates.threadId.extend offset newThreadId
    manyRead := updates.manyRead.extend offset newManyRead }

/-- Embeds `MemoryLog::localReset`. -/
def MemoryLog.localReset (log : MemoryLog) (wgid : Nat) : MemoryLog :=
  match log.updates with
  | some updates =>
    { log with updates := some (
        (List.range log.size).foldl (fun u ofs => u.localResetAt wgid ofs) updates) }
  | none =>
    { log with concreteEntries := log.concreteEntries.map fun i =>
        if i.wgid = wgid then { i with threadId := 0, manyRead := false } else i }

/-- Embeds `MemoryLog::globalReset`. -/
def MemoryLog.globalReset (log : MemoryLog) : MemoryLog :=
  { log with concreteEntries := [], updates := none }

/-! ## Explicit forks (Executor.cpp, `Executor::executeFork`) -/

/-- Modelled from the spec: `Executor::getDestCell` (Executor.h) is not among
the sources.  The backend "calls `eval`/`bind` to read/write register cells";
the cell written is that of the destination register of the instruction in the
innermost frame of the running thread.  `none` when the state has no running
thread, no frame or no such register. -/
def ExecutionState.setDestCell (s : ExecutionState) (target : KInstruction) (value : Expr) :
    Option ExecutionState :=
  if s.crtThreadIt < s.threads.length then
    match s.crtThread.stack.getLast? with
    | none => none
    | some sf =>
      if target.dest < sf.locals.length then
        some (s.setCrtThread { s.crtThread with
          stack := s.crtThread.stack.dropLast ++
            [{ sf with locals := sf.locals.set target.dest (some value) }] })
      else none
  else none

/-- Embeds `Executor::bindLocal`. -/
def Executor.bindLocal (ex : Executor) (target : KInstruction) (state : StateId)
    (value : Expr) : Option Executor :=
  match (ex.getState state).setDestCell target value with
  | none => none
  | some s => some (ex.setState state s)

/-- Embeds `Executor::executeFork`; `none` when a destination cell does not
exist. -/
def Executor.executeFork (ex : Executor) (state : StateId) (ki : KInstruction)
    (reason : ForkClass) : Option Executor :=
  if reason = ForkClass.KLEE_FORK_DEFAULT then
    let sp := ex.forkReason state reason
    match sp.2.bindLocal ki sp.1.1 (.Constant (ConstantExpr.create 0 ki.typeWidth)) with
    | none => none
    | some ex => ex.bindLocal ki sp.1.2 (.Constant (ConstantExpr.create 1 ki.typeWidth))
  else
    ex.bindLocal ki state (.Constant (ConstantExpr.create 0 ki.typeWidth))

/-! ## Thread exit (Executor.cpp, `Executor::executeThreadExit`) -/

/-- Embeds `Executor::terminateStateOnExit`. -/
def Executor.terminateStateOnExit (ex : Executor) (state : StateId) : Executor :=
  let ex :=
    if !ex.opts.OnlyOutputStatesCoveringNew || (ex.getState state).coveredNew ||
        (ex.opts.AlwaysOutputSeeds && (ex.seedMap state).isSome) then
      { ex with testCases := ex.testCases ++
          [{ state := state, message := none, suffix := none }] }
    else ex
  ex.terminateState state

/-- Modelled from the spec: `ExecutionState::terminateThread`
(ExecutionState.cpp) is not among the sources.  A thread is "destroyed by
thread-exit": its entry is erased from the thread table, and the running
thread stays the same thread. -/
def ExecutionState.terminateThread (s : ExecutionState) (thrIt : Nat) : ExecutionState :=
  { s with
    threads := s.threads.eraseIdx thrIt
    crtThreadIt := if thrIt < s.crtThreadIt then s.crtThreadIt - 1 else s.crtThreadIt }

/-- Embeds `Executor::executeThreadExit`; `none` is a failed assertion or a
loop of `schedule` out of fuel. -/
def Executor.executeThreadExit (ex : Executor) (state : StateId) : Option Executor :=
  let st := ex.getState state
  if st.threads.length = 1 then some (ex.terminateStateOnExit state)
  else if ¬ st.threads.length > 1 then none
  else
    let thrIt := st.crtThreadIt
    let ex := ex.setState state (st.setCrtThread { st.crtThread with enabled := false })
    match ex.schedule state false with
    | none => none
    | some (false, ex) => some ex
    | some (true, ex) => some (ex.setState state ((ex.getState state).terminateThread thrIt))

/-! ## The switch instruction (Executor.cpp, `Executor::executeInstruction`) -/

/-- A switch instruction as the handler sees it: the cases 1, 2, ... with
their value (after `evalConstant`) and successor block, and the successor of
the default case 0. -/
structure SwitchInst where
  cases : List (ConstantExpr × Nat) := []
  defaultSuccessor : Nat := 0

/-- Embeds `SwitchInst::findCaseValue` followed by `getSuccessor`: the
successor of the case with the value, that of the default when there is none. -/
def SwitchInst.findSuccessor (si : SwitchInst) (value : Nat) : Nat :=
  match si.cases.find? fun c => c.1.value == value with
  | some c => c.2
  | none => si.defaultSuccessor

/-- Embeds `Executor::toUnique`. -/
def Executor.toUnique (ex : Executor) (state : ExecutionState) (e : Expr) : Expr :=
  if !e.isConstant then
    let value := ex.solver.getValue state e
    if ex.solver.mustBeTrue state (EqExpr.create e (.Constant value)) then .Constant value
    else e
  else e

/-- The search of the switch handler for the target of a successor block: the
condition is or-ed to the first target of that block, and a new target is
appended when there is none. -/
def switchAddTarget (targets : List (Nat × Expr)) (successor : Nat) (condition : Expr) :
    List (Nat × Expr) :=
  match targets with
  | [] => [(successor, condition)]
  | t :: rest =>
    if t.1 = successor then (t.1, OrExpr.create condition t.2) :: rest
    else t :: switchAddTarget rest successor condition

/-- One iteration of the loop over the cases of the switch handler (lines
1889-1909): the accumulator is the targets and `isDefault`. -/
def Executor.switchCase (ex : Executor) (state : ExecutionState) (cond : Expr)
    (acc : List (Nat × Expr) × Expr) (c : ConstantExpr × Nat) : List (Nat × Expr) × Expr :=
  let value := Expr.Constant c.1
  let match_ := EqExpr.create cond value
  let isDefault := AndExpr.create acc.2 match_.createIsZero
  if ex.solver.mayBeTrue state match_ then (switchAddTarget acc.1 c.2 match_, isDefault)
  else (acc.1, isDefault)

/-- Lines 1885-1925 of the switch handler: the targets of a switch on a
condition that is not a constant, each a successor block with its condition. -/
def Executor.switchTargets (ex : Executor) (state : ExecutionState) (si : SwitchInst)
    (cond : Expr) : List (Nat × Expr) :=
  let acc := si.cases.foldl (ex.switchCase state cond)
    ([], .Constant { value := 1, width := Expr.BoolWidth })
  if ex.solver.mayBeTrue state acc.2 then switchAddTarget acc.1 si.defaultSuccessor acc.2
  else acc.1

/-- Embeds `Executor::transferToBasicBlock` as far as the program counter
goes: `basicBlockEntry` gives the first instruction of a block in the function
of the innermost frame.  `none` when the state has no running thread or no
frame.  The index of the incoming block for PHI nodes is not modelled. -/
def ExecutionState.transferToBasicBlock (s : ExecutionState)
    (basicBlockEntry : Nat → Nat → Nat) (dst : Nat) : Option ExecutionState :=
  if s.crtThreadIt < s.threads.length then
    match s.crtThread.stack.getLast? with
    | none => none
    | some sf => some (s.setCrtThread { s.crtThread with pc := basicBlockEntry sf.kf dst })
  else none

/-- The last loop of the switch handler (lines 1933-1940): every state that
`branch` returned goes to the block of its target. -/
def Executor.switchTransfer (basicBlockEntry : Nat → Nat → Nat) :
    List (Nat × Expr) → List (Option StateId) → Executor → Option Executor
  | t :: targets, some es :: branches, ex =>
    match (ex.getState es).transferToBasicBlock basicBlockEntry t.1 with
    | none => none
    | some s => Executor.switchTransfer basicBlockEntry targets branches (ex.setState es s)
  | _ :: targets, none :: branches, ex =>
    Executor.switchTransfer basicBlockEntry targets branches ex
  | [], _, ex => some ex
  | _ :: _, [], _ => none

/-- Embeds the case `Instruction::Switch` of `Executor::executeInstruction`;
`cond` is the value of the operand.  `none` is a failed assertion or an
access outside a vector. -/
def Executor.executeSwitch (ex : Executor) (state : StateId) (si : SwitchInst) (cond : Expr)
    (basicBlockEntry : Nat → Nat → Nat) : Option Executor :=
  let cond := ex.toUnique (ex.getState state) cond
  match cond.asConstant with
  | some CE =>
    match (ex.getState state).transferToBasicBlock basicBlockEntry
        (si.findSuccessor CE.getZExtValue) with
    | none => none
    | some s => some (ex.setState state s)
  | none =>
    let targets := ex.switchTargets (ex.getState state) si cond
    match ex.branch state (targets.map fun t => t.2) ForkClass.KLEE_FORK_DEFAULT with
    | none => none
    | some (branches, ex) => Executor.switchTransfer basicBlockEntry targets branches ex

/-! ## Object states in memory (Memory.cpp, the copy constructor)

The byte store, the two masks and the table of known symbolic values of an
object state are heap buffers that the object points to.  To tell a copy from
an alias, the object state is laid out here with addresses for these four
members; `ObjectHeap.load` gives the object state that the addresses denote,
as used everywhere else. -/

/-- The heap buffers of the object states: byte stores, bit masks and tables
of known symbolic values, by address. -/
structure ObjectHeap where
  stores : List (Nat → Nat) := []
  masks : List BitArray := []
  symbolics : List (Nat → Option Expr) := []

/-- An object state in memory: the addresses of its four buffers (a null
pointer is `none`) and, in `fields`, the members that are held by value. -/
structure ObjectStateRef where
  concreteStore : Nat
  concreteMask : Option Nat := none
  flushMask : Option Nat := none
  knownSymbolics : Option Nat := none
  fields : ObjectState

/-- The object state that an object in memory denotes. -/
def ObjectHeap.load (h : ObjectHeap) (r : ObjectStateRef) : ObjectState :=
  { r.fields with
    concreteStore := h.stores.getD r.concreteStore fun _ => 0
    concreteMask := r.concreteMask.map fun a => h.masks.getD a (BitArray.new 0 true)
    flushMask := r.flushMask.map fun a => h.masks.getD a (BitArray.new 0 true)
    knownSymbolics := r.knownSymbolics.map fun a => h.symbolics.getD a fun _ => none }

/-- A mask member after an operation: written in place through the pointer,
allocated when the pointer was null, and null when the operation deleted the
mask. -/
def ObjectHeap.storeMask (masks : List BitArray) (ptr : Option Nat) (mask : Option BitArray) :
    List BitArray × Option Nat :=
  match ptr, mask with
  | _, none => (masks, none)
  | some a, some m => (masks.set a m, some a)
  | none, some m => (masks ++ [m], some masks.length)

/-- The table of known symbolic values after an operation, as `storeMask`. -/
def ObjectHeap.storeSymbolics (tables : List (Nat → Option Expr)) (ptr : Option Nat)
    (table : Option (Nat → Option Expr)) : List (Nat → Option Expr) × Option Nat :=
  match ptr, table with
  | _, none => (tables, none)
  | some a, some t => (tables.set a t, some a)
  | none, some t => (tables ++ [t], some tables.length)

/-- The effect of a member function on an object in memory: the members are
written through the pointers of the object, and no other buffer is touched. -/
def ObjectHeap.store (h : ObjectHeap) (r : ObjectStateRef) (os : ObjectState) :
    ObjectHeap × ObjectStateRef :=
  let cm := ObjectHeap.storeMask h.masks r.concreteMask os.concreteMask
  let fm := ObjectHeap.storeMask cm.1 r.flushMask os.flushMask
  let ks := ObjectHeap.storeSymbolics h.symbolics r.knownSymbolics os.knownSymbolics
  ({ stores := h.stores.set r.concreteStore os.concreteStore, masks := fm.1, symbolics := ks.1 },
    { concreteStore := r.concreteStore, concreteMask := cm.2, flushMask := fm.2,
      knownSymbolics := ks.2, fields := os })

/-- Embeds `ObjectState::ObjectState(const ObjectState &os)` on objects in
memory: the byte store, each mask that the source has and its table of known
symbolic values are new buffers with the contents of the source's; fails on a
read-only source.  `garbage` is the uninitialised part of the new byte store. -/
def ObjectHeap.copy (h : ObjectHeap) (r : ObjectStateRef) (garbage : Nat → Nat) :
    Option (ObjectHeap × ObjectStateRef) :=
  match (h.load r).copy garbage with
  | none => none
  | some os =>
    let cm : List BitArray × Option Nat :=
      match os.concreteMask with
      | some m => (h.masks ++ [m], some h.masks.length)
      | none => (h.masks, none)
    let fm : List BitArray × Option Nat :=
      match os.flushMask with
      | some m => (cm.1 ++ [m], some cm.1.length)
      | none => (cm.1, none)
    let ks : List (Nat → Option Expr) × Option Nat :=
      match os.knownSymbolics with
      | some t => (h.symbolics ++ [t], some h.symbolics.length)
      | none => (h.symbolics, none)
    some ({ stores := h.stores ++ [os.concreteStore], masks := fm.1, symbolics := ks.1 },
      { concreteStore := h.stores.length, concreteMask := cm.2, flushMask := fm.2,
        knownSymbolics := ks.2, fields := os })

/-- Embeds `write8(unsigned, uint8_t)` on an object in memory. -/
def ObjectHeap.write8 (h : ObjectHeap) (r : ObjectStateRef) (offset value : Nat)
    (state : Option ExecutionState) (solver : TimingSolver) : ObjectHeap × ObjectStateRef :=
  h.store r ((h.load r).write8 offset value state solver)

/-- Embeds `write8(unsigned, ref<Expr>)` on an object in memory. -/
def ObjectHeap.write8Value (h : ObjectHeap) (r : ObjectStateRef) (offset : Nat) (value : Expr)
    (state : Option ExecutionState) (solver : TimingSolver) : ObjectHeap × ObjectStateRef :=
  h.store r ((h.load r).write8Value offset value state solver)

/-- Embeds `write8(ref<Expr>, ref<Expr>)` on an object in memory; fails as
`ObjectState.write8Expr` does. -/
def ObjectHeap.write8Expr (h : ObjectHeap) (r : ObjectStateRef) (offset value : Expr)
    (state : Option ExecutionState) (solver : TimingSolver) :
    Option (ObjectHeap × ObjectStateRef) :=
  match (h.load r).write8Expr offset value state solver with
  | none => none
  | some os => some (h.store r os)

/-! ## Auxiliary definitions used in the statements and proofs -/

/-- The recorded entry of byte `b` in a concrete log: the default entry when
the vector does not reach `b`. -/
def MemoryLog.entry (log : MemoryLog) (b : Nat) : MemoryLogEntry :=
  log.concreteEntries.getD b {}

/-- One access of a concrete-path history: the accessing state, whether it is
a write, and the byte offset. -/
structure Access where
  state : ExecutionState
  isWrite : Bool
  offset : Nat

/-- The log after an access at a concrete offset. -/
def MemoryLog.step (log : MemoryLog) (solver : TimingSolver) (a : Access) : MemoryLog :=
  if a.isWrite then (log.logWrite (some a.state) solver a.offset {}).2.2
  else (log.logRead (some a.state) solver a.offset {}).2.2

/-- The log after a sequence of accesses at concrete offsets, oldest first. -/
def MemoryLog.replay (log : MemoryLog) (solver : TimingSolver) : List Access → MemoryLog
  | [] => log
  | a :: rest => MemoryLog.replay (log.step solver a) solver rest

/-- The flag a concrete-path write returns, in terms of the recorded entry. -/
def MemoryLogEntry.writeRace (e : MemoryLogEntry) (threadId wgid : Nat) : Bool :=
  e.manyRead || e.wgManyRead || ((e.read || e.write) && !e.matches threadId wgid)

/-- The flag a concrete-path read returns, in terms of the recorded entry. -/
def MemoryLogEntry.readRace (e : MemoryLogEntry) (threadId wgid : Nat) : Bool :=
  e.write && !e.matches threadId wgid

/-- The entry a concrete-path read leaves behind when no race is flagged. -/
def MemoryLogEntry.afterRead (e : MemoryLogEntry) (threadId wgid : Nat) : MemoryLogEntry :=
  { threadId := threadId
    wgid := wgid
    read := true
    write := e.write
    manyRead := e.manyRead || (e.read && decide (e.threadId ≠ 0 ∧ e.threadId ≠ threadId))
    wgManyRead := e.wgManyRead || (e.read && decide (e.wgid ≠ wgid)) }

/-- A state whose running thread has the given thread id and workgroup id. -/
def threadState (tid wgid : Nat) : ExecutionState :=
  { threads := [{ tuid := (tid, 0), workgroupId := wgid }] }

/-- A solver that never answers `evaluate` and denies every other query. -/
def silentSolver : TimingSolver :=
  { evaluate := fun _ _ => none
    mayBeTrue := fun _ _ => false
    mustBeFalse := fun _ _ => false
    getValue := fun _ _ => { value := 0, width := 1 } }

/-- An entry that records accesses of thread `T` in workgroup `g` only, or no
access at all. -/
def MemoryLogEntry.onlyBy (e : MemoryLogEntry) (T g : Nat) : Prop :=
  e = {} ∨ (e.threadId = T ∧ e.wgid = g ∧ e.manyRead = false ∧ e.wgManyRead = false)

/-- The cache invariants of Memory.cpp (lines 566-572) at one byte. -/
def ObjectState.byteInv (os : ObjectState) (p : Nat) : Prop :=
  (os.isByteKnownSymbolic p = true → os.isByteConcrete p = false) ∧
    (os.isByteFlushed p = false → os.isByteConcrete p = true ∨ os.isByteKnownSymbolic p = true)

/-- The cache invariants at every byte of the object. -/
def ObjectState.CacheInv (os : ObjectState) : Prop :=
  ∀ p, p < os.size → os.byteInv p

/-- The object states that arise from a constructor by the byte operations,
the initialisers and copy construction, with constant offsets inside the
object. -/
inductive ObjectState.Reachable : ObjectState → Prop where
  | new (UseConstantArrays : Bool) (mo : MemoryObject) (garbage : Nat → Nat) :
      Reachable (ObjectState.new UseConstantArrays mo garbage)
  | newSymbolic (mo : MemoryObject) (array : Array) (garbage : Nat → Nat) (os : ObjectState) :
      ObjectState.newSymbolic mo array garbage = some os → Reachable os
  | write8 (os : ObjectState) (offset value : Nat) (state : Option ExecutionState)
      (solver : TimingSolver) :
      Reachable os → offset < os.size → Reachable (os.write8 offset value state solver)
  | write8Value (os : ObjectState) (offset : Nat) (value : Expr)
      (state : Option ExecutionState) (solver : TimingSolver) :
      Reachable os → offset < os.size → Reachable (os.write8Value offset value state solver)
  | write8Expr (os os' : ObjectState) (offset value : Expr) (state : Option ExecutionState)
      (solver : TimingSolver) :
      Reachable os → os.write8Expr offset value state solver = some os' → Reachable os'
  | read8 (os os' : ObjectState) (offset : Nat) (e : Expr) (state : Option ExecutionState)
      (solver : TimingSolver) :
      Reachable os → offset < os.size → os.read8 offset state solver = some (e, os') →
      Reachable os'
  | read8Expr (os os' : ObjectState) (offset e : Expr) (state : Option ExecutionState)
      (solver : TimingSolver) :
      Reachable os → os.read8Expr offset state solver = some (e, os') → Reachable os'
  | makeConcrete (os : ObjectState) : Reachable os → Reachable os.makeConcrete
  | initializeToZero (os : ObjectState) : Reachable os → Reachable os.initializeToZero
  | initializeToRandom (os : ObjectState) : Reachable os → Reachable os.initializeToRandom
  | copy (os os' : ObjectState) (garbage : Nat → Nat) :
      Reachable os → os.copy garbage = some os' → Reachable os'

/-- A non-constant byte: element 0 of a symbolic array of one byte. -/
def symbolicByte : Expr :=
  .Read (.mk (some { name := "sym", size := 1 }) []) (.Constant { value := 0, width := 32 })

/-- A four-byte concrete object whose byte 1 holds a symbolic value. -/
def exampleObject : ObjectState :=
  (ObjectState.new true { size := 4 } fun _ => 0).write8Value 1 symbolicByte none silentSolver

/-- A branch condition that is not a constant: the symbolic byte is zero. -/
def exampleCondition : Expr :=
  .Eq symbolicByte (.Constant { value := 0, width := 8 })

/-- An executor with one live state at address 0, no seeds and default
options, whose solver gives `answer` to every validity query. -/
def exampleExecutor (answer : Option Validity) : Executor :=
  { solver := { silentSolver with evaluate := fun _ _ => answer }
    seedEvaluate := fun _ e => e
    heap := [some { threads := [{ tuid := (1, 0) }] }]
    states := [0]
    theRNG := { draws := fun _ => 0 } }

/-- Two executors hold the same states at the same addresses as far as path
constraints and depth go, and agree on the options, the pending added set, the
statistics, the seeds and the solver. -/
def Executor.SamePaths (ex ex' : Executor) : Prop :=
  ex'.heap.length = ex.heap.length ∧ ex'.opts = ex.opts ∧
    ex'.addedStates = ex.addedStates ∧ ex'.stats = ex.stats ∧ ex'.seedMap = ex.seedMap ∧
    (∀ id, ex'.isAllocated id = ex.isAllocated id) ∧
    (∀ id, (ex'.getState id).constraints = (ex.getState id).constraints ∧
      (ex'.getState id).depth = (ex.getState id).depth)


/-- The example executor with one seed on its state and forking inhibited
globally; the solver answers unknown. -/
def seededExecutor : Executor :=
  { exampleExecutor (some Validity.Unknown) with
    seedMap := fun id => if id = 0 then some [{ assignment := 0 }] else none
    inhibitForking := true }

/-- A state is a clone of another: they agree on everything but the node of
the process tree. -/
def ExecutionState.cloneOf (s t : ExecutionState) : Prop :=
  { s with ptreeNode := t.ptreeNode } = t

/-- The address of the state that `branch` returns at index `i`: the input
state at index 0 and the states allocated in turn after it. -/
def Executor.childId (ex : Executor) (state : StateId) (i : Nat) : StateId :=
  if i = 0 then state else ex.heap.length + (i - 1)

/-- The seeds that are assigned to index `i`, in order, when seed `k` goes to
index `targets[k]`. -/
def seedShare (seeds : List SeedInfo) (targets : List Nat) (i : Nat) : List SeedInfo :=
  ((seeds.zip targets).filter fun p => p.2 = i).map Prod.fst

/-- The state of the clone loop of `branch` after `k` iterations, started
from the executor `ex` with the input state `state`. -/
def Executor.ClonesInv (ex : Executor) (state : Nat) (k : Nat)
    (r : List StateId × Executor) : Prop :=
  r.1 = state :: List.range' ex.heap.length k ∧
    r.2.heap.length = ex.heap.length + k ∧
    (∀ id : Nat, id ∈ r.1 →
      r.2.isAllocated id = true ∧ (r.2.getState id).cloneOf (ex.getState state)) ∧
    (∀ id : Nat, id < ex.heap.length → id ≠ state →
      r.2.heap.getD id none = ex.heap.getD id none) ∧
    (∀ id : Nat, id ∈ r.2.addedStates ↔
      id ∈ ex.addedStates ∨ (ex.heap.length ≤ id ∧ id < ex.heap.length + k)) ∧
    r.2.seedMap = ex.seedMap ∧ r.2.opts = ex.opts ∧ r.2.solver = ex.solver ∧
    r.2.seedEvaluate = ex.seedEvaluate ∧ r.2.stats = ex.stats ∧
    r.2.removedStates = ex.removedStates ∧ r.2.testCases = ex.testCases ∧
    r.2.theRNG.draws = ex.theRNG.draws

/-- A state is terminated: deleted, or queued for removal. -/
def Executor.isTerminated (ex : Executor) (id : StateId) : Prop :=
  ex.isAllocated id = false ∨ id ∈ ex.removedStates

/-- The example executor under only-replay-seeds, with one seed on its state
and an RNG that always draws 1. -/
def prunedExecutor : Executor :=
  { exampleExecutor (some Validity.Unknown) with
    opts := { OnlyReplaySeeds := true }
    seedMap := fun id => if id = 0 then some [{ assignment := 0 }] else none
    theRNG := { draws := fun _ => 1 } }

/-- The index `t` is a target of the seed in `branch`: the lowest index of a
condition that the seed makes true in the state `st`, or, when the seed makes
no condition true, an index drawn from the RNG. -/
def Executor.SeedTarget (ex : Executor) (st : ExecutionState) (conditions : List Expr)
    (seed : SeedInfo) (t : Nat) : Prop :=
  t < conditions.length ∧
    (∀ (i : Nat) (c : Expr), conditions[i]? = some c →
      (ex.solver.getValue st (ex.seedEvaluate seed c)).isTrue = true →
      (∀ (j : Nat) (c' : Expr), j < i → conditions[j]? = some c' →
        (ex.solver.getValue st (ex.seedEvaluate seed c')).isTrue = false) → t = i) ∧
    ((∀ (j : Nat) (c' : Expr), conditions[j]? = some c' →
        (ex.solver.getValue st (ex.seedEvaluate seed c')).isTrue = false) →
      ∃ pos, t = ex.theRNG.draws pos % 2 ^ 32 % conditions.length)

/-- The entry of the seed map for a list of seeds: no entry for no seeds. -/
def seedEntry (l : List SeedInfo) : Option (List SeedInfo) :=
  if l.isEmpty then none else some l

/-- The seeds of a state after a constraint was added to it: each seed is
kept, or patched for the constraint. -/
def SeedsPatched (c : Expr) (before after : Option (List SeedInfo)) : Prop :=
  match before with
  | none => after = none
  | some l => ∃ l', after = some l' ∧ List.Forall₂ (fun s s' => s' = s ∨ s' = s.patchSeed c) l l'

/-- An interpretation of the expressions under which the example condition
holds and its negation does not: an equation holds when its left operand is a
read. -/
def exampleModel : Expr → Prop
  | .Eq (.Read _ _) _ => True
  | _ => False

/-- The path constraints of a state hold under an interpretation. -/
def ExecutionState.satisfiedBy (s : ExecutionState) (holds : Expr → Prop) : Prop :=
  ∀ e, e ∈ s.constraints → holds e

/-- An executor whose single state has two threads of one process, each
disabled and on a wait-list. -/
def deadlockedExecutor : Executor :=
  { exampleExecutor none with
    heap := [some { threads := [{ tuid := (1, 0), enabled := false, waitingList := 1 },
      { tuid := (2, 0), enabled := false, waitingList := 2 }] }] }

/-- The positions of a thread table of `n` threads that come after position
`f` in cyclic order, `f` itself left out. -/
def cyclicAfter (n f : Nat) : List Nat :=
  (List.range (n - 1)).map fun k => (f + 1 + k) % n

/-- The fork classes recorded in the process tree, each with the state the
fork created, oldest first. -/
def PTree.forkClasses (t : PTree) : List (StateId × ForkClass) :=
  t.events.filterMap fun e =>
    match e with
    | .split _ leftData _ tag _ _ => some (leftData, tag.forkClass)
    | _ => none

/-- Whether the thread at a position of the thread table is enabled. -/
def ExecutionState.enabledAt (s : ExecutionState) (it : Nat) : Bool :=
  (s.threads.getD it {}).enabled

/-- The state of the fork loop of `schedule` after it created a child for
each of the positions `done`, started from the executor `e0` on the state
`state`: the accumulator holds the executor, the last state and the fork
class. -/
def Executor.SchedInv (e0 : Executor) (state : Nat) (inc : Bool) (done : List Nat)
    (acc : Executor × StateId × ForkClass) : Prop :=
  acc.1.heap.length = e0.heap.length + done.length ∧
    acc.2.1 = (if done.length = 0 then state else e0.heap.length + (done.length - 1)) ∧
    acc.2.2 = (if done.length = 0 then ForkClass.KLEE_FORK_SCHEDULE
      else ForkClass.KLEE_FORK_MULTI) ∧
    acc.1.isAllocated state = true ∧
    (acc.1.getState state).cloneOf (e0.getState state) ∧
    (∀ (j it : Nat), done[j]? = some it →
      acc.1.isAllocated (e0.heap.length + j) = true ∧
      ∃ node : Nat, acc.1.getState (e0.heap.length + j) =
        { e0.getState state with
          ptreeNode := node
          preemptions :=
            if inc then (e0.getState state).preemptions + 1
            else (e0.getState state).preemptions
          crtThreadIt :=
            (e0.getState state).findThread ((e0.getState state).threads.getD it {}).tuid }) ∧
    (∀ id : Nat, id < e0.heap.length → id ≠ state →
      acc.1.heap.getD id none = e0.heap.getD id none) ∧
    (∀ id : Nat, id ∈ acc.1.addedStates ↔
      id ∈ e0.addedStates ∨ (e0.heap.length ≤ id ∧ id < e0.heap.length + done.length)) ∧
    acc.1.processTree.forkClasses = e0.processTree.forkClasses ++
      (List.range done.length).map (fun j =>
        (e0.heap.length + j,
          if j = 0 then ForkClass.KLEE_FORK_SCHEDULE else ForkClass.KLEE_FORK_MULTI)) ∧
    acc.1.opts = e0.opts ∧ acc.1.stats = e0.stats ∧ acc.1.seedMap = e0.seedMap ∧
    acc.1.removedStates = e0.removedStates ∧ acc.1.testCases = e0.testCases

/-- An executor whose single state has three threads of one process: the
active first thread and the second are disabled, the third is enabled. -/
def roundRobinExecutor : Executor :=
  { exampleExecutor none with
    heap := [some { threads := [{ tuid := (1, 0), enabled := false, waitingList := 1 },
      { tuid := (2, 0), enabled := false, waitingList := 1 }, { tuid := (3, 0) }] }] }

/-- An executor whose single state has two enabled threads of one process,
the first active, with a preemption bound of one. -/
def twoThreads : Executor :=
  { exampleExecutor none with
    opts := { MaxPreemptions := 1 }
    heap := [some { threads := [{ tuid := (1, 0) }, { tuid := (2, 0) }] }] }

/-- The test cases that `terminateStateOnError` emits for an error of the
running thread of a state: the one report, unless the same error was already
emitted for the instruction and emit-all-errors is off. -/
def Executor.errorReport (ex : Executor) (state : StateId) (message suffix info : String) :
    List TestCase :=
  if ex.opts.EmitAllErrors = true ∨
      ((ex.getState state).crtThread.prevPC, message) ∉ ex.emittedErrors then
    [{ state := state
       message := some ("Error: " ++ message ++ "\n" ++
        (if (ex.instructionInfo (ex.getState state).crtThread.prevPC).1 ≠ "" then
          "File: " ++ (ex.instructionInfo (ex.getState state).crtThread.prevPC).1 ++
            "\n" ++ "Line: " ++
            toString (ex.instructionInfo (ex.getState state).crtThread.prevPC).2 ++ "\n"
          else "") ++
        "Stack: \n" ++ ex.stackDump (ex.getState state).crtThread ++
        (if info ≠ "" then "Info: \n" ++ info else ""))
       suffix := some suffix }]
  else []

/-- The seed policy refuses a seed object of `numBytes` bytes for a region of
`size` bytes: it is too short and neither extension is allowed, or too long
and truncation is not allowed. -/
def Options.refusesSeed (opts : Options) (numBytes size : Nat) : Prop :=
  (numBytes < size ∧ opts.AllowSeedExtension = false ∧ opts.ZeroSeedExtension = false) ∨
    (size < numBytes ∧ opts.AllowSeedTruncation = false)

/-- The example executor in seed mode: one seed on its state, whose next
input object is always a buffer of four bytes. -/
def seedReplayExecutor : Executor :=
  { exampleExecutor none with
    seedMap := fun id => if id = 0 then some [{ assignment := 0 }] else none
    getNextInput := fun si _ _ =>
      (some { name := "buf", numBytes := 4, bytes := [1, 2, 3, 4] }, si) }

/-- The number that a list of decimal digit characters denotes. -/
def digitsValue (l : List Char) : Nat :=
  l.foldl (fun acc c => 10 * acc + (c.toNat - 48)) 0

/-- A concrete log of two bytes: byte 0 was read by thread 3 of group 1 and
by others, byte 1 by thread 4 of group 2. -/
def exampleLog : MemoryLog :=
  { size := 2
    concreteEntries :=
      [{ threadId := 3, wgid := 1, read := true, manyRead := true },
        { threadId := 4, wgid := 2, read := true }] }

/-- A recorded write has a constant index and a constant value. -/
def UpdateNode.isConcrete (w : UpdateNode) : Bool :=
  w.index.isConstant && w.value.isConstant

/-- The recorded writes whose index is the constant `i`, in the given order. -/
def writesTo (i : Nat) (ws : List UpdateNode) : List UpdateNode :=
  ws.filter fun w =>
    match w.index.asConstant with
    | some k => k.getZExtValue == i
    | none => false

/-- The value of the last write to index `i` in a run of concrete writes
(oldest first), and `dflt` when the run has none. -/
def lastWriteTo (i : Nat) (run : List UpdateNode) (dflt : ConstantExpr) : ConstantExpr :=
  match (writesTo i run).getLast? with
  | some w => w.value.asConstant.getD dflt
  | none => dflt

/-- The value read at index `i` from an update list under an evaluation of
expressions: that of the newest write whose index evaluates to `i`, else the
cell of the backing array (0 where the array has no cell). -/
def UpdateList.readAt (eval : Expr → Nat) (ul : UpdateList) (i : Nat) : Nat :=
  match ul.head.find? fun w => eval w.index == i with
  | some w => eval w.value
  | none =>
    match ul.root with
    | some a => (a.constantValues.getD i { value := 0, width := 8 }).value
    | none => 0

/-- The contents of an array after the writes were replayed, oldest first,
under an evaluation of expressions. -/
def replayWrites (eval : Expr → Nat) (ws : List UpdateNode) (init : Nat → Nat) : Nat → Nat :=
  ws.foldl (fun arr w => fun i => if i = eval w.index then eval w.value else arr i) init

/-- A two-byte object without backing array whose recorded writes are, oldest
first, the constant 7 at index 1 and the symbolic byte at a symbolic index. -/
def writtenObject : ObjectState :=
  { ObjectState.new true { size := 2 } fun _ => 0 with
    updates := .mk none
      [.mk symbolicByte symbolicByte,
        .mk (.Constant { value := 1, width := 32 }) (.Constant { value := 7, width := 8 })] }

/-- An evaluation of expressions: a constant has its value, everything else
is 0. -/
def constantEval (e : Expr) : Nat :=
  match e.asConstant with
  | some c => c.value
  | none => 0

/-- The value of the destination register of an instruction in the innermost
frame of the running thread of a state. -/
def ExecutionState.destCell (s : ExecutionState) (target : KInstruction) : Option Expr :=
  match s.crtThread.stack.getLast? with
  | some sf => sf.locals.getD target.dest none
  | none => none

/-- An executor whose single state runs one thread with one frame of two
empty registers. -/
def forkingExecutor : Executor :=
  { exampleExecutor none with
    heap := [some { threads := [{ tuid := (1, 0), stack := [{ locals := [none, none] }] }] }] }

/-- An executor with fork-on-schedule set whose single state has three enabled
threads of one process, the first active. -/
def threeThreads : Executor :=
  { exampleExecutor none with
    opts := { ForkOnSchedule := true }
    heap := [some { threads := [{ tuid := (1, 0) }, { tuid := (2, 0) }, { tuid := (3, 0) }] }] }

/-- The value of an expression under an interpretation `ρ` of its reads.
Bit vectors are natural numbers; a comparison is 1 or 0. -/
def Expr.eval (ρ : Expr → Nat) : Expr → Nat
  | .Constant c => c.value
  | .Read ul i => ρ (.Read ul i)
  | .Select c t f => if Expr.eval ρ c ≠ 0 then Expr.eval ρ t else Expr.eval ρ f
  | .Concat l r => Expr.eval ρ l * 2 ^ r.getWidth + Expr.eval ρ r
  | .Extract e o w => Expr.eval ρ e / 2 ^ o % 2 ^ w
  | .ZExt e _ => Expr.eval ρ e
  | .Add l r => (Expr.eval ρ l + Expr.eval ρ r) % 2 ^ l.getWidth
  | .Eq l r => if Expr.eval ρ l = Expr.eval ρ r then 1 else 0
  | .Ne l r => if Expr.eval ρ l = Expr.eval ρ r then 0 else 1
  | .And l r => Expr.eval ρ l &&& Expr.eval ρ r
  | .Or l r => Expr.eval ρ l ||| Expr.eval ρ r

/-- The value of an expression without symbolic inputs, to a nesting depth of
`fuel`: a read goes through the update list, newest write first, and then to
the constant array at its root. -/
def Expr.evalClosed : Nat → Expr → Nat
  | 0, _ => 0
  | fuel + 1, e =>
    match e with
    | .Constant c => c.value
    | .Read ul i =>
      let idx := Expr.evalClosed fuel i
      match ul.head.find? fun w => Expr.evalClosed fuel w.index == idx with
      | some w => Expr.evalClosed fuel w.value
      | none =>
        match ul.root with
        | some a => (a.constantValues.getD idx { value := 0, width := a.range }).value
        | none => 0
    | .Select c t f =>
      if Expr.evalClosed fuel c ≠ 0 then Expr.evalClosed fuel t else Expr.evalClosed fuel f
    | .Concat l r => Expr.evalClosed fuel l * 2 ^ r.getWidth + Expr.evalClosed fuel r
    | .Extract e o w => Expr.evalClosed fuel e / 2 ^ o % 2 ^ w
    | .ZExt e _ => Expr.evalClosed fuel e
    | .Add l r => (Expr.evalClosed fuel l + Expr.evalClosed fuel r) % 2 ^ l.getWidth
    | .Eq l r => if Expr.evalClosed fuel l = Expr.evalClosed fuel r then 1 else 0
    | .Ne l r => if Expr.evalClosed fuel l = Expr.evalClosed fuel r then 0 else 1
    | .And l r => Expr.evalClosed fuel l &&& Expr.evalClosed fuel r
    | .Or l r => Expr.evalClosed fuel l ||| Expr.evalClosed fuel r

/-- A solver that is exact on queries without symbolic inputs of nesting depth
up to 16: such a query may be true exactly when its value is not 0. -/
def exactSolver : TimingSolver :=
  { silentSolver with mayBeTrue := fun _ e => decide (Expr.evalClosed 16 e ≠ 0) }

/-- A concrete log of one byte that thread 1 of group 1 wrote. -/
def writtenLog : MemoryLog :=
  { size := 1, concreteEntries := [{ threadId := 1, wgid := 1, write := true }] }

/-- The pointers of an object in memory are valid in a heap. -/
def ObjectHeap.Valid (h : ObjectHeap) (r : ObjectStateRef) : Prop :=
  r.concreteStore < h.stores.length ∧
    (∀ a, r.concreteMask = some a → a < h.masks.length) ∧
    (∀ a, r.flushMask = some a → a < h.masks.length) ∧
    (∀ a, r.knownSymbolics = some a → a < h.symbolics.length) ∧
    (∀ a b, r.concreteMask = some a → r.flushMask = some b → a ≠ b)

/-- Two objects in memory share no buffer. -/
def ObjectHeap.Separate (h : ObjectHeap) (r c : ObjectStateRef) : Prop :=
  h.Valid r ∧ h.Valid c ∧ r.concreteStore ≠ c.concreteStore ∧
    (∀ a b, (r.concreteMask = some a ∨ r.flushMask = some a) →
      (c.concreteMask = some b ∨ c.flushMask = some b) → a ≠ b) ∧
    (∀ a b, r.knownSymbolics = some a → c.knownSymbolics = some b → a ≠ b)

/-- The four-byte example object laid out in memory. -/
def exampleHeap : ObjectHeap × ObjectStateRef :=
  ObjectHeap.store { stores := [fun _ => 0] }
    { concreteStore := 0, fields := ObjectState.new true { size := 4 } fun _ => 0 }
    exampleObject

/-- A write of one byte to an object state: `write8(unsigned, uint8_t)`,
`write8(unsigned, ref<Expr>)` or `write8(ref<Expr>, ref<Expr>)`. -/
inductive ObjectWrite where
  | constant (offset value : Nat)
  | value (offset : Nat) (value : Expr)
  | symbolic (offset value : Expr)

/-- One write to an object in memory. -/
def ObjectHeap.write (h : ObjectHeap) (r : ObjectStateRef) (state : Option ExecutionState)
    (solver : TimingSolver) : ObjectWrite → Option (ObjectHeap × ObjectStateRef)
  | .constant offset value => some (h.write8 r offset value state solver)
  | .value offset value => some (h.write8Value r offset value state solver)
  | .symbolic offset value => h.write8Expr r offset value state solver

/-- One write to an object state, by value. -/
def ObjectState.writeByte (os : ObjectState) (state : Option ExecutionState)
    (solver : TimingSolver) : ObjectWrite → Option ObjectState
  | .constant offset value => some (os.write8 offset value state solver)
  | .value offset value => some (os.write8Value offset value state solver)
  | .symbolic offset value => os.write8Expr offset value state solver

/-- A sequence of writes to an object state, first to last. -/
def ObjectState.writeSequence (os : ObjectState) (state : Option ExecutionState)
    (solver : TimingSolver) : List ObjectWrite → Option ObjectState
  | [] => some os
  | w :: ws =>
    match os.writeByte state solver w with
    | none => none
    | some os1 => ObjectState.writeSequence os1 state solver ws

/-- The writes of an interleaved sequence that go to the first object
(`true`) or to the second (`false`). -/
def writesOn (first : Bool) (ws : List (Bool × ObjectWrite)) : List ObjectWrite :=
  (ws.filter fun w => w.1 == first).map Prod.snd

/-- Writes to two objects in memory in any order, first to last; the flag of
a write is `true` for the first object and `false` for the second. -/
def ObjectHeap.writesBoth (h : ObjectHeap) (r c : ObjectStateRef)
    (state : Option ExecutionState) (solver : TimingSolver) :
    List (Bool × ObjectWrite) → Option (ObjectHeap × ObjectStateRef × ObjectStateRef)
  | [] => some (h, r, c)
  | (true, w) :: ws =>
    match h.write r state solver w with
    | none => none
    | some p => ObjectHeap.writesBoth p.1 p.2 c state solver ws
  | (false, w) :: ws =>
    match h.write c state solver w with
    | none => none
    | some p => ObjectHeap.writesBoth p.1 r p.2 state solver ws

/-- The seed replay executor with seed extension allowed. -/
def seedExtensionExecutor : Executor :=
  { seedReplayExecutor with opts := { AllowSeedExtension := true } }
/-! ## Memory access log: lemmas -/

theorem vectorResize_getD {α : Type} (xs : List α) (n : Nat) (d : α) (i : Nat)
    (h : xs.length ≤ n) : (vectorResize xs n d).getD i d = xs.getD i d := by
  unfold vectorResize
  rw [List.take_of_length_le h]
  by_cases hi : i < xs.length
  · simp [List.getD_eq_getElem?_getD, List.getElem?_append_left hi]
  · have hi2 : xs.length ≤ i := Nat.le_of_not_lt hi
    simp only [List.getD_eq_getElem?_getD, List.getElem?_append_right hi2]
    rw [List.getElem?_eq_none hi2]
    by_cases hj : i - xs.length < n - xs.length
    · simp [List.getElem?_replicate, hj]
    · simp [List.getElem?_replicate, hj]

theorem MemoryLog.grow_getD (entries : List MemoryLogEntry) (b i : Nat) :
    (MemoryLog.grow entries b).getD i {} = entries.getD i {} := by
  unfold MemoryLog.grow
  split
  · rename_i h
    exact vectorResize_getD _ _ _ _ (Nat.le_of_lt h)
  · rfl

theorem MemoryLog.grow_length (entries : List MemoryLogEntry) (b : Nat)
    (hb : b + 1 < 2 ^ 32) : b < (MemoryLog.grow entries b).length := by
  unfold MemoryLog.grow
  rw [Nat.mod_eq_of_lt hb]
  split
  · rename_i h
    unfold vectorResize
    rw [List.take_of_length_le (Nat.le_of_lt h)]
    simp
    omega
  · omega

theorem MemoryLog.logWrite_concrete (log : MemoryLog) (st : ExecutionState)
    (solver : TimingSolver) (b : Nat) (r : MemoryRace) (hsym : log.updates = none)
    (ht : st.crtThread.getTid ≠ 0) :
    log.logWrite (some st) solver b r =
      if (log.entry b).writeRace st.crtThread.getTid st.crtThread.getWorkgroupId then
        (true,
          { raceType := if (log.entry b).read then RaceType.RT_readwrite
              else RaceType.RT_writewrite,
            op1ThreadId := (log.entry b).threadId, op2ThreadId := st.crtThread.getTid },
          { log with concreteEntries := MemoryLog.grow log.concreteEntries b })
      else
        (false, r,
          { log with concreteEntries := (MemoryLog.grow log.concreteEntries b).set b ({
              log.entry b with threadId := st.crtThread.getTid,
                               wgid := st.crtThread.getWorkgroupId, write := true }) }) := by
  simp only [MemoryLog.logWrite, ht, if_false, MemoryLog.isSymbolic, hsym, Option.isSome_none,
    MemoryLog.grow_getD, MemoryLog.entry, MemoryLogEntry.writeRace]
  rfl

theorem MemoryLogEntry.afterRead_eq (e : MemoryLogEntry) (threadId wgid : Nat) :
    ({ (if e.read then
          (if (if e.threadId ≠ 0 ∧ e.threadId ≠ threadId then
                ({ e with manyRead := true } : MemoryLogEntry) else e).wgid ≠ wgid then
            { (if e.threadId ≠ 0 ∧ e.threadId ≠ threadId then
                ({ e with manyRead := true } : MemoryLogEntry) else e) with wgManyRead := true }
          else (if e.threadId ≠ 0 ∧ e.threadId ≠ threadId then
                ({ e with manyRead := true } : MemoryLogEntry) else e))
        else e) with threadId := threadId, wgid := wgid, read := true } : MemoryLogEntry) =
      e.afterRead threadId wgid := by
  obtain ⟨tid, wg, rd, wr, mr, wmr⟩ := e
  unfold MemoryLogEntry.afterRead
  cases rd
  · simp
  · by_cases h1 : tid ≠ 0 ∧ tid ≠ threadId <;> by_cases h2 : wg ≠ wgid <;> simp [h1, h2]

theorem MemoryLog.logRead_concrete (log : MemoryLog) (st : ExecutionState)
    (solver : TimingSolver) (b : Nat) (r : MemoryRace) (hsym : log.updates = none)
    (ht : st.crtThread.getTid ≠ 0) :
    log.logRead (some st) solver b r =
      if (log.entry b).readRace st.crtThread.getTid st.crtThread.getWorkgroupId then
        (true,
          { raceType := RaceType.RT_readwrite, op1ThreadId := st.crtThread.getTid,
            op2ThreadId := (log.entry b).threadId },
          { log with concreteEntries := MemoryLog.grow log.concreteEntries b })
      else
        (false, r,
          { log with concreteEntries := (MemoryLog.grow log.concreteEntries b).set b (
              (log.entry b).afterRead st.crtThread.getTid st.crtThread.getWorkgroupId) }) := by
  simp only [MemoryLog.logRead, ht, if_false, MemoryLog.isSymbolic, hsym, Option.isSome_none,
    MemoryLog.grow_getD, MemoryLog.entry, MemoryLogEntry.readRace, Bool.false_eq_true]
  split
  · rfl
  · rw [← MemoryLogEntry.afterRead_eq]


theorem MemoryLog.entry_set (log : MemoryLog) (b i : Nat) (e : MemoryLogEntry)
    (hb : b + 1 < 2 ^ 32) :
    MemoryLog.entry
        { log with concreteEntries := (MemoryLog.grow log.concreteEntries b).set b e } i =
      if i = b then e else log.entry i := by
  have hlen := MemoryLog.grow_length log.concreteEntries b hb
  unfold MemoryLog.entry
  by_cases h : i = b
  · subst h
    simp [List.getD_eq_getElem?_getD, List.getElem?_set_self hlen]
  · have h2 : b ≠ i := fun hh => h hh.symm
    simp only [List.getD_eq_getElem?_getD, List.getElem?_set_ne h2, if_neg h]
    have := MemoryLog.grow_getD log.concreteEntries b i
    simpa [List.getD_eq_getElem?_getD] using this

theorem MemoryLog.entry_grow (log : MemoryLog) (b i : Nat) :
    MemoryLog.entry { log with concreteEntries := MemoryLog.grow log.concreteEntries b } i =
      log.entry i :=
  MemoryLog.grow_getD log.concreteEntries b i

/-- On a concrete log a write by a non-zero thread returns the write flag of
the recorded entry, keeps the log concrete, and records the writer when no
race is flagged. -/
theorem MemoryLog.logWrite_spec (log : MemoryLog) (st : ExecutionState)
    (solver : TimingSolver) (b : Nat) (r : MemoryRace) (hsym : log.updates = none)
    (ht : st.crtThread.getTid ≠ 0) (hb : b + 1 < 2 ^ 32) :
    (log.logWrite (some st) solver b r).1 =
        (log.entry b).writeRace st.crtThread.getTid st.crtThread.getWorkgroupId ∧
      (log.logWrite (some st) solver b r).2.2.updates = none ∧
      (∀ i, i ≠ b → (log.logWrite (some st) solver b r).2.2.entry i = log.entry i) ∧
      (log.logWrite (some st) solver b r).2.2.entry b =
        if (log.entry b).writeRace st.crtThread.getTid st.crtThread.getWorkgroupId then
          log.entry b
        else { log.entry b with threadId := st.crtThread.getTid,
                                wgid := st.crtThread.getWorkgroupId, write := true } := by
  rw [MemoryLog.logWrite_concrete log st solver b r hsym ht]
  split
  · rename_i h
    exact ⟨h.symm, hsym, fun i _ => MemoryLog.entry_grow log b i, MemoryLog.entry_grow log b b⟩
  · rename_i h
    refine ⟨by simp [h], hsym, fun i hi => ?_, ?_⟩
    · simp only [MemoryLog.entry_set log b i _ hb, if_neg hi]
    · simp only [MemoryLog.entry_set log b b _ hb, if_true]

/-- On a concrete log a read by a non-zero thread returns the read flag of the
recorded entry, keeps the log concrete, and records the reader when no race is
flagged. -/
theorem MemoryLog.logRead_spec (log : MemoryLog) (st : ExecutionState)
    (solver : TimingSolver) (b : Nat) (r : MemoryRace) (hsym : log.updates = none)
    (ht : st.crtThread.getTid ≠ 0) (hb : b + 1 < 2 ^ 32) :
    (log.logRead (some st) solver b r).1 =
        (log.entry b).readRace st.crtThread.getTid st.crtThread.getWorkgroupId ∧
      (log.logRead (some st) solver b r).2.2.updates = none ∧
      (∀ i, i ≠ b → (log.logRead (some st) solver b r).2.2.entry i = log.entry i) ∧
      (log.logRead (some st) solver b r).2.2.entry b =
        if (log.entry b).readRace st.crtThread.getTid st.crtThread.getWorkgroupId then
          log.entry b
        else (log.entry b).afterRead st.crtThread.getTid st.crtThread.getWorkgroupId := by
  rw [MemoryLog.logRead_concrete log st solver b r hsym ht]
  split
  · rename_i h
    exact ⟨h.symm, hsym, fun i _ => MemoryLog.entry_grow log b i, MemoryLog.entry_grow log b b⟩
  · rename_i h
    refine ⟨by simp [h], hsym, fun i hi => ?_, ?_⟩
    · simp only [MemoryLog.entry_set log b i _ hb, if_neg hi]
    · simp only [MemoryLog.entry_set log b b _ hb, if_true]

theorem MemoryLog.isSymbolic_false (log : MemoryLog) (h : log.isSymbolic = false) :
    log.updates = none := by
  unfold MemoryLog.isSymbolic at h
  cases hu : log.updates with
  | none => rfl
  | some u => rw [hu] at h; simp at h

theorem MemoryLog.step_frame (log : MemoryLog) (solver : TimingSolver) (a : Access) (i : Nat)
    (hsym : log.updates = none) (hi : a.offset ≠ i) :
    (log.step solver a).updates = none ∧ (log.step solver a).entry i = log.entry i := by
  have hset : ∀ e : MemoryLogEntry,
      MemoryLog.entry
        { log with concreteEntries := (MemoryLog.grow log.concreteEntries a.offset).set a.offset e }
        i = log.entry i := by
    intro e
    unfold MemoryLog.entry
    simp only [List.getD_eq_getElem?_getD, List.getElem?_set_ne hi]
    have := MemoryLog.grow_getD log.concreteEntries a.offset i
    simpa [List.getD_eq_getElem?_getD] using this
  unfold MemoryLog.step
  by_cases h0 : a.state.crtThread.getTid = 0
  · cases a.isWrite <;> simp [MemoryLog.logWrite, MemoryLog.logRead, h0, hsym]
  · cases a.isWrite
    · simp only [Bool.false_eq_true, if_false]
      rw [MemoryLog.logRead_concrete log a.state solver a.offset _ hsym h0]
      split
      · exact ⟨hsym, MemoryLog.entry_grow log a.offset i⟩
      · exact ⟨hsym, hset _⟩
    · simp only [if_true]
      rw [MemoryLog.logWrite_concrete log a.state solver a.offset _ hsym h0]
      split
      · exact ⟨hsym, MemoryLog.entry_grow log a.offset i⟩
      · exact ⟨hsym, hset _⟩

theorem MemoryLogEntry.onlyBy_writeRace (e : MemoryLogEntry) (T g : Nat) (h : e.onlyBy T g) :
    e.writeRace T g = false := by
  rcases h with h | ⟨h1, h2, h3, h4⟩
  · subst h; rfl
  · simp [MemoryLogEntry.writeRace, MemoryLogEntry.matches, h1, h2, h3, h4]

theorem MemoryLogEntry.onlyBy_readRace (e : MemoryLogEntry) (T g : Nat) (h : e.onlyBy T g) :
    e.readRace T g = false := by
  rcases h with h | ⟨h1, h2, _, _⟩
  · subst h; rfl
  · simp [MemoryLogEntry.readRace, MemoryLogEntry.matches, h1, h2]

theorem MemoryLogEntry.onlyBy_afterRead (e : MemoryLogEntry) (T g : Nat) (h : e.onlyBy T g) :
    (e.afterRead T g).onlyBy T g := by
  right
  rcases h with h | ⟨h1, h2, h3, h4⟩
  · subst h; simp [MemoryLogEntry.afterRead]
  · simp [MemoryLogEntry.afterRead, h1, h2, h3, h4]

theorem MemoryLogEntry.onlyBy_afterWrite (e : MemoryLogEntry) (T g : Nat) (h : e.onlyBy T g) :
    MemoryLogEntry.onlyBy { e with threadId := T, wgid := g, write := true } T g := by
  right
  rcases h with h | ⟨_, _, h3, h4⟩
  · subst h; simp
  · simp [h3, h4]

theorem MemoryLog.step_onlyBy (log : MemoryLog) (solver : TimingSolver) (a : Access)
    (T g b : Nat) (hb : b + 1 < 2 ^ 32) (hsym : log.updates = none)
    (hgood : (log.entry b).onlyBy T g)
    (ha : a.offset = b → a.state.crtThread.getTid = 0 ∨
      (a.state.crtThread.getTid = T ∧ a.state.crtThread.getWorkgroupId = g)) :
    (log.step solver a).updates = none ∧ ((log.step solver a).entry b).onlyBy T g := by
  by_cases hoff : a.offset = b
  · by_cases h0 : a.state.crtThread.getTid = 0
    · unfold MemoryLog.step
      cases a.isWrite <;> simp [MemoryLog.logWrite, MemoryLog.logRead, h0, hsym, hgood]
    · rcases ha hoff with h | ⟨hT, hg⟩
      · exact absurd h h0
      · have hb2 : a.offset + 1 < 2 ^ 32 := by rw [hoff]; exact hb
        unfold MemoryLog.step
        cases a.isWrite
        · simp only [Bool.false_eq_true, if_false]
          obtain ⟨_, hu, _, he⟩ := MemoryLog.logRead_spec log a.state solver a.offset {} hsym h0 hb2
          refine ⟨hu, ?_⟩
          rw [← hoff, he, hT, hg, hoff, MemoryLogEntry.onlyBy_readRace _ _ _ hgood]
          exact MemoryLogEntry.onlyBy_afterRead _ _ _ hgood
        · simp only [if_true]
          obtain ⟨_, hu, _, he⟩ := MemoryLog.logWrite_spec log a.state solver a.offset {} hsym h0 hb2
          refine ⟨hu, ?_⟩
          rw [← hoff, he, hT, hg, hoff, MemoryLogEntry.onlyBy_writeRace _ _ _ hgood]
          exact MemoryLogEntry.onlyBy_afterWrite _ _ _ hgood
  · obtain ⟨hu, he⟩ := MemoryLog.step_frame log solver a b hsym hoff
    exact ⟨hu, by rw [he]; exact hgood⟩

theorem MemoryLog.replay_onlyBy (solver : TimingSolver) (T g b : Nat) (hb : b + 1 < 2 ^ 32)
    (history : List Access) :
    ∀ log : MemoryLog, log.updates = none → (log.entry b).onlyBy T g →
      (∀ a ∈ history, a.offset = b → a.state.crtThread.getTid = 0 ∨
        (a.state.crtThread.getTid = T ∧ a.state.crtThread.getWorkgroupId = g)) →
      (log.replay solver history).updates = none ∧
        ((log.replay solver history).entry b).onlyBy T g := by
  induction history with
  | nil => intro log hsym hgood _; exact ⟨hsym, hgood⟩
  | cons a rest ih =>
    intro log hsym hgood hall
    obtain ⟨hu, hg⟩ := MemoryLog.step_onlyBy log solver a T g b hb hsym hgood
      (hall a (List.mem_cons_self a rest))
    exact ih (log.step solver a) hu hg (fun x hx => hall x (List.mem_cons_of_mem a hx))

/-! ## Memory access log: race detection results -/

/-- C4: race detector soundness on the concrete path.  For a concrete log, a
byte `b` with no recorded access and two states whose running threads have
different non-zero ids (with arbitrary workgroup ids), `logWrite` by the first
at `b` returns false and the following `logRead` by the second at `b` returns
true with race type read/write. -/
theorem MemoryLog.write_then_read_is_race (log : MemoryLog) (st1 st2 : ExecutionState)
    (solver : TimingSolver) (b : Nat) (r1 r2 : MemoryRace)
    (hsym : log.isSymbolic = false) (hfresh : log.entry b = {}) (hb : b + 1 < 2 ^ 32)
    (h1 : st1.crtThread.getTid ≠ 0) (h2 : st2.crtThread.getTid ≠ 0)
    (hne : st1.crtThread.getTid ≠ st2.crtThread.getTid) :
    (log.logWrite (some st1) solver b r1).1 = false ∧
      ((log.logWrite (some st1) solver b r1).2.2.logRead (some st2) solver b r2).1 = true ∧
      ((log.logWrite (some st1) solver b r1).2.2.logRead (some st2) solver b r2).2.1.raceType =
        RaceType.RT_readwrite := by
  have hu := MemoryLog.isSymbolic_false log hsym
  obtain ⟨hf, hu1, _, he⟩ := MemoryLog.logWrite_spec log st1 solver b r1 hu h1 hb
  have hw : (log.entry b).writeRace st1.crtThread.getTid st1.crtThread.getWorkgroupId = false := by
    rw [hfresh]; rfl
  rw [hw] at hf he
  simp only [Bool.false_eq_true, if_false] at he
  have hrace : ((log.logWrite (some st1) solver b r1).2.2.entry b).readRace
      st2.crtThread.getTid st2.crtThread.getWorkgroupId = true := by
    rw [he]
    simp [MemoryLogEntry.readRace, MemoryLogEntry.matches, hne, h1]
  refine ⟨hf, ?_, ?_⟩
  · rw [(MemoryLog.logRead_spec _ st2 solver b r2 hu1 h2 hb).1, hrace]
  · rw [MemoryLog.logRead_concrete _ st2 solver b r2 hu1 h2, if_pos hrace]

/-- Witness of C4: thread 1 writes byte 0 of a fresh log of four entries and
thread 2, of the same workgroup, reads it. -/
theorem MemoryLog.write_then_read_is_race_witness :
    ((MemoryLog.new 4).logWrite (some (threadState 1 0)) silentSolver 0 {}).1 = false ∧
      (((MemoryLog.new 4).logWrite (some (threadState 1 0)) silentSolver 0 {}).2.2.logRead
        (some (threadState 2 0)) silentSolver 0 {}).1 = true ∧
      (((MemoryLog.new 4).logWrite (some (threadState 1 0)) silentSolver 0 {}).2.2.logRead
        (some (threadState 2 0)) silentSolver 0 {}).2.1.raceType = RaceType.RT_readwrite :=
  MemoryLog.write_then_read_is_race (MemoryLog.new 4) (threadState 1 0) (threadState 2 0)
    silentSolver 0 {} {} rfl rfl (by decide) (by decide) (by decide) (by decide)

/-- C5: no false race on repeated writes.  On a concrete log in which byte `b`
was fresh and has since been accessed only by thread `T` in workgroup `g` (or
by thread 0), whatever other threads did at other bytes, two consecutive
`logWrite` calls at `b` by a state running thread `T` (non-zero) in workgroup
`g` both return false. -/
theorem MemoryLog.repeated_write_is_no_race (log : MemoryLog) (solver : TimingSolver)
    (history : List Access) (st : ExecutionState) (b : Nat) (r1 r2 : MemoryRace)
    (hsym : log.isSymbolic = false) (hfresh : log.entry b = {}) (hb : b + 1 < 2 ^ 32)
    (hT : st.crtThread.getTid ≠ 0)
    (hhist : ∀ a ∈ history, a.offset = b → a.state.crtThread.getTid = 0 ∨
      (a.state.crtThread.getTid = st.crtThread.getTid ∧
        a.state.crtThread.getWorkgroupId = st.crtThread.getWorkgroupId)) :
    ((log.replay solver history).logWrite (some st) solver b r1).1 = false ∧
      (((log.replay solver history).logWrite (some st) solver b r1).2.2.logWrite
        (some st) solver b r2).1 = false := by
  have hu := MemoryLog.isSymbolic_false log hsym
  obtain ⟨hu0, hg0⟩ := MemoryLog.replay_onlyBy solver st.crtThread.getTid
    st.crtThread.getWorkgroupId b hb history log hu (Or.inl hfresh) hhist
  obtain ⟨hf, hu1, _, he⟩ :=
    MemoryLog.logWrite_spec (log.replay solver history) st solver b r1 hu0 hT hb
  have hw := MemoryLogEntry.onlyBy_writeRace _ _ _ hg0
  rw [hw] at hf he
  simp only [Bool.false_eq_true, if_false] at he
  refine ⟨hf, ?_⟩
  rw [(MemoryLog.logWrite_spec _ st solver b r2 hu1 hT hb).1, he]
  exact MemoryLogEntry.onlyBy_writeRace _ _ _ (MemoryLogEntry.onlyBy_afterWrite _ _ _ hg0)

/-- Witness of C5: thread 3 of workgroup 1 has read byte 2 while thread 5 wrote
byte 0; thread 3 then writes byte 2 twice. -/
theorem MemoryLog.repeated_write_is_no_race_witness :
    (((MemoryLog.new 4).replay silentSolver
        [⟨threadState 3 1, false, 2⟩, ⟨threadState 5 0, true, 0⟩]).logWrite
        (some (threadState 3 1)) silentSolver 2 {}).1 = false ∧
      ((((MemoryLog.new 4).replay silentSolver
        [⟨threadState 3 1, false, 2⟩, ⟨threadState 5 0, true, 0⟩]).logWrite
        (some (threadState 3 1)) silentSolver 2 {}).2.2.logWrite
        (some (threadState 3 1)) silentSolver 2 {}).1 = false :=
  MemoryLog.repeated_write_is_no_race (MemoryLog.new 4) silentSolver
    [⟨threadState 3 1, false, 2⟩, ⟨threadState 5 0, true, 0⟩] (threadState 3 1) 2 {} {}
    rfl rfl (by decide) (by decide) (by decide)

/-- C6: thread 0 is exempt from race accounting.  For every log, concrete or
symbolic, every concrete or expression offset and both access kinds, an access
made while the running thread has id 0 returns false and leaves the log and
the race record as they were; hence any later access sees the same log as if
the thread-0 access had not happened. -/
theorem MemoryLog.thread_zero_is_exempt (log : MemoryLog) (st : ExecutionState)
    (solver : TimingSolver) (offset : Nat) (symOffset : Expr) (raceInfo : MemoryRace)
    (h0 : st.crtThread.getTid = 0) :
    log.logRead (some st) solver offset raceInfo = (false, raceInfo, log) ∧
      log.logWrite (some st) solver offset raceInfo = (false, raceInfo, log) ∧
      log.logReadExpr (some st) solver symOffset raceInfo = (false, raceInfo, log) ∧
      log.logWriteExpr (some st) solver symOffset raceInfo = (false, raceInfo, log) ∧
      (∀ (later : Option ExecutionState) (o : Nat) (r : MemoryRace),
        (log.logRead (some st) solver offset raceInfo).2.2.logRead later solver o r =
            log.logRead later solver o r ∧
          (log.logRead (some st) solver offset raceInfo).2.2.logWrite later solver o r =
            log.logWrite later solver o r ∧
          (log.logWrite (some st) solver offset raceInfo).2.2.logRead later solver o r =
            log.logRead later solver o r ∧
          (log.logWrite (some st) solver offset raceInfo).2.2.logWrite later solver o r =
            log.logWrite later solver o r) := by
  have hr : log.logRead (some st) solver offset raceInfo = (false, raceInfo, log) := by
    simp [MemoryLog.logRead, h0]
  have hw : log.logWrite (some st) solver offset raceInfo = (false, raceInfo, log) := by
    simp [MemoryLog.logWrite, h0]
  refine ⟨hr, hw, ?_, ?_, ?_⟩
  · simp [MemoryLog.logReadExpr, h0]
  · simp [MemoryLog.logWriteExpr, h0]
  · intro later o r
    rw [hr, hw]
    exact ⟨rfl, rfl, rfl, rfl⟩

/-- Witness of C6: thread 0 reads byte 1 of a log on which thread 1 has
written byte 1. -/
theorem MemoryLog.thread_zero_is_exempt_witness :
    (((MemoryLog.new 4).logWrite (some (threadState 1 0)) silentSolver 1 {}).2.2.logRead
        (some (threadState 0 0)) silentSolver 1 {}).1 = false :=
  congrArg (fun p : Bool × MemoryRace × MemoryLog => p.1)
    (MemoryLog.thread_zero_is_exempt
      ((MemoryLog.new 4).logWrite (some (threadState 1 0)) silentSolver 1 {}).2.2
      (threadState 0 0) silentSolver 1 (Expr.Read (.mk none []) (.Constant ⟨0, 32⟩)) {} rfl).1

/-- C7: many-readers marking.  For a concrete log, a byte `b` with no recorded
access and two states with different non-zero thread ids, `logRead` by the
first and then by the second at `b` both return false, and a following
`logWrite` at `b` by any state with a non-zero thread id, the two readers
included, returns true with race type read/write. -/
theorem MemoryLog.write_after_two_readers_is_race (log : MemoryLog)
    (st1 st2 st3 : ExecutionState) (solver : TimingSolver) (b : Nat) (r1 r2 r3 : MemoryRace)
    (hsym : log.isSymbolic = false) (hfresh : log.entry b = {}) (hb : b + 1 < 2 ^ 32)
    (h1 : st1.crtThread.getTid ≠ 0) (h2 : st2.crtThread.getTid ≠ 0)
    (h3 : st3.crtThread.getTid ≠ 0) (hne : st1.crtThread.getTid ≠ st2.crtThread.getTid) :
    (log.logRead (some st1) solver b r1).1 = false ∧
      ((log.logRead (some st1) solver b r1).2.2.logRead (some st2) solver b r2).1 = false ∧
      (((log.logRead (some st1) solver b r1).2.2.logRead (some st2) solver b r2).2.2.logWrite
        (some st3) solver b r3).1 = true ∧
      (((log.logRead (some st1) solver b r1).2.2.logRead (some st2) solver b r2).2.2.logWrite
        (some st3) solver b r3).2.1.raceType = RaceType.RT_readwrite := by
  have hu := MemoryLog.isSymbolic_false log hsym
  obtain ⟨hf1, hu1, _, he1⟩ := MemoryLog.logRead_spec log st1 solver b r1 hu h1 hb
  have hr1 : (log.entry b).readRace st1.crtThread.getTid st1.crtThread.getWorkgroupId = false := by
    rw [hfresh]; rfl
  rw [hr1] at hf1 he1
  simp only [Bool.false_eq_true, if_false] at he1
  obtain ⟨hf2, hu2, _, he2⟩ := MemoryLog.logRead_spec _ st2 solver b r2 hu1 h2 hb
  have hr2 : ((log.logRead (some st1) solver b r1).2.2.entry b).readRace
      st2.crtThread.getTid st2.crtThread.getWorkgroupId = false := by
    rw [he1, hfresh]; rfl
  rw [hr2] at hf2 he2
  simp only [Bool.false_eq_true, if_false] at he2
  have hmany : (((log.logRead (some st1) solver b r1).2.2.logRead (some st2) solver b
      r2).2.2.entry b).manyRead = true := by
    rw [he2, he1, hfresh]
    simp [MemoryLogEntry.afterRead, h1, hne]
  have hread : (((log.logRead (some st1) solver b r1).2.2.logRead (some st2) solver b
      r2).2.2.entry b).read = true := by
    rw [he2]; rfl
  have hrace : (((log.logRead (some st1) solver b r1).2.2.logRead (some st2) solver b
      r2).2.2.entry b).writeRace st3.crtThread.getTid st3.crtThread.getWorkgroupId = true := by
    simp [MemoryLogEntry.writeRace, hmany]
  refine ⟨hf1, hf2, ?_, ?_⟩
  · rw [(MemoryLog.logWrite_spec _ st3 solver b r3 hu2 h3 hb).1, hrace]
  · rw [MemoryLog.logWrite_concrete _ st3 solver b r3 hu2 h3, if_pos hrace]
    simp only [hread, if_true]

/-- Witness of C7: threads 1 and 2 read byte 0 of a fresh log, then thread 1
writes it. -/
theorem MemoryLog.write_after_two_readers_is_race_witness :
    ((((MemoryLog.new 4).logRead (some (threadState 1 0)) silentSolver 0 {}).2.2.logRead
        (some (threadState 2 0)) silentSolver 0 {}).2.2.logWrite
        (some (threadState 1 0)) silentSolver 0 {}).1 = true :=
  (MemoryLog.write_after_two_readers_is_race (MemoryLog.new 4) (threadState 1 0)
    (threadState 2 0) (threadState 1 0) silentSolver 0 {} {} {} rfl rfl (by decide)
    (by decide) (by decide) (by decide) (by decide)).2.2.1

/-! ## Object states: status bits after each operation -/

theorem ObjectState.write8_status (os : ObjectState) (o v : Nat) (st : Option ExecutionState)
    (sol : TimingSolver) (p : Nat) :
    (os.write8 o v st sol).isByteConcrete p = (decide (p = o) || os.isByteConcrete p) ∧
      (os.write8 o v st sol).isByteKnownSymbolic p =
        (!decide (p = o) && os.isByteKnownSymbolic p) ∧
      (os.write8 o v st sol).isByteFlushed p = (!decide (p = o) && os.isByteFlushed p) := by
  unfold ObjectState.write8 ObjectState.markByteUnflushed ObjectState.markByteConcrete
    ObjectState.setKnownSymbolic ObjectState.isByteConcrete ObjectState.isByteKnownSymbolic
    ObjectState.isByteFlushed BitArray.set BitArray.get
  rcases hc : os.concreteMask with _ | c <;> rcases hf : os.flushMask with _ | f <;>
    rcases hk : os.knownSymbolics with _ | k <;> by_cases hp : p = o <;> simp [hp]

theorem ObjectState.write8_frame (os : ObjectState) (o v : Nat) (st : Option ExecutionState)
    (sol : TimingSolver) :
    (os.write8 o v st sol).size = os.size ∧
      (os.write8 o v st sol).updates = os.updates ∧
      (os.write8 o v st sol).concreteStore =
        (fun i => if i = o then v % 256 else os.concreteStore i) := by
  unfold ObjectState.write8 ObjectState.markByteUnflushed ObjectState.markByteConcrete
    ObjectState.setKnownSymbolic
  rcases hc : os.concreteMask with _ | c <;> rcases hf : os.flushMask with _ | f <;>
    rcases hk : os.knownSymbolics with _ | k <;> simp

theorem ObjectState.write8Value_status (os : ObjectState) (o : Nat) (value : Expr)
    (st : Option ExecutionState) (sol : TimingSolver) (p : Nat)
    (hv : value.asConstant = none) :
    (os.write8Value o value st sol).isByteConcrete p =
        (!decide (p = o) && os.isByteConcrete p) ∧
      (os.write8Value o value st sol).isByteKnownSymbolic p =
        (decide (p = o) || os.isByteKnownSymbolic p) ∧
      (os.write8Value o value st sol).isByteFlushed p =
        (!decide (p = o) && os.isByteFlushed p) := by
  unfold ObjectState.write8Value
  rw [hv]
  unfold ObjectState.markByteUnflushed ObjectState.markByteSymbolic
    ObjectState.setKnownSymbolic ObjectState.isByteConcrete ObjectState.isByteKnownSymbolic
    ObjectState.isByteFlushed BitArray.set BitArray.unset BitArray.get BitArray.new
  rcases hc : os.concreteMask with _ | c <;> rcases hf : os.flushMask with _ | f <;>
    rcases hk : os.knownSymbolics with _ | k <;> by_cases hp : p = o <;> simp [hp]

theorem ObjectState.write8Value_size (os : ObjectState) (o : Nat) (value : Expr)
    (st : Option ExecutionState) (sol : TimingSolver) :
    (os.write8Value o value st sol).size = os.size := by
  unfold ObjectState.write8Value
  cases hv : value.asConstant with
  | some c => exact (ObjectState.write8_frame os o _ st sol).1
  | none =>
    unfold ObjectState.markByteUnflushed ObjectState.markByteSymbolic
      ObjectState.setKnownSymbolic
    rcases hc : os.concreteMask with _ | c <;> rcases hf : os.flushMask with _ | f <;>
      rcases hk : os.knownSymbolics with _ | k <;> simp

theorem ObjectState.write8_inv (os : ObjectState) (o v : Nat) (st : Option ExecutionState)
    (sol : TimingSolver) (h : os.CacheInv) : (os.write8 o v st sol).CacheInv := by
  intro p hp
  rw [(ObjectState.write8_frame os o v st sol).1] at hp
  obtain ⟨h1, h2⟩ := h p hp
  obtain ⟨e1, e2, e3⟩ := ObjectState.write8_status os o v st sol p
  unfold ObjectState.byteInv
  rw [e1, e2, e3]
  by_cases hpo : p = o
  · simp [hpo]
  · simpa [hpo] using ⟨h1, h2⟩

theorem ObjectState.write8Value_inv (os : ObjectState) (o : Nat) (value : Expr)
    (st : Option ExecutionState) (sol : TimingSolver) (h : os.CacheInv) :
    (os.write8Value o value st sol).CacheInv := by
  cases hv : value.asConstant with
  | some c =>
    have : os.write8Value o value st sol = os.write8 o c.getZExtValue st sol := by
      unfold ObjectState.write8Value; rw [hv]
    rw [this]
    exact ObjectState.write8_inv os o _ st sol h
  | none =>
    intro p hp
    rw [ObjectState.write8Value_size] at hp
    obtain ⟨h1, h2⟩ := h p hp
    obtain ⟨e1, e2, e3⟩ := ObjectState.write8Value_status os o value st sol p hv
    unfold ObjectState.byteInv
    rw [e1, e2, e3]
    by_cases hpo : p = o
    · simp [hpo]
    · simpa [hpo] using ⟨h1, h2⟩

theorem ObjectState.flushByteForRead_status (os os' : ObjectState) (o : Nat)
    (h : os.flushByteForRead o = some os') :
    os'.size = os.size ∧ os'.flushMask.isSome = os.flushMask.isSome ∧
      os'.concreteMask = os.concreteMask ∧ os'.knownSymbolics = os.knownSymbolics ∧
      os'.concreteStore = os.concreteStore ∧ os'.memoryLog = os.memoryLog ∧
      (∀ p, os'.isByteFlushed p = false → os.isByteFlushed p = false) ∧
      (os.flushMask.isSome = true →
        ∀ p, os'.isByteFlushed p = (decide (p = o) || os.isByteFlushed p)) := by
  unfold ObjectState.flushByteForRead at h
  split at h
  · split at h
    · cases h
      refine ⟨rfl, by simp, rfl, rfl, rfl, rfl, ?_, ?_⟩
      · intro p
        simp only [ObjectState.isByteFlushed]
        rcases hf : os.flushMask with _ | f
        · simp
        · simp only [Option.map_some', BitArray.unset, BitArray.get]
          by_cases hp : p = o <;> simp [hp]
      · intro hs p
        rename_i hnf _
        simp only [ObjectState.isByteFlushed] at hnf ⊢
        rcases hf : os.flushMask with _ | f
        · rw [hf] at hs; simp at hs
        · rw [hf] at hnf
          simp only [Option.map_some', BitArray.unset, BitArray.get] at hnf ⊢
          by_cases hp : p = o <;> simp [hp]
    · split at h
      · cases h
        refine ⟨rfl, by simp, rfl, rfl, rfl, rfl, ?_, ?_⟩
        · intro p
          simp only [ObjectState.isByteFlushed]
          rcases hf : os.flushMask with _ | f
          · simp
          · simp only [Option.map_some', BitArray.unset, BitArray.get]
            by_cases hp : p = o <;> simp [hp]
        · intro hs p
          simp only [ObjectState.isByteFlushed]
          rcases hf : os.flushMask with _ | f
          · rw [hf] at hs; simp at hs
          · simp only [Option.map_some', BitArray.unset, BitArray.get]
            by_cases hp : p = o <;> simp [hp]
      · cases h
  · cases h
    rename_i hfl
    refine ⟨rfl, rfl, rfl, rfl, rfl, rfl, fun _ hp => hp, ?_⟩
    intro _ p
    by_cases hp : p = o
    · subst hp; simpa using hfl
    · simp [hp]

theorem ObjectState.flushByteForWrite_status (os os' : ObjectState) (o : Nat)
    (h : os.flushByteForWrite o = some os') (hs : os.flushMask.isSome = true) :
    os'.size = os.size ∧ os'.flushMask.isSome = true ∧
      (∀ p, p ≠ o → os'.isByteConcrete p = os.isByteConcrete p ∧
        os'.isByteKnownSymbolic p = os.isByteKnownSymbolic p ∧
        os'.isByteFlushed p = os.isByteFlushed p) ∧
      os'.isByteConcrete o = false ∧ os'.isByteFlushed o = true ∧
      (os.byteInv o → os'.isByteKnownSymbolic o = false) := by
  rcases hf : os.flushMask with _ | f
  · rw [hf] at hs; simp at hs
  unfold ObjectState.byteInv
  unfold ObjectState.flushByteForWrite at h
  unfold ObjectState.markByteSymbolic ObjectState.setKnownSymbolic at h
  simp only [ObjectState.isByteFlushed, ObjectState.isByteConcrete,
    ObjectState.isByteKnownSymbolic, hf, BitArray.get] at h ⊢
  rcases hc : os.concreteMask with _ | c <;> rcases hk : os.knownSymbolics with _ | k <;>
    simp only [hc, hk, hf, Option.bind, BitArray.get, BitArray.unset, BitArray.new,
      Option.map_some'] at h ⊢
  all_goals
    by_cases h1 : f.bits o = true
    all_goals simp only [h1, Bool.not_true, Bool.not_false, Bool.false_eq_true, if_true,
      if_false, not_true_eq_false, not_false_eq_true] at h ⊢
  all_goals
    repeat' split at h
  all_goals
    first
    | injection h with h; subst h; refine ⟨rfl, ?_, fun p hp => ?_, ?_, ?_, ?_⟩ <;> simp_all
    | cases h

theorem foldlM_option_inv {α β : Type} (f : β → α → Option β) (P : β → Prop)
    (hstep : ∀ b a b', P b → f b a = some b' → P b') :
    ∀ (l : List α) (b b' : β), P b → l.foldlM f b = some b' → P b' := by
  intro l
  induction l with
  | nil =>
    intro b b' hb h
    simp only [List.foldlM_nil] at h
    cases h
    exact hb
  | cons a l ih =>
    intro b b' hb h
    simp only [List.foldlM_cons] at h
    cases hfa : f b a with
    | none => rw [hfa] at h; cases h
    | some b1 =>
      rw [hfa] at h
      exact ih b1 b' (hstep b a b1 hb hfa) h

theorem foldl_inv {α β : Type} (f : β → α → β) (P : β → Prop)
    (hstep : ∀ b a, P b → P (f b a)) : ∀ (l : List α) (b : β), P b → P (l.foldl f b) := by
  intro l
  induction l with
  | nil => intro b hb; exact hb
  | cons a l ih => intro b hb; exact ih (f b a) (hstep b a hb)

theorem ObjectState.CacheInv_of_same (os os' : ObjectState) (hsz : os'.size = os.size)
    (hc : os'.concreteMask = os.concreteMask) (hk : os'.knownSymbolics = os.knownSymbolics)
    (hf : ∀ p, os'.isByteFlushed p = false → os.isByteFlushed p = false)
    (h : os.CacheInv) : os'.CacheInv := by
  intro p hp
  rw [hsz] at hp
  obtain ⟨h1, h2⟩ := h p hp
  have ec : os'.isByteConcrete p = os.isByteConcrete p := by
    simp [ObjectState.isByteConcrete, hc]
  have ek : os'.isByteKnownSymbolic p = os.isByteKnownSymbolic p := by
    simp [ObjectState.isByteKnownSymbolic, hk]
  unfold ObjectState.byteInv
  rw [ec, ek]
  exact ⟨h1, fun hfl => h2 (hf p hfl)⟩

theorem ObjectState.flushRangeForRead_same (os os' : ObjectState) (base n : Nat)
    (h : os.flushRangeForRead base n = some os') :
    os'.size = os.size ∧ os'.concreteMask = os.concreteMask ∧
      os'.knownSymbolics = os.knownSymbolics ∧ os'.concreteStore = os.concreteStore ∧
      os'.memoryLog = os.memoryLog ∧
      (∀ p, os'.isByteFlushed p = false → os.isByteFlushed p = false) := by
  unfold ObjectState.flushRangeForRead at h
  refine foldlM_option_inv (fun (os : ObjectState) offset => os.flushByteForRead offset)
    (fun x => x.size = os.size ∧ x.concreteMask = os.concreteMask ∧
      x.knownSymbolics = os.knownSymbolics ∧ x.concreteStore = os.concreteStore ∧
      x.memoryLog = os.memoryLog ∧
      (∀ p, x.isByteFlushed p = false → os.isByteFlushed p = false))
    ?_ (List.range' base n) _ os' ?_ h
  · intro b a b' hb hstep
    obtain ⟨s1, _, s3, s4, s5, s6, s7, _⟩ := ObjectState.flushByteForRead_status b b' a hstep
    obtain ⟨b1, b2, b3, b4, b5, b6⟩ := hb
    exact ⟨s1.trans b1, s3.trans b2, s4.trans b3, s5.trans b4, s6.trans b5,
      fun p hp => b6 p (s7 p hp)⟩
  · rcases hf : os.flushMask with _ | f
    · refine ⟨rfl, rfl, rfl, rfl, rfl, ?_⟩
      intro p _
      simp [ObjectState.isByteFlushed, hf]
    · exact ⟨rfl, rfl, rfl, rfl, rfl, fun p hp => hp⟩

theorem ObjectState.flushRangeForRead_inv (os os' : ObjectState) (base n : Nat)
    (h : os.flushRangeForRead base n = some os') (hinv : os.CacheInv) : os'.CacheInv := by
  obtain ⟨s1, s2, s3, _, _, s6⟩ := ObjectState.flushRangeForRead_same os os' base n h
  exact ObjectState.CacheInv_of_same os os' s1 s2 s3 s6 hinv

theorem ObjectState.flushRangeForWrite_inv (os os' : ObjectState) (base n : Nat)
    (h : os.flushRangeForWrite base n = some os') (hinv : os.CacheInv) :
    os'.size = os.size ∧ os'.CacheInv := by
  unfold ObjectState.flushRangeForWrite at h
  have key : os'.size = os.size ∧ os'.flushMask.isSome = true ∧ os'.CacheInv := by
    refine foldlM_option_inv (fun (os : ObjectState) offset => os.flushByteForWrite offset)
      (fun x => x.size = os.size ∧ x.flushMask.isSome = true ∧ x.CacheInv)
      ?_ (List.range' base n) _ os' ?_ h
    · intro b a b' hb hstep
      obtain ⟨b1, b2, b3⟩ := hb
      obtain ⟨s1, s2, s3, s4, s5, _⟩ := ObjectState.flushByteForWrite_status b b' a hstep b2
      refine ⟨s1.trans b1, s2, ?_⟩
      intro p hp
      rw [s1] at hp
      by_cases hpa : p = a
      · subst hpa
        unfold ObjectState.byteInv
        rw [s4, s5]
        simp
      · obtain ⟨e1, e2, e3⟩ := s3 p hpa
        unfold ObjectState.byteInv
        rw [e1, e2, e3]
        exact b3 p hp
    · rcases hf : os.flushMask with _ | f
      · refine ⟨rfl, rfl, ?_⟩
        refine ObjectState.CacheInv_of_same os _ rfl rfl rfl ?_ hinv
        intro p _
        simp [ObjectState.isByteFlushed, hf]
      · exact ⟨rfl, by simp [hf], hinv⟩
  exact ⟨key.1, key.2.2⟩

theorem ObjectState.getUpdates_same (os : ObjectState) :
    os.getUpdates.2 = { os with updates := os.getUpdates.1 } := by
  unfold ObjectState.getUpdates
  split <;> rfl

theorem ObjectState.read8_same (os os' : ObjectState) (o : Nat) (e : Expr)
    (st : Option ExecutionState) (sol : TimingSolver) (h : os.read8 o st sol = some (e, os')) :
    os'.size = os.size ∧ os'.concreteMask = os.concreteMask ∧
      os'.flushMask = os.flushMask ∧ os'.knownSymbolics = os.knownSymbolics ∧
      os'.concreteStore = os.concreteStore := by
  unfold ObjectState.read8 at h
  simp only at h
  split at h
  · injection h with h
    injection h with _ h
    subst h
    exact ⟨rfl, rfl, rfl, rfl, rfl⟩
  · split at h
    · injection h with h
      injection h with _ h
      subst h
      exact ⟨rfl, rfl, rfl, rfl, rfl⟩
    · split at h
      · injection h with h
        injection h with _ h
        subst h
        rw [ObjectState.getUpdates_same]
        exact ⟨rfl, rfl, rfl, rfl, rfl⟩
      · cases h

theorem ObjectState.read8_concrete (os : ObjectState) (o : Nat) (st : Option ExecutionState)
    (sol : TimingSolver) (hc : os.isByteConcrete o = true) :
    os.read8 o st sol =
      some (.Constant (ConstantExpr.create (os.concreteStore o) Expr.Int8),
        { os with memoryLog := (os.memoryLog.logRead st sol o {}).2.2 }) := by
  unfold ObjectState.read8
  have : ObjectState.isByteConcrete
      { os with memoryLog := (os.memoryLog.logRead st sol o {}).2.2 } o = true := hc
  simp only [this, if_true]

theorem ObjectState.read8_inv (os os' : ObjectState) (o : Nat) (e : Expr)
    (st : Option ExecutionState) (sol : TimingSolver) (h : os.read8 o st sol = some (e, os'))
    (hinv : os.CacheInv) : os'.CacheInv := by
  obtain ⟨s1, s2, s3, s4, _⟩ := ObjectState.read8_same os os' o e st sol h
  refine ObjectState.CacheInv_of_same os os' s1 s2 s4 ?_ hinv
  intro p hp
  simpa [ObjectState.isByteFlushed, s3] using hp

theorem ObjectState.read8Expr_inv (os os' : ObjectState) (o e : Expr)
    (st : Option ExecutionState) (sol : TimingSolver)
    (h : os.read8Expr o st sol = some (e, os')) (hinv : os.CacheInv) : os'.CacheInv := by
  unfold ObjectState.read8Expr at h
  split at h
  · cases h
  · simp only [ObjectState.fastRangeCheckOffset] at h
    split at h
    · cases h
    · rename_i os1 hfl
      injection h with h
      injection h with _ h
      subst h
      rw [ObjectState.getUpdates_same]
      have h1 := ObjectState.flushRangeForRead_inv os os1 0 os.size hfl hinv
      exact ObjectState.CacheInv_of_same os1 _ rfl rfl rfl (fun p hp => hp) h1

theorem ObjectState.write8Expr_inv (os os' : ObjectState) (o v : Expr)
    (st : Option ExecutionState) (sol : TimingSolver)
    (h : os.write8Expr o v st sol = some os') (hinv : os.CacheInv) : os'.CacheInv := by
  unfold ObjectState.write8Expr at h
  split at h
  · cases h
  · simp only [ObjectState.fastRangeCheckOffset] at h
    split at h
    · cases h
    · rename_i os1 hfl
      injection h with h
      subst h
      have h1 := (ObjectState.flushRangeForWrite_inv os os1 0 os.size hfl hinv).2
      exact ObjectState.CacheInv_of_same os1 _ rfl rfl rfl (fun p hp => hp) h1

theorem ObjectState.makeSymbolic_step_status (os : ObjectState) (i p : Nat) :
    (((os.markByteSymbolic i).setKnownSymbolic i none).markByteFlushed i).size = os.size ∧
      (((os.markByteSymbolic i).setKnownSymbolic i none).markByteFlushed i).isByteConcrete p =
        (!decide (p = i) && os.isByteConcrete p) ∧
      (((os.markByteSymbolic i).setKnownSymbolic i none).markByteFlushed i).isByteKnownSymbolic p =
        (!decide (p = i) && os.isByteKnownSymbolic p) ∧
      (((os.markByteSymbolic i).setKnownSymbolic i none).markByteFlushed i).isByteFlushed p =
        (os.flushMask.isNone || decide (p = i) || os.isByteFlushed p) := by
  unfold ObjectState.markByteFlushed ObjectState.markByteSymbolic
    ObjectState.setKnownSymbolic ObjectState.isByteConcrete ObjectState.isByteKnownSymbolic
    ObjectState.isByteFlushed BitArray.unset BitArray.get BitArray.new
  rcases hc : os.concreteMask with _ | c <;> rcases hf : os.flushMask with _ | f <;>
    rcases hk : os.knownSymbolics with _ | k <;> by_cases hp : p = i <;> simp [hp]

theorem ObjectState.makeSymbolic_inv (os os' : ObjectState) (h : os.makeSymbolic = some os')
    (hinv : os.CacheInv) : os'.CacheInv := by
  unfold ObjectState.makeSymbolic at h
  split at h
  · injection h with h
    subst h
    have key := foldl_inv
      (fun (os : ObjectState) i => ((os.markByteSymbolic i).setKnownSymbolic i none).markByteFlushed i)
      (fun x => x.size = os.size ∧ x.CacheInv)
      (by
        intro b a hb
        obtain ⟨b1, b2⟩ := hb
        refine ⟨(ObjectState.makeSymbolic_step_status b a 0).1.trans b1, ?_⟩
        intro p hp
        obtain ⟨s1, e1, e2, e3⟩ := ObjectState.makeSymbolic_step_status b a p
        rw [s1] at hp
        obtain ⟨i1, i2⟩ := b2 p hp
        unfold ObjectState.byteInv
        rw [e1, e2, e3]
        by_cases hpa : p = a
        · simp [hpa]
        · simp only [hpa, decide_False, Bool.not_false, Bool.true_and, Bool.or_false]
          refine ⟨i1, ?_⟩
          intro hfl
          simp only [Bool.or_eq_false_iff] at hfl
          exact i2 hfl.2)
      (List.range os.size) os ⟨rfl, hinv⟩
    exact key.2
  · cases h

theorem ObjectState.new_inv (uca : Bool) (mo : MemoryObject) (garbage : Nat → Nat) :
    (ObjectState.new uca mo garbage).CacheInv := by
  intro p _
  simp [ObjectState.byteInv, ObjectState.new, ObjectState.isByteConcrete,
    ObjectState.isByteKnownSymbolic, ObjectState.isByteFlushed]

theorem ObjectState.makeConcrete_inv (os : ObjectState) : os.makeConcrete.CacheInv := by
  intro p _
  simp [ObjectState.byteInv, ObjectState.makeConcrete, ObjectState.isByteConcrete,
    ObjectState.isByteKnownSymbolic, ObjectState.isByteFlushed]

theorem ObjectState.copy_status (os os' : ObjectState) (garbage : Nat → Nat)
    (h : os.copy garbage = some os') :
    os'.size = os.size ∧ os'.updates = os.updates ∧
      ∀ p, p < os.size →
        os'.isByteConcrete p = os.isByteConcrete p ∧
        os'.isByteKnownSymbolic p = os.isByteKnownSymbolic p ∧
        os'.isByteFlushed p = os.isByteFlushed p ∧
        os'.concreteStore p = os.concreteStore p := by
  unfold ObjectState.copy at h
  split at h
  · cases h
  · injection h with h
    subst h
    refine ⟨rfl, rfl, ?_⟩
    intro p hp
    refine ⟨rfl, ?_, rfl, by simp [hp]⟩
    simp only [ObjectState.isByteKnownSymbolic]
    rcases hk : os.knownSymbolics with _ | k
    · rfl
    · simp [hp]

theorem ObjectState.reachable_inv (os : ObjectState) (h : os.Reachable) : os.CacheInv := by
  induction h with
  | new uca mo garbage => exact ObjectState.new_inv uca mo garbage
  | newSymbolic mo array garbage os h =>
    unfold ObjectState.newSymbolic at h
    refine ObjectState.makeSymbolic_inv _ os h ?_
    intro p _
    simp [ObjectState.byteInv, ObjectState.isByteConcrete,
      ObjectState.isByteKnownSymbolic, ObjectState.isByteFlushed]
  | write8 os o v st sol _ _ ih => exact ObjectState.write8_inv os o v st sol ih
  | write8Value os o v st sol _ _ ih => exact ObjectState.write8Value_inv os o v st sol ih
  | write8Expr os os' o v st sol _ h ih => exact ObjectState.write8Expr_inv os os' o v st sol h ih
  | read8 os os' o e st sol _ _ h ih => exact ObjectState.read8_inv os os' o e st sol h ih
  | read8Expr os os' o e st sol _ h ih => exact ObjectState.read8Expr_inv os os' o e st sol h ih
  | makeConcrete os _ _ => exact ObjectState.makeConcrete_inv os
  | initializeToZero os _ _ =>
    exact ObjectState.CacheInv_of_same os.makeConcrete _ rfl rfl rfl (fun p hp => hp)
      (ObjectState.makeConcrete_inv os)
  | initializeToRandom os _ _ =>
    exact ObjectState.CacheInv_of_same os.makeConcrete _ rfl rfl rfl (fun p hp => hp)
      (ObjectState.makeConcrete_inv os)
  | copy os os' garbage _ h ih =>
    obtain ⟨s1, _, s3⟩ := ObjectState.copy_status os os' garbage h
    intro p hp
    rw [s1] at hp
    obtain ⟨e1, e2, e3, _⟩ := s3 p hp
    unfold ObjectState.byteInv
    rw [e1, e2, e3]
    exact ih p hp

/-! ## Object states: cache invariant and round trips -/

/-- C1: cache invariant of ObjectState.  In every object state reachable from
a constructor by write8 (concrete value, symbolic value, symbolic offset),
read8 (concrete or symbolic offset), makeConcrete, initializeToZero,
initializeToRandom and copy construction, at every offset below the size: an
unflushed byte is exactly one of concrete and known-symbolic, and a
known-symbolic byte is never concrete. -/
theorem ObjectState.cache_invariant (os : ObjectState) (h : os.Reachable) (offset : Nat)
    (hoff : offset < os.size) :
    (os.isByteFlushed offset = false →
        Bool.xor (os.isByteConcrete offset) (os.isByteKnownSymbolic offset) = true) ∧
      (os.isByteKnownSymbolic offset = true → os.isByteConcrete offset = false) := by
  obtain ⟨h1, h2⟩ := ObjectState.reachable_inv os h offset hoff
  refine ⟨fun hfl => ?_, h1⟩
  rcases h2 hfl with hc | hk
  · cases hk : os.isByteKnownSymbolic offset
    · simp [hc]
    · rw [h1 hk] at hc; cases hc
  · simp [hk, h1 hk]

/-- Witness of C1: byte 1 of a four-byte object after a symbolic value was
written to it. -/
theorem ObjectState.cache_invariant_witness :
    (exampleObject.isByteFlushed 1 = false →
        Bool.xor (exampleObject.isByteConcrete 1) (exampleObject.isByteKnownSymbolic 1) = true) ∧
      (exampleObject.isByteKnownSymbolic 1 = true → exampleObject.isByteConcrete 1 = false) :=
  ObjectState.cache_invariant exampleObject
    (ObjectState.Reachable.write8Value _ 1 symbolicByte none silentSolver
      (ObjectState.Reachable.new true { size := 4 } fun _ => 0) (by decide))
    1 (by decide)

theorem ObjectState.read8_write8_same (os : ObjectState) (offset value : Nat)
    (st st' : Option ExecutionState) (sol sol' : TimingSolver) :
    (os.write8 offset value st sol).read8 offset st' sol' =
      some (.Constant { value := value % 256, width := 8 },
        { os.write8 offset value st sol with
          memoryLog := ((os.write8 offset value st sol).memoryLog.logRead st' sol' offset {}).2.2 }) := by
  have hc : (os.write8 offset value st sol).isByteConcrete offset = true := by
    rw [(ObjectState.write8_status os offset value st sol offset).1]; simp
  have hv : (os.write8 offset value st sol).concreteStore offset = value % 256 := by
    rw [(ObjectState.write8_frame os offset value st sol).2.2]; simp
  rw [ObjectState.read8_concrete _ offset st' sol' hc, hv]
  simp [ConstantExpr.create, Expr.Int8]

/-- C2: byte round trip.  For every object state (flushed before or not),
every offset and every 8-bit value `v`, `read8` at the offset right after
`write8` of `v` at that offset succeeds and returns the 8-bit constant `v`. -/
theorem ObjectState.read8_after_write8 (os : ObjectState) (offset : Nat) (v : Fin 256)
    (st st' : Option ExecutionState) (sol sol' : TimingSolver) :
    ((os.write8 offset v.val st sol).read8 offset st' sol').map Prod.fst =
      some (.Constant { value := v.val, width := 8 }) := by
  rw [ObjectState.read8_write8_same, Nat.mod_eq_of_lt v.isLt]
  rfl

theorem Context.byteIndex_lt (ctx : Context) (n i : Nat) (h : i < n) :
    ctx.byteIndex n i < n := by
  unfold Context.byteIndex
  split <;> omega

theorem Context.byteIndex_inj (ctx : Context) (n i j : Nat) (hi : i < n) (hj : j < n)
    (h : ctx.byteIndex n i = ctx.byteIndex n j) : i = j := by
  unfold Context.byteIndex at h
  split at h <;> omega

theorem ObjectState.writeBytes_prefix (os : ObjectState) (ctx : Context) (o n value : Nat)
    (st : Option ExecutionState) (sol : TimingSolver) (hfit : o + n ≤ 2 ^ 32) :
    ∀ k, k ≤ n → ∀ i, i < k →
      ((List.range k).foldl
          (fun os i =>
            os.write8 ((o + ctx.byteIndex n i) % 2 ^ 32) (value / 2 ^ (8 * i)) st sol)
          os).isByteConcrete (o + ctx.byteIndex n i) = true ∧
        ((List.range k).foldl
          (fun os i =>
            os.write8 ((o + ctx.byteIndex n i) % 2 ^ 32) (value / 2 ^ (8 * i)) st sol)
          os).concreteStore (o + ctx.byteIndex n i) = value / 2 ^ (8 * i) % 256 := by
  intro k
  induction k with
  | zero => intro _ i hi; omega
  | succ k ih =>
    intro hk i hi
    have hposk : (o + ctx.byteIndex n k) % 2 ^ 32 = o + ctx.byteIndex n k := by
      have := ctx.byteIndex_lt n k (by omega)
      exact Nat.mod_eq_of_lt (by omega)
    rw [List.range_succ, List.foldl_append]
    simp only [List.foldl_cons, List.foldl_nil, hposk]
    by_cases hik : i = k
    · subst hik
      rw [(ObjectState.write8_status _ _ _ st sol _).1, (ObjectState.write8_frame _ _ _ st sol).2.2]
      simp
    · have hlt : i < k := by omega
      have hne : o + ctx.byteIndex n i ≠ o + ctx.byteIndex n k := by
        intro heq
        exact hik (ctx.byteIndex_inj n i k (by omega) (by omega) (by omega))
      obtain ⟨h1, h2⟩ := ih (by omega) i hlt
      rw [(ObjectState.write8_status _ _ _ st sol _).1, (ObjectState.write8_frame _ _ _ st sol).2.2]
      simp only [hne, decide_False, Bool.false_or, if_false]
      exact ⟨h1, h2⟩

theorem ObjectState.writeBytes_status (os : ObjectState) (ctx : Context) (o n value : Nat)
    (st : Option ExecutionState) (sol : TimingSolver) (hfit : o + n ≤ 2 ^ 32) (i : Nat)
    (hi : i < n) :
    (os.writeBytes ctx o n value st sol).isByteConcrete (o + ctx.byteIndex n i) = true ∧
      (os.writeBytes ctx o n value st sol).concreteStore (o + ctx.byteIndex n i) =
        value / 2 ^ (8 * i) % 256 :=
  ObjectState.writeBytes_prefix os ctx o n value st sol hfit n (Nat.le_refl n) i hi

theorem concat_bytes_value (value k : Nat) :
    (value / 2 ^ (8 * k) % 256 * 2 ^ (8 * k) + value % 2 ^ (8 * k)) % 2 ^ (8 + 8 * k) =
      value % 2 ^ (8 * (k + 1)) := by
  have e1 : 2 ^ (8 * (k + 1)) = 2 ^ (8 * k) * 256 := by
    rw [Nat.mul_succ, Nat.pow_add]
  have e2 : 2 ^ (8 + 8 * k) = 2 ^ (8 * k) * 256 := by
    rw [Nat.add_comm, Nat.pow_add]
  rw [e1, e2, Nat.mod_mul (x := value)]
  have hlt : value % 2 ^ (8 * k) < 2 ^ (8 * k) := Nat.mod_lt _ (Nat.pow_pos (by decide))
  have hb : value / 2 ^ (8 * k) % 256 < 256 := Nat.mod_lt _ (by decide)
  have h1 : (value / 2 ^ (8 * k) % 256 + 1) * 2 ^ (8 * k) ≤ 256 * 2 ^ (8 * k) :=
    Nat.mul_le_mul_right _ (by omega)
  have h2 : (value / 2 ^ (8 * k) % 256 + 1) * 2 ^ (8 * k) =
      value / 2 ^ (8 * k) % 256 * 2 ^ (8 * k) + 2 ^ (8 * k) := by ring
  have hbound : value / 2 ^ (8 * k) % 256 * 2 ^ (8 * k) + value % 2 ^ (8 * k) <
      2 ^ (8 * k) * 256 := by
    omega
  rw [Nat.mod_eq_of_lt hbound]
  ring

theorem ObjectState.readBytes_concrete (ctx : Context) (o n value : Nat)
    (st : Option ExecutionState) (sol : TimingSolver) (hfit : o + n ≤ 2 ^ 32) (hn : 0 < n) :
    ∀ (m k : Nat) (Res : Option Expr) (os : ObjectState), k + m = n →
      (∀ i, i < n → os.isByteConcrete (o + ctx.byteIndex n i) = true ∧
        os.concreteStore (o + ctx.byteIndex n i) = value / 2 ^ (8 * i) % 256) →
      (k = 0 ∨ Res = some (.Constant { value := value % 2 ^ (8 * k), width := 8 * k })) →
      (ObjectState.readBytes ctx o n st sol (List.range' k m) (Res, os)).map (fun r => r.1) =
        some (some (.Constant { value := value % 2 ^ (8 * n), width := 8 * n })) := by
  intro m
  induction m with
  | zero =>
    intro k Res os hk _ hres
    have hkn : k = n := by omega
    rcases hres with h0 | hres
    · omega
    · subst hkn
      simp [List.range', ObjectState.readBytes, hres]
  | succ m ih =>
    intro k Res os hk hbytes hres
    have hkn : k < n := by omega
    have hposk : (o + ctx.byteIndex n k) % 2 ^ 32 = o + ctx.byteIndex n k := by
      have := ctx.byteIndex_lt n k hkn
      exact Nat.mod_eq_of_lt (by omega)
    obtain ⟨hc, hv⟩ := hbytes k hkn
    simp only [List.range', ObjectState.readBytes, hposk]
    rw [ObjectState.read8_concrete os _ st sol hc, hv]
    have hbyte : ConstantExpr.create (value / 2 ^ (8 * k) % 256) Expr.Int8 =
        { value := value / 2 ^ (8 * k) % 256, width := 8 } := by
      simp [ConstantExpr.create, Expr.Int8]
    rw [hbyte]
    cases k with
    | zero =>
      simp only
      refine ih 1 _ _ (by omega) hbytes (Or.inr ?_)
      simp
    | succ k' =>
      rcases hres with h0 | hres
      · omega
      · subst hres
        simp only
        refine ih (k' + 1 + 1) _ _ (by omega) hbytes (Or.inr ?_)
        simp only [ConcatExpr.create, Expr.asConstant, ConstantExpr.create]
        rw [concat_bytes_value value (k' + 1)]
        congr 3
        omega

theorem ObjectState.read_of_bytes (os : ObjectState) (ctx : Context) (o n value : Nat)
    (st : Option ExecutionState) (sol : TimingSolver) (hfit : o + n ≤ 2 ^ 32) (hn : 0 < n)
    (hbytes : ∀ i, i < n → os.isByteConcrete (o + ctx.byteIndex n i) = true ∧
      os.concreteStore (o + ctx.byteIndex n i) = value / 2 ^ (8 * i) % 256) :
    (os.read ctx o (8 * n) st sol).map Prod.fst =
      some (.Constant { value := value % 2 ^ (8 * n), width := 8 * n }) := by
  have hr := ObjectState.readBytes_concrete ctx o n value st sol hfit hn n 0 none os
    (by omega) hbytes (Or.inl rfl)
  unfold ObjectState.read
  have h1 : ¬ (8 * n = Expr.BoolWidth) := by unfold Expr.BoolWidth; omega
  have h2 : 8 * n / 8 = n := by omega
  have h3 : 8 * n = n * 8 := by omega
  simp only [h1, if_false, h2]
  rw [if_pos h3, List.range_eq_range']
  cases hx : ObjectState.readBytes ctx o n st sol (List.range' 0 n) (none, os) with
  | none => rw [hx] at hr; simp at hr
  | some x =>
    rw [hx] at hr
    obtain ⟨r, os'⟩ := x
    simp only [Option.map_some', Option.some.injEq] at hr
    subst hr
    rfl

/-- C3: multi-byte accesses decompose into bytes honouring endianness.  For a
width of 16, 32 or 64 bits, an offset with all bytes inside the object and a
constant `v` of that width, `write` succeeds; afterwards byte `i` of `v`
(least significant first) is read at `o + i` under little-endian and at
`o + n - 1 - i` under big-endian, and `read` of the width at `o` returns the
constant `v` under either setting. -/
theorem ObjectState.multibyte_round_trip (os : ObjectState) (ctx : Context) (o w v : Nat)
    (st st' : Option ExecutionState) (sol sol' : TimingSolver)
    (hw : w = 16 ∨ w = 32 ∨ w = 64) (hfit : o + w / 8 ≤ os.size) (hsz : os.size < 2 ^ 32)
    (hv : v < 2 ^ w) :
    ∃ os1, os.write ctx o (.Constant { value := v, width := w }) st sol = some os1 ∧
      (∀ i, i < w / 8 →
        (os1.read8 (if ctx.isLittleEndian then o + i else o + w / 8 - 1 - i) st' sol').map
            Prod.fst =
          some (.Constant { value := v / 2 ^ (8 * i) % 256, width := 8 })) ∧
      (os1.read ctx o w st' sol').map Prod.fst = some (.Constant { value := v, width := w }) := by
  have hwrite : os.write ctx o (.Constant { value := v, width := w }) st sol =
      some (os.writeBytes ctx o (w / 8) v st sol) := by
    rcases hw with h | h | h <;> subst h <;>
      simp only [ObjectState.write, Expr.asConstant, ConstantExpr.getZExtValue, Expr.BoolWidth,
        Expr.Int8, Expr.Int16, Expr.Int32, Expr.Int64, ObjectState.write16, ObjectState.write32,
        ObjectState.write64, Nat.mod_eq_of_lt hv] <;>
      simp
  have hn : 0 < w / 8 := by rcases hw with h | h | h <;> subst h <;> decide
  have hw8 : w = 8 * (w / 8) := by rcases hw with h | h | h <;> subst h <;> decide
  have hfit2 : o + w / 8 ≤ 2 ^ 32 := by omega
  have hbytes := ObjectState.writeBytes_status os ctx o (w / 8) v st sol hfit2
  refine ⟨_, hwrite, ?_, ?_⟩
  · intro i hi
    obtain ⟨hc, hs⟩ := hbytes i hi
    have hpos : (if ctx.isLittleEndian then o + i else o + w / 8 - 1 - i) =
        o + ctx.byteIndex (w / 8) i := by
      unfold Context.byteIndex
      split <;> omega
    rw [hpos, ObjectState.read8_concrete _ _ st' sol' hc, hs]
    simp [ConstantExpr.create, Expr.Int8]
  · have hr := ObjectState.read_of_bytes (os.writeBytes ctx o (w / 8) v st sol) ctx o (w / 8) v
      st' sol' hfit2 hn hbytes
    rw [← hw8, Nat.mod_eq_of_lt hv] at hr
    exact hr

/-- Witness of C3: the scenario of the specification.  Little-endian, an object
of size 8, the 32-bit value 0x11223344 written at offset 0: reading 32 bits at
offset 0 gives 0x11223344 and reading the byte at offset 0 gives 0x44. -/
theorem ObjectState.multibyte_round_trip_witness :
    ∃ os1, (ObjectState.new true { size := 8 } fun _ => 0).write { isLittleEndian := true } 0
        (.Constant { value := 0x11223344, width := 32 }) none silentSolver = some os1 ∧
      (os1.read8 0 none silentSolver).map Prod.fst =
        some (.Constant { value := 0x44, width := 8 }) ∧
      (os1.read { isLittleEndian := true } 0 32 none silentSolver).map Prod.fst =
        some (.Constant { value := 0x11223344, width := 32 }) := by
  obtain ⟨os1, h1, h2, h3⟩ := ObjectState.multibyte_round_trip
    (ObjectState.new true { size := 8 } fun _ => 0) { isLittleEndian := true } 0 32 0x11223344
    none none silentSolver silentSolver (Or.inr (Or.inl rfl)) (by decide) (by decide)
    (by decide)
  exact ⟨os1, h1, h2 0 (by decide), h3⟩

/-! ## The executor: heap lemmas -/

theorem Executor.heap_length_setState (ex : Executor) (id : StateId) (s : ExecutionState) :
    (ex.setState id s).heap.length = ex.heap.length := by
  simp [Executor.setState]

theorem Executor.getState_setState_same (ex : Executor) (id : StateId) (s : ExecutionState)
    (h : id < ex.heap.length) : (ex.setState id s).getState id = s := by
  simp [Executor.setState, Executor.getState, List.getD_eq_getElem?_getD,
    List.getElem?_set_self h]

theorem Executor.heap_setState_ne (ex : Executor) (id j : StateId) (s : ExecutionState)
    (h : j ≠ id) : (ex.setState id s).heap.getD j none = ex.heap.getD j none := by
  have h2 : id ≠ j := fun hh => h hh.symm
  simp [Executor.setState, List.getD_eq_getElem?_getD, List.getElem?_set_ne h2]

theorem Executor.getState_setState_ne (ex : Executor) (id j : StateId) (s : ExecutionState)
    (h : j ≠ id) : (ex.setState id s).getState j = ex.getState j := by
  unfold Executor.getState
  rw [Executor.heap_setState_ne ex id j s h]

theorem Executor.isAllocated_lt (ex : Executor) (id : StateId)
    (h : ex.isAllocated id = true) : id < ex.heap.length := by
  unfold Executor.isAllocated at h
  by_contra hlt
  have : ex.heap.length ≤ id := Nat.le_of_not_lt hlt
  simp [List.getD_eq_getElem?_getD, List.getElem?_eq_none this] at h

theorem Executor.isAllocated_setState (ex : Executor) (id j : StateId) (s : ExecutionState)
    (h : ex.isAllocated id = true) :
    (ex.setState id s).isAllocated j = ex.isAllocated j := by
  have hlt := Executor.isAllocated_lt ex id h
  by_cases hj : j = id
  · subst hj
    rw [h]
    simp [Executor.isAllocated, Executor.setState, List.getD_eq_getElem?_getD,
      List.getElem?_set_self hlt]
  · unfold Executor.isAllocated
    rw [Executor.heap_setState_ne ex id j s hj]

theorem Executor.setState_constraints (ex : Executor) (id j : StateId)
    (s : ExecutionState) (hs : s.constraints = (ex.getState id).constraints) :
    ((ex.setState id s).getState j).constraints = (ex.getState j).constraints := by
  by_cases hj : j = id
  · subst hj
    by_cases hlt : j < ex.heap.length
    · rw [Executor.getState_setState_same ex j s hlt, hs]
    · have hle : ex.heap.length ≤ j := Nat.le_of_not_lt hlt
      simp [Executor.setState, List.set_eq_of_length_le hle]
  · rw [Executor.getState_setState_ne ex id j s hj]

theorem Executor.fork_unseeded_steps (ex : Executor) (current : StateId) (condition : Expr)
    (isInternal : Bool) (res : Validity) (hseed : ex.seedMap current = none)
    (hreplay : ex.replayPath = none) (hstatic : ex.opts.staticBudgetsSet = false)
    (hres : res ≠ Validity.Unknown) :
    ex.forkStatic current condition (ex.seedMap current).isSome = some (condition, ex) ∧
      ex.forkPolicy current condition isInternal (ex.seedMap current).isSome res =
        some (res, ex) ∧
      ex.forkSeedFix current condition (ex.seedMap current).isSome res = some (res, ex) := by
  refine ⟨?_, ?_, ?_⟩
  · simp [Executor.forkStatic, hstatic]
  · simp [Executor.forkPolicy, hseed, hreplay, hres]
  · simp [Executor.forkSeedFix, hseed]

/-- C9: no infeasible branch is explored.  When the state has no seeds, no
replay path is active and the static budgets are at their defaults: if the
solver reports the condition true, `fork` returns the input state as the true
side and null as the false side; if it reports the condition false, `fork`
returns null and the input state.  In both cases no state is created, the
fork counter and the pending added set are unchanged and no constraint is
added to any state. -/
theorem Executor.fork_proven_side_only (ex : Executor) (current : StateId) (condition : Expr)
    (isInternal : Bool) (reason : ForkClass) (res : Validity)
    (hseed : ex.seedMap current = none) (hreplay : ex.replayPath = none)
    (hstatic : ex.opts.staticBudgetsSet = false)
    (hsolver : ex.solver.evaluate (ex.getState current) condition = some res)
    (hres : res ≠ Validity.Unknown) :
    ∃ ex', ex.fork current condition isInternal reason =
        some (if res = Validity.True then (some current, none) else (none, some current), ex') ∧
      ex'.heap.length = ex.heap.length ∧ ex'.addedStates = ex.addedStates ∧
      ex'.stats.forks = ex.stats.forks ∧
      ∀ id, (ex'.getState id).constraints = (ex.getState id).constraints := by
  obtain ⟨h1, h2, h3⟩ := Executor.fork_unseeded_steps ex current condition isInternal res
    hseed hreplay hstatic hres
  unfold Executor.fork
  simp only [h1, hsolver, h2, h3]
  cases res with
  | Unknown => exact absurd rfl hres
  | True =>
    simp only [if_true]
    split
    · exact ⟨_, rfl, Executor.heap_length_setState _ _ _, rfl, rfl,
        fun id => Executor.setState_constraints ex current id _ rfl⟩
    · exact ⟨_, rfl, rfl, rfl, rfl, fun _ => rfl⟩
  | False =>
    simp only [reduceCtorEq, if_false]
    split
    · exact ⟨_, rfl, Executor.heap_length_setState _ _ _, rfl, rfl,
        fun id => Executor.setState_constraints ex current id _ rfl⟩
    · exact ⟨_, rfl, rfl, rfl, rfl, fun _ => rfl⟩

/-- Witness of C9: the solver proves the condition true for the single state
of the example executor. -/
theorem Executor.fork_proven_side_only_witness :
    ∃ ex', (exampleExecutor (some Validity.True)).fork 0 exampleCondition false
        ForkClass.KLEE_FORK_DEFAULT = some ((some 0, none), ex') ∧
      ex'.heap.length = 1 ∧ ex'.addedStates = [] ∧ ex'.stats.forks = 0 ∧
      ∀ id, (ex'.getState id).constraints =
        ((exampleExecutor (some Validity.True)).getState id).constraints :=
  Executor.fork_proven_side_only (exampleExecutor (some Validity.True)) 0 exampleCondition
    false ForkClass.KLEE_FORK_DEFAULT Validity.True rfl rfl (by decide) rfl (by decide)

theorem Executor.heap_deleteState_ne (ex : Executor) (id j : StateId) (h : j ≠ id) :
    (ex.deleteState id).heap.getD j none = ex.heap.getD j none := by
  have h2 : id ≠ j := fun hh => h hh.symm
  simp [Executor.deleteState, List.getD_eq_getElem?_getD, List.getElem?_set_ne h2]

theorem Executor.isAllocated_deleteState (ex : Executor) (id : StateId) :
    (ex.deleteState id).isAllocated id = false := by
  unfold Executor.isAllocated Executor.deleteState
  by_cases hlt : id < ex.heap.length
  · simp [List.getD_eq_getElem?_getD, List.getElem?_set_self hlt]
  · have hle : ex.heap.length ≤ id := Nat.le_of_not_lt hlt
    simp [List.getD_eq_getElem?_getD, List.getElem?_eq_none, hle]

theorem Executor.terminateState_frame (ex : Executor) (state : StateId) :
    (ex.terminateState state).heap.length = ex.heap.length ∧
      (ex.terminateState state).stats = ex.stats ∧
      (ex.terminateState state).testCases = ex.testCases ∧
      (∀ id, id ≠ state →
        (ex.terminateState state).heap.getD id none = ex.heap.getD id none) ∧
      (ex.terminateState state).addedStates = ex.addedStates.erase state ∧
      (if state ∈ ex.addedStates then (ex.terminateState state).isAllocated state = false
        else state ∈ (ex.terminateState state).removedStates) := by
  unfold Executor.terminateState
  by_cases hin : state ∈ ex.addedStates
  · simp only [hin, if_true]
    refine ⟨by simp [Executor.deleteState], rfl, rfl, ?_, rfl, ?_⟩
    · intro id hid
      exact Executor.heap_deleteState_ne _ state id hid
    · exact Executor.isAllocated_deleteState _ state
  · simp only [hin, if_false]
    refine ⟨by simp [Executor.setState], rfl, rfl, ?_, ?_, ?_⟩
    · intro id hid
      exact Executor.heap_setState_ne _ state id _ hid
    · simp only [Executor.setState]
      exact (List.erase_of_not_mem hin).symm
    · simp only [setInsert, Executor.setState]
      split
      · assumption
      · simp

theorem Executor.terminateStateEarly_frame (ex : Executor) (state : StateId)
    (message : String) :
    (ex.terminateStateEarly state message).heap.length = ex.heap.length ∧
      (ex.terminateStateEarly state message).stats = ex.stats ∧
      (∀ id, id ≠ state →
        (ex.terminateStateEarly state message).heap.getD id none = ex.heap.getD id none) ∧
      (ex.terminateStateEarly state message).addedStates = ex.addedStates.erase state ∧
      (if state ∈ ex.addedStates then
          (ex.terminateStateEarly state message).isAllocated state = false
        else state ∈ (ex.terminateStateEarly state message).removedStates) ∧
      (ex.terminateStateEarly state message).testCases =
        if (!ex.opts.OnlyOutputStatesCoveringNew || (ex.getState state).coveredNew ||
            (ex.opts.AlwaysOutputSeeds && (ex.seedMap state).isSome)) = true then
          ex.testCases ++
            [{ state := state, message := some (message ++ "\n"), suffix := some "early" }]
        else ex.testCases := by
  unfold Executor.terminateStateEarly
  by_cases hc : (!ex.opts.OnlyOutputStatesCoveringNew || (ex.getState state).coveredNew ||
      (ex.opts.AlwaysOutputSeeds && (ex.seedMap state).isSome)) = true
  · simp only [hc, if_true]
    obtain ⟨t1, t2, t3, t4, t5, t6⟩ := Executor.terminateState_frame
      { ex with testCases := ex.testCases ++
          [{ state := state, message := some (message ++ "\n"), suffix := some "early" }] } state
    exact ⟨t1, t2, t4, t5, t6, t3⟩
  · simp only [hc, if_false]
    obtain ⟨t1, t2, t3, t4, t5, t6⟩ := Executor.terminateState_frame ex state
    exact ⟨t1, t2, t4, t5, t6, t3⟩

theorem Executor.setState_coveredNew (ex : Executor) (id j : StateId)
    (s : ExecutionState) (hs : s.coveredNew = (ex.getState id).coveredNew) :
    ((ex.setState id s).getState j).coveredNew = (ex.getState j).coveredNew := by
  by_cases hj : j = id
  · subst hj
    by_cases hlt : j < ex.heap.length
    · rw [Executor.getState_setState_same ex j s hlt, hs]
    · have hle : ex.heap.length ≤ j := Nat.le_of_not_lt hlt
      simp [Executor.setState, List.set_eq_of_length_le hle]
  · rw [Executor.getState_setState_ne ex id j s hj]

theorem Executor.addConstraint_frame (ex ex' : Executor) (state : StateId) (condition : Expr)
    (h : ex.addConstraint state condition = some ex') :
    ex'.heap.length = ex.heap.length ∧ ex'.stats = ex.stats ∧
      ex'.addedStates = ex.addedStates ∧ ex'.removedStates = ex.removedStates ∧
      ex'.testCases = ex.testCases ∧ ex'.opts = ex.opts ∧ ex'.solver = ex.solver ∧
      (∀ id, id ≠ state → ex'.heap.getD id none = ex.heap.getD id none) := by
  unfold Executor.addConstraint at h
  split at h
  · split at h
    · injection h with h
      subst h
      exact ⟨rfl, rfl, rfl, rfl, rfl, rfl, rfl, fun _ _ => rfl⟩
    · cases h
  · injection h with h
    subst h
    refine ⟨by simp [Executor.setState], rfl, rfl, rfl, rfl, rfl, rfl, ?_⟩
    intro id hid
    exact Executor.heap_setState_ne _ state id _ hid

theorem Executor.addConstraint_nonconstant (ex : Executor) (state : StateId)
    (condition : Expr) (hnc : condition.isConstant = false)
    (halloc : ex.isAllocated state = true) :
    ∃ ex', ex.addConstraint state condition = some ex' ∧
      ex'.getState state = (ex.getState state).addConstraint condition ∧
      (∀ id, ex'.isAllocated id = ex.isAllocated id) ∧
      (∀ id, id ≠ state → ex'.getState id = ex.getState id) := by
  have hnone : condition.asConstant = none := by
    unfold Expr.isConstant at hnc
    cases hc : condition.asConstant with
    | none => rfl
    | some c => rw [hc] at hnc; simp at hnc
  have hlt := Executor.isAllocated_lt ex state halloc
  unfold Executor.addConstraint
  simp only [hnone]
  refine ⟨_, rfl, ?_, ?_, ?_⟩
  · exact Executor.getState_setState_same _ state _ hlt
  · intro id
    exact Executor.isAllocated_setState _ state id _ halloc
  · intro id hid
    exact Executor.getState_setState_ne _ state id _ hid

theorem Executor.forkStatic_frame (ex ex1 : Executor) (current : StateId)
    (condition condition' : Expr) (isSeeding : Bool)
    (h : ex.forkStatic current condition isSeeding = some (condition', ex1)) :
    ex1.heap.length = ex.heap.length ∧ ex1.stats = ex.stats ∧
      ex1.addedStates = ex.addedStates ∧ ex1.removedStates = ex.removedStates ∧
      ex1.testCases = ex.testCases ∧ ex1.opts = ex.opts ∧ ex1.solver = ex.solver ∧
      (∀ id, id ≠ current → ex1.heap.getD id none = ex.heap.getD id none) := by
  unfold Executor.forkStatic at h
  split at h
  · split at h
    · simp only at h
      split at h
      · cases h
      · rename_i ex2 hadd
        injection h with h
        injection h with _ h
        subst h
        exact Executor.addConstraint_frame ex ex2 current _ hadd
    · injection h with h
      injection h with _ h
      subst h
      exact ⟨rfl, rfl, rfl, rfl, rfl, rfl, rfl, fun _ _ => rfl⟩
  · injection h with h
    injection h with _ h
    subst h
    exact ⟨rfl, rfl, rfl, rfl, rfl, rfl, rfl, fun _ _ => rfl⟩

theorem Executor.forkStatic_guard (ex ex1 : Executor) (current : StateId)
    (condition condition' : Expr)
    (h : ex.forkStatic current condition (ex.seedMap current).isSome = some (condition', ex1)) :
    (ex1.getState current).coveredNew = (ex.getState current).coveredNew ∧
      ex1.seedMap = ex.seedMap := by
  unfold Executor.forkStatic at h
  split at h
  · rename_i hc
    split at h
    · simp only at h
      split at h
      · cases h
      · rename_i ex2 hadd
        injection h with h
        injection h with _ h
        subst h
        have hseed : ex.seedMap current = none := by
          cases hs : ex.seedMap current with
          | none => rfl
          | some l => rw [hs] at hc; simp at hc
        unfold Executor.addConstraint at hadd
        split at hadd
        · split at hadd
          · injection hadd with hadd
            subst hadd
            exact ⟨rfl, rfl⟩
          · cases hadd
        · injection hadd with hadd
          subst hadd
          rw [hseed]
          exact ⟨Executor.setState_coveredNew _ current current _ rfl, rfl⟩
    · injection h with h
      injection h with _ h
      subst h
      exact ⟨rfl, rfl⟩
  · injection h with h
    injection h with _ h
    subst h
    exact ⟨rfl, rfl⟩

theorem Executor.forkStatic_total (ex : Executor) (current : StateId) (condition : Expr)
    (isSeeding : Bool) :
    ∃ condition' ex1, ex.forkStatic current condition isSeeding = some (condition', ex1) := by
  unfold Executor.forkStatic
  split
  · rename_i hc
    split
    · have hnc : condition.asConstant = none := by
        simp only [Bool.and_eq_true, Bool.not_eq_true', Expr.isConstant] at hc
        cases hx : condition.asConstant with
        | none => rfl
        | some c => rw [hx] at hc; simp at hc
      have hne : (EqExpr.create (.Constant (ex.solver.getValue (ex.getState current) condition))
          condition).asConstant = none := by
        simp only [EqExpr.create, hnc]
        rfl
      simp [Executor.addConstraint, hne]
    · exact ⟨_, _, rfl⟩
  · exact ⟨_, _, rfl⟩

/-- C10: solver timeout is path-local.  When the validity query of `fork`
(made on the condition and executor left by the static-budget step) returns no
answer, `fork` returns null on both sides and its effect is that of
`terminateStateEarly` with the message "query timed out" on the current state
alone: the state is deleted if it was still pending, else put in the removed
set; the test case emitted (under the output guard of `terminateStateEarly`,
which always holds when only-output-states-covering-new is off) carries that
message and the suffix "early"; no state is created, the fork counter is
unchanged and every other state is untouched. -/
theorem Executor.fork_timeout_is_path_local (ex ex1 : Executor) (current : StateId)
    (condition condition' : Expr) (isInternal : Bool) (reason : ForkClass)
    (hstatic : ex.forkStatic current condition (ex.seedMap current).isSome =
      some (condition', ex1))
    (hfail : ex1.solver.evaluate (ex1.getState current) condition' = none) :
    ∃ ex', ex.fork current condition isInternal reason = some ((none, none), ex') ∧
      ex'.heap.length = ex.heap.length ∧ ex'.stats.forks = ex.stats.forks ∧
      (∀ id, id ≠ current → ex'.heap.getD id none = ex.heap.getD id none) ∧
      ex'.addedStates = ex.addedStates.erase current ∧
      (if current ∈ ex.addedStates then ex'.isAllocated current = false
        else current ∈ ex'.removedStates) ∧
      ex'.testCases =
        if (!ex.opts.OnlyOutputStatesCoveringNew || (ex.getState current).coveredNew ||
            (ex.opts.AlwaysOutputSeeds && (ex.seedMap current).isSome)) = true then
          ex.testCases ++
            [{ state := current, message := some "query timed out\n", suffix := some "early" }]
        else ex.testCases := by
  obtain ⟨f1, f2, f3, _, f5, f6, _, f8⟩ :=
    Executor.forkStatic_frame ex ex1 current condition condition' _ hstatic
  obtain ⟨g1, g2⟩ := Executor.forkStatic_guard ex ex1 current condition condition' hstatic
  unfold Executor.fork
  simp only [hstatic, hfail]
  obtain ⟨t1, t2, t3, t4, t5, t6⟩ := Executor.terminateStateEarly_frame
    (ex1.setState current ((ex1.getState current).setCrtThread
      { (ex1.getState current).crtThread with pc := (ex1.getState current).crtThread.prevPC }))
    current "query timed out"
  have e3 : (ex1.setState current ((ex1.getState current).setCrtThread
      { (ex1.getState current).crtThread with
        pc := (ex1.getState current).crtThread.prevPC })).addedStates = ex.addedStates := f3
  have e5 : (ex1.setState current ((ex1.getState current).setCrtThread
      { (ex1.getState current).crtThread with
        pc := (ex1.getState current).crtThread.prevPC })).testCases = ex.testCases := f5
  have e6 : (ex1.setState current ((ex1.getState current).setCrtThread
      { (ex1.getState current).crtThread with
        pc := (ex1.getState current).crtThread.prevPC })).opts = ex.opts := f6
  have e7 : (ex1.setState current ((ex1.getState current).setCrtThread
      { (ex1.getState current).crtThread with
        pc := (ex1.getState current).crtThread.prevPC })).seedMap = ex.seedMap := g2
  have e8 : ((ex1.setState current ((ex1.getState current).setCrtThread
      { (ex1.getState current).crtThread with
        pc := (ex1.getState current).crtThread.prevPC })).getState current).coveredNew =
      (ex.getState current).coveredNew :=
    (Executor.setState_coveredNew ex1 current current
      ((ex1.getState current).setCrtThread
        { (ex1.getState current).crtThread with
          pc := (ex1.getState current).crtThread.prevPC }) rfl).trans g1
  refine ⟨_, rfl, ?_, ?_, ?_, ?_, ?_, ?_⟩
  · rw [t1, Executor.heap_length_setState, f1]
  · rw [t2]
    simp only [Executor.setState]
    rw [f2]
  · intro id hid
    rw [t3 id hid, Executor.heap_setState_ne _ current id _ hid, f8 id hid]
  · rw [t4, e3]
  · rw [e3] at t5
    exact t5
  · rw [t6, e5, e6, e7, e8]
    rfl

/-- Witness of C10: the solver of the example executor never answers. -/
theorem Executor.fork_timeout_is_path_local_witness :
    ∃ ex', (exampleExecutor none).fork 0 exampleCondition false ForkClass.KLEE_FORK_DEFAULT =
        some ((none, none), ex') ∧
      ex'.heap.length = 1 ∧ 0 ∈ ex'.removedStates ∧
      ex'.testCases =
        [{ state := 0, message := some "query timed out\n", suffix := some "early" }] := by
  obtain ⟨ex', h1, h2, _, _, _, h6, h7⟩ := Executor.fork_timeout_is_path_local
    (exampleExecutor none) (exampleExecutor none) 0 exampleCondition exampleCondition false
    ForkClass.KLEE_FORK_DEFAULT rfl rfl
  exact ⟨ex', h1, h2, h6, h7⟩

/-! ## The executor: the two-way fork -/

theorem Executor.SamePaths.refl (ex : Executor) : ex.SamePaths ex :=
  ⟨rfl, rfl, rfl, rfl, rfl, fun _ => rfl, fun _ => ⟨rfl, rfl⟩⟩

theorem Executor.SamePaths.trans (a b c : Executor) (h1 : a.SamePaths b)
    (h2 : b.SamePaths c) : a.SamePaths c := by
  obtain ⟨a1, a2, a3, a4, a5, a6, a7⟩ := h1
  obtain ⟨b1, b2, b3, b4, b5, b6, b7⟩ := h2
  refine ⟨b1.trans a1, b2.trans a2, b3.trans a3, b4.trans a4, b5.trans a5,
    fun id => (b6 id).trans (a6 id), fun id => ?_⟩
  exact ⟨(b7 id).1.trans (a7 id).1, (b7 id).2.trans (a7 id).2⟩

theorem Executor.setState_samePaths (ex : Executor) (id : StateId) (s : ExecutionState)
    (halloc : ex.isAllocated id = true)
    (hc : s.constraints = (ex.getState id).constraints)
    (hd : s.depth = (ex.getState id).depth) : ex.SamePaths (ex.setState id s) := by
  have hlt := Executor.isAllocated_lt ex id halloc
  refine ⟨Executor.heap_length_setState ex id s, rfl, rfl, rfl, rfl,
    fun j => Executor.isAllocated_setState ex id j s halloc, fun j => ?_⟩
  by_cases hj : j = id
  · subst hj
    rw [Executor.getState_setState_same ex j s hlt]
    exact ⟨hc, hd⟩
  · rw [Executor.getState_setState_ne ex id j s hj]
    exact ⟨rfl, rfl⟩

theorem Executor.samePaths_step (ex0 e : Executor) (id : StateId) (s : ExecutionState)
    (h0 : ex0.SamePaths e) (halloc : ex0.isAllocated id = true)
    (hc : s.constraints = (e.getState id).constraints)
    (hd : s.depth = (e.getState id).depth) : ex0.SamePaths (e.setState id s) :=
  Executor.SamePaths.trans _ _ _ h0
    (Executor.setState_samePaths e id s (by rw [h0.2.2.2.2.2.1]; exact halloc) hc hd)

theorem Executor.forkPaths_samePaths (ex : Executor) (current trueState falseState : StateId)
    (ht : ex.isAllocated trueState = true) (hf : ex.isAllocated falseState = true) :
    ex.SamePaths (ex.forkPaths current trueState falseState) := by
  unfold Executor.forkPaths
  simp only []
  split <;> split <;>
    repeat' (first
      | exact Executor.SamePaths.refl _
      | refine Executor.samePaths_step _ _ _ _ ?_ (by first | exact ht | exact hf) rfl rfl)

theorem Executor.forkBranch_heap (ex : Executor) (current : StateId) :
    (ex.forkBranch current).2.heap =
      ex.heap.set current (some (ex.getState current)) ++ [some (ex.getState current)] := rfl

theorem Executor.forkBranch_spec (ex : Executor) (current : StateId)
    (halloc : ex.isAllocated current = true) :
    (ex.forkBranch current).1 =
        (if (ex.opts.RandomizeFork && ex.theRNG.getBool.1) = true then ex.heap.length
          else current,
         if (ex.opts.RandomizeFork && ex.theRNG.getBool.1) = true then current
          else ex.heap.length) ∧
      (ex.forkBranch current).2.heap.length = ex.heap.length + 1 ∧
      (ex.forkBranch current).2.isAllocated current = true ∧
      (ex.forkBranch current).2.isAllocated ex.heap.length = true ∧
      (ex.forkBranch current).2.getState current = (ex.getState current).branch.1 ∧
      (ex.forkBranch current).2.getState ex.heap.length = (ex.getState current).branch.2 ∧
      (ex.forkBranch current).2.addedStates = setInsert ex.addedStates ex.heap.length ∧
      (ex.forkBranch current).2.stats.forks = ex.stats.forks + 1 ∧
      (ex.forkBranch current).2.opts = ex.opts ∧
      (ex.forkBranch current).2.seedMap = ex.seedMap := by
  have hlt := Executor.isAllocated_lt ex current halloc
  have hlen : (ex.heap.set current (some (ex.getState current))).length = ex.heap.length :=
    List.length_set _ _ _
  have hlt2 : current < (ex.heap.set current (some (ex.getState current))).length := by
    rw [hlen]; exact hlt
  have hcur : ((ex.forkBranch current).2.heap)[current]? = some (some (ex.getState current)) := by
    rw [Executor.forkBranch_heap, List.getElem?_append_left hlt2, List.getElem?_set_self hlt]
  have hnew : ((ex.forkBranch current).2.heap)[ex.heap.length]? =
      some (some (ex.getState current)) := by
    rw [Executor.forkBranch_heap, List.getElem?_append_right (by rw [hlen]), hlen]
    simp
  refine ⟨?_, ?_, ?_, ?_, ?_, ?_, ?_, rfl, rfl, rfl⟩
  · cases hR : ex.opts.RandomizeFork <;>
      simp [Executor.forkBranch, Executor.newState, Executor.setState, hR]
  · rw [Executor.forkBranch_heap]
    simp
  · simp [Executor.isAllocated, List.getD_eq_getElem?_getD, hcur]
  · simp [Executor.isAllocated, List.getD_eq_getElem?_getD, hnew]
  · simp [Executor.getState, List.getD_eq_getElem?_getD, hcur, ExecutionState.branch]
  · simp [Executor.getState, List.getD_eq_getElem?_getD, hnew, ExecutionState.branch]
  · simp [Executor.forkBranch, Executor.newState, Executor.setState]

theorem Executor.SamePaths.alloc (a b : Executor) (h : a.SamePaths b) (id : StateId)
    (ha : a.isAllocated id = true) : b.isAllocated id = true := by
  rw [h.2.2.2.2.2.1]; exact ha

theorem Executor.forkTree_samePaths (ex : Executor) (current trueState falseState : StateId)
    (isInternal : Bool) (tag : ForkTag) (ht : ex.isAllocated trueState = true)
    (hf : ex.isAllocated falseState = true) :
    ex.SamePaths (ex.forkTree current trueState falseState isInternal tag) := by
  have h0 : ∀ pt : PTree, ex.SamePaths { ex with processTree := pt } := fun pt =>
    ⟨rfl, rfl, rfl, rfl, rfl, fun _ => rfl, fun _ => ⟨rfl, rfl⟩⟩
  have key : ∀ e : Executor, ex.SamePaths e →
      ex.SamePaths (if (!isInternal) = true then e.forkPaths current trueState falseState
        else e) := by
    intro e he
    split
    · exact Executor.SamePaths.trans _ _ _ he
        (Executor.forkPaths_samePaths e _ _ _ (Executor.SamePaths.alloc _ _ he _ ht)
          (Executor.SamePaths.alloc _ _ he _ hf))
    · exact he
  unfold Executor.forkTree
  exact key _ (Executor.samePaths_step _ _ _ _
    (Executor.samePaths_step _ _ _ _ (h0 _) hf rfl rfl) ht rfl rfl)

theorem Executor.forkSeeds_unseeded (ex : Executor) (current trueState falseState : StateId)
    (condition : Expr) (hseed : ex.seedMap current = none) :
    ex.forkSeeds current trueState falseState condition = ex := by
  unfold Executor.forkSeeds
  rw [hseed]

theorem Expr.createIsZero_isConstant (e : Expr) (h : e.isConstant = false) :
    e.createIsZero.isConstant = false := by
  have hnone : e.asConstant = none := by
    unfold Expr.isConstant at h
    cases hc : e.asConstant with
    | none => rfl
    | some c => rw [hc] at h; simp at h
  unfold Expr.createIsZero EqExpr.create
  rw [hnone]
  rfl

theorem Executor.forkFinish_spec (ex : Executor) (trueState falseState : StateId)
    (condition : Expr) (ht : ex.isAllocated trueState = true)
    (hf : ex.isAllocated falseState = true) (htf : trueState ≠ falseState)
    (hnc : condition.isConstant = false)
    (hdepth : ex.opts.MaxDepth = 0 ∨ (ex.getState trueState).depth < ex.opts.MaxDepth) :
    ∃ ex', ex.forkFinish trueState falseState condition =
        some ((some trueState, some falseState), ex') ∧
      ex'.heap.length = ex.heap.length ∧ ex'.addedStates = ex.addedStates ∧
      ex'.stats = ex.stats ∧ ex'.isAllocated trueState = true ∧
      ex'.isAllocated falseState = true ∧
      (ex'.getState trueState).constraints =
        (ex.getState trueState).constraints ++ [condition] ∧
      (ex'.getState falseState).constraints =
        (ex.getState falseState).constraints ++ [condition.createIsZero] := by
  obtain ⟨ex1, h1, g1, a1, o1⟩ :=
    Executor.addConstraint_nonconstant ex trueState condition hnc ht
  obtain ⟨l1, s1, d1, _, _, p1, _, _⟩ := Executor.addConstraint_frame ex ex1 trueState _ h1
  have hf1 : ex1.isAllocated falseState = true := by rw [a1]; exact hf
  obtain ⟨ex2, h2, g2, a2, o2⟩ := Executor.addConstraint_nonconstant ex1 falseState
    condition.createIsZero (Expr.createIsZero_isConstant condition hnc) hf1
  obtain ⟨l2, s2, d2, _, _, p2, _, _⟩ := Executor.addConstraint_frame ex1 ex2 falseState _ h2
  have gt : ex2.getState trueState = (ex.getState trueState).addConstraint condition := by
    rw [o2 trueState htf, g1]
  have gf : ex2.getState falseState =
      (ex.getState falseState).addConstraint condition.createIsZero := by
    rw [g2, o1 falseState (fun h => htf h.symm)]
  have hd : ¬ (ex2.opts.MaxDepth ≠ 0 ∧ ex2.opts.MaxDepth ≤ (ex2.getState trueState).depth) := by
    rw [gt, p2, p1]
    intro hcon
    rcases hdepth with h0 | hlt
    · exact hcon.1 h0
    · have : ((ex.getState trueState).addConstraint condition).depth =
          (ex.getState trueState).depth := rfl
      rw [this] at hcon
      omega
  refine ⟨ex2, ?_, l2.trans l1, d2.trans d1, s2.trans s1, ?_, ?_, ?_, ?_⟩
  · unfold Executor.forkFinish
    simp only [h1, h2]
    rw [if_neg hd]
  · rw [a2, a1]; exact ht
  · rw [a2, a1]; exact hf
  · rw [gt]; rfl
  · rw [gf]; rfl

/-- C8: real two-way fork.  When the solver answers unknown for a non-constant
condition, the state has no seeds, no replay is active, the static budgets are
at their defaults, no cap forbids branching and the depth cap is not reached,
`fork` returns two distinct live states: the input state and one new state at
a fresh address, the new one being the false side unless randomize-fork draws
a swap.  Exactly one state is created, it is registered in the pending added
set, the fork counter grows by one, the true state's constraints are the
parent's plus the condition and the false state's are the parent's plus the
negated condition. -/
theorem Executor.fork_unknown_splits (ex : Executor) (current : StateId) (condition : Expr)
    (isInternal : Bool) (reason : ForkClass)
    (halloc : ex.isAllocated current = true) (hseed : ex.seedMap current = none)
    (hreplay : ex.replayPath = none) (hreplayOut : ex.replayOut = false)
    (hstatic : ex.opts.staticBudgetsSet = false) (hcap : ex.forkCapped current = false)
    (hdepth : ex.opts.MaxDepth = 0 ∨
      (ex.getState current).branch.1.depth < ex.opts.MaxDepth)
    (hsolver : ex.solver.evaluate (ex.getState current) condition = some Validity.Unknown)
    (hnc : condition.isConstant = false) :
    ∃ trueState falseState ex',
      ex.fork current condition isInternal reason =
        some ((some trueState, some falseState), ex') ∧
      trueState ≠ falseState ∧
      (trueState, falseState) =
        (if (ex.opts.RandomizeFork && ex.theRNG.getBool.1) = true
          then (ex.heap.length, current) else (current, ex.heap.length)) ∧
      ex'.heap.length = ex.heap.length + 1 ∧
      ex'.isAllocated trueState = true ∧ ex'.isAllocated falseState = true ∧
      ex'.addedStates = setInsert ex.addedStates ex.heap.length ∧
      ex'.stats.forks = ex.stats.forks + 1 ∧
      (ex'.getState trueState).constraints =
        (ex.getState current).constraints ++ [condition] ∧
      (ex'.getState falseState).constraints =
        (ex.getState current).constraints ++ [condition.createIsZero] := by
  have hlt := Executor.isAllocated_lt ex current halloc
  have h1 : ex.forkStatic current condition (ex.seedMap current).isSome =
      some (condition, ex) := by
    simp [Executor.forkStatic, hstatic]
  have h2 : ex.forkPolicy current condition isInternal (ex.seedMap current).isSome
      Validity.Unknown = some (Validity.Unknown, ex) := by
    simp [Executor.forkPolicy, hseed, hreplay, hreplayOut, hcap]
  have h3 : ex.forkSeedFix current condition (ex.seedMap current).isSome Validity.Unknown =
      some (Validity.Unknown, ex) := by
    simp [Executor.forkSeedFix, hseed]
  obtain ⟨b1, b2, b3, b4, b5, b6, b7, b8, b9, b10⟩ := Executor.forkBranch_spec ex current halloc
  have hbseed : (ex.forkBranch current).2.seedMap current = none := by rw [b10]; exact hseed
  -- the two sides
  have hsides : ((ex.forkBranch current).1.1 = current ∧
        (ex.forkBranch current).1.2 = ex.heap.length) ∨
      ((ex.forkBranch current).1.1 = ex.heap.length ∧
        (ex.forkBranch current).1.2 = current) := by
    rw [b1]
    split
    · exact Or.inr ⟨rfl, rfl⟩
    · exact Or.inl ⟨rfl, rfl⟩
  have hne : (ex.forkBranch current).1.1 ≠ (ex.forkBranch current).1.2 := by
    rcases hsides with ⟨e1, e2⟩ | ⟨e1, e2⟩
    · rw [e1, e2]; exact Nat.ne_of_lt hlt
    · rw [e1, e2]; exact (Nat.ne_of_lt hlt).symm
  have hta : (ex.forkBranch current).2.isAllocated (ex.forkBranch current).1.1 = true := by
    rcases hsides with ⟨e1, _⟩ | ⟨e1, _⟩ <;> rw [e1] <;> assumption
  have hfa : (ex.forkBranch current).2.isAllocated (ex.forkBranch current).1.2 = true := by
    rcases hsides with ⟨_, e2⟩ | ⟨_, e2⟩ <;> rw [e2] <;> assumption
  have hgt : (ex.forkBranch current).2.getState (ex.forkBranch current).1.1 =
      ex.getState current := by
    rcases hsides with ⟨e1, _⟩ | ⟨e1, _⟩ <;> rw [e1] <;> first | exact b5 | exact b6
  have hgf : (ex.forkBranch current).2.getState (ex.forkBranch current).1.2 =
      ex.getState current := by
    rcases hsides with ⟨_, e2⟩ | ⟨_, e2⟩ <;> rw [e2] <;> first | exact b5 | exact b6
  have hsp := Executor.forkTree_samePaths (ex.forkBranch current).2 current
    (ex.forkBranch current).1.1 (ex.forkBranch current).1.2 isInternal
    (Executor.getForkTag (ex.getState current) reason) hta hfa
  obtain ⟨p1, p2, p3, p4, _, p6, p7⟩ := hsp
  have hd : ((ex.forkBranch current).2.forkTree current (ex.forkBranch current).1.1
        (ex.forkBranch current).1.2 isInternal
        (Executor.getForkTag (ex.getState current) reason)).opts.MaxDepth = 0 ∨
      (((ex.forkBranch current).2.forkTree current (ex.forkBranch current).1.1
        (ex.forkBranch current).1.2 isInternal
        (Executor.getForkTag (ex.getState current) reason)).getState
          (ex.forkBranch current).1.1).depth <
        ((ex.forkBranch current).2.forkTree current (ex.forkBranch current).1.1
        (ex.forkBranch current).1.2 isInternal
        (Executor.getForkTag (ex.getState current) reason)).opts.MaxDepth := by
    rw [p2, b9, (p7 _).2, hgt]
    exact hdepth
  obtain ⟨ex', f1, f2, f3, f4, f5, f6, f7, f8⟩ := Executor.forkFinish_spec
    ((ex.forkBranch current).2.forkTree current (ex.forkBranch current).1.1
      (ex.forkBranch current).1.2 isInternal (Executor.getForkTag (ex.getState current) reason))
    (ex.forkBranch current).1.1 (ex.forkBranch current).1.2 condition
    (by rw [p6]; exact hta) (by rw [p6]; exact hfa) hne hnc hd
  refine ⟨(ex.forkBranch current).1.1, (ex.forkBranch current).1.2, ex', ?_, hne, ?_, ?_, f5, f6,
    ?_, ?_, ?_, ?_⟩
  · unfold Executor.fork
    simp only [h1, hsolver, h2, h3]
    unfold Executor.forkSplit
    simp only [Executor.forkSeeds_unseeded _ current _ _ condition hbseed]
    exact f1
  · rw [b1]
    split <;> rfl
  · rw [f2, p1, b2]
  · rw [f3, p3, b7]
  · rw [f4, p4, b8]
  · rw [f7, (p7 _).1, hgt]
  · rw [f8, (p7 _).1, hgf]

/-- Witness of C8: the solver answers unknown for the single state of the
example executor; the input state 0 becomes the true side and the new state 1
the false side. -/
theorem Executor.fork_unknown_splits_witness :
    ∃ ex', (exampleExecutor (some Validity.Unknown)).fork 0 exampleCondition false
        ForkClass.KLEE_FORK_DEFAULT = some ((some 0, some 1), ex') ∧
      ex'.heap.length = 2 ∧ ex'.addedStates = [1] ∧ ex'.stats.forks = 1 ∧
      (ex'.getState 0).constraints = [exampleCondition] ∧
      (ex'.getState 1).constraints = [exampleCondition.createIsZero] := by
  obtain ⟨t, f, ex', h1, _, h3, h4, _, _, h7, h8, h9, h10⟩ := Executor.fork_unknown_splits
    (exampleExecutor (some Validity.Unknown)) 0 exampleCondition false
    ForkClass.KLEE_FORK_DEFAULT rfl rfl rfl rfl (by decide) (by decide) (Or.inl rfl) rfl rfl
  have ht : t = 0 := congrArg Prod.fst h3
  have hf : f = 1 := congrArg Prod.snd h3
  subst ht
  subst hf
  exact ⟨ex', h1, h4, h7, h8, h9, h10⟩

/-! ## Symbolic-index accesses -/

theorem foldlM_option_range {β : Type} (f : β → Nat → Option β) (P : Nat → β → Prop) (hi : Nat)
    (hstep : ∀ b k, P k b → k < hi → ∃ b', f b k = some b' ∧ P (k + 1) b') :
    ∀ (n base : Nat) (b : β), base + n ≤ hi → P base b →
      ∃ b', (List.range' base n).foldlM f b = some b' ∧ P (base + n) b' := by
  intro n
  induction n with
  | zero =>
    intro base b _ hb
    exact ⟨b, rfl, hb⟩
  | succ n ih =>
    intro base b hle hb
    obtain ⟨b1, h1, hb1⟩ := hstep b base hb (by omega)
    obtain ⟨b2, h2, hb2⟩ := ih (base + 1) b1 (by omega) hb1
    refine ⟨b2, ?_, ?_⟩
    · simp only [List.range', List.foldlM_cons, h1]
      exact h2
    · have e : base + (n + 1) = base + 1 + n := by omega
      rw [e]
      exact hb2

theorem ObjectState.flushByteForRead_total (os : ObjectState) (o : Nat) (h : os.byteInv o) :
    ∃ os', os.flushByteForRead o = some os' := by
  unfold ObjectState.flushByteForRead
  by_cases hfl : os.isByteFlushed o = true
  · simp [hfl]
  · have hfl' : os.isByteFlushed o = false := by simpa using hfl
    simp only [hfl', Bool.not_false, if_true]
    by_cases hc : os.isByteConcrete o = true
    · simp [hc]
    · simp only [hc, Bool.false_eq_true, if_false]
      rcases h.2 hfl' with h1 | h1
      · exact absurd h1 hc
      · unfold ObjectState.isByteKnownSymbolic at h1
        rcases hk : os.knownSymbolics with _ | ks
        · rw [hk] at h1; cases h1
        · rw [hk] at h1
          simp only at h1
          rcases hv : ks o with _ | v
          · rw [hv] at h1; cases h1
          · simp [Option.bind, hv]

theorem ObjectState.flushByteForWrite_total (os : ObjectState) (o : Nat) (h : os.byteInv o) :
    ∃ os', os.flushByteForWrite o = some os' := by
  unfold ObjectState.flushByteForWrite
  by_cases hfl : os.isByteFlushed o = true
  · simp only [hfl, Bool.not_true, Bool.false_eq_true, if_false]
    split
    · exact ⟨_, rfl⟩
    · split <;> exact ⟨_, rfl⟩
  · have hfl' : os.isByteFlushed o = false := by simpa using hfl
    simp only [hfl', Bool.not_false, if_true]
    by_cases hc : os.isByteConcrete o = true
    · simp [hc]
    · simp only [hc, Bool.false_eq_true, if_false]
      rcases h.2 hfl' with h1 | h1
      · exact absurd h1 hc
      · unfold ObjectState.isByteKnownSymbolic at h1
        rcases hk : os.knownSymbolics with _ | ks
        · rw [hk] at h1; cases h1
        · rw [hk] at h1
          simp only at h1
          rcases hv : ks o with _ | v
          · rw [hv] at h1; cases h1
          · simp [Option.bind, hv]

theorem ObjectState.flushRangeForRead_total (os : ObjectState) (hinv : os.CacheInv) :
    ∃ os', os.flushRangeForRead 0 os.size = some os' ∧ os'.size = os.size ∧
      ∀ p, p < os.size → os'.isByteFlushed p = true := by
  unfold ObjectState.flushRangeForRead
  have key := foldlM_option_range (fun (x : ObjectState) offset => x.flushByteForRead offset)
    (fun k x => x.size = os.size ∧ x.flushMask.isSome = true ∧ x.CacheInv ∧
      ∀ p, p < k → x.isByteFlushed p = true) os.size ?_ os.size 0
    (match os.flushMask with
      | none => { os with flushMask := some (BitArray.new os.size true) }
      | some _ => os) (by omega) ?_
  · obtain ⟨os', h1, h2, _, _, h5⟩ := key
    refine ⟨os', h1, h2, fun p hp => h5 p (by omega)⟩
  · intro b k hb hk
    obtain ⟨b1, b2, b3, b4⟩ := hb
    obtain ⟨b', hb'⟩ := ObjectState.flushByteForRead_total b k (b3 k (by omega))
    obtain ⟨s1, s2, s3, s4, _, _, s7, s8⟩ := ObjectState.flushByteForRead_status b b' k hb'
    refine ⟨b', hb', s1.trans b1, s2.trans b2, ?_, ?_⟩
    · exact ObjectState.CacheInv_of_same b b' s1 s3 s4 s7 b3
    · intro p hp
      rw [s8 b2 p]
      by_cases hpk : p = k
      · simp [hpk]
      · simp [hpk, b4 p (by omega)]
  · rcases hf : os.flushMask with _ | f
    · refine ⟨rfl, rfl, ?_, fun p hp => absurd hp (Nat.not_lt_zero p)⟩
      refine ObjectState.CacheInv_of_same os _ rfl rfl rfl ?_ hinv
      intro p _
      simp [ObjectState.isByteFlushed, hf]
    · exact ⟨rfl, by simp [hf], hinv, fun p hp => absurd hp (Nat.not_lt_zero p)⟩

theorem ObjectState.flushRangeForWrite_total (os : ObjectState) (hinv : os.CacheInv) :
    ∃ os', os.flushRangeForWrite 0 os.size = some os' ∧ os'.size = os.size ∧
      ∀ p, p < os.size → os'.isByteFlushed p = true ∧ os'.isByteConcrete p = false ∧
        os'.isByteKnownSymbolic p = false := by
  unfold ObjectState.flushRangeForWrite
  have key := foldlM_option_range (fun (x : ObjectState) offset => x.flushByteForWrite offset)
    (fun k x => x.size = os.size ∧ x.flushMask.isSome = true ∧ x.CacheInv ∧
      ∀ p, p < k → x.isByteFlushed p = true ∧ x.isByteConcrete p = false ∧
        x.isByteKnownSymbolic p = false) os.size ?_ os.size 0
    (match os.flushMask with
      | none => { os with flushMask := some (BitArray.new os.size true) }
      | some _ => os) (by omega) ?_
  · obtain ⟨os', h1, h2, _, _, h5⟩ := key
    refine ⟨os', h1, h2, fun p hp => h5 p (by omega)⟩
  · intro b k hb hk
    obtain ⟨b1, b2, b3, b4⟩ := hb
    obtain ⟨b', hb'⟩ := ObjectState.flushByteForWrite_total b k (b3 k (by omega))
    obtain ⟨s1, s2, s3, s4, s5, s6⟩ := ObjectState.flushByteForWrite_status b b' k hb' b2
    refine ⟨b', hb', s1.trans b1, s2, ?_, ?_⟩
    · intro p hp
      rw [s1] at hp
      by_cases hpa : p = k
      · subst hpa
        unfold ObjectState.byteInv
        rw [s4, s5]
        simp
      · obtain ⟨e1, e2, e3⟩ := s3 p hpa
        unfold ObjectState.byteInv
        rw [e1, e2, e3]
        exact b3 p hp
    · intro p hp
      by_cases hpk : p = k
      · subst hpk
        exact ⟨s5, s4, s6 (b3 p (by omega))⟩
      · obtain ⟨e1, e2, e3⟩ := s3 p hpk
        rw [e1, e2, e3]
        exact b4 p (by omega)
  · rcases hf : os.flushMask with _ | f
    · refine ⟨rfl, rfl, ?_, fun p hp => absurd hp (Nat.not_lt_zero p)⟩
      refine ObjectState.CacheInv_of_same os _ rfl rfl rfl ?_ hinv
      intro p _
      simp [ObjectState.isByteFlushed, hf]
    · exact ⟨rfl, by simp [hf], hinv, fun p hp => absurd hp (Nat.not_lt_zero p)⟩

theorem ObjectState.symbolic_index_forces_flush_aux (os : ObjectState) (offset value : Expr)
    (state : Option ExecutionState) (solver : TimingSolver) (h : os.Reachable)
    (hoff : offset.isConstant = false) :
    (∃ e os', os.read8Expr offset state solver = some (e, os') ∧ os'.size = os.size ∧
        ∀ i, i < os.size → os'.isByteFlushed i = true) ∧
      (∃ os', os.write8Expr offset value state solver = some os' ∧ os'.size = os.size ∧
        (∀ i, i < os.size → os'.isByteFlushed i = true ∧ os'.isByteConcrete i = false ∧
          os'.isByteKnownSymbolic i = false) ∧
        os'.updates.head.head? = some (.mk (ZExtExpr.create offset Expr.Int32) value)) := by
  have hinv := ObjectState.reachable_inv os h
  constructor
  · obtain ⟨os1, h1, h2, h3⟩ := ObjectState.flushRangeForRead_total os hinv
    unfold ObjectState.read8Expr
    simp only [hoff, Bool.false_eq_true, if_false, ObjectState.fastRangeCheckOffset, h1]
    refine ⟨_, _, rfl, ?_, ?_⟩
    · rw [ObjectState.getUpdates_same]
      exact h2
    · intro i hi
      rw [ObjectState.getUpdates_same]
      exact h3 i hi
  · obtain ⟨os1, h1, h2, h3⟩ := ObjectState.flushRangeForWrite_total os hinv
    unfold ObjectState.write8Expr
    simp only [hoff, Bool.false_eq_true, if_false, ObjectState.fastRangeCheckOffset, h1]
    exact ⟨_, rfl, h2, fun i hi => h3 i hi, rfl⟩

/-- C20: on an object state reached from a constructor, read8 and write8 with
a non-constant offset both succeed, and afterwards every byte below the size
is flushed; after the write, in addition, no byte is concrete, no byte is
known-symbolic, and the newest entry of the update list is the written pair:
the offset, brought to 32 bits as the code does, and the value. -/
theorem ObjectState.symbolic_index_forces_flush (os : ObjectState) (offset value : Expr)
    (state : Option ExecutionState) (solver : TimingSolver) (h : os.Reachable)
    (hoff : offset.isConstant = false) :
    (∃ e os', os.read8Expr offset state solver = some (e, os') ∧ os'.size = os.size ∧
        ∀ i, i < os.size → os'.isByteFlushed i = true) ∧
      (∃ os', os.write8Expr offset value state solver = some os' ∧ os'.size = os.size ∧
        (∀ i, i < os.size → os'.isByteFlushed i = true ∧ os'.isByteConcrete i = false ∧
          os'.isByteKnownSymbolic i = false) ∧
        os'.updates.head.head? = some (.mk (ZExtExpr.create offset Expr.Int32) value)) :=
  ObjectState.symbolic_index_forces_flush_aux os offset value state solver h hoff

/-- Witness of C20: a symbolic-offset read and write on the four-byte example
object. -/
theorem ObjectState.symbolic_index_forces_flush_witness :
    (∃ e os', exampleObject.read8Expr symbolicByte none silentSolver = some (e, os') ∧
        os'.size = exampleObject.size ∧
        ∀ i, i < exampleObject.size → os'.isByteFlushed i = true) ∧
      (∃ os', exampleObject.write8Expr symbolicByte symbolicByte none silentSolver = some os' ∧
        os'.size = exampleObject.size ∧
        (∀ i, i < exampleObject.size → os'.isByteFlushed i = true ∧
          os'.isByteConcrete i = false ∧ os'.isByteKnownSymbolic i = false) ∧
        os'.updates.head.head? =
          some (.mk (ZExtExpr.create symbolicByte Expr.Int32) symbolicByte)) :=
  ObjectState.symbolic_index_forces_flush exampleObject symbolicByte symbolicByte none
    silentSolver
    (ObjectState.Reachable.write8Value _ 1 symbolicByte none silentSolver
      (ObjectState.Reachable.new true { size := 4 } fun _ => 0) (by decide))
    rfl

/-! ## Caps on forking -/

theorem Executor.addConstraint_unseeded (ex : Executor) (state : StateId) (condition : Expr)
    (hnc : condition.isConstant = false) (hseed : ex.seedMap state = none) :
    ex.addConstraint state condition =
      some (ex.setState state ((ex.getState state).addConstraint condition)) := by
  have hnone : condition.asConstant = none := by
    unfold Expr.isConstant at hnc
    cases hc : condition.asConstant with
    | none => rfl
    | some c => rw [hc] at hnc; simp at hnc
  unfold Executor.addConstraint
  simp only [hnone, hseed]

theorem Executor.pathBit_frame (e : Executor) (current : StateId) (bit write : Bool)
    (halloc : e.isAllocated current = true) :
    (if write && e.pathWriter then
        e.setState current
          { e.getState current with pathOS := (e.getState current).pathOS ++ [bit] }
      else e).heap.length = e.heap.length ∧
    (if write && e.pathWriter then
        e.setState current
          { e.getState current with pathOS := (e.getState current).pathOS ++ [bit] }
      else e).isAllocated current = true ∧
    (if write && e.pathWriter then
        e.setState current
          { e.getState current with pathOS := (e.getState current).pathOS ++ [bit] }
      else e).addedStates = e.addedStates ∧
    (if write && e.pathWriter then
        e.setState current
          { e.getState current with pathOS := (e.getState current).pathOS ++ [bit] }
      else e).removedStates = e.removedStates ∧
    (if write && e.pathWriter then
        e.setState current
          { e.getState current with pathOS := (e.getState current).pathOS ++ [bit] }
      else e).stats = e.stats ∧
    (if write && e.pathWriter then
        e.setState current
          { e.getState current with pathOS := (e.getState current).pathOS ++ [bit] }
      else e).theRNG = e.theRNG ∧
    ∀ id, ((if write && e.pathWriter then
        e.setState current
          { e.getState current with pathOS := (e.getState current).pathOS ++ [bit] }
      else e).getState id).constraints = (e.getState id).constraints := by
  split
  · refine ⟨Executor.heap_length_setState _ _ _, ?_, rfl, rfl, rfl, rfl, ?_⟩
    · rw [Executor.isAllocated_setState _ current current _ halloc]
      exact halloc
    · intro id
      exact Executor.setState_constraints e current id _ rfl
  · exact ⟨rfl, halloc, rfl, rfl, rfl, rfl, fun _ => rfl⟩

/-- C11, counterexample: a state that carries a seed is forked although
forking is inhibited globally and the solver answers unknown; a new state 1 is
created and registered as added, and both sides are live. -/
theorem Executor.fork_capped_seeded_still_forks :
    seededExecutor.forkCapped 0 = true ∧
      (seededExecutor.seedMap 0).isSome = true ∧
      seededExecutor.solver.evaluate (seededExecutor.getState 0) exampleCondition =
        some Validity.Unknown ∧
      ∃ ex', seededExecutor.fork 0 exampleCondition false ForkClass.KLEE_FORK_DEFAULT =
          some ((some 0, some 1), ex') ∧
        ex'.heap.length = 2 ∧ ex'.addedStates = [1] ∧ ex'.stats.forks = 1 :=
  ⟨rfl, rfl, rfl, _, rfl, rfl, rfl, rfl⟩

/-- C11, amended: caps forbid branching for a state without seeds.  When the
state carries no seeds, the replay path is not consulted (none is set, or the
fork is internal), no replay output is active, the static budgets are at their
defaults, the solver answers unknown for a non-constant condition and a cap
forbids branching, `fork` creates no state and counts no fork; it draws one
bit from the RNG and returns the input state alone, as the true side with the
condition added when the bit is set and as the false side with the negated
condition added otherwise.  No other state's constraints change. -/
theorem Executor.fork_capped_picks_one_side (ex : Executor) (current : StateId)
    (condition : Expr) (isInternal : Bool) (reason : ForkClass)
    (halloc : ex.isAllocated current = true) (hseed : ex.seedMap current = none)
    (hreplay : ex.replayPath = none ∨ isInternal = true) (hreplayOut : ex.replayOut = false)
    (hstatic : ex.opts.staticBudgetsSet = false) (hcap : ex.forkCapped current = true)
    (hsolver : ex.solver.evaluate (ex.getState current) condition = some Validity.Unknown)
    (hnc : condition.isConstant = false) :
    ∃ ex', ex.fork current condition isInternal reason =
        some (if ex.theRNG.getBool.1 then (some current, none) else (none, some current),
          ex') ∧
      ex'.heap.length = ex.heap.length ∧ ex'.isAllocated current = true ∧
      ex'.addedStates = ex.addedStates ∧ ex'.removedStates = ex.removedStates ∧
      ex'.stats.forks = ex.stats.forks ∧ ex'.theRNG = ex.theRNG.getBool.2 ∧
      (ex'.getState current).constraints = (ex.getState current).constraints ++
        [if ex.theRNG.getBool.1 then condition else condition.createIsZero] ∧
      ∀ id, id ≠ current → (ex'.getState id).constraints = (ex.getState id).constraints := by
  have hlt := Executor.isAllocated_lt ex current halloc
  have h1 : ex.forkStatic current condition (ex.seedMap current).isSome =
      some (condition, ex) := by
    simp [Executor.forkStatic, hstatic]
  have hz := Expr.createIsZero_isConstant condition hnc
  have hpol : ex.forkPolicy current condition isInternal (ex.seedMap current).isSome
      Validity.Unknown =
      if ex.theRNG.getBool.1 then
        some (Validity.True, ({ ex with theRNG := ex.theRNG.getBool.2 } : Executor).setState
          current ((ex.getState current).addConstraint condition))
      else
        some (Validity.False, ({ ex with theRNG := ex.theRNG.getBool.2 } : Executor).setState
          current ((ex.getState current).addConstraint condition.createIsZero)) := by
    have hc' : Executor.forkCapped { ex with theRNG := ex.theRNG.getBool.2 } current = true :=
      hcap
    have a1 := Executor.addConstraint_unseeded { ex with theRNG := ex.theRNG.getBool.2 }
      current condition hnc hseed
    have a2 := Executor.addConstraint_unseeded { ex with theRNG := ex.theRNG.getBool.2 }
      current condition.createIsZero hz hseed
    unfold Executor.forkPolicy
    rw [hseed]
    simp only [Option.isSome_none, Bool.false_eq_true, if_false]
    split
    · rename_i b path hp
      rcases hreplay with hr | hr
      · rw [hr] at hp; cases hp
      · cases hr
    · rw [if_pos trivial, if_neg (by simp [hreplayOut]), if_pos hcap]
      simp only [a1, a2, Option.map_some']
      split <;> rfl
  have hfix : ∀ (e : Executor) (r : Validity), r ≠ Validity.Unknown →
      e.forkSeedFix current condition (ex.seedMap current).isSome r = some (r, e) := by
    intro e r hr
    simp [Executor.forkSeedFix, hseed]
  have hset : ∀ c : Expr,
      (Executor.setState { ex with theRNG := ex.theRNG.getBool.2 } current
        ((ex.getState current).addConstraint c)).getState current =
      (ex.getState current).addConstraint c :=
    fun c => Executor.getState_setState_same _ current _ hlt
  have hother : ∀ (c : Expr) (id : StateId), id ≠ current →
      (Executor.setState { ex with theRNG := ex.theRNG.getBool.2 } current
        ((ex.getState current).addConstraint c)).getState id = ex.getState id :=
    fun c id hid => Executor.getState_setState_ne _ current id _ hid
  have hal : ∀ c : Expr,
      (Executor.setState { ex with theRNG := ex.theRNG.getBool.2 } current
        ((ex.getState current).addConstraint c)).isAllocated current = true := by
    intro c
    have ha : Executor.isAllocated { ex with theRNG := ex.theRNG.getBool.2 } current = true :=
      halloc
    rw [Executor.isAllocated_setState { ex with theRNG := ex.theRNG.getBool.2 } current
      current _ ha]
    exact ha
  unfold Executor.fork
  simp only [h1, hsolver, hpol]
  cases hb : ex.theRNG.getBool.1
  · simp only [Bool.false_eq_true, if_false]
    rw [hfix _ Validity.False (by decide)]
    simp only
    obtain ⟨p1, p2, p3, p4, p5, p6, p7⟩ := Executor.pathBit_frame
      (Executor.setState { ex with theRNG := ex.theRNG.getBool.2 } current
        ((ex.getState current).addConstraint condition.createIsZero))
      current false (!isInternal) (hal _)
    refine ⟨_, rfl, ?_, p2, p3, p4, ?_, p6, ?_, ?_⟩
    · rw [p1]; simp [Executor.setState]
    · rw [p5]; rfl
    · rw [p7, hset]; rfl
    · intro id hid
      rw [p7, hother _ id hid]
  · simp only [if_true]
    rw [hfix _ Validity.True (by decide)]
    simp only
    obtain ⟨p1, p2, p3, p4, p5, p6, p7⟩ := Executor.pathBit_frame
      (Executor.setState { ex with theRNG := ex.theRNG.getBool.2 } current
        ((ex.getState current).addConstraint condition))
      current true (!isInternal) (hal _)
    refine ⟨_, rfl, ?_, p2, p3, p4, ?_, p6, ?_, ?_⟩
    · rw [p1]; simp [Executor.setState]
    · rw [p5]; rfl
    · rw [p7, hset]; rfl
    · intro id hid
      rw [p7, hother _ id hid]

/-- Witness of C11 (amended): the example executor without seeds and with
forking inhibited globally; the RNG draws 0, so the input state becomes the
false side. -/
theorem Executor.fork_capped_picks_one_side_witness :
    ∃ ex', Executor.fork { exampleExecutor (some Validity.Unknown) with inhibitForking := true }
        0 exampleCondition false ForkClass.KLEE_FORK_DEFAULT = some ((none, some 0), ex') ∧
      ex'.heap.length = 1 ∧ ex'.addedStates = [] ∧ ex'.stats.forks = 0 ∧
      (ex'.getState 0).constraints = [exampleCondition.createIsZero] := by
  obtain ⟨ex', h1, h2, _, h4, _, h6, _, h8, _⟩ := Executor.fork_capped_picks_one_side
    { exampleExecutor (some Validity.Unknown) with inhibitForking := true } 0 exampleCondition
    false ForkClass.KLEE_FORK_DEFAULT rfl rfl (Or.inl rfl) rfl (by decide) rfl rfl rfl
  exact ⟨ex', h1, h2, h4, h6, h8⟩

/-! ## The N-way branch -/

theorem ExecutionState.cloneOf_refl (s : ExecutionState) : s.cloneOf s := rfl

theorem ExecutionState.cloneOf_node (s t : ExecutionState) (n : Nat) (h : s.cloneOf t) :
    ExecutionState.cloneOf { s with ptreeNode := n } t := h

theorem ExecutionState.cloneOf_constraints (s t : ExecutionState) (h : s.cloneOf t) :
    s.constraints = t.constraints := by
  unfold ExecutionState.cloneOf at h
  rw [← h]

theorem Executor.cloneState_heap (e : Executor) (es : StateId) (tag : ForkTag)
    (h : es < e.heap.length) :
    (e.cloneState es tag).1 = e.heap.length ∧
    (e.cloneState es tag).2.heap =
      ((e.heap.set es (some (e.getState es)) ++ [some (e.getState es)]).set e.heap.length
        (some { e.getState es with ptreeNode := e.processTree.nodes })).set es
        (some { e.getState es with ptreeNode := e.processTree.nodes + 1 }) := by
  have f1 : (e.heap.set es (some (e.getState es)) ++ [some (e.getState es)]).getD
      e.heap.length none = some (e.getState es) := by
    simp [List.getD_eq_getElem?_getD]
  have f2 : ∀ X, ((e.heap.set es (some (e.getState es)) ++ [some (e.getState es)]).set
      e.heap.length X).getD es none = some (e.getState es) := by
    intro X
    have hne : e.heap.length ≠ es := (Nat.ne_of_lt h).symm
    rw [List.getD_eq_getElem?_getD, List.getElem?_set_ne hne,
      List.getElem?_append_left (by simpa using h), List.getElem?_set_self h]
    rfl
  constructor
  · simp [Executor.cloneState, Executor.setState, Executor.newState]
  · simp only [Executor.cloneState, Executor.setState, Executor.newState, ExecutionState.branch,
      PTree.split, List.length_set, Executor.getState] at f1 f2 ⊢
    simp only [f1, f2, Option.getD_some]

theorem Executor.cloneState_spec (e : Executor) (es : StateId) (tag : ForkTag)
    (halloc : e.isAllocated es = true) :
    (e.cloneState es tag).1 = e.heap.length ∧
      (e.cloneState es tag).2.heap.length = e.heap.length + 1 ∧
      (e.cloneState es tag).2.getState es =
        { e.getState es with ptreeNode := e.processTree.nodes + 1 } ∧
      (e.cloneState es tag).2.getState e.heap.length =
        { e.getState es with ptreeNode := e.processTree.nodes } ∧
      (∀ id, id ≠ es → id ≠ e.heap.length →
        (e.cloneState es tag).2.heap.getD id none = e.heap.getD id none) ∧
      (e.cloneState es tag).2.isAllocated es = true ∧
      (e.cloneState es tag).2.isAllocated e.heap.length = true ∧
      (e.cloneState es tag).2.addedStates = setInsert e.addedStates e.heap.length ∧
      (e.cloneState es tag).2.processTree.events = e.processTree.events ++
        [PTreeEvent.clearData (e.getState es).ptreeNode,
          PTreeEvent.split (e.getState es).ptreeNode e.heap.length es tag e.processTree.nodes
            (e.processTree.nodes + 1)] := by
  have hlt : @LT.lt Nat _ es e.heap.length := Executor.isAllocated_lt e es halloc
  obtain ⟨h1, h2⟩ := Executor.cloneState_heap e es tag hlt
  have hne : e.heap.length ≠ es := (Nat.ne_of_lt hlt).symm
  have hlen : (e.cloneState es tag).2.heap.length = e.heap.length + 1 := by
    rw [h2]; simp
  have ges : (e.cloneState es tag).2.heap.getD es none =
      some { e.getState es with ptreeNode := e.processTree.nodes + 1 } := by
    rw [h2, List.getD_eq_getElem?_getD,
      List.getElem?_set_self (by simp; exact Nat.lt_succ_of_lt hlt)]
    rfl
  have gL : (e.cloneState es tag).2.heap.getD e.heap.length none =
      some { e.getState es with ptreeNode := e.processTree.nodes } := by
    rw [h2, List.getD_eq_getElem?_getD, List.getElem?_set_ne hne.symm,
      List.getElem?_set_self (by simp)]
    rfl
  refine ⟨h1, hlen, ?_, ?_, ?_, ?_, ?_, ?_, ?_⟩
  · unfold Executor.getState
    rw [ges]; rfl
  · unfold Executor.getState
    rw [gL]; rfl
  · intro id h3 h4
    rw [h2, List.getD_eq_getElem?_getD, List.getElem?_set_ne (fun h => h3 h.symm),
      List.getElem?_set_ne (fun h => h4 h.symm), List.getD_eq_getElem?_getD]
    by_cases hid : id < e.heap.length
    · rw [List.getElem?_append_left (by simpa using hid),
        List.getElem?_set_ne (fun h => h3 h.symm)]
    · have hge : e.heap.length + 1 ≤ id :=
        Nat.succ_le_of_lt (Nat.lt_of_le_of_ne (Nat.le_of_not_lt hid) (fun h => h4 h.symm))
      rw [List.getElem?_eq_none (by simpa using hge),
        List.getElem?_eq_none (Nat.le_of_not_lt hid)]
  · unfold Executor.isAllocated
    rw [ges]; rfl
  · unfold Executor.isAllocated
    rw [gL]; rfl
  · simp [Executor.cloneState, Executor.setState, Executor.newState]
  · have f1 : (e.heap.set es (some (e.getState es)) ++ [some (e.getState es)]).getD es none =
        some (e.getState es) := by
      rw [List.getD_eq_getElem?_getD, List.getElem?_append_left (by simpa using hlt),
        List.getElem?_set_self hlt]
      rfl
    simp only [Executor.cloneState, Executor.setState, Executor.newState, ExecutionState.branch,
      PTree.split, List.length_set, Executor.getState] at f1 ⊢
    simp only [f1, Option.getD_some, List.append_assoc, List.cons_append, List.nil_append]

theorem Executor.cloneState_frame (e : Executor) (es : StateId) (tag : ForkTag) :
    (e.cloneState es tag).2.seedMap = e.seedMap ∧ (e.cloneState es tag).2.opts = e.opts ∧
      (e.cloneState es tag).2.solver = e.solver ∧
      (e.cloneState es tag).2.seedEvaluate = e.seedEvaluate ∧
      (e.cloneState es tag).2.stats = e.stats ∧
      (e.cloneState es tag).2.removedStates = e.removedStates ∧
      (e.cloneState es tag).2.testCases = e.testCases ∧
      (e.cloneState es tag).2.theRNG = e.theRNG ∧
      (e.cloneState es tag).2.states = e.states ∧
      (e.cloneState es tag).2.pathsExplored = e.pathsExplored :=
  ⟨rfl, rfl, rfl, rfl, rfl, rfl, rfl, rfl, rfl, rfl⟩

theorem mem_setInsert (xs : List StateId) (x id : Nat) :
    id ∈ setInsert xs x ↔ id ∈ xs ∨ id = x := by
  unfold setInsert
  split
  · constructor
    · exact Or.inl
    · rintro (h | h)
      · exact h
      · subst h; assumption
  · simp

theorem Executor.ClonesInv_rng (ex : Executor) (state : Nat) (k : Nat)
    (result : List StateId) (e : Executor) (rng : RNG) (hd : rng.draws = e.theRNG.draws)
    (h : ex.ClonesInv state k (result, e)) :
    ex.ClonesInv state k (result, { e with theRNG := rng }) := by
  obtain ⟨r1, r2, r3, r4, r5, r6, r7, r8, r9, r10, r11, r12, r13⟩ := h
  exact ⟨r1, r2, r3, r4, r5, r6, r7, r8, r9, r10, r11, r12, hd.trans r13⟩

theorem Executor.cloneState_inv (ex : Executor) (state : Nat) (tag : ForkTag) (k : Nat)
    (result : List StateId) (e : Executor) (es : Nat)
    (hstate : ex.isAllocated state = true) (h : ex.ClonesInv state k (result, e))
    (hes : es ∈ result) :
    ex.ClonesInv state (k + 1)
      (result ++ [(e.cloneState es tag).1], (e.cloneState es tag).2) := by
  obtain ⟨r1, r2, r3, r4, r5, r6, r7, r8, r9, r10, r11, r12, r13⟩ := h
  simp only at r1 r2 r3 r4 r5 r6 r7 r8 r9 r10 r11 r12 r13
  have hslt : @LT.lt Nat _ state ex.heap.length := Executor.isAllocated_lt ex state hstate
  obtain ⟨a1, a2⟩ := r3 _ hes
  obtain ⟨c1, c2, c3, c4, c5, c6, c7, c8, _⟩ := Executor.cloneState_spec e es tag a1
  obtain ⟨d1, d2, d3, d4, d5, d6, d7, d8, _, _⟩ := Executor.cloneState_frame e es tag
  have heslt : @LT.lt Nat _ es e.heap.length := Executor.isAllocated_lt e _ a1
  rw [r2] at c1 c2 c4 c5 c7 c8
  unfold Executor.ClonesInv
  simp only
  refine ⟨?_, ?_, ?_, ?_, ?_, d1.trans r6, d2.trans r7, d3.trans r8, d4.trans r9, d5.trans r10,
    d6.trans r11, d7.trans r12, ?_⟩
  · rw [c1, r1, List.range'_1_concat]
    simp
  · rw [c2]; omega
  · intro id hid
    rw [c1] at hid
    rcases List.mem_append.mp hid with hid | hid
    · by_cases hie : id = es
      · subst hie
        refine ⟨c6, ?_⟩
        rw [c3]
        exact a2
      · have hidlt : @LT.lt Nat _ id e.heap.length :=
          Executor.isAllocated_lt e id (r3 id hid).1
        have hne2 : id ≠ ex.heap.length + k := by rw [r2] at hidlt; omega
        have := c5 id hie hne2
        constructor
        · unfold Executor.isAllocated
          rw [this]
          exact (r3 id hid).1
        · unfold Executor.getState
          rw [this]
          exact (r3 id hid).2
    · have : id = ex.heap.length + k := by simpa using hid
      subst this
      refine ⟨c7, ?_⟩
      rw [c4]
      exact a2
  · intro id hid hne
    have hid' : @LT.lt Nat _ id ex.heap.length := hid
    have h1 : id ≠ ex.heap.length + k := by omega
    by_cases hie : id = es
    · exfalso
      subst hie
      rw [r1] at hes
      rcases List.mem_cons.mp hes with h | h
      · exact hne h
      · have := (List.mem_range'_1.mp h).1
        omega
    · rw [c5 id hie h1]
      exact r4 id hid hne
  · intro id
    rw [c8, mem_setInsert]
    have := r5 id
    constructor
    · rintro (h | h)
      · rcases this.mp h with h | h
        · exact Or.inl h
        · exact Or.inr ⟨h.1, by omega⟩
      · subst h
        exact Or.inr ⟨by omega, by omega⟩
    · rintro (h | ⟨h1, h2⟩)
      · exact Or.inl (this.mpr (Or.inl h))
      · by_cases h3 : id = ex.heap.length + k
        · exact Or.inr h3
        · exact Or.inl (this.mpr (Or.inr ⟨h1, by omega⟩))
  · rw [d8]; exact r13

theorem Executor.branchClone_inv (ex : Executor) (state : Nat) (tag : ForkTag) (k : Nat)
    (r : List StateId × Executor) (hstate : ex.isAllocated state = true)
    (h : ex.ClonesInv state k r) :
    ex.ClonesInv state (k + 1) (Executor.branchClone tag r (1 + k)) := by
  have hlen : r.1.length = k + 1 := by rw [h.1]; simp
  have hmod : r.2.theRNG.getInt32.1 % (1 + k) < r.1.length := by
    rw [hlen, Nat.add_comm]; exact Nat.mod_lt _ (Nat.succ_pos k)
  have hes : r.1.getD (r.2.theRNG.getInt32.1 % (1 + k)) 0 ∈ r.1 := by
    rw [List.getD_eq_getElem?_getD, List.getElem?_eq_getElem hmod]
    exact List.getElem_mem hmod
  exact Executor.cloneState_inv ex state tag k r.1 _ _ hstate
    (Executor.ClonesInv_rng ex state k r.1 r.2 r.2.theRNG.getInt32.2 rfl h) hes

theorem Executor.branchClones_inv (ex : Executor) (state : Nat) (tag : ForkTag)
    (hstate : ex.isAllocated state = true) (k : Nat) :
    ex.ClonesInv state k ((List.range' 1 k).foldl (Executor.branchClone tag) ([state], ex)) := by
  induction k with
  | zero =>
    refine ⟨rfl, rfl, ?_, fun _ _ _ => rfl, ?_, rfl, rfl, rfl, rfl, rfl, rfl, rfl, rfl⟩
    · intro id hid
      have : id = state := by simpa using hid
      subst this
      exact ⟨hstate, ExecutionState.cloneOf_refl _⟩
    · intro id
      simp
  | succ k ih =>
    rw [List.range'_1_concat, List.foldl_append]
    exact Executor.branchClone_inv ex state tag k _ hstate ih

theorem Executor.branchSeedIndex_spec (ex : Executor) (st : ExecutionState) (seed : SeedInfo) :
    ∀ (conds : List Expr) (i0 : Nat),
      i0 ≤ ex.branchSeedIndex st seed conds i0 ∧
      ex.branchSeedIndex st seed conds i0 ≤ i0 + conds.length ∧
      (∀ j c, conds[j]? = some c → i0 + j < ex.branchSeedIndex st seed conds i0 →
        (ex.solver.getValue st (ex.seedEvaluate seed c)).isTrue = false) ∧
      (ex.branchSeedIndex st seed conds i0 < i0 + conds.length →
        ∃ c, conds[ex.branchSeedIndex st seed conds i0 - i0]? = some c ∧
          (ex.solver.getValue st (ex.seedEvaluate seed c)).isTrue = true) := by
  intro conds
  induction conds with
  | nil =>
    intro i0
    simp [Executor.branchSeedIndex]
  | cons c cs ih =>
    intro i0
    unfold Executor.branchSeedIndex
    by_cases hc : (ex.solver.getValue st (ex.seedEvaluate seed c)).isTrue = true
    · simp only [hc, if_true]
      refine ⟨Nat.le_refl _, by simp, ?_, ?_⟩
      · intro j c' _ hlt
        omega
      · intro _
        exact ⟨c, by simp, hc⟩
    · simp only [hc, Bool.false_eq_true, if_false]
      obtain ⟨h1, h2, h3, h4⟩ := ih (i0 + 1)
      refine ⟨by omega, by simp only [List.length_cons]; omega, ?_, ?_⟩
      · intro j c' hj hlt
        cases j with
        | zero =>
          simp only [List.getElem?_cons_zero, Option.some.injEq] at hj
          subst hj
          simpa using hc
        | succ j =>
          simp only [List.getElem?_cons_succ] at hj
          exact h3 j c' hj (by omega)
      · intro hlt
        obtain ⟨c', hc1, hc2⟩ := h4 (by simp only [List.length_cons] at hlt; omega)
        refine ⟨c', ?_, hc2⟩
        have e : ex.branchSeedIndex st seed cs (i0 + 1) - i0 =
            (ex.branchSeedIndex st seed cs (i0 + 1) - (i0 + 1)) + 1 := by omega
        rw [e, List.getElem?_cons_succ]
        exact hc1

theorem Executor.branchSeed_target (ex : Executor) (state : Nat) (result : List StateId)
    (conditions : List Expr) (seed : SeedInfo) (hN : 0 < conditions.length) :
    ∃ (t : Nat) (rng : RNG), ex.SeedTarget (ex.getState state) conditions seed t ∧
      Executor.branchSeed state result conditions ex seed =
        { ex with
          theRNG := rng
          seedMap := mapSet ex.seedMap (result.getD t 0)
            (some (((ex.seedMap (result.getD t 0)).getD []) ++ [seed])) } ∧
      rng.draws = ex.theRNG.draws := by
  obtain ⟨h1, h2, h3, h4⟩ := Executor.branchSeedIndex_spec ex (ex.getState state) seed
    conditions 0
  simp only [Nat.zero_add, Nat.sub_zero] at h2 h3 h4
  by_cases hi : ex.branchSeedIndex (ex.getState state) seed conditions 0 = conditions.length
  · refine ⟨ex.theRNG.getInt32.1 % conditions.length, ex.theRNG.getInt32.2, ?_, ?_, rfl⟩
    · refine ⟨Nat.mod_lt _ hN, ?_, ?_⟩
      · intro i c hic htrue _
        have hlt : i < conditions.length := by
          by_contra hge
          rw [List.getElem?_eq_none (Nat.le_of_not_lt hge)] at hic
          cases hic
        have := h3 i c hic (by omega)
        rw [this] at htrue
        cases htrue
      · intro _
        exact ⟨ex.theRNG.pos, rfl⟩
    · simp only [Executor.branchSeed, hi, if_true]
  · have hlt : ex.branchSeedIndex (ex.getState state) seed conditions 0 < conditions.length := by
      omega
    obtain ⟨c0, hc0, hc0t⟩ := h4 hlt
    refine ⟨ex.branchSeedIndex (ex.getState state) seed conditions 0, ex.theRNG, ?_, ?_, rfl⟩
    · refine ⟨hlt, ?_, ?_⟩
      · intro i c hic htrue hlow
        by_contra hne
        rcases Nat.lt_or_gt_of_ne hne with h | h
        · have := hlow _ c0 h hc0
          rw [this] at hc0t
          cases hc0t
        · have := h3 i c hic h
          rw [this] at htrue
          cases htrue
      · intro hall
        have := hall _ c0 hc0
        rw [this] at hc0t
        cases hc0t
    · simp only [Executor.branchSeed, hi, if_false]

theorem seedShare_cons (seed : SeedInfo) (seeds : List SeedInfo) (t : Nat) (targets : List Nat)
    (i : Nat) :
    seedShare (seed :: seeds) (t :: targets) i =
      (if t = i then [seed] else []) ++ seedShare seeds targets i := by
  unfold seedShare
  by_cases h : t = i <;> simp [List.filter_cons, h]

theorem seedEntry_getD (l : List SeedInfo) : (seedEntry l).getD [] = l := by
  unfold seedEntry
  cases l <;> simp

theorem Executor.SeedTarget_congr (e e' : Executor) (st : ExecutionState)
    (conditions : List Expr) (seed : SeedInfo) (t : Nat) (h1 : e'.solver = e.solver)
    (h2 : e'.seedEvaluate = e.seedEvaluate) (h3 : e'.theRNG.draws = e.theRNG.draws)
    (h : e'.SeedTarget st conditions seed t) : e.SeedTarget st conditions seed t := by
  unfold Executor.SeedTarget at h ⊢
  rw [h1, h2, h3] at h
  exact h

theorem Executor.branchSeeds_fold (state : Nat) (ids : List StateId) (conditions : List Expr)
    (hN : 0 < conditions.length) (hlen : ids.length = conditions.length) (hnd : ids.Nodup) :
    ∀ (seeds : List SeedInfo) (e : Executor) (acc : Nat → List SeedInfo),
      (∀ i, i < ids.length → e.seedMap (ids.getD i 0) = seedEntry (acc i)) →
      ∃ (targets : List Nat) (sm : StateId → Option (List SeedInfo)) (rng : RNG),
        List.Forall₂ (fun seed t => e.SeedTarget (e.getState state) conditions seed t)
          seeds targets ∧
        seeds.foldl (Executor.branchSeed state ids conditions) e =
          { e with seedMap := sm, theRNG := rng } ∧
        (∀ i, i < ids.length → sm (ids.getD i 0) =
          seedEntry (acc i ++ seedShare seeds targets i)) ∧
        (∀ id, id ∉ ids → sm id = e.seedMap id) ∧
        rng.draws = e.theRNG.draws := by
  intro seeds
  induction seeds with
  | nil =>
    intro e acc hacc
    refine ⟨[], e.seedMap, e.theRNG, List.Forall₂.nil, rfl, ?_, fun _ _ => rfl, rfl⟩
    intro i hi
    rw [hacc i hi]
    simp [seedShare]
  | cons seed seeds ih =>
    intro e acc hacc
    obtain ⟨t, rng1, ht, heq, hdraws⟩ :=
      Executor.branchSeed_target e state ids conditions seed hN
    have htlt : t < ids.length := by rw [hlen]; exact ht.1
    have hinj : ∀ i, i < ids.length → i ≠ t → ids.getD i 0 ≠ ids.getD t 0 := by
      intro i hi hne heq2
      rw [List.getD_eq_getElem?_getD, List.getD_eq_getElem?_getD,
        List.getElem?_eq_getElem hi, List.getElem?_eq_getElem htlt] at heq2
      simp only [Option.getD_some] at heq2
      exact hne ((List.Nodup.getElem_inj_iff hnd).mp heq2)
    have hacc1 : ∀ i, i < ids.length →
        (Executor.branchSeed state ids conditions e seed).seedMap (ids.getD i 0) =
          seedEntry (acc i ++ if t = i then [seed] else []) := by
      intro i hi
      rw [heq]
      by_cases hit : i = t
      · subst hit
        simp only [mapSet, if_true, hacc i hi, seedEntry_getD]
        simp [seedEntry]
      · have := hinj i hi hit
        simp only [mapSet, this, if_false]
        rw [hacc i hi, if_neg (fun h => hit h.symm), List.append_nil]
    obtain ⟨targets, sm, rng, h1, h2, h3, h4, h5⟩ :=
      ih (Executor.branchSeed state ids conditions e seed)
        (fun i => acc i ++ if t = i then [seed] else []) hacc1
    refine ⟨t :: targets, sm, rng, List.Forall₂.cons ht ?_, ?_, ?_, ?_, ?_⟩
    · refine List.Forall₂.imp ?_ h1
      intro s t' hst
      rw [heq] at hst
      exact Executor.SeedTarget_congr e
        { e with
          theRNG := rng1
          seedMap := mapSet e.seedMap (ids.getD t 0)
            (some (((e.seedMap (ids.getD t 0)).getD []) ++ [seed])) }
        _ conditions s t' rfl rfl hdraws hst
    · rw [List.foldl_cons, h2, heq]
    · intro i hi
      rw [h3 i hi, seedShare_cons, List.append_assoc]
    · intro id hid
      rw [h4 id hid, heq]
      have : id ≠ ids.getD t 0 := by
        intro h
        apply hid
        rw [h, List.getD_eq_getElem?_getD, List.getElem?_eq_getElem htlt]
        exact List.getElem_mem htlt
      simp only [mapSet, this, if_false]
    · rw [h5, heq]
      exact hdraws

theorem Executor.terminateState_unseeded (e : Executor) (id : Nat) (h : e.seedMap id = none) :
    (e.terminateState id).seedMap = e.seedMap ∧ (e.terminateState id).opts = e.opts ∧
      (e.terminateState id).solver = e.solver ∧
      (e.terminateState id).seedEvaluate = e.seedEvaluate ∧
      (e.terminateState id).stats = e.stats ∧
      (e.terminateState id).testCases = e.testCases ∧
      (e.terminateState id).theRNG = e.theRNG ∧
      (e.terminateState id).heap.length = e.heap.length ∧
      (∀ j : Nat, j ≠ id → (e.terminateState id).heap.getD j none = e.heap.getD j none) ∧
      (∀ j : Nat, j ∈ e.removedStates → j ∈ (e.terminateState id).removedStates) ∧
      (∀ j : Nat, j ≠ id → j ∈ e.addedStates → j ∈ (e.terminateState id).addedStates) ∧
      (e.terminateState id).isTerminated id := by
  obtain ⟨t1, t2, t3, t4, t5, t6⟩ := Executor.terminateState_frame e id
  have hrest : (e.terminateState id).seedMap = e.seedMap ∧
      (e.terminateState id).opts = e.opts ∧ (e.terminateState id).solver = e.solver ∧
      (e.terminateState id).seedEvaluate = e.seedEvaluate ∧
      (e.terminateState id).theRNG = e.theRNG ∧
      (∀ j : Nat, j ∈ e.removedStates → j ∈ (e.terminateState id).removedStates) := by
    unfold Executor.terminateState
    by_cases hin : id ∈ e.addedStates
    · simp only [hin, if_true]
      refine ⟨?_, rfl, rfl, rfl, rfl, fun j hj => hj⟩
      funext j
      simp only [Executor.deleteState, mapSet]
      split
      · rename_i hj; rw [hj, h]
      · rfl
    · simp only [hin, if_false]
      refine ⟨rfl, rfl, rfl, rfl, rfl, ?_⟩
      intro j hj
      simp only [Executor.setState]
      exact (mem_setInsert _ _ _).mpr (Or.inl hj)
  obtain ⟨r1, r2, r3, r4, r5, r6⟩ := hrest
  refine ⟨r1, r2, r3, r4, t2, t3, r5, t1, t4, r6, ?_, ?_⟩
  · intro j hne hj
    rw [t5]
    exact (List.mem_erase_of_ne hne).mpr hj
  · unfold Executor.isTerminated
    by_cases hin : id ∈ e.addedStates
    · rw [if_pos hin] at t6
      exact Or.inl t6
    · rw [if_neg hin] at t6
      exact Or.inr t6

theorem Executor.branchPrune_fold :
    ∀ (ids : List StateId) (acc : List (Option StateId)) (e : Executor),
      (ids.foldl Executor.branchPrune (acc, e)).1 =
        acc ++ ids.map (fun id => if (e.seedMap id).isSome then some id else none) ∧
      (ids.foldl Executor.branchPrune (acc, e)).2.seedMap = e.seedMap ∧
      (ids.foldl Executor.branchPrune (acc, e)).2.opts = e.opts ∧
      (ids.foldl Executor.branchPrune (acc, e)).2.solver = e.solver ∧
      (ids.foldl Executor.branchPrune (acc, e)).2.seedEvaluate = e.seedEvaluate ∧
      (ids.foldl Executor.branchPrune (acc, e)).2.stats = e.stats ∧
      (ids.foldl Executor.branchPrune (acc, e)).2.testCases = e.testCases ∧
      (ids.foldl Executor.branchPrune (acc, e)).2.theRNG = e.theRNG ∧
      (ids.foldl Executor.branchPrune (acc, e)).2.heap.length = e.heap.length ∧
      (∀ j : Nat, (j ∉ ids ∨ (e.seedMap j).isSome = true) →
        (ids.foldl Executor.branchPrune (acc, e)).2.heap.getD j none = e.heap.getD j none) ∧
      (∀ j : Nat, j ∈ e.addedStates → (j ∉ ids ∨ (e.seedMap j).isSome = true) →
        j ∈ (ids.foldl Executor.branchPrune (acc, e)).2.addedStates) ∧
      (∀ j : Nat, e.isTerminated j ∨ (j ∈ ids ∧ e.seedMap j = none) →
        (ids.foldl Executor.branchPrune (acc, e)).2.isTerminated j) := by
  intro ids
  induction ids with
  | nil =>
    intro acc e
    refine ⟨by simp, rfl, rfl, rfl, rfl, rfl, rfl, rfl, rfl, fun _ _ => rfl, fun _ h _ => h, ?_⟩
    intro j hj
    rcases hj with h | ⟨h, _⟩
    · exact h
    · cases h
  | cons id ids ih =>
    intro acc e
    rw [List.foldl_cons]
    by_cases hs : (e.seedMap id).isSome = true
    · have hstep : Executor.branchPrune (acc, e) id = (acc ++ [some id], e) := by
        simp [Executor.branchPrune, hs]
      rw [hstep]
      obtain ⟨h1, h2, h3, h4, h5, h6, h7, h8, h9, h10, h11, h12⟩ := ih (acc ++ [some id]) e
      refine ⟨?_, h2, h3, h4, h5, h6, h7, h8, h9, ?_, ?_, ?_⟩
      · rw [h1]; simp [hs]
      · intro j hj
        apply h10
        rcases hj with h | h
        · exact Or.inl (fun hm => h (List.mem_cons_of_mem _ hm))
        · exact Or.inr h
      · intro j hja hj
        apply h11 j hja
        rcases hj with h | h
        · exact Or.inl (fun hm => h (List.mem_cons_of_mem _ hm))
        · exact Or.inr h
      · intro j hj
        apply h12
        rcases hj with h | ⟨h, hn⟩
        · exact Or.inl h
        · rcases List.mem_cons.mp h with h | h
          · subst h
            rw [hn] at hs
            cases hs
          · exact Or.inr ⟨h, hn⟩
    · have hnone : e.seedMap id = none := by
        cases hh : e.seedMap id with
        | none => rfl
        | some l => rw [hh] at hs; simp at hs
      have hstep : Executor.branchPrune (acc, e) id = (acc ++ [none], e.terminateState id) := by
        simp [Executor.branchPrune, hnone]
      rw [hstep]
      obtain ⟨t1, t2, t3, t4, t5, t6, t7, t8, t9, t10, t11, t12⟩ :=
        Executor.terminateState_unseeded e id hnone
      obtain ⟨h1, h2, h3, h4, h5, h6, h7, h8, h9, h10, h11, h12⟩ :=
        ih (acc ++ [none]) (e.terminateState id)
      rw [t1] at h1 h10 h11 h12
      refine ⟨?_, h2.trans t1, h3.trans t2, h4.trans t3, h5.trans t4, h6.trans t5, h7.trans t6,
        h8.trans t7, h9.trans t8, ?_, ?_, ?_⟩
      · rw [h1]; simp [hnone]
      · intro j hj
        have hne : j ≠ id := by
          rcases hj with h | h
          · exact fun hh => h (hh ▸ List.mem_cons_self _ _)
          · intro hh; subst hh; rw [hnone] at h; cases h
        rw [← t9 j hne]
        apply h10
        rcases hj with h | h
        · exact Or.inl (fun hm => h (List.mem_cons_of_mem _ hm))
        · exact Or.inr h
      · intro j hja hj
        have hne : j ≠ id := by
          rcases hj with h | h
          · exact fun hh => h (hh ▸ List.mem_cons_self _ _)
          · intro hh; subst hh; rw [hnone] at h; cases h
        apply h11 j (t11 j hne hja)
        rcases hj with h | h
        · exact Or.inl (fun hm => h (List.mem_cons_of_mem _ hm))
        · exact Or.inr h
      · intro j hj
        apply h12
        by_cases hji : j = id
        · subst hji
          exact Or.inl t12
        · rcases hj with h | ⟨h, hn⟩
          · left
            rcases h with h | h
            · left
              unfold Executor.isAllocated
              rw [t9 j hji]
              exact h
            · exact Or.inr (t10 j h)
          · rcases List.mem_cons.mp h with h | h
            · exact absurd h hji
            · exact Or.inr ⟨h, hn⟩

theorem Executor.addConstraint_spec (e : Executor) (id : Nat) (c : Expr)
    (halloc : e.isAllocated id = true)
    (hc : ∀ k, c.asConstant = some k → k.isTrue = true) :
    ∃ (e' : Executor) (heap : List (Option ExecutionState))
        (sm : StateId → Option (List SeedInfo)),
      e.addConstraint id c = some e' ∧ e' = { e with heap := heap, seedMap := sm } ∧
      heap.length = e.heap.length ∧
      e'.getState id =
        (if c.isConstant then e.getState id else (e.getState id).addConstraint c) ∧
      e'.isAllocated id = true ∧
      (∀ j : Nat, j ≠ id → heap.getD j none = e.heap.getD j none ∧ sm j = e.seedMap j) ∧
      SeedsPatched c (e.seedMap id) (sm id) := by
  have hlt := Executor.isAllocated_lt e id halloc
  unfold Executor.addConstraint
  cases hk : c.asConstant with
  | some k =>
    have hcon : c.isConstant = true := by simp [Expr.isConstant, hk]
    simp only [hc k hk, if_true, hcon]
    refine ⟨e, e.heap, e.seedMap, rfl, rfl, rfl, rfl, halloc, fun _ _ => ⟨rfl, rfl⟩, ?_⟩
    unfold SeedsPatched
    cases e.seedMap id with
    | none => rfl
    | some l =>
      refine ⟨l, rfl, ?_⟩
      induction l with
      | nil => exact List.Forall₂.nil
      | cons a l ih => exact List.Forall₂.cons (Or.inl rfl) ih
  | none =>
    have hcon : c.isConstant = false := by simp [Expr.isConstant, hk]
    simp only [hcon, Bool.false_eq_true, if_false]
    refine ⟨_, _, _, rfl, rfl, ?_, ?_, ?_, ?_, ?_⟩
    · simp [Executor.setState]
    · exact Executor.getState_setState_same _ id _ hlt
    · have ha : Executor.isAllocated
          { e with seedMap :=
              match e.seedMap id with
              | none => e.seedMap
              | some seeds =>
                mapSet e.seedMap id (some (seeds.map fun seed =>
                  if e.solver.mustBeFalse (e.getState id) (e.seedEvaluate seed c) then
                    seed.patchSeed c
                  else seed)) } id = true := halloc
      rw [Executor.isAllocated_setState _ id id _ ha]
      exact ha
    · intro j hj
      constructor
      · exact Executor.heap_setState_ne _ id j _ hj
      · simp only [Executor.setState]
        cases e.seedMap id with
        | none => rfl
        | some l => simp [mapSet, hj]
    · simp only [Executor.setState]
      unfold SeedsPatched
      cases hsd : e.seedMap id with
      | none => simp only [hsd]
      | some l =>
        simp only [mapSet, if_true]
        refine ⟨_, rfl, ?_⟩
        clear hsd
        induction l with
        | nil => exact List.Forall₂.nil
        | cons a l ih =>
          refine List.Forall₂.cons ?_ ih
          simp only
          split
          · exact Or.inr rfl
          · exact Or.inl rfl

theorem Executor.branchConstraints_spec :
    ∀ (results : List (Option StateId)) (conds : List Expr) (e : Executor),
      results.length = conds.length →
      (∀ id : Nat, some id ∈ results → e.isAllocated id = true) →
      (results.filterMap fun x => x).Nodup →
      (∀ c, c ∈ conds → ∀ k, c.asConstant = some k → k.isTrue = true) →
      ∃ (e' : Executor) (heap : List (Option ExecutionState))
          (sm : StateId → Option (List SeedInfo)),
        Executor.branchConstraints results conds e = some e' ∧
        e' = { e with heap := heap, seedMap := sm } ∧
        heap.length = e.heap.length ∧
        (∀ j : Nat, some j ∉ results → heap.getD j none = e.heap.getD j none ∧
          sm j = e.seedMap j) ∧
        (∀ (i : Nat) (id : Nat) (c : Expr), results[i]? = some (some id) → conds[i]? = some c →
          e'.isAllocated id = true ∧
          e'.getState id =
            (if c.isConstant then e.getState id else (e.getState id).addConstraint c) ∧
          SeedsPatched c (e.seedMap id) (sm id)) := by
  intro results
  induction results with
  | nil =>
    intro conds e _ _ _ _
    refine ⟨e, e.heap, e.seedMap, ?_, rfl, rfl, fun _ _ => ⟨rfl, rfl⟩, ?_⟩
    · cases conds <;> rfl
    · intro i id c h
      simp at h
  | cons r results ih =>
    intro conds e hlen hall hnd hcond
    cases conds with
    | nil => simp at hlen
    | cons c conds =>
      have hlen' : results.length = conds.length := by simpa using hlen
      have hcond' : ∀ c', c' ∈ conds → ∀ k, c'.asConstant = some k → k.isTrue = true :=
        fun c' h => hcond c' (List.mem_cons_of_mem _ h)
      cases r with
      | none =>
        have hnd' : (results.filterMap fun x => x).Nodup := by
          simpa [List.filterMap_cons] using hnd
        obtain ⟨e', heap, sm, h1, h2, h3, h4, h5⟩ := ih conds e hlen'
          (fun id h => hall id (List.mem_cons_of_mem _ h)) hnd' hcond'
        refine ⟨e', heap, sm, ?_, h2, h3, ?_, ?_⟩
        · simp only [Executor.branchConstraints]
          exact h1
        · intro j hj
          exact h4 j (fun h => hj (List.mem_cons_of_mem _ h))
        · intro i id c' hi hc'
          cases i with
          | zero => simp at hi
          | succ i =>
            simp only [List.getElem?_cons_succ] at hi hc'
            exact h5 i id c' hi hc'
      | some a =>
        have hnd2 : a ∉ (results.filterMap fun x => x) ∧
            (results.filterMap fun x => x).Nodup := by
          simpa [List.filterMap_cons] using hnd
        have hanot : some a ∉ results := by
          intro h
          apply hnd2.1
          exact List.mem_filterMap.mpr ⟨some a, h, rfl⟩
        obtain ⟨e1, heap1, sm1, a1, a2, a3, a4, a5, a6, a7⟩ :=
          Executor.addConstraint_spec e a c (hall a (List.mem_cons_self _ _))
            (hcond c (List.mem_cons_self _ _))
        have hall1 : ∀ id : Nat, some id ∈ results → e1.isAllocated id = true := by
          intro id hid
          have hne : id ≠ a := by
            intro h; subst h; exact hanot hid
          have := hall id (List.mem_cons_of_mem _ hid)
          unfold Executor.isAllocated at this ⊢
          rw [a2]
          simp only
          rw [(a6 id hne).1]
          exact this
        obtain ⟨e', heap, sm, h1, h2, h3, h4, h5⟩ := ih conds e1 hlen' hall1 hnd2.2 hcond'
        have he1heap : e1.heap = heap1 := by rw [a2]
        have he1sm : e1.seedMap = sm1 := by rw [a2]
        refine ⟨e', heap, sm, ?_, ?_, ?_, ?_, ?_⟩
        · simp only [Executor.branchConstraints, a1]
          exact h1
        · rw [h2, a2]
        · rw [h3, he1heap, a3]
        · intro j hj
          have hne : j ≠ a := by
            intro h; subst h; exact hj (List.mem_cons_self _ _)
          have := h4 j (fun h => hj (List.mem_cons_of_mem _ h))
          rw [he1heap, he1sm] at this
          exact ⟨this.1.trans (a6 j hne).1, this.2.trans (a6 j hne).2⟩
        · intro i id c' hi hc'
          cases i with
          | zero =>
            simp only [List.getElem?_cons_zero, Option.some.injEq] at hi hc'
            subst hi
            subst hc'
            have := h4 a hanot
            rw [he1heap, he1sm] at this
            have hheap : e'.heap.getD a none = e1.heap.getD a none := by
              rw [h2, he1heap]
              exact this.1
            refine ⟨?_, ?_, ?_⟩
            · unfold Executor.isAllocated
              rw [hheap]
              exact a5
            · unfold Executor.getState
              rw [hheap]
              exact a4
            · rw [this.2]
              exact a7
          | succ i =>
            simp only [List.getElem?_cons_succ] at hi hc'
            have hmem : some id ∈ results := List.getElem?_mem hi
            have hne : id ≠ a := by
              intro h; subst h; exact hanot hmem
            obtain ⟨g1, g2, g3⟩ := h5 i id c' hi hc'
            refine ⟨g1, ?_, ?_⟩
            · rw [g2]
              have : e1.getState id = e.getState id := by
                unfold Executor.getState
                rw [he1heap, (a6 id hne).1]
              rw [this]
            · rw [he1sm, (a6 id hne).2] at g3
              exact g3

theorem seedEntry_isSome (l : List SeedInfo) : (seedEntry l).isSome = !l.isEmpty := by
  unfold seedEntry
  cases l <;> simp

theorem Executor.branchSeeds_spec (ex0 : Executor) (state : Nat) (conditions : List Expr)
    (ids : List StateId) (e : Executor) (hN : 0 < conditions.length)
    (hids : ids = state :: List.range' ex0.heap.length (conditions.length - 1))
    (hstate : state < ex0.heap.length) (hsm : e.seedMap = ex0.seedMap)
    (hfresh : ∀ id : Nat, ex0.heap.length ≤ id → ex0.seedMap id = none) :
    ∃ (p : StateId → Bool) (e3 : Executor),
      e.branchSeeds state ids conditions =
        (ids.map (fun id => if p id then some id else none), e3) ∧
      e3.opts = e.opts ∧ e3.solver = e.solver ∧ e3.seedEvaluate = e.seedEvaluate ∧
      e3.stats = e.stats ∧ e3.testCases = e.testCases ∧ e3.heap.length = e.heap.length ∧
      e3.theRNG.draws = e.theRNG.draws ∧
      (∀ j : Nat, p j = true ∨ j ∉ ids → e3.heap.getD j none = e.heap.getD j none) ∧
      (∀ j : Nat, j ∈ e.addedStates → (p j = true ∨ j ∉ ids) → j ∈ e3.addedStates) ∧
      (∀ j : Nat, j ∈ ids → p j = false → e3.isTerminated j ∧ e3.seedMap j = none) ∧
      (match ex0.seedMap state with
        | none => ∀ j : Nat, j ∈ ids → p j = true ∧ e3.seedMap j = none
        | some seeds =>
          ∃ targets : List Nat,
            List.Forall₂ (fun seed t => e.SeedTarget (e.getState state) conditions seed t)
              seeds targets ∧
            ∀ i, i < conditions.length →
              e3.seedMap (ids.getD i 0) = seedEntry (seedShare seeds targets i) ∧
              p (ids.getD i 0) =
                !(e.opts.OnlyReplaySeeds && (seedShare seeds targets i).isEmpty)) := by
  have hlen : ids.length = conditions.length := by
    rw [hids]; simp; omega
  have hnd : ids.Nodup := by
    rw [hids]
    refine List.nodup_cons.mpr ⟨?_, List.nodup_range' _ _⟩
    intro h
    have := (List.mem_range'_1.mp h).1
    omega
  have hidsfresh : ∀ j : Nat, j ∈ ids → j ≠ state → ex0.seedMap j = none := by
    intro j hj hne
    rw [hids] at hj
    rcases List.mem_cons.mp hj with h | h
    · exact absurd h hne
    · exact hfresh j (List.mem_range'_1.mp h).1
  unfold Executor.branchSeeds
  rw [hsm]
  cases hseed : ex0.seedMap state with
  | none =>
    refine ⟨fun _ => true, e, ?_, rfl, rfl, rfl, rfl, rfl, rfl, rfl, fun _ _ => rfl,
      fun _ h _ => h, ?_, ?_⟩
    · simp
    · intro j _ h
      cases h
    · intro j hj
      refine ⟨rfl, ?_⟩
      rw [hsm]
      by_cases hjs : j = state
      · rw [hjs, hseed]
      · exact hidsfresh j hj hjs
  | some seeds =>
    simp only
    have hacc : ∀ i, i < ids.length →
        Executor.seedMap { e with seedMap := mapSet ex0.seedMap state none } (ids.getD i 0) =
          seedEntry ((fun _ => ([] : List SeedInfo)) i) := by
      intro i hi
      have hmem : ids.getD i 0 ∈ ids := by
        rw [List.getD_eq_getElem?_getD, List.getElem?_eq_getElem hi]
        exact List.getElem_mem hi
      simp only [mapSet, seedEntry, List.isEmpty_nil, if_true]
      split
      · rfl
      · rename_i hne
        exact hidsfresh _ hmem hne
    obtain ⟨targets, sm, rng, f1, f2, f3, f4, f5⟩ := Executor.branchSeeds_fold state ids
      conditions hN hlen hnd seeds { e with seedMap := mapSet ex0.seedMap state none }
      (fun _ => []) hacc
    rw [f2]
    simp only [List.nil_append] at f3
    have htargets : List.Forall₂
        (fun seed t => e.SeedTarget (e.getState state) conditions seed t) seeds targets := by
      refine List.Forall₂.imp ?_ f1
      intro s t hst
      exact Executor.SeedTarget_congr e { e with seedMap := mapSet ex0.seedMap state none }
        _ conditions s t rfl rfl rfl hst
    by_cases hors : e.opts.OnlyReplaySeeds = true
    · simp only [hors, if_true]
      obtain ⟨g1, g2, g3, g4, g5, g6, g7, g8, g9, g10, g11, g12⟩ :=
        Executor.branchPrune_fold ids []
          { e with seedMap := sm, theRNG := rng }
      refine ⟨fun id => (sm id).isSome, _, ?_, g3, g4, g5, g6, g7, g9, ?_, ?_, ?_, ?_, ?_⟩
      · refine Prod.ext ?_ rfl
        rw [g1]
        simp
      · rw [g8]; exact f5
      · intro j hj
        apply g10
        rcases hj with h | h
        · exact Or.inr h
        · exact Or.inl h
      · intro j hja hj
        apply g11 j hja
        rcases hj with h | h
        · exact Or.inr h
        · exact Or.inl h
      · intro j hj hp
        have hnone : sm j = none := by
          cases hh : sm j with
          | none => rfl
          | some l => simp only [hh, Option.isSome_some] at hp; cases hp
        refine ⟨g12 j (Or.inr ⟨hj, hnone⟩), ?_⟩
        rw [g2]
        exact hnone
      · refine ⟨targets, htargets, ?_⟩
        intro i hi
        rw [g2]
        refine ⟨f3 i (by omega), ?_⟩
        simp only
        rw [f3 i (by omega), seedEntry_isSome]
        simp
    · have hors' : e.opts.OnlyReplaySeeds = false := by
        cases h : e.opts.OnlyReplaySeeds
        · rfl
        · exact absurd h hors
      simp only [hors', Bool.false_eq_true, if_false]
      refine ⟨fun _ => true, { e with seedMap := sm, theRNG := rng }, ?_, rfl, rfl, rfl, rfl,
        rfl, rfl, f5, fun _ _ => rfl, fun _ h _ => h, ?_, ?_⟩
      · refine Prod.ext ?_ rfl
        simp
      · intro j _ h
        cases h
      · refine ⟨targets, htargets, ?_⟩
        intro i hi
        refine ⟨f3 i (by omega), ?_⟩
        simp

theorem nodup_filterMap_guard (ids : List StateId) (p : StateId → Bool) (h : ids.Nodup) :
    ((ids.map fun id => if p id then some id else none).filterMap fun x => x).Nodup := by
  rw [List.filterMap_map]
  refine List.Nodup.filterMap ?_ h
  intro a a' b hb hb'
  simp only [Function.comp] at hb hb'
  split at hb
  · split at hb'
    · simp only [Option.mem_def, Option.some.injEq] at hb hb'
      rw [hb, hb']
    · cases hb'
  · cases hb

theorem Executor.childId_getD (ex : Executor) (state : Nat) (n i : Nat) (hi : i < n + 1) :
    (state :: List.range' ex.heap.length n).getD i 0 = ex.childId state i := by
  unfold Executor.childId
  cases i with
  | zero => rfl
  | succ i =>
    have hlt : i < (List.range' ex.heap.length n).length := by simp; omega
    have h2 : (List.range' ex.heap.length n)[i]? = some (ex.heap.length + i) := by
      rw [List.getElem?_eq_getElem hlt]
      simp
    simp [List.getD_eq_getElem?_getD, h2]

theorem Executor.branch_spec (ex : Executor) (state : Nat) (conditions : List Expr)
    (reason : ForkClass) (halloc : ex.isAllocated state = true)
    (hfresh : ∀ id : Nat, ex.heap.length ≤ id → ex.seedMap id = none)
    (hN : conditions ≠ [])
    (hcond : ∀ c, c ∈ conditions → ∀ k, c.asConstant = some k → k.isTrue = true) :
    ∃ (result : List (Option StateId)) (ex' : Executor) (live : Nat → Bool)
        (st : ExecutionState),
      ex.branch state conditions reason = some (result, ex') ∧
      result.length = conditions.length ∧
      ex'.stats.forks = ex.stats.forks + (conditions.length - 1) ∧
      ex'.heap.length = ex.heap.length + (conditions.length - 1) ∧
      st.cloneOf (ex.getState state) ∧
      (∀ i, i < conditions.length →
        result[i]? = some (if live i then some (ex.childId state i) else none)) ∧
      (∀ (i : Nat) (c : Expr), conditions[i]? = some c → live i = true →
        ex'.isAllocated (ex.childId state i) = true ∧
        (1 ≤ i → ex.childId state i ∈ ex'.addedStates) ∧
        ∃ s : ExecutionState, s.cloneOf (ex.getState state) ∧
          ex'.getState (ex.childId state i) = if c.isConstant then s else s.addConstraint c) ∧
      (∀ i, i < conditions.length → live i = false →
        ex'.isTerminated (ex.childId state i) ∧ ex'.seedMap (ex.childId state i) = none) ∧
      (match ex.seedMap state with
        | none =>
          ∀ i, i < conditions.length → live i = true ∧ ex'.seedMap (ex.childId state i) = none
        | some seeds =>
          ∃ targets : List Nat,
            List.Forall₂ (fun seed t => ex.SeedTarget st conditions seed t) seeds targets ∧
            ∀ (i : Nat) (c : Expr), conditions[i]? = some c →
              live i = !(ex.opts.OnlyReplaySeeds && (seedShare seeds targets i).isEmpty) ∧
              (live i = true →
                SeedsPatched c (seedEntry (seedShare seeds targets i))
                  (ex'.seedMap (ex.childId state i)))) := by
  have hNpos : 0 < conditions.length := List.length_pos.mpr hN
  have hN0 : ¬ conditions.length = 0 := by omega
  have hstate : state < ex.heap.length := Executor.isAllocated_lt ex state halloc
  obtain ⟨cl, hcl⟩ : ∃ cl : List StateId × Executor, cl =
      (List.range' 1 (conditions.length - 1)).foldl
        (Executor.branchClone (Executor.getForkTag (ex.getState state) reason))
        ([state], { ex with stats :=
          { ex.stats with forks := ex.stats.forks + (conditions.length - 1) } }) := ⟨_, rfl⟩
  have hinv : Executor.ClonesInv
      { ex with stats := { ex.stats with forks := ex.stats.forks + (conditions.length - 1) } }
      state (conditions.length - 1) cl := by
    rw [hcl]
    exact Executor.branchClones_inv
      { ex with stats := { ex.stats with forks := ex.stats.forks + (conditions.length - 1) } }
      state (Executor.getForkTag (ex.getState state) reason) halloc (conditions.length - 1)
  have hb : ex.branch state conditions reason =
      (match Executor.branchConstraints (cl.2.branchSeeds state cl.1 conditions).1 conditions
          (cl.2.branchSeeds state cl.1 conditions).2 with
        | none => none
        | some ex1 => some ((cl.2.branchSeeds state cl.1 conditions).1, ex1)) := by
    rw [hcl]
    unfold Executor.branch
    rw [if_neg hN0]
    rfl
  clear hcl
  obtain ⟨r1, r2, r3, r4, r5, r6, r7, r8, r9, r10, r11, r12, r13⟩ := hinv
  simp only at r1 r2 r3 r4 r5 r6 r7 r8 r9 r10 r11 r12 r13
  obtain ⟨p, e3, s1, s2, s3, s4, s5, s6, s7, s8, s9, s10, s11, s12⟩ :=
    Executor.branchSeeds_spec
      { ex with stats := { ex.stats with forks := ex.stats.forks + (conditions.length - 1) } }
      state conditions cl.1 cl.2 hNpos r1 hstate r6 hfresh
  simp only at s12
  have hlen1 : cl.1.length = conditions.length := by
    rw [r1]; simp; omega
  have hnd : cl.1.Nodup := by
    rw [r1]
    refine List.nodup_cons.mpr ⟨?_, List.nodup_range' _ _⟩
    intro h
    have := (List.mem_range'_1.mp h).1
    omega
  have hchild : ∀ i, i < conditions.length → cl.1.getD i 0 = ex.childId state i := by
    intro i hi
    rw [r1]
    exact Executor.childId_getD ex state (conditions.length - 1) i (by omega)
  have hchildmem : ∀ i, i < conditions.length → ex.childId state i ∈ cl.1 := by
    intro i hi
    rw [← hchild i hi, List.getD_eq_getElem?_getD,
      List.getElem?_eq_getElem (by rw [hlen1]; exact hi)]
    exact List.getElem_mem _
  have hliveAlloc : ∀ id : Nat, some id ∈ (cl.1.map fun id => if p id then some id else none) →
      id ∈ cl.1 ∧ p id = true := by
    intro id hid
    obtain ⟨a, ha, hae⟩ := List.mem_map.mp hid
    by_cases hp : p a = true
    · simp only [hp, if_true, Option.some.injEq] at hae
      subst hae
      exact ⟨ha, hp⟩
    · simp only [hp, Bool.false_eq_true, if_false] at hae
      cases hae
  obtain ⟨e', heap, sm, b1, b2, b3, b4, b5⟩ :=
    Executor.branchConstraints_spec (cl.1.map fun id => if p id then some id else none)
      conditions e3 (by simp [hlen1])
      (by
        intro id hid
        obtain ⟨hm, hp⟩ := hliveAlloc id hid
        unfold Executor.isAllocated
        rw [s9 id (Or.inl hp)]
        exact (r3 id hm).1)
      (nodup_filterMap_guard cl.1 p hnd) hcond
  have hres : ∀ i, i < conditions.length →
      (cl.1.map fun id => if p id then some id else none)[i]? =
        some (if p (ex.childId state i) then some (ex.childId state i) else none) := by
    intro i hi
    have hi' : i < cl.1.length := by rw [hlen1]; exact hi
    rw [List.getElem?_map, List.getElem?_eq_getElem hi']
    have : cl.1[i] = ex.childId state i := by
      rw [← hchild i hi, List.getD_eq_getElem?_getD, List.getElem?_eq_getElem hi']
      rfl
    simp [this]
  have he'heap : e'.heap = heap := by rw [b2]
  have he'sm : e'.seedMap = sm := by rw [b2]
  refine ⟨cl.1.map fun id => if p id then some id else none, e',
    fun i => p (ex.childId state i), cl.2.getState state, ?_, by simp [hlen1], ?_, ?_,
    (r3 state (by rw [r1]; exact List.mem_cons_self _ _)).2, hres, ?_, ?_, ?_⟩
  · rw [hb, s1]
    simp only [b1]
  · rw [b2]
    simp only
    rw [s5, r10]
  · rw [he'heap, b3, s7, r2]
  · intro i c hc hlive
    have hi : i < conditions.length := by
      by_contra hge
      rw [List.getElem?_eq_none (Nat.le_of_not_lt hge)] at hc
      cases hc
    have hlive' : p (ex.childId state i) = true := hlive
    have hr := hres i hi
    simp only [hlive', if_true] at hr
    obtain ⟨g1, g2, g3⟩ := b5 i (ex.childId state i) c hr hc
    refine ⟨g1, ?_, _, ?_, g2⟩
    · intro h1
      rw [b2]
      simp only
      apply s10 _ _ (Or.inl hlive')
      apply (r5 _).mpr
      right
      unfold Executor.childId
      have : i ≠ 0 := by omega
      simp only [this, if_false]
      constructor
      · exact Nat.le_add_right _ _
      · have : i - 1 < conditions.length - 1 := by omega
        exact Nat.add_lt_add_left this _
    · unfold Executor.getState
      rw [s9 _ (Or.inl hlive')]
      exact (r3 _ (hchildmem i hi)).2
  · intro i hi hlive
    have hlive' : p (ex.childId state i) = false := hlive
    obtain ⟨t1, t2⟩ := s11 _ (hchildmem i hi) hlive'
    have hnot : some (ex.childId state i) ∉
        (cl.1.map fun id => if p id then some id else none) := by
      intro h
      have := (hliveAlloc _ h).2
      rw [this] at hlive'
      cases hlive'
    obtain ⟨u1, u2⟩ := b4 _ hnot
    constructor
    · unfold Executor.isTerminated at t1 ⊢
      rcases t1 with h | h
      · left
        unfold Executor.isAllocated at h ⊢
        rw [he'heap, u1]
        exact h
      · right
        rw [b2]
        exact h
    · rw [he'sm, u2]
      exact t2
  · cases hseed : ex.seedMap state with
    | none =>
      rw [hseed] at s12
      simp only at s12 ⊢
      intro i hi
      obtain ⟨v1, v2⟩ := s12 _ (hchildmem i hi)
      refine ⟨v1, ?_⟩
      have hr := hres i hi
      simp only [v1, if_true] at hr
      have hc : ∃ c, conditions[i]? = some c := ⟨conditions[i], List.getElem?_eq_getElem hi⟩
      obtain ⟨c, hc⟩ := hc
      obtain ⟨_, _, g3⟩ := b5 i (ex.childId state i) c hr hc
      rw [v2] at g3
      rw [he'sm]
      exact g3
    | some seeds =>
      rw [hseed] at s12
      simp only at s12 ⊢
      obtain ⟨targets, w1, w2⟩ := s12
      refine ⟨targets, ?_, ?_⟩
      · refine List.Forall₂.imp ?_ w1
        intro s t hst
        refine Executor.SeedTarget_congr ex cl.2 _ conditions s t r8 r9 r13 hst
      · intro i c hc
        have hi : i < conditions.length := by
          by_contra hge
          rw [List.getElem?_eq_none (Nat.le_of_not_lt hge)] at hc
          cases hc
        obtain ⟨x1, x2⟩ := w2 i hi
        rw [hchild i hi] at x1 x2
        rw [r7] at x2
        refine ⟨x2, ?_⟩
        intro hlive
        have hlive' : p (ex.childId state i) = true := hlive
        have hr := hres i hi
        simp only [hlive', if_true] at hr
        obtain ⟨_, _, g3⟩ := b5 i (ex.childId state i) c hr hc
        rw [x1] at g3
        rw [he'sm]
        exact g3

theorem flatMap_insert_not_mem {α : Type} (f : Nat → List α) (a : α) (k : Nat) :
    ∀ is : List Nat, k ∉ is →
      (is.flatMap fun i => (if k = i then [a] else []) ++ f i) = is.flatMap f := by
  intro is
  induction is with
  | nil => intro _; rfl
  | cons h rest ih =>
    intro hk
    have h1 : k ≠ h := fun e => hk (e ▸ List.mem_cons_self _ _)
    have h2 : k ∉ rest := fun e => hk (List.mem_cons_of_mem _ e)
    simp only [List.flatMap_cons, ih h2, h1, if_false, List.nil_append]

theorem perm_flatMap_insert {α : Type} (f : Nat → List α) (a : α) (k : Nat) :
    ∀ is : List Nat, is.Nodup → k ∈ is →
      (is.flatMap fun i => (if k = i then [a] else []) ++ f i).Perm (a :: is.flatMap f) := by
  intro is
  induction is with
  | nil => intro _ hk; cases hk
  | cons h rest ih =>
    intro hnd hk
    obtain ⟨hnot, hnd'⟩ := List.nodup_cons.mp hnd
    by_cases hkh : k = h
    · subst hkh
      simp only [List.flatMap_cons, if_true, flatMap_insert_not_mem f a k rest hnot,
        List.singleton_append, List.cons_append]
      exact List.Perm.refl _
    · have hk' : k ∈ rest := by
        rcases List.mem_cons.mp hk with e | e
        · exact absurd e hkh
        · exact e
      simp only [List.flatMap_cons, hkh, if_false, List.nil_append]
      exact (List.Perm.append_left (f h) (ih hnd' hk')).trans List.perm_middle

theorem seedShare_perm (N : Nat) (seeds : List SeedInfo) (targets : List Nat)
    (h : List.Forall₂ (fun _ t => t < N) seeds targets) :
    ((List.range N).flatMap (seedShare seeds targets)).Perm seeds := by
  induction h with
  | nil =>
    have : ∀ is : List Nat, is.flatMap (seedShare [] []) = [] := by
      intro is
      induction is with
      | nil => rfl
      | cons a is ih => simp only [List.flatMap_cons, ih]; rfl
    rw [this]
  | @cons s t ss ts ht _ ih =>
    have e : seedShare (s :: ss) (t :: ts) =
        fun i => (if t = i then [s] else []) ++ seedShare ss ts i := by
      funext i
      exact seedShare_cons s ss t ts i
    rw [e]
    exact (perm_flatMap_insert (seedShare ss ts) s t (List.range N) (List.nodup_range N)
      (List.mem_range.mpr ht)).trans (List.Perm.cons s ih)

/-- C14: seed redistribution in `branch`.  When the input state has seeds (and
is allocated, no unallocated address has seeds, and no condition is a constant
other than true), `branch` returns, and every seed has one target index: the
lowest index whose condition the seed makes true in the branched state, or an
index drawn from the RNG when the seed makes no condition true.  The seed
lists of the indices are the seeds with that target, in order, so together
they are a permutation of the seeds of the input state.  An index whose seed
list is empty under only-replay-seeds has a null entry in the result, and its
state is terminated and has no seeds; every other index has its state in the
result, and the seeds of that state are its seed list, each seed kept or
patched for the condition of the index. -/
theorem Executor.branch_redistributes_seeds (ex : Executor) (state : Nat)
    (conditions : List Expr) (reason : ForkClass) (seeds : List SeedInfo)
    (halloc : ex.isAllocated state = true) (hseeds : ex.seedMap state = some seeds)
    (hfresh : ∀ id : Nat, ex.heap.length ≤ id → ex.seedMap id = none)
    (hN : conditions ≠ [])
    (hcond : ∀ c, c ∈ conditions → ∀ k, c.asConstant = some k → k.isTrue = true) :
    ∃ (result : List (Option StateId)) (ex' : Executor) (targets : List Nat)
        (st : ExecutionState),
      ex.branch state conditions reason = some (result, ex') ∧
      st.cloneOf (ex.getState state) ∧
      List.Forall₂ (fun seed t => ex.SeedTarget st conditions seed t) seeds targets ∧
      ((List.range conditions.length).flatMap (seedShare seeds targets)).Perm seeds ∧
      ∀ (i : Nat) (c : Expr), conditions[i]? = some c →
        if (ex.opts.OnlyReplaySeeds && (seedShare seeds targets i).isEmpty) = true then
          result[i]? = some none ∧ ex'.isTerminated (ex.childId state i) ∧
            ex'.seedMap (ex.childId state i) = none
        else
          result[i]? = some (some (ex.childId state i)) ∧
            SeedsPatched c (seedEntry (seedShare seeds targets i))
              (ex'.seedMap (ex.childId state i)) := by
  obtain ⟨result, ex', live, st, h1, _, _, _, h5, h6, _, h8, h9⟩ :=
    Executor.branch_spec ex state conditions reason halloc hfresh hN hcond
  rw [hseeds] at h9
  obtain ⟨targets, t1, t2⟩ := h9
  refine ⟨result, ex', targets, st, h1, h5, t1, ?_, ?_⟩
  · refine seedShare_perm conditions.length seeds targets ?_
    exact List.Forall₂.imp (fun _ _ h => h.1) t1
  · intro i c hc
    have hi : i < conditions.length := by
      by_contra hge
      rw [List.getElem?_eq_none (Nat.le_of_not_lt hge)] at hc
      cases hc
    obtain ⟨u1, u2⟩ := t2 i c hc
    have hr := h6 i hi
    by_cases hp : (ex.opts.OnlyReplaySeeds && (seedShare seeds targets i).isEmpty) = true
    · rw [if_pos hp]
      have hl : live i = false := by rw [u1, hp]; rfl
      rw [hl] at hr
      exact ⟨hr, h8 i hi hl⟩
    · rw [if_neg hp]
      have hl : live i = true := by
        rw [u1]
        cases hh : (ex.opts.OnlyReplaySeeds && (seedShare seeds targets i).isEmpty)
        · rfl
        · exact absurd hh hp
      rw [hl] at hr
      exact ⟨hr, u2 hl⟩

/-- Witness of C14: the example executor under only-replay-seeds with one seed
on its state, branched on a condition and its negation. -/
theorem Executor.branch_redistributes_seeds_witness :
    ∃ (result : List (Option StateId)) (ex' : Executor) (targets : List Nat)
        (st : ExecutionState),
      prunedExecutor.branch 0 [exampleCondition, exampleCondition.createIsZero]
        ForkClass.KLEE_FORK_INTERNAL = some (result, ex') ∧
      st.cloneOf (prunedExecutor.getState 0) ∧
      List.Forall₂
        (fun seed t => prunedExecutor.SeedTarget st
          [exampleCondition, exampleCondition.createIsZero] seed t)
        [{ assignment := 0 }] targets ∧
      ((List.range 2).flatMap (seedShare [{ assignment := 0 }] targets)).Perm
        [{ assignment := 0 }] ∧
      ∀ (i : Nat) (c : Expr),
        [exampleCondition, exampleCondition.createIsZero][i]? = some c →
        if (prunedExecutor.opts.OnlyReplaySeeds &&
            (seedShare [{ assignment := 0 }] targets i).isEmpty) = true then
          result[i]? = some none ∧ ex'.isTerminated (prunedExecutor.childId 0 i) ∧
            ex'.seedMap (prunedExecutor.childId 0 i) = none
        else
          result[i]? = some (some (prunedExecutor.childId 0 i)) ∧
            SeedsPatched c (seedEntry (seedShare [{ assignment := 0 }] targets i))
              (ex'.seedMap (prunedExecutor.childId 0 i)) :=
  Executor.branch_redistributes_seeds prunedExecutor 0
    [exampleCondition, exampleCondition.createIsZero] ForkClass.KLEE_FORK_INTERNAL
    [{ assignment := 0 }] rfl rfl
    (by
      intro id hid
      have h1 : 1 ≤ id := hid
      have h2 : id ≠ 0 := by omega
      simp [prunedExecutor, h2])
    (by simp)
    (by
      intro c hc k hk
      simp only [List.mem_cons, List.mem_singleton, List.not_mem_nil, or_false] at hc
      rcases hc with h | h <;> rw [h] at hk <;> cases hk)

theorem Executor.isAllocated_fresh (ex : Executor) (id : Nat) (h : ex.heap.length ≤ id) :
    ex.isAllocated id = false := by
  unfold Executor.isAllocated
  simp [List.getD_eq_getElem?_getD, List.getElem?_eq_none h]

theorem seedShare_isEmpty (i : Nat) : ∀ (seeds : List SeedInfo) (targets : List Nat),
    seeds.length = targets.length →
    ((seedShare seeds targets i).isEmpty = true ↔ i ∉ targets) := by
  intro seeds
  induction seeds with
  | nil =>
    intro targets hlen
    cases targets with
    | nil => simp [seedShare]
    | cons t ts => simp at hlen
  | cons s ss ih =>
    intro targets hlen
    cases targets with
    | nil => simp at hlen
    | cons t ts =>
      have hl : ss.length = ts.length := by simpa using hlen
      rw [seedShare_cons]
      by_cases h : t = i
      · subst h
        simp
      · have hne : ¬ i = t := fun e => h e.symm
        simp only [h, if_false, List.nil_append, List.mem_cons, hne, false_or]
        exact ih ts hl

theorem Executor.branch_results (ex : Executor) (state : Nat) (conditions : List Expr)
    (reason : ForkClass) (halloc : ex.isAllocated state = true)
    (hfresh : ∀ id : Nat, ex.heap.length ≤ id → ex.seedMap id = none)
    (hN : conditions ≠ [])
    (hcond : ∀ c, c ∈ conditions → ∀ k, c.asConstant = some k → k.isTrue = true) :
    ∃ (result : List (Option StateId)) (ex' : Executor) (st : ExecutionState)
        (targets : List Nat),
      ex.branch state conditions reason = some (result, ex') ∧
      result.length = conditions.length ∧
      ex'.stats.forks = ex.stats.forks + (conditions.length - 1) ∧
      ex.childId state 0 = state ∧
      (∀ (i : Nat) (c : Expr), conditions[i]? = some c →
        (result[i]? = some none ∧ (ex.seedMap state).isSome = true ∧
          ex.opts.OnlyReplaySeeds = true ∧ i ∉ targets) ∨
        (result[i]? = some (some (ex.childId state i)) ∧
          ex'.isAllocated (ex.childId state i) = true ∧
          (1 ≤ i → ex.isAllocated (ex.childId state i) = false ∧
            ex.childId state i ∈ ex'.addedStates) ∧
          (∃ s : ExecutionState, s.cloneOf (ex.getState state) ∧
            ex'.getState (ex.childId state i) =
              if c.isConstant then s else s.addConstraint c) ∧
          (ex'.getState (ex.childId state i)).constraints =
            (ex.getState state).constraints ++ (if c.isConstant then [] else [c]) ∧
          ((ex.seedMap state).isSome = true → ex.opts.OnlyReplaySeeds = true →
            i ∈ targets))) ∧
      ((ex.seedMap state = none ∨ ex.opts.OnlyReplaySeeds = false) →
        ∀ i, i < conditions.length → result[i]? = some (some (ex.childId state i))) ∧
      st.cloneOf (ex.getState state) ∧
      List.Forall₂ (fun seed t => ex.SeedTarget st conditions seed t)
        ((ex.seedMap state).getD []) targets := by
  obtain ⟨result, ex', live, st, h1, h2, h3, _, h5, h6, h7, _, h9⟩ :=
    Executor.branch_spec ex state conditions reason halloc hfresh hN hcond
  obtain ⟨targets, hF, hlive⟩ : ∃ targets : List Nat,
      List.Forall₂ (fun seed t => ex.SeedTarget st conditions seed t)
        ((ex.seedMap state).getD []) targets ∧
      ∀ i, i < conditions.length → (live i = false ↔
        ((ex.seedMap state).isSome = true ∧ ex.opts.OnlyReplaySeeds = true ∧
          i ∉ targets)) := by
    cases hseed : ex.seedMap state with
    | none =>
      rw [hseed] at h9
      refine ⟨[], List.Forall₂.nil, ?_⟩
      intro i hi
      constructor
      · intro hl
        rw [(h9 i hi).1] at hl
        cases hl
      · intro hx
        cases hx.1
    | some seeds =>
      rw [hseed] at h9
      obtain ⟨targets, t1, t2⟩ := h9
      refine ⟨targets, t1, ?_⟩
      intro i hi
      obtain ⟨u1, _⟩ := t2 i conditions[i] (List.getElem?_eq_getElem hi)
      have hemp := seedShare_isEmpty i seeds targets t1.length_eq
      rw [u1]
      cases ho : ex.opts.OnlyReplaySeeds
      · simp
      · cases he : (seedShare seeds targets i).isEmpty
        · have : ¬ i ∉ targets := fun hx => by
            rw [hemp.mpr hx] at he
            cases he
          simp [this]
        · simp [hemp.mp he]
  refine ⟨result, ex', st, targets, h1, h2, h3, rfl, ?_, ?_, h5, hF⟩
  · intro i c hc
    have hi : i < conditions.length := by
      by_contra hge
      rw [List.getElem?_eq_none (Nat.le_of_not_lt hge)] at hc
      cases hc
    have hr := h6 i hi
    cases hl : live i with
    | false =>
      left
      rw [hl] at hr
      exact ⟨hr, (hlive i hi).mp hl⟩
    | true =>
      right
      rw [hl] at hr
      obtain ⟨g1, g2, s, g3, g4⟩ := h7 i c hc hl
      refine ⟨hr, g1, ?_, ⟨s, g3, g4⟩, ?_, ?_⟩
      · intro h1i
        refine ⟨?_, g2 h1i⟩
        apply Executor.isAllocated_fresh
        unfold Executor.childId
        have : i ≠ 0 := by omega
        simp only [this, if_false]
        exact Nat.le_add_right _ _
      · rw [g4, ← ExecutionState.cloneOf_constraints s _ g3]
        split
        · simp
        · rfl
      · intro hs ho
        by_contra hnot
        have := (hlive i hi).mpr ⟨hs, ho, hnot⟩
        rw [hl] at this
        cases this
  · intro hnp i hi
    have hr := h6 i hi
    cases hl : live i with
    | false =>
      obtain ⟨a1, a2, _⟩ := (hlive i hi).mp hl
      rcases hnp with h | h
      · rw [h] at a1; cases a1
      · rw [h] at a2; cases a2
    | true =>
      rw [hl] at hr
      exact hr

/-- C13, counterexample: under only-replay-seeds, with one seed on the input
state that the RNG sends to index 1, `branch` on two conditions returns a null
entry 0: the input state is not in the result; it is queued for removal and
has had no condition added. -/
theorem Executor.branch_entry_zero_null :
    ∃ ex', prunedExecutor.branch 0 [exampleCondition, exampleCondition.createIsZero]
        ForkClass.KLEE_FORK_INTERNAL = some ([none, some 1], ex') ∧
      ex'.removedStates = [0] ∧ (ex'.getState 0).constraints = [] ∧
      (ex'.getState 1).constraints = [exampleCondition.createIsZero] :=
  ⟨_, rfl, rfl, rfl, rfl⟩

/-- C13, amended: `branch` returns one entry per condition, index-aligned.
For an allocated state, when no unallocated address has seeds and the list of
N conditions is not empty and holds no constant other than true, `branch`
returns a vector of exactly N entries and the fork counter grows by N-1.  Each
seed of the input state is assigned to one index, listed in `targets` in the
order of the seeds: the lowest index of a condition that the seed makes true in
the state, else an index drawn from the RNG; entry i has received a seed when
i is in `targets`.  Entry i is null exactly when the input state has seeds,
only-replay-seeds is set and entry i received no seed.  Every other entry is
the state of index i: the input state for i = 0 and, for i > 0, a state at an
address that was not allocated before, now allocated and registered as added;
it is a clone of the input state to whose constraints conditions[i] and
nothing else was added (nothing at all when conditions[i] is the constant
true).  When the input state has no seeds or only-replay-seeds is off, no
entry is null. -/
theorem Executor.branch_index_aligned (ex : Executor) (state : Nat) (conditions : List Expr)
    (reason : ForkClass) (halloc : ex.isAllocated state = true)
    (hfresh : ∀ id : Nat, ex.heap.length ≤ id → ex.seedMap id = none)
    (hN : conditions ≠ [])
    (hcond : ∀ c, c ∈ conditions → ∀ k, c.asConstant = some k → k.isTrue = true) :
    ∃ (result : List (Option StateId)) (ex' : Executor) (st : ExecutionState)
        (targets : List Nat),
      ex.branch state conditions reason = some (result, ex') ∧
      result.length = conditions.length ∧
      ex'.stats.forks = ex.stats.forks + (conditions.length - 1) ∧
      ex.childId state 0 = state ∧
      (∀ (i : Nat) (c : Expr), conditions[i]? = some c →
        (result[i]? = some none ∧ (ex.seedMap state).isSome = true ∧
          ex.opts.OnlyReplaySeeds = true ∧ i ∉ targets) ∨
        (result[i]? = some (some (ex.childId state i)) ∧
          ex'.isAllocated (ex.childId state i) = true ∧
          (1 ≤ i → ex.isAllocated (ex.childId state i) = false ∧
            ex.childId state i ∈ ex'.addedStates) ∧
          (∃ s : ExecutionState, s.cloneOf (ex.getState state) ∧
            ex'.getState (ex.childId state i) =
              if c.isConstant then s else s.addConstraint c) ∧
          (ex'.getState (ex.childId state i)).constraints =
            (ex.getState state).constraints ++ (if c.isConstant then [] else [c]) ∧
          ((ex.seedMap state).isSome = true → ex.opts.OnlyReplaySeeds = true →
            i ∈ targets))) ∧
      ((ex.seedMap state = none ∨ ex.opts.OnlyReplaySeeds = false) →
        ∀ i, i < conditions.length → result[i]? = some (some (ex.childId state i))) ∧
      st.cloneOf (ex.getState state) ∧
      List.Forall₂ (fun seed t => ex.SeedTarget st conditions seed t)
        ((ex.seedMap state).getD []) targets :=
  Executor.branch_results ex state conditions reason halloc hfresh hN hcond

/-- Witness of C13 (amended): the example executor without seeds, branched on
a condition and its negation. -/
theorem Executor.branch_index_aligned_witness :
    ∃ (result : List (Option StateId)) (ex' : Executor),
      (exampleExecutor (some Validity.Unknown)).branch 0
        [exampleCondition, exampleCondition.createIsZero] ForkClass.KLEE_FORK_INTERNAL =
        some (result, ex') ∧
      result = [some 0, some 1] ∧ ex'.stats.forks = 1 ∧
      (ex'.getState 0).constraints = [exampleCondition] ∧
      (ex'.getState 1).constraints = [exampleCondition.createIsZero] ∧
      1 ∈ ex'.addedStates := by
  obtain ⟨result, ex', _, _, h1, h2, h3, _, h5, h6, _⟩ := Executor.branch_index_aligned
    (exampleExecutor (some Validity.Unknown)) 0
    [exampleCondition, exampleCondition.createIsZero] ForkClass.KLEE_FORK_INTERNAL rfl
    (fun _ _ => rfl) (by simp)
    (by
      intro c hc k hk
      simp only [List.mem_cons, List.mem_singleton, List.not_mem_nil, or_false] at hc
      rcases hc with h | h <;> rw [h] at hk <;> cases hk)
  have r0 := h6 (Or.inl rfl) 0 (by decide)
  have r1 := h6 (Or.inl rfl) 1 (by decide)
  have hres : result = [some 0, some 1] := by
    match result, h2, r0, r1 with
    | [a, b], _, r0, r1 =>
      simp only [List.getElem?_cons_zero, List.getElem?_cons_succ, Option.some.injEq] at r0 r1
      rw [r0, r1]
      rfl
  refine ⟨result, ex', h1, hres, h3, ?_, ?_, ?_⟩
  · rcases h5 0 exampleCondition rfl with h | h
    · rw [r0] at h; cases h.1
    · exact h.2.2.2.2.1
  · rcases h5 1 exampleCondition.createIsZero rfl with h | h
    · rw [r1] at h; cases h.1
    · exact h.2.2.2.2.1
  · rcases h5 1 exampleCondition.createIsZero rfl with h | h
    · rw [r1] at h; cases h.1
    · exact (h.2.2.1 (by decide)).2

/-- C12, counterexample: under only-replay-seeds, with one seed on the input
state that goes to index 1, `branch` on a condition and its negation leaves
one live state, the one of the negation.  Under an interpretation that makes
the condition true (so that the two conditions are mutually exclusive and
jointly exhaustive) the constraints of the parent hold, but those of the only
live child do not. -/
theorem Executor.branch_pruned_loses_models :
    ∃ ex', prunedExecutor.branch 0 [exampleCondition, exampleCondition.createIsZero]
        ForkClass.KLEE_FORK_INTERNAL = some ([none, some 1], ex') ∧
      exampleModel exampleCondition ∧ ¬ exampleModel exampleCondition.createIsZero ∧
      (prunedExecutor.getState 0).satisfiedBy exampleModel ∧
      ¬ (ex'.getState 1).satisfiedBy exampleModel := by
  refine ⟨_, rfl, trivial, fun h => h, ?_, ?_⟩
  · intro e he
    cases he
  · intro h
    exact h exampleCondition.createIsZero (List.mem_singleton.mpr rfl)

/-- C12, amended: the N-way branch partitions the parent path when no result
is pruned.  For an allocated state that has no seeds, or with
only-replay-seeds off, and a non-empty list of conditions that holds no
constant other than true: `branch` returns one live state per condition, at
pairwise different addresses, and the constraints of the state of index i are
those of the parent plus conditions[i] (the parent's alone when conditions[i]
is the constant true).  Under every interpretation of the expressions that
makes the constant conditions hold and under which, given the parent's
constraints, the conditions are jointly exhaustive and mutually exclusive,
the constraints of some child hold exactly when the parent's hold, and they
hold for at most one child. -/
theorem Executor.branch_partitions_path (ex : Executor) (state : Nat) (conditions : List Expr)
    (reason : ForkClass) (holds : Expr → Prop) (halloc : ex.isAllocated state = true)
    (hfresh : ∀ id : Nat, ex.heap.length ≤ id → ex.seedMap id = none)
    (hN : conditions ≠ [])
    (hcond : ∀ c, c ∈ conditions → ∀ k, c.asConstant = some k → k.isTrue = true)
    (hnoprune : ex.seedMap state = none ∨ ex.opts.OnlyReplaySeeds = false)
    (htrue : ∀ c, c ∈ conditions → c.isConstant = true → holds c)
    (hexh : (ex.getState state).satisfiedBy holds → ∃ c, c ∈ conditions ∧ holds c)
    (hexcl : (ex.getState state).satisfiedBy holds → ∀ (i j : Nat) (ci cj : Expr),
      conditions[i]? = some ci → conditions[j]? = some cj → holds ci → holds cj → i = j) :
    ∃ (result : List (Option StateId)) (ex' : Executor),
      ex.branch state conditions reason = some (result, ex') ∧
      result.length = conditions.length ∧
      (∀ (i : Nat) (c : Expr), conditions[i]? = some c →
        result[i]? = some (some (ex.childId state i)) ∧
        ex'.isAllocated (ex.childId state i) = true ∧
        (ex'.getState (ex.childId state i)).constraints =
          (ex.getState state).constraints ++ if c.isConstant then [] else [c]) ∧
      (∀ i j, i < conditions.length → j < conditions.length →
        ex.childId state i = ex.childId state j → i = j) ∧
      ((∃ i, i < conditions.length ∧ (ex'.getState (ex.childId state i)).satisfiedBy holds) ↔
        (ex.getState state).satisfiedBy holds) ∧
      (∀ i j, i < conditions.length → j < conditions.length →
        (ex'.getState (ex.childId state i)).satisfiedBy holds →
        (ex'.getState (ex.childId state j)).satisfiedBy holds → i = j) := by
  obtain ⟨result, ex', _, _, h1, h2, _, _, h5, h6, _⟩ :=
    Executor.branch_results ex state conditions reason halloc hfresh hN hcond
  have hstate : state < ex.heap.length := Executor.isAllocated_lt ex state halloc
  have hchild : ∀ (i : Nat) (c : Expr), conditions[i]? = some c →
      result[i]? = some (some (ex.childId state i)) ∧
      ex'.isAllocated (ex.childId state i) = true ∧
      (ex'.getState (ex.childId state i)).constraints =
        (ex.getState state).constraints ++ if c.isConstant then [] else [c] := by
    intro i c hc
    have hi : i < conditions.length := by
      by_contra hge
      rw [List.getElem?_eq_none (Nat.le_of_not_lt hge)] at hc
      cases hc
    have hr := h6 hnoprune i hi
    rcases h5 i c hc with h | h
    · rw [hr] at h; cases h.1
    · exact ⟨h.1, h.2.1, h.2.2.2.2.1⟩
  have hsat : ∀ (i : Nat) (c : Expr), conditions[i]? = some c →
      ((ex'.getState (ex.childId state i)).satisfiedBy holds ↔
        (ex.getState state).satisfiedBy holds ∧ holds c) := by
    intro i c hc
    have hmem : c ∈ conditions := List.getElem?_mem hc
    unfold ExecutionState.satisfiedBy
    rw [(hchild i c hc).2.2]
    by_cases hcon : c.isConstant = true
    · simp only [hcon, if_true, List.append_nil]
      exact ⟨fun h => ⟨h, htrue c hmem hcon⟩, fun h => h.1⟩
    · simp only [hcon, Bool.false_eq_true, if_false, List.mem_append, List.mem_singleton]
      constructor
      · intro h
        exact ⟨fun e he => h e (Or.inl he), h c (Or.inr rfl)⟩
      · rintro ⟨h, hc'⟩ e (he | he)
        · exact h e he
        · rw [he]; exact hc'
  refine ⟨result, ex', h1, h2, hchild, ?_, ?_, ?_⟩
  · intro i j hi hj heq
    have heq' : @Eq Nat (if i = 0 then state else ex.heap.length + (i - 1))
        (if j = 0 then state else ex.heap.length + (j - 1)) := heq
    by_cases hi0 : i = 0 <;> by_cases hj0 : j = 0 <;>
      simp only [hi0, hj0, if_true, if_false] at heq' <;> omega
  · constructor
    · rintro ⟨i, hi, hs⟩
      exact ((hsat i conditions[i] (List.getElem?_eq_getElem hi)).mp hs).1
    · intro hp
      obtain ⟨c, hc, hh⟩ := hexh hp
      obtain ⟨i, hi, hci⟩ := List.getElem_of_mem hc
      refine ⟨i, hi, ?_⟩
      have hci' : conditions[i]? = some c := by
        rw [List.getElem?_eq_getElem hi, hci]
      exact (hsat i c hci').mpr ⟨hp, hh⟩
  · intro i j hi hj hsi hsj
    obtain ⟨p1, p2⟩ := (hsat i conditions[i] (List.getElem?_eq_getElem hi)).mp hsi
    obtain ⟨_, p3⟩ := (hsat j conditions[j] (List.getElem?_eq_getElem hj)).mp hsj
    exact hexcl p1 i j _ _ (List.getElem?_eq_getElem hi) (List.getElem?_eq_getElem hj) p2 p3

/-- Witness of C12 (amended): the example executor without seeds, branched on
a condition and its negation, under the interpretation that makes the
condition true. -/
theorem Executor.branch_partitions_path_witness :
    ∃ (result : List (Option StateId)) (ex' : Executor),
      (exampleExecutor (some Validity.Unknown)).branch 0
        [exampleCondition, exampleCondition.createIsZero] ForkClass.KLEE_FORK_INTERNAL =
        some (result, ex') ∧
      result.length = 2 ∧
      (ex'.getState 0).constraints = [exampleCondition] ∧
      (ex'.getState 1).constraints = [exampleCondition.createIsZero] ∧
      ((∃ i, i < 2 ∧ (ex'.getState
          ((exampleExecutor (some Validity.Unknown)).childId 0 i)).satisfiedBy exampleModel) ↔
        ((exampleExecutor (some Validity.Unknown)).getState 0).satisfiedBy exampleModel) := by
  obtain ⟨result, ex', h1, h2, h3, _, h5, _⟩ := Executor.branch_partitions_path
    (exampleExecutor (some Validity.Unknown)) 0
    [exampleCondition, exampleCondition.createIsZero] ForkClass.KLEE_FORK_INTERNAL
    exampleModel rfl (fun _ _ => rfl) (by simp)
    (by
      intro c hc k hk
      simp only [List.mem_cons, List.mem_singleton, List.not_mem_nil, or_false] at hc
      rcases hc with h | h <;> rw [h] at hk <;> cases hk)
    (Or.inl rfl)
    (by
      intro c hc hk
      simp only [List.mem_cons, List.mem_singleton, List.not_mem_nil, or_false] at hc
      rcases hc with h | h <;> rw [h] at hk <;> cases hk)
    (fun _ => ⟨exampleCondition, List.mem_cons_self _ _, trivial⟩)
    (by
      intro _ i j ci cj hi hj hci hcj
      match i, j, hi, hj with
      | 0, 0, _, _ => rfl
      | 0, 1, _, hj =>
        simp only [List.getElem?_cons_succ, List.getElem?_cons_zero, Option.some.injEq] at hj
        rw [← hj] at hcj
        exact absurd hcj (fun h => h)
      | 1, 0, hi, _ =>
        simp only [List.getElem?_cons_succ, List.getElem?_cons_zero, Option.some.injEq] at hi
        rw [← hi] at hci
        exact absurd hci (fun h => h)
      | 1, 1, _, _ => rfl
      | 0, j + 2, _, hj => simp at hj
      | 1, j + 2, _, hj => simp at hj
      | i + 2, _, hi, _ => simp at hi)
  exact ⟨result, ex', h1, h2, (h3 0 exampleCondition rfl).2.2,
    (h3 1 exampleCondition.createIsZero rfl).2.2, h5⟩

/-! ## The scheduler -/

theorem ExecutionState.setCrtThread_pc (s : ExecutionState) (pc : Nat) :
    (s.setCrtThread { s.crtThread with pc := pc }).crtThreadIt = s.crtThreadIt ∧
      (s.setCrtThread { s.crtThread with pc := pc }).threads.map
          (fun t => (t.tuid, t.enabled)) =
        s.threads.map (fun t => (t.tuid, t.enabled)) := by
  refine ⟨rfl, ?_⟩
  simp only [ExecutionState.setCrtThread, ExecutionState.crtThread]
  apply List.ext_getElem?
  intro i
  simp only [List.getElem?_map, List.getElem?_set]
  by_cases hi : s.crtThreadIt = i
  · subst hi
    by_cases hl : s.crtThreadIt < s.threads.length
    · simp [hl, List.getD_eq_getElem?_getD, List.getElem?_eq_getElem hl]
    · simp [hl, List.getElem?_eq_none (Nat.le_of_not_lt hl)]
  · simp [hi]

theorem Executor.terminateState_removed (e : Executor) (state : Nat)
    (h : state ∉ e.addedStates) :
    ((e.terminateState state).getState state).crtThreadIt = (e.getState state).crtThreadIt ∧
      ((e.terminateState state).getState state).threads.map (fun t => (t.tuid, t.enabled)) =
        (e.getState state).threads.map (fun t => (t.tuid, t.enabled)) := by
  have hheap : (e.terminateState state).heap = e.heap.set state
      (some ((e.getState state).setCrtThread
        { (e.getState state).crtThread with pc := (e.getState state).crtThread.prevPC })) := by
    unfold Executor.terminateState
    simp only [h, if_false]
    rfl
  by_cases hlt : state < e.heap.length
  · have hg : (e.terminateState state).getState state =
        (e.getState state).setCrtThread
          { (e.getState state).crtThread with pc := (e.getState state).crtThread.prevPC } := by
      unfold Executor.getState
      rw [hheap, List.getD_eq_getElem?_getD, List.getElem?_set_self hlt]
      rfl
    rw [hg]
    exact ExecutionState.setCrtThread_pc _ _
  · have hg : (e.terminateState state).getState state = e.getState state := by
      unfold Executor.getState
      rw [hheap, List.set_eq_of_length_le (Nat.le_of_not_lt hlt)]
    rw [hg]
    exact ⟨rfl, rfl⟩

theorem Executor.terminateStateOnError_spec (ex : Executor) (state : Nat)
    (message suffix info : String)
    (hcrt : (ex.getState state).crtThreadIt ≠ (ex.getState state).threads.length) :
    ∃ ex', ex.terminateStateOnError state message suffix info = some ex' ∧
      ex'.heap.length = ex.heap.length ∧ ex'.stats = ex.stats ∧
      ex'.addedStates = ex.addedStates.erase state ∧
      (∀ id : Nat, id ≠ state → ex'.heap.getD id none = ex.heap.getD id none) ∧
      ex'.isTerminated state ∧
      (state ∉ ex.addedStates →
        (ex'.getState state).crtThreadIt = (ex.getState state).crtThreadIt ∧
        (ex'.getState state).threads.map (fun t => (t.tuid, t.enabled)) =
          (ex.getState state).threads.map (fun t => (t.tuid, t.enabled))) ∧
      ex'.testCases = ex.testCases ++
        (if ex.opts.EmitAllErrors = true ∨
            ((ex.getState state).crtThread.prevPC, message) ∉ ex.emittedErrors then
          [{ state := state
             message := some ("Error: " ++ message ++ "\n" ++
              (if (ex.instructionInfo (ex.getState state).crtThread.prevPC).1 ≠ "" then
                "File: " ++ (ex.instructionInfo (ex.getState state).crtThread.prevPC).1 ++
                  "\n" ++ "Line: " ++
                  toString (ex.instructionInfo (ex.getState state).crtThread.prevPC).2 ++ "\n"
                else "") ++
              "Stack: \n" ++ ex.stackDump (ex.getState state).crtThread ++
              (if info ≠ "" then "Info: \n" ++ info else ""))
             suffix := some suffix }]
        else []) := by
  have key : ∀ e1 : Executor, e1.heap = ex.heap → e1.addedStates = ex.addedStates →
      e1.stats = ex.stats →
      (e1.terminateState state).heap.length = ex.heap.length ∧
      (e1.terminateState state).stats = ex.stats ∧
      (e1.terminateState state).addedStates = ex.addedStates.erase state ∧
      (∀ id : Nat, id ≠ state →
        (e1.terminateState state).heap.getD id none = ex.heap.getD id none) ∧
      (e1.terminateState state).isTerminated state ∧
      (state ∉ ex.addedStates →
        ((e1.terminateState state).getState state).crtThreadIt =
          (ex.getState state).crtThreadIt ∧
        ((e1.terminateState state).getState state).threads.map
            (fun t => (t.tuid, t.enabled)) =
          (ex.getState state).threads.map (fun t => (t.tuid, t.enabled))) ∧
      (e1.terminateState state).testCases = e1.testCases := by
    intro e1 hh ha hs
    obtain ⟨t1, t2, t3, t4, t5, t6⟩ := Executor.terminateState_frame e1 state
    refine ⟨by rw [t1, hh], by rw [t2, hs], by rw [t5, ha], ?_, ?_, ?_, t3⟩
    · intro id hid
      rw [t4 id hid, hh]
    · unfold Executor.isTerminated
      by_cases hin : state ∈ e1.addedStates
      · rw [if_pos hin] at t6; exact Or.inl t6
      · rw [if_neg hin] at t6; exact Or.inr t6
    · intro hnot
      have hnot1 : state ∉ e1.addedStates := by rw [ha]; exact hnot
      have hg : e1.getState state = ex.getState state := by
        unfold Executor.getState; rw [hh]
      obtain ⟨u1, u2⟩ := Executor.terminateState_removed e1 state hnot1
      rw [u1, u2, hg]
      exact ⟨rfl, rfl⟩
  unfold Executor.terminateStateOnError
  simp only [hcrt, if_false]
  by_cases hE : ex.opts.EmitAllErrors = true
  · simp only [hE, if_true, Bool.true_or, true_or]
    obtain ⟨k1, k2, k3, k4, k5, k6, k7⟩ := key
      { ex with testCases := ex.testCases ++
          [{ state := state
             message := some ("Error: " ++ message ++ "\n" ++
              (if (ex.instructionInfo (ex.getState state).crtThread.prevPC).1 ≠ "" then
                "File: " ++ (ex.instructionInfo (ex.getState state).crtThread.prevPC).1 ++
                  "\n" ++ "Line: " ++
                  toString (ex.instructionInfo (ex.getState state).crtThread.prevPC).2 ++ "\n"
                else "") ++
              "Stack: \n" ++ ex.stackDump (ex.getState state).crtThread ++
              (if info ≠ "" then "Info: \n" ++ info else ""))
             suffix := some suffix }] } rfl rfl rfl
    exact ⟨_, rfl, k1, k2, k3, k4, k5, k6, k7⟩
  · have hE' : ex.opts.EmitAllErrors = false := by
      cases h : ex.opts.EmitAllErrors
      · rfl
      · exact absurd h hE
    by_cases hin : ((ex.getState state).crtThread.prevPC, message) ∈ ex.emittedErrors
    · simp only [hE', hin, Bool.false_eq_true, if_false, if_true, Bool.false_or,
        decide_True, Bool.not_true, not_true_eq_false, or_self, List.append_nil]
      obtain ⟨k1, k2, k3, k4, k5, k6, k7⟩ := key ex rfl rfl rfl
      exact ⟨_, rfl, k1, k2, k3, k4, k5, k6, k7⟩
    · simp only [hE', hin, Bool.false_eq_true, if_false, if_true, Bool.false_or,
        decide_False, Bool.not_false, not_false_eq_true, or_true]
      obtain ⟨k1, k2, k3, k4, k5, k6, k7⟩ := key
        { ex with
          emittedErrors := ex.emittedErrors ++ [((ex.getState state).crtThread.prevPC, message)]
          testCases := ex.testCases ++
          [{ state := state
             message := some ("Error: " ++ message ++ "\n" ++
              (if (ex.instructionInfo (ex.getState state).crtThread.prevPC).1 ≠ "" then
                "File: " ++ (ex.instructionInfo (ex.getState state).crtThread.prevPC).1 ++
                  "\n" ++ "Line: " ++
                  toString (ex.instructionInfo (ex.getState state).crtThread.prevPC).2 ++ "\n"
                else "") ++
              "Stack: \n" ++ ex.stackDump (ex.getState state).crtThread ++
              (if info ≠ "" then "Info: \n" ++ info else ""))
             suffix := some suffix }] } rfl rfl rfl
      exact ⟨_, rfl, k1, k2, k3, k4, k5, k6, k7⟩

/-- C15: deadlock detection.  For a state with a running thread in which no
thread is enabled, `schedule` returns false without entering a loop.  The
state is terminated through `terminateStateOnError`: it is deleted or queued
for removal, and a test case with the message 'hang (possible deadlock?)' and
the suffix user.err is emitted, unless the same error was already emitted for
the instruction and emit-all-errors is off.  No state is created, the fork
counter is unchanged, no other state changes, and a state that is queued for
removal keeps its active thread and the enabled flags of its threads. -/
theorem Executor.schedule_deadlock (ex : Executor) (state : Nat) (yield : Bool)
    (hcrt : (ex.getState state).crtThreadIt < (ex.getState state).threads.length)
    (hnone : ∀ t, t ∈ (ex.getState state).threads → t.enabled = false) :
    ∃ ex', ex.schedule state yield = some (false, ex') ∧
      ex'.isTerminated state ∧ ex'.heap.length = ex.heap.length ∧
      ex'.stats.forks = ex.stats.forks ∧ ex'.addedStates = ex.addedStates.erase state ∧
      (∀ id : Nat, id ≠ state → ex'.heap.getD id none = ex.heap.getD id none) ∧
      (state ∉ ex.addedStates →
        (ex'.getState state).crtThreadIt = (ex.getState state).crtThreadIt ∧
        (ex'.getState state).threads.map (fun t => (t.tuid, t.enabled)) =
          (ex.getState state).threads.map (fun t => (t.tuid, t.enabled))) ∧
      ex'.testCases = ex.testCases ++
        (if ex.opts.EmitAllErrors = true ∨
            ((ex.getState state).crtThread.prevPC, " ******** hang (possible deadlock?)") ∉
              ex.emittedErrors then
          [{ state := state
             message := some ("Error: " ++ " ******** hang (possible deadlock?)" ++ "\n" ++
              (if (ex.instructionInfo (ex.getState state).crtThread.prevPC).1 ≠ "" then
                "File: " ++ (ex.instructionInfo (ex.getState state).crtThread.prevPC).1 ++
                  "\n" ++ "Line: " ++
                  toString (ex.instructionInfo (ex.getState state).crtThread.prevPC).2 ++ "\n"
                else "") ++
              "Stack: \n" ++ ex.stackDump (ex.getState state).crtThread)
             suffix := some "user.err" }]
        else []) := by
  have hcount : (ex.getState state).threads.countP (fun t => t.enabled) = 0 := by
    rw [List.countP_eq_zero]
    intro t ht
    rw [hnone t ht]
    simp
  obtain ⟨ex', h1, h2, h3, h4, h5, h6, h7, h8⟩ := Executor.terminateStateOnError_spec ex state
    " ******** hang (possible deadlock?)" "user.err" "" (Nat.ne_of_lt hcrt)
  refine ⟨ex', ?_, h6, h2, by rw [h3], h4, h5, h7, ?_⟩
  · unfold Executor.schedule
    simp only [hcount, if_true, h1, Option.map_some']
  · rw [h8]
    simp

/-- Witness of C15: two threads of one process, each disabled and on a
wait-list. -/
theorem Executor.schedule_deadlock_witness :
    ∃ ex', deadlockedExecutor.schedule 0 false = some (false, ex') ∧
      ex'.isTerminated 0 ∧ ex'.heap.length = 1 ∧ ex'.stats.forks = 0 ∧
      ex'.testCases =
        [{ state := 0
           message := some "Error:  ******** hang (possible deadlock?)\nStack: \n"
           suffix := some "user.err" }] := by
  obtain ⟨ex', h1, h2, h3, h4, _, _, _, h8⟩ := Executor.schedule_deadlock deadlockedExecutor 0
    false (by decide)
    (by
      intro t ht
      have ht' : t ∈ [({ tuid := (1, 0), enabled := false, waitingList := 1 } : Thread),
          { tuid := (2, 0), enabled := false, waitingList := 2 }] := ht
      simp only [List.mem_cons, List.mem_singleton, List.not_mem_nil, or_false] at ht'
      rcases ht' with h | h <;> rw [h])
  refine ⟨ex', h1, h2, h3, h4, ?_⟩
  rw [h8]
  rfl

theorem ExecutionState.nextThread_lt (s : ExecutionState) (it : Nat)
    (h : it < s.threads.length) : s.nextThread it = (it + 1) % s.threads.length := by
  unfold ExecutionState.nextThread
  have h1 : it ≠ s.threads.length := Nat.ne_of_lt h
  simp only [h1, if_false]
  by_cases h2 : it + 1 = s.threads.length
  · simp only [h2, if_true, Nat.mod_self]
  · simp only [h2, if_false]
    exact (Nat.mod_eq_of_lt (by omega)).symm

theorem ExecutionState.nextEnabled_spec (s : ExecutionState) :
    ∀ (fuel start : Nat), start < s.threads.length →
      (∃ k, k ≤ fuel ∧ s.enabledAt ((start + k) % s.threads.length) = true) →
      ∃ k, k ≤ fuel ∧ s.nextEnabled fuel start = some ((start + k) % s.threads.length) ∧
        s.enabledAt ((start + k) % s.threads.length) = true ∧
        ∀ j, j < k → s.enabledAt ((start + j) % s.threads.length) = false := by
  intro fuel
  induction fuel with
  | zero =>
    intro start hs hex
    obtain ⟨k, hk, he⟩ := hex
    have hk0 : k = 0 := by omega
    subst hk0
    refine ⟨0, Nat.le_refl 0, ?_, he, fun j hj => absurd hj (Nat.not_lt_zero j)⟩
    simp only [Nat.add_zero, Nat.mod_eq_of_lt hs] at he ⊢
    unfold ExecutionState.nextEnabled
    unfold ExecutionState.enabledAt at he
    simp only [he, if_true]
  | succ fuel ih =>
    intro start hs hex
    by_cases h0 : s.enabledAt start = true
    · refine ⟨0, Nat.zero_le _, ?_, ?_, fun j hj => absurd hj (Nat.not_lt_zero j)⟩
      · simp only [Nat.add_zero, Nat.mod_eq_of_lt hs]
        unfold ExecutionState.nextEnabled
        unfold ExecutionState.enabledAt at h0
        simp only [h0, if_true]
      · simp only [Nat.add_zero, Nat.mod_eq_of_lt hs]
        exact h0
    · have h0' : s.enabledAt start = false := by
        cases h : s.enabledAt start
        · rfl
        · exact absurd h h0
      have hnext := ExecutionState.nextThread_lt s start hs
      have hnlt : s.nextThread start < s.threads.length := by
        rw [hnext]; exact Nat.mod_lt _ (by omega)
      have hshift : ∀ j, (s.nextThread start + j) % s.threads.length =
          (start + (j + 1)) % s.threads.length := by
        intro j
        rw [hnext, Nat.add_mod, Nat.mod_mod, ← Nat.add_mod]
        congr 1
        omega
      obtain ⟨k, hk, he⟩ := hex
      have hkpos : k ≠ 0 := by
        intro hk0
        subst hk0
        simp only [Nat.add_zero, Nat.mod_eq_of_lt hs] at he
        exact h0 he
      obtain ⟨k', hk'⟩ : ∃ k', k = k' + 1 := ⟨k - 1, by omega⟩
      subst hk'
      obtain ⟨m, hm, r1, r2, r3⟩ := ih (s.nextThread start) hnlt
        ⟨k', by omega, by rw [hshift]; exact he⟩
      refine ⟨m + 1, by omega, ?_, ?_, ?_⟩
      · unfold ExecutionState.nextEnabled
        unfold ExecutionState.enabledAt at h0'
        simp only [h0', Bool.false_eq_true, if_false]
        rw [r1, hshift]
      · rw [← hshift]; exact r2
      · intro j hj
        cases j with
        | zero =>
          simp only [Nat.add_zero, Nat.mod_eq_of_lt hs]
          exact h0'
        | succ j =>
          rw [← hshift]
          exact r3 j (by omega)

theorem PTree.forkClasses_append (t : PTree) (evs : List PTreeEvent) :
    PTree.forkClasses { t with events := t.events ++ evs } =
      t.forkClasses ++ PTree.forkClasses { t with events := evs } := by
  simp [PTree.forkClasses, List.filterMap_append]

theorem Executor.getState_of_heap (a b : Executor) (id : Nat)
    (h : a.heap.getD id none = b.heap.getD id none) : a.getState id = b.getState id := by
  unfold Executor.getState
  rw [h]

theorem Executor.scheduleFork_spec (e : Executor) (state last : Nat) (fc : ForkClass)
    (inc : Bool) (it : Nat) (hlast : e.isAllocated last = true)
    (hstate : e.isAllocated state = true) :
    (Executor.scheduleFork state inc it (e, last, fc)).2.1 = e.heap.length ∧
      (Executor.scheduleFork state inc it (e, last, fc)).2.2 =
        (if fc = ForkClass.KLEE_FORK_SCHEDULE then ForkClass.KLEE_FORK_MULTI else fc) ∧
      (Executor.scheduleFork state inc it (e, last, fc)).1.heap.length = e.heap.length + 1 ∧
      (Executor.scheduleFork state inc it (e, last, fc)).1.getState e.heap.length =
        { e.getState last with
          ptreeNode := e.processTree.nodes
          preemptions :=
            if inc then (e.getState state).preemptions + 1 else (e.getState last).preemptions
          crtThreadIt :=
            (e.getState last).findThread ((e.getState state).threads.getD it {}).tuid } ∧
      (Executor.scheduleFork state inc it (e, last, fc)).1.getState last =
        { e.getState last with ptreeNode := e.processTree.nodes + 1 } ∧
      (∀ id : Nat, id ≠ last → id ≠ e.heap.length →
        (Executor.scheduleFork state inc it (e, last, fc)).1.heap.getD id none =
          e.heap.getD id none) ∧
      (Executor.scheduleFork state inc it (e, last, fc)).1.isAllocated last = true ∧
      (Executor.scheduleFork state inc it (e, last, fc)).1.isAllocated e.heap.length = true ∧
      (Executor.scheduleFork state inc it (e, last, fc)).1.addedStates =
        setInsert e.addedStates e.heap.length ∧
      (Executor.scheduleFork state inc it (e, last, fc)).1.processTree.forkClasses =
        e.processTree.forkClasses ++ [(e.heap.length, fc)] ∧
      (Executor.scheduleFork state inc it (e, last, fc)).1.opts = e.opts ∧
      (Executor.scheduleFork state inc it (e, last, fc)).1.stats = e.stats ∧
      (Executor.scheduleFork state inc it (e, last, fc)).1.seedMap = e.seedMap ∧
      (Executor.scheduleFork state inc it (e, last, fc)).1.removedStates = e.removedStates ∧
      (Executor.scheduleFork state inc it (e, last, fc)).1.testCases = e.testCases := by
  have hlastlt : last < e.heap.length := Executor.isAllocated_lt e last hlast
  have hstatelt : state < e.heap.length := Executor.isAllocated_lt e state hstate
  obtain ⟨c1, c2, c3, c4, c5, c6, c7, c8, c9⟩ := Executor.cloneState_spec e last
    (Executor.getForkTag (e.getState last) fc) hlast
  obtain ⟨d1, d2, d3, d4, d5, d6, d7, d8, d9, d10⟩ := Executor.cloneState_frame e last
    (Executor.getForkTag (e.getState last) fc)
  -- the state record after the clone
  have hst : ((e.cloneState last (Executor.getForkTag (e.getState last) fc)).2.getState
      state).preemptions = (e.getState state).preemptions ∧
      ((e.cloneState last (Executor.getForkTag (e.getState last) fc)).2.getState
      state).threads = (e.getState state).threads := by
    by_cases hsl : state = last
    · subst hsl
      rw [c3]
      exact ⟨rfl, rfl⟩
    · have : (e.cloneState last (Executor.getForkTag (e.getState last) fc)).2.getState state =
          e.getState state :=
        Executor.getState_of_heap _ _ _ (c5 state hsl (Nat.ne_of_lt hstatelt))
      rw [this]
      exact ⟨rfl, rfl⟩
  have hfc : (e.cloneState last (Executor.getForkTag (e.getState last) fc)).2.processTree.forkClasses =
      e.processTree.forkClasses ++ [(e.heap.length, fc)] := by
    have : (e.cloneState last (Executor.getForkTag (e.getState last) fc)).2.processTree =
        { (e.cloneState last (Executor.getForkTag (e.getState last) fc)).2.processTree with
          events := e.processTree.events ++
            [PTreeEvent.clearData (e.getState last).ptreeNode,
              PTreeEvent.split (e.getState last).ptreeNode e.heap.length last
                (Executor.getForkTag (e.getState last) fc) e.processTree.nodes
                (e.processTree.nodes + 1)] } := by
      rw [← c9]
    rw [this]
    simp only [PTree.forkClasses, List.filterMap_append]
    congr 1
    simp only [List.filterMap_cons, List.filterMap_nil]
    unfold Executor.getForkTag
    split <;> rfl
  unfold Executor.scheduleFork Executor.forkReason
  simp only
  generalize e.cloneState last (Executor.getForkTag (e.getState last) fc) = c at *
  obtain ⟨first, e1⟩ := c
  simp only at c1 c2 c3 c4 c5 c6 c7 c8 c9 d1 d2 d3 d4 d5 d6 d7 d8 d9 d10 hst hfc ⊢
  subst c1
  have hLlt : e.heap.length < e1.heap.length := by rw [c2]; exact Nat.lt_succ_self _
  have hne : last ≠ e.heap.length := Nat.ne_of_lt hlastlt
  have hsne : state ≠ e.heap.length := Nat.ne_of_lt hstatelt
  cases inc with
  | false =>
    simp only [Bool.false_eq_true, if_false]
    have g1 := Executor.getState_setState_same e1 e.heap.length
      ((e1.getState e.heap.length).scheduleNext
        ((e1.getState e.heap.length).findThread
          ((e1.getState state).threads.getD it {}).tuid)) hLlt
    refine ⟨trivial, trivial, ?_, ?_, ?_, ?_, ?_, ?_, c8, hfc, d2, d5, d1, d6, d7⟩
    · rw [Executor.heap_length_setState, c2]
    · rw [g1, c4, hst.2]
      rfl
    · rw [Executor.getState_setState_ne _ _ _ _ hne, c3]
    · intro id h1 h2
      rw [Executor.heap_setState_ne _ _ _ _ h2]
      exact c5 id h1 h2
    · rw [Executor.isAllocated_setState _ _ _ _ c7]; exact c6
    · rw [Executor.isAllocated_setState _ _ _ _ c7]; exact c7
  | true =>
    simp only [if_true]
    have hLlt2 : e.heap.length < (e1.setState e.heap.length
        { e1.getState e.heap.length with
          preemptions := (e1.getState state).preemptions + 1 }).heap.length := by
      rw [Executor.heap_length_setState]; exact hLlt
    have a7 : (e1.setState e.heap.length
        { e1.getState e.heap.length with
          preemptions := (e1.getState state).preemptions + 1 }).isAllocated e.heap.length =
        true := by
      rw [Executor.isAllocated_setState _ _ _ _ c7]; exact c7
    have g0 := Executor.getState_setState_same e1 e.heap.length
      { e1.getState e.heap.length with
        preemptions := (e1.getState state).preemptions + 1 } hLlt
    have g0s : (e1.setState e.heap.length
        { e1.getState e.heap.length with
          preemptions := (e1.getState state).preemptions + 1 }).getState state =
        e1.getState state := Executor.getState_setState_ne _ _ _ _ hsne
    refine ⟨trivial, trivial, ?_, ?_, ?_, ?_, ?_, ?_, c8, hfc, d2, d5, d1, d6, d7⟩
    · rw [Executor.heap_length_setState, Executor.heap_length_setState, c2]
    · rw [Executor.getState_setState_same _ _ _ hLlt2, g0, g0s, c4, hst.1, hst.2]
      rfl
    · rw [Executor.getState_setState_ne _ _ _ _ hne, Executor.getState_setState_ne _ _ _ _ hne,
        c3]
    · intro id h1 h2
      rw [Executor.heap_setState_ne _ _ _ _ h2, Executor.heap_setState_ne _ _ _ _ h2]
      exact c5 id h1 h2
    · rw [Executor.isAllocated_setState _ _ _ _ a7, Executor.isAllocated_setState _ _ _ _ c7]
      exact c6
    · rw [Executor.isAllocated_setState _ _ _ _ a7]; exact a7

theorem ExecutionState.cloneOf_eq (s t : ExecutionState) (h : s.cloneOf t) :
    s = { t with ptreeNode := s.ptreeNode } := by
  unfold ExecutionState.cloneOf at h
  rw [← h]

theorem Executor.scheduleFork_inv (e0 : Executor) (state : Nat) (inc : Bool) (done : List Nat)
    (it : Nat) (acc : Executor × StateId × ForkClass) (hstate : e0.isAllocated state = true)
    (h : e0.SchedInv state inc done acc) :
    e0.SchedInv state inc (done ++ [it]) (Executor.scheduleFork state inc it acc) := by
  obtain ⟨e, last, fc⟩ := acc
  obtain ⟨i1, i2, i3, i4, i5, i6, i7, i8, i9, i10, i11, i12, i13, i14⟩ := h
  simp only at i1 i2 i3 i4 i5 i6 i7 i8 i9 i10 i11 i12 i13 i14
  have hslt : state < e0.heap.length := Executor.isAllocated_lt e0 state hstate
  have hS := ExecutionState.cloneOf_eq _ _ i5
  -- the last state
  have hlast : e.isAllocated last = true ∧ ∃ (node crt pre : Nat),
      e.getState last = { e0.getState state with
        ptreeNode := node
        preemptions := pre
        crtThreadIt := crt } ∧
      (inc = false → pre = (e0.getState state).preemptions) := by
    by_cases hk : done.length = 0
    · rw [if_pos hk] at i2
      rw [i2]
      exact ⟨i4, (e.getState state).ptreeNode, (e0.getState state).crtThreadIt,
        (e0.getState state).preemptions, hS, fun _ => rfl⟩
    · rw [if_neg hk] at i2
      rw [i2]
      have hlt : done.length - 1 < done.length := by omega
      obtain ⟨a1, node, a2⟩ := i6 (done.length - 1) done[done.length - 1]
        (List.getElem?_eq_getElem hlt)
      refine ⟨a1, node, _, _, a2, ?_⟩
      intro hinc
      rw [hinc]
      rfl
  obtain ⟨hla, node0, crt0, pre0, hlrec, hlpre⟩ := hlast
  have hlastcases : last = state ∨ (e0.heap.length ≤ last ∧ last < e0.heap.length + done.length) := by
    by_cases hk : done.length = 0
    · rw [if_pos hk] at i2; exact Or.inl i2
    · rw [if_neg hk] at i2
      right
      rw [i2]
      exact ⟨Nat.le_add_right _ _, Nat.add_lt_add_left (by omega) _⟩
  obtain ⟨s1, s2, s3, s4, s5, s6, s7, s8, s9, s10, s11, s12, s13, s14, s15⟩ :=
    Executor.scheduleFork_spec e state last fc inc it hla i4
  rw [i1] at s1 s3 s4 s6 s8 s9 s10
  have hpre : (e.getState state).preemptions = (e0.getState state).preemptions := by rw [hS]
  have hthr : (e.getState state).threads = (e0.getState state).threads := by rw [hS]
  refine ⟨?_, ?_, ?_, ?_, ?_, ?_, ?_, ?_, ?_, s11.trans i10, s12.trans i11, s13.trans i12,
    s14.trans i13, s15.trans i14⟩
  · rw [s3]; simp; omega
  · rw [s1]; simp
  · rw [s2, i3]
    by_cases hk : done.length = 0
    · simp [hk]
    · simp [hk]
  · by_cases hsl : state = last
    · exact (congrArg (fun x =>
        (Executor.scheduleFork state inc it (e, last, fc)).1.isAllocated x) hsl).trans s7
    · unfold Executor.isAllocated
      rw [s6 state hsl (by omega)]
      exact i4
  · by_cases hsl : state = last
    · rw [congrArg (fun x =>
        (Executor.scheduleFork state inc it (e, last, fc)).1.getState x) hsl, s5,
        ← congrArg (fun x => e.getState x) hsl]
      exact i5
    · rw [Executor.getState_of_heap _ e state (s6 state hsl (by omega))]
      exact i5
  · intro j it' hj
    by_cases hjk : j < done.length
    · rw [List.getElem?_append_left hjk] at hj
      obtain ⟨b1, node, b2⟩ := i6 j it' hj
      by_cases hjl : e0.heap.length + j = last
      · rw [hjl]
        refine ⟨s7, e.processTree.nodes + 1, ?_⟩
        rw [s5, ← hjl, b2]
      · have hh := s6 (e0.heap.length + j) hjl (by omega)
        refine ⟨?_, node, ?_⟩
        · unfold Executor.isAllocated
          rw [hh]; exact b1
        · rw [Executor.getState_of_heap _ e _ hh]
          exact b2
    · have hjeq : j = done.length := by
        have := List.getElem?_eq_some_iff.mp hj
        obtain ⟨hlt, _⟩ := this
        simp at hlt
        omega
      subst hjeq
      simp only [List.getElem?_concat_length, Option.some.injEq] at hj
      subst hj
      refine ⟨s8, e.processTree.nodes, ?_⟩
      rw [s4, hpre, hthr]
      cases inc with
      | true =>
        simp only [if_true]
        rw [hlrec]
        rfl
      | false =>
        simp only [Bool.false_eq_true, if_false]
        rw [hlrec]
        simp only
        rw [hlpre rfl]
        rfl
  · intro id hid hne
    have h1 : id ≠ last := by
      rcases hlastcases with h | h
      · rw [h]; exact hne
      · omega
    rw [s6 id h1 (by omega)]
    exact i7 id hid hne
  · intro id
    rw [s9, mem_setInsert, i8 id]
    simp only [List.length_append, List.length_singleton]
    constructor
    · rintro (h | h)
      · rcases h with h | h
        · exact Or.inl h
        · exact Or.inr ⟨h.1, by omega⟩
      · exact Or.inr ⟨by omega, by omega⟩
    · rintro (h | ⟨h1, h2⟩)
      · exact Or.inl (Or.inl h)
      · by_cases h3 : id = e0.heap.length + done.length
        · exact Or.inr h3
        · exact Or.inl (Or.inr ⟨h1, by omega⟩)
  · rw [s10, i9, i3]
    simp only [List.length_append, List.length_singleton, List.range_succ, List.map_append,
      List.map_cons, List.map_nil, List.append_assoc]

theorem mod_of_wrap (x n : Nat) (h1 : n ≤ x) (h2 : x < 2 * n) : x % n = x - n := by
  rw [Nat.mod_eq_sub_mod h1]
  exact Nat.mod_eq_of_lt (by omega)

theorem cyc_ne (n f k : Nat) (hf : f < n) (hk : k + 1 < n) : (f + 1 + k) % n ≠ f := by
  by_cases h : f + 1 + k < n
  · rw [Nat.mod_eq_of_lt h]; omega
  · rw [mod_of_wrap _ n (by omega) (by omega)]; omega

theorem cyc_last (n f : Nat) (hf : f < n) : (f + 1 + (n - 1)) % n = f := by
  rw [mod_of_wrap _ n (by omega) (by omega)]; omega

theorem cyc_next (n f k : Nat) :
    ((f + 1 + k) % n + 1) % n = (f + 1 + (k + 1)) % n := by
  rw [Nat.add_mod, Nat.mod_mod, ← Nat.add_mod]
  rfl

theorem Executor.SchedInv_threads (e0 : Executor) (state : Nat) (inc : Bool) (done : List Nat)
    (acc : Executor × StateId × ForkClass) (h : e0.SchedInv state inc done acc) :
    (acc.1.getState state).threads = (e0.getState state).threads := by
  have := ExecutionState.cloneOf_eq _ _ h.2.2.2.2.1
  rw [this]

theorem Executor.scheduleForks_spec (e0 : Executor) (state : Nat) (yield inc : Bool)
    (oldIt f : Nat) (hstate : e0.isAllocated state = true)
    (hf : f < (e0.getState state).threads.length) :
    ∀ (m k fuel : Nat) (done : List Nat) (acc : Executor × StateId × ForkClass),
      k + m = (e0.getState state).threads.length - 1 → m ≤ fuel →
      e0.SchedInv state inc done acc →
      ∃ r : Executor × StateId × ForkClass,
        Executor.scheduleForks state yield inc oldIt f fuel
          ((f + 1 + k) % (e0.getState state).threads.length) acc = some r.1 ∧
        e0.SchedInv state inc
          (done ++ ((List.range' k m).map
            (fun j => (f + 1 + j) % (e0.getState state).threads.length)).filter
            (fun it => (e0.getState state).enabledAt it && (!yield || decide (it ≠ oldIt))))
          r := by
  intro m
  induction m with
  | zero =>
    intro k fuel done acc hkm _ hinv
    have hk : k = (e0.getState state).threads.length - 1 := by omega
    refine ⟨acc, ?_, by simpa using hinv⟩
    rw [hk, cyc_last _ _ hf]
    unfold Executor.scheduleForks
    simp
  | succ m ih =>
    intro k fuel done acc hkm hfuel hinv
    obtain ⟨fuel', hfuel'⟩ : ∃ fuel', fuel = fuel' + 1 := ⟨fuel - 1, by omega⟩
    subst hfuel'
    have hn : 0 < (e0.getState state).threads.length := by omega
    have hne := cyc_ne (e0.getState state).threads.length f k hf (by omega)
    have hplt : (f + 1 + k) % (e0.getState state).threads.length <
        (e0.getState state).threads.length := Nat.mod_lt _ hn
    have hthr := Executor.SchedInv_threads e0 state inc done acc hinv
    unfold Executor.scheduleForks
    simp only [hne, if_false]
    by_cases hc : ((e0.getState state).enabledAt
        ((f + 1 + k) % (e0.getState state).threads.length) &&
        (!yield || decide ((f + 1 + k) % (e0.getState state).threads.length ≠ oldIt))) = true
    · have hc' : ((((acc.1.getState state).threads.getD
          ((f + 1 + k) % (e0.getState state).threads.length) {}).enabled &&
          (!yield || decide ((f + 1 + k) % (e0.getState state).threads.length ≠ oldIt)))) =
          true := by
        rw [hthr]; exact hc
      simp only [hc', if_true]
      have hinv' := Executor.scheduleFork_inv e0 state inc done
        ((f + 1 + k) % (e0.getState state).threads.length) acc hstate hinv
      have hthr' := Executor.SchedInv_threads e0 state inc _ _ hinv'
      have hnext : ((Executor.scheduleFork state inc
          ((f + 1 + k) % (e0.getState state).threads.length) acc).1.getState state).nextThread
          ((f + 1 + k) % (e0.getState state).threads.length) =
          (f + 1 + (k + 1)) % (e0.getState state).threads.length := by
        rw [ExecutionState.nextThread_lt _ _ (by rw [hthr']; exact hplt), hthr']
        exact cyc_next _ f k
      rw [hnext]
      obtain ⟨r, r1, r2⟩ := ih (k + 1) fuel' _ _ (by omega) (by omega) hinv'
      refine ⟨r, r1, ?_⟩
      have hfil : ∀ rest : List Nat,
          List.filter (fun it => (e0.getState state).enabledAt it &&
              (!yield || decide (it ≠ oldIt)))
            ((f + 1 + k) % (e0.getState state).threads.length :: rest) =
          (f + 1 + k) % (e0.getState state).threads.length ::
            List.filter (fun it => (e0.getState state).enabledAt it &&
              (!yield || decide (it ≠ oldIt))) rest := by
        intro rest
        rw [List.filter_cons]
        simp only [hc, if_true]
      rw [List.range'_succ, List.map_cons, hfil]
      simpa [List.append_assoc] using r2
    · have hc' : ¬ ((((acc.1.getState state).threads.getD
          ((f + 1 + k) % (e0.getState state).threads.length) {}).enabled &&
          (!yield || decide ((f + 1 + k) % (e0.getState state).threads.length ≠ oldIt)))) =
          true := by
        rw [hthr]; exact hc
      simp only [hc', Bool.false_eq_true, if_false]
      have hnext : (acc.1.getState state).nextThread
          ((f + 1 + k) % (e0.getState state).threads.length) =
          (f + 1 + (k + 1)) % (e0.getState state).threads.length := by
        rw [ExecutionState.nextThread_lt _ _ (by rw [hthr]; exact hplt), hthr]
        exact cyc_next _ f k
      rw [hnext]
      obtain ⟨r, r1, r2⟩ := ih (k + 1) fuel' _ _ (by omega) (by omega) hinv
      refine ⟨r, r1, ?_⟩
      have hfil : ∀ rest : List Nat,
          List.filter (fun it => (e0.getState state).enabledAt it &&
              (!yield || decide (it ≠ oldIt)))
            ((f + 1 + k) % (e0.getState state).threads.length :: rest) =
            List.filter (fun it => (e0.getState state).enabledAt it &&
              (!yield || decide (it ≠ oldIt))) rest := by
        intro rest
        rw [List.filter_cons]
        simp only [hc, Bool.false_eq_true, if_false]
      rw [List.range'_succ, List.map_cons, hfil]
      exact r2

theorem cyclicAfter_eq (n f : Nat) :
    cyclicAfter n f = (List.range' 0 (n - 1)).map fun j => (f + 1 + j) % n := by
  unfold cyclicAfter
  rw [List.range_eq_range']

theorem mem_cyclicAfter (n f i : Nat) (hf : f < n) :
    i ∈ cyclicAfter n f ↔ i < n ∧ i ≠ f := by
  unfold cyclicAfter
  simp only [List.mem_map, List.mem_range]
  constructor
  · rintro ⟨k, hk, rfl⟩
    exact ⟨Nat.mod_lt _ (by omega), cyc_ne n f k hf (by omega)⟩
  · rintro ⟨hi, hne⟩
    by_cases h : f < i
    · refine ⟨i - f - 1, by omega, ?_⟩
      have : f + 1 + (i - f - 1) = i := by omega
      rw [this, Nat.mod_eq_of_lt hi]
    · refine ⟨i + n - f - 1, by omega, ?_⟩
      have : f + 1 + (i + n - f - 1) = i + n := by omega
      rw [this, Nat.add_mod_right, Nat.mod_eq_of_lt hi]

theorem nodup_cyclicAfter (n f : Nat) (hf : f < n) : (cyclicAfter n f).Nodup := by
  unfold cyclicAfter
  refine List.Nodup.map_on ?_ (List.nodup_range _)
  intro a ha b hb hab
  have ha' : a < n - 1 := List.mem_range.mp ha
  have hb' : b < n - 1 := List.mem_range.mp hb
  by_cases h1 : f + 1 + a < n <;> by_cases h2 : f + 1 + b < n
  · rw [Nat.mod_eq_of_lt h1, Nat.mod_eq_of_lt h2] at hab; omega
  · rw [Nat.mod_eq_of_lt h1, mod_of_wrap _ n (by omega) (by omega)] at hab; omega
  · rw [mod_of_wrap _ n (by omega) (by omega), Nat.mod_eq_of_lt h2] at hab; omega
  · rw [mod_of_wrap _ n (by omega) (by omega), mod_of_wrap _ n (by omega) (by omega)] at hab
    omega

theorem ExecutionState.findThread_of_nodup (s : ExecutionState) (it : Nat)
    (hit : it < s.threads.length) (hnd : (s.threads.map fun t => t.tuid).Nodup) :
    s.findThread (s.threads.getD it {}).tuid = it := by
  unfold ExecutionState.findThread
  have hget : s.threads.getD it {} = s.threads[it] := by
    simp [List.getD_eq_getElem?_getD, List.getElem?_eq_getElem hit]
  rw [hget]
  have hlt : List.findIdx (fun t => t.tuid == s.threads[it].tuid) s.threads < s.threads.length := by
    apply List.findIdx_lt_length_of_exists
    exact ⟨s.threads[it], List.getElem_mem _, by simp⟩
  have hsat := List.findIdx_getElem (w := hlt)
  simp only [beq_iff_eq] at hsat
  have hlt' : List.findIdx (fun t => t.tuid == s.threads[it].tuid) s.threads <
      (s.threads.map fun t => t.tuid).length := by simpa using hlt
  have hit' : it < (s.threads.map fun t => t.tuid).length := by simpa using hit
  have h1 : (s.threads.map fun t => t.tuid)[List.findIdx
      (fun t => t.tuid == s.threads[it].tuid) s.threads] =
      (s.threads.map fun t => t.tuid)[it] := by
    simp only [List.getElem_map]
    exact hsat
  exact (List.Nodup.getElem_inj_iff hnd).mp h1

theorem Executor.SchedInv_init (e0 : Executor) (state : Nat) (inc : Bool)
    (hstate : e0.isAllocated state = true) :
    e0.SchedInv state inc [] (e0, state, ForkClass.KLEE_FORK_SCHEDULE) := by
  refine ⟨rfl, rfl, rfl, hstate, rfl, ?_, fun _ _ _ => rfl, ?_, ?_, rfl, rfl, rfl, rfl, rfl⟩
  · intro j it h
    simp at h
  · intro id
    simp
  · simp

theorem Executor.forkLoop_spec (e0 : Executor) (state : Nat) (yield inc : Bool) (oldIt : Nat)
    (hstate : e0.isAllocated state = true)
    (hf : (e0.getState state).crtThreadIt < (e0.getState state).threads.length) :
    ∃ r : Executor × StateId × ForkClass,
      Executor.scheduleForks state yield inc oldIt (e0.getState state).crtThreadIt
        (e0.getState state).threads.length
        ((e0.getState state).nextThread (e0.getState state).crtThreadIt)
        (e0, state, ForkClass.KLEE_FORK_SCHEDULE) = some r.1 ∧
      e0.SchedInv state inc
        ((cyclicAfter (e0.getState state).threads.length (e0.getState state).crtThreadIt).filter
          (fun it => (e0.getState state).enabledAt it && (!yield || decide (it ≠ oldIt)))) r := by
  obtain ⟨r, r1, r2⟩ := Executor.scheduleForks_spec e0 state yield inc oldIt
    (e0.getState state).crtThreadIt hstate hf ((e0.getState state).threads.length - 1) 0
    (e0.getState state).threads.length [] (e0, state, ForkClass.KLEE_FORK_SCHEDULE)
    (by omega) (by omega) (Executor.SchedInv_init e0 state inc hstate)
  refine ⟨r, ?_, ?_⟩
  · rw [ExecutionState.nextThread_lt _ _ hf]
    exact r1
  · rw [cyclicAfter_eq]
    simpa using r2

theorem ExecutionState.exists_enabled_after (s : ExecutionState) (start i : Nat)
    (hs : start < s.threads.length) (hi : i < s.threads.length)
    (he : s.enabledAt i = true) :
    ∃ k, k < s.threads.length ∧ s.enabledAt ((start + k) % s.threads.length) = true := by
  by_cases h : start ≤ i
  · refine ⟨i - start, by omega, ?_⟩
    have : start + (i - start) = i := by omega
    rw [this, Nat.mod_eq_of_lt hi]
    exact he
  · refine ⟨i + s.threads.length - start, by omega, ?_⟩
    have : start + (i + s.threads.length - start) = i + s.threads.length := by omega
    rw [this, Nat.add_mod_right, Nat.mod_eq_of_lt hi]
    exact he

theorem ExecutionState.nextEnabled_total (s : ExecutionState) (i : Nat)
    (hcrt : s.crtThreadIt < s.threads.length) (hi : i < s.threads.length)
    (he : s.enabledAt i = true) :
    ∃ k, k < s.threads.length ∧
      s.nextEnabled s.threads.length (s.nextThread s.crtThreadIt) =
        some ((s.crtThreadIt + 1 + k) % s.threads.length) ∧
      s.enabledAt ((s.crtThreadIt + 1 + k) % s.threads.length) = true ∧
      ∀ j, j < k → s.enabledAt ((s.crtThreadIt + 1 + j) % s.threads.length) = false := by
  have hn : 0 < s.threads.length := by omega
  have hstart : s.nextThread s.crtThreadIt < s.threads.length := by
    rw [ExecutionState.nextThread_lt s _ hcrt]; exact Nat.mod_lt _ hn
  obtain ⟨k0, hk0, he0⟩ := ExecutionState.exists_enabled_after s _ i hstart hi he
  obtain ⟨k, hk, r1, r2, r3⟩ := ExecutionState.nextEnabled_spec s s.threads.length
    (s.nextThread s.crtThreadIt) hstart ⟨k0, by omega, he0⟩
  have hshift : ∀ j, (s.nextThread s.crtThreadIt + j) % s.threads.length =
      (s.crtThreadIt + 1 + j) % s.threads.length := by
    intro j
    rw [ExecutionState.nextThread_lt s _ hcrt, Nat.add_mod, Nat.mod_mod, ← Nat.add_mod]
  have hklt : k < s.threads.length := by
    by_contra hge
    have := r3 k0 (by omega)
    rw [this] at he0
    cases he0
  refine ⟨k, hklt, ?_, ?_, ?_⟩
  · rw [r1, hshift]
  · rw [← hshift]; exact r2
  · intro j hj
    rw [← hshift]; exact r3 j hj

theorem Executor.schedule_forks (e0 : Executor) (state : Nat) (yield inc forks : Bool)
    (oldIt newIt : Nat) (st : ExecutionState) (hstate : e0.isAllocated state = true)
    (hg : e0.getState state = { st with crtThreadIt := newIt })
    (hnew : newIt < st.threads.length) :
    ∃ r : Executor × StateId × ForkClass,
      (if forks = true then
        (Executor.scheduleForks state yield inc oldIt (e0.getState state).crtThreadIt
          (e0.getState state).threads.length
          ((e0.getState state).nextThread (e0.getState state).crtThreadIt)
          (e0, state, ForkClass.KLEE_FORK_SCHEDULE)).map fun ex => (true, ex)
        else some (true, e0)) = some (true, r.1) ∧
      e0.SchedInv state inc
        (if forks = true then
          (cyclicAfter st.threads.length newIt).filter
            (fun it => st.enabledAt it && (!yield || decide (it ≠ oldIt)))
          else []) r := by
  cases forks with
  | false =>
    exact ⟨(e0, state, ForkClass.KLEE_FORK_SCHEDULE), rfl,
      Executor.SchedInv_init e0 state inc hstate⟩
  | true =>
    have hf : (e0.getState state).crtThreadIt < (e0.getState state).threads.length := by
      rw [hg]; exact hnew
    obtain ⟨r, r1, r2⟩ := Executor.forkLoop_spec e0 state yield inc oldIt hstate hf
    refine ⟨r, ?_, ?_⟩
    · simp only [if_true, r1, Option.map_some']
    · simp only [if_true]
      rw [hg] at r2
      exact r2

theorem ExecutionState.countP_enabled_ne (s : ExecutionState) (i : Nat)
    (hi : i < s.threads.length) (he : s.enabledAt i = true) :
    ¬ (s.threads.countP fun t => t.enabled) = 0 := by
  have hpos : 0 < s.threads.countP fun t => t.enabled := by
    rw [List.countP_pos_iff]
    refine ⟨s.threads[i], List.getElem_mem _, ?_⟩
    unfold ExecutionState.enabledAt at he
    rw [List.getD_eq_getElem _ _ hi] at he
    exact he
  omega

theorem Executor.schedule_advance (ex : Executor) (state : Nat) (yield : Bool)
    (hstate : ex.isAllocated state = true)
    (hcrt : (ex.getState state).crtThreadIt < (ex.getState state).threads.length)
    (i : Nat) (hi : i < (ex.getState state).threads.length)
    (he : (ex.getState state).enabledAt i = true)
    (hA : (!(ex.getState state).crtThread.enabled || yield) = true) :
    ∃ k, k < (ex.getState state).threads.length ∧
      (ex.getState state).enabledAt
        (((ex.getState state).crtThreadIt + 1 + k) % (ex.getState state).threads.length) = true ∧
      (∀ j, j < k → (ex.getState state).enabledAt
        (((ex.getState state).crtThreadIt + 1 + j) % (ex.getState state).threads.length)
          = false) ∧
      ∃ r : Executor × StateId × ForkClass,
        ex.schedule state yield = some (true, r.1) ∧
        (ex.setState state ((ex.getState state).scheduleNext
          (((ex.getState state).crtThreadIt + 1 + k) %
            (ex.getState state).threads.length))).SchedInv state false
          (if ex.opts.ForkOnSchedule = true then
            (cyclicAfter (ex.getState state).threads.length
              (((ex.getState state).crtThreadIt + 1 + k) %
                (ex.getState state).threads.length)).filter
              (fun it => (ex.getState state).enabledAt it &&
                (!yield || decide (it ≠ (ex.getState state).crtThreadIt)))
            else []) r := by
  obtain ⟨k, hk, hnext, hen, hdis⟩ :=
    ExecutionState.nextEnabled_total (ex.getState state) i hcrt hi he
  refine ⟨k, hk, hen, hdis, ?_⟩
  have hlt := Executor.isAllocated_lt ex state hstate
  have hn : 0 < (ex.getState state).threads.length := by omega
  obtain ⟨r, r1, r2⟩ := Executor.schedule_forks
    (ex.setState state ((ex.getState state).scheduleNext
      (((ex.getState state).crtThreadIt + 1 + k) % (ex.getState state).threads.length)))
    state yield false ex.opts.ForkOnSchedule (ex.getState state).crtThreadIt
    (((ex.getState state).crtThreadIt + 1 + k) % (ex.getState state).threads.length)
    (ex.getState state)
    (by rw [Executor.isAllocated_setState ex state state _ hstate]; exact hstate)
    (by rw [Executor.getState_setState_same ex state _ hlt]; rfl)
    (Nat.mod_lt _ hn)
  refine ⟨r, ?_, r2⟩
  rw [← r1]
  unfold Executor.schedule
  simp only [if_neg (ExecutionState.countP_enabled_ne _ i hi he)]
  rw [if_pos hA, hnext]

theorem Executor.schedule_stay (ex : Executor) (state : Nat) (yield : Bool)
    (hstate : ex.isAllocated state = true)
    (hcrt : (ex.getState state).crtThreadIt < (ex.getState state).threads.length)
    (hB : (!(ex.getState state).crtThread.enabled || yield) = false) :
    ∃ r : Executor × StateId × ForkClass,
      ex.schedule state yield = some (true, r.1) ∧
      ex.SchedInv state (decide ((ex.getState state).preemptions < ex.opts.MaxPreemptions))
        (if (ex.getState state).preemptions < ex.opts.MaxPreemptions then
          (cyclicAfter (ex.getState state).threads.length
            (ex.getState state).crtThreadIt).filter
            (fun it => (ex.getState state).enabledAt it &&
              (!yield || decide (it ≠ (ex.getState state).crtThreadIt)))
          else []) r := by
  have hen : (ex.getState state).enabledAt (ex.getState state).crtThreadIt = true := by
    unfold ExecutionState.crtThread at hB
    unfold ExecutionState.enabledAt
    cases h : ((ex.getState state).threads.getD (ex.getState state).crtThreadIt {}).enabled
    · rw [h] at hB; simp at hB
    · rfl
  obtain ⟨r, r1, r2⟩ := Executor.schedule_forks ex state yield
    (decide ((ex.getState state).preemptions < ex.opts.MaxPreemptions))
    (decide ((ex.getState state).preemptions < ex.opts.MaxPreemptions))
    (ex.getState state).crtThreadIt (ex.getState state).crtThreadIt (ex.getState state)
    hstate rfl hcrt
  refine ⟨r, ?_, ?_⟩
  · rw [← r1]
    unfold Executor.schedule
    simp only [if_neg (ExecutionState.countP_enabled_ne _ _ hcrt hen)]
    rw [if_neg (by rw [hB]; simp)]
    by_cases hp : (ex.getState state).preemptions < ex.opts.MaxPreemptions
    · simp only [hp, if_true, decide_True]
    · simp only [hp, if_false, decide_False]
  · simpa using r2

/-- Claim C16: when some thread of the state is enabled and the active thread
is disabled or a yield is requested, `schedule` returns true; the search loop
ends within the fuel of one round; the new active thread is enabled and is
the first enabled one strictly after the old active thread in cyclic order,
every position passed over being disabled; the thread table is unchanged; and
the old thread is chosen again only when every other thread is disabled. -/
theorem Executor.schedule_round_robin (ex : Executor) (state : Nat) (yield : Bool)
    (hstate : ex.isAllocated state = true)
    (hcrt : (ex.getState state).crtThreadIt < (ex.getState state).threads.length)
    (i : Nat) (hi : i < (ex.getState state).threads.length)
    (he : (ex.getState state).enabledAt i = true)
    (hA : (ex.getState state).crtThread.enabled = false ∨ yield = true) :
    ∃ (ex' : Executor) (k : Nat), k < (ex.getState state).threads.length ∧
      ex.schedule state yield = some (true, ex') ∧
      (ex'.getState state).crtThreadIt =
        ((ex.getState state).crtThreadIt + 1 + k) % (ex.getState state).threads.length ∧
      (ex'.getState state).threads = (ex.getState state).threads ∧
      (ex'.getState state).crtThread.enabled = true ∧
      (∀ j, j < k → (ex.getState state).enabledAt
        (((ex.getState state).crtThreadIt + 1 + j) % (ex.getState state).threads.length)
          = false) ∧
      ((ex'.getState state).crtThreadIt = (ex.getState state).crtThreadIt →
        ∀ t, t < (ex.getState state).threads.length → t ≠ (ex.getState state).crtThreadIt →
          (ex.getState state).enabledAt t = false) := by
  have hA' : (!(ex.getState state).crtThread.enabled || yield) = true := by
    rcases hA with h | h
    · rw [h]; rfl
    · rw [h]; simp
  obtain ⟨k, hk, hen, hdis, r, r1, r2⟩ :=
    Executor.schedule_advance ex state yield hstate hcrt i hi he hA'
  have hlt := Executor.isAllocated_lt ex state hstate
  have hcl := ExecutionState.cloneOf_eq _ _ r2.2.2.2.2.1
  rw [Executor.getState_setState_same ex state _ hlt] at hcl
  have hit : (r.1.getState state).crtThreadIt =
      ((ex.getState state).crtThreadIt + 1 + k) % (ex.getState state).threads.length := by
    rw [hcl]; rfl
  have hth : (r.1.getState state).threads = (ex.getState state).threads := by
    rw [hcl]; rfl
  refine ⟨r.1, k, hk, r1, hit, hth, ?_, hdis, ?_⟩
  · unfold ExecutionState.crtThread
    rw [hit, hth]
    exact hen
  · intro hsame t ht hne
    rw [hit] at hsame
    have hk' : k = (ex.getState state).threads.length - 1 := by
      by_contra hkne
      exact cyc_ne _ _ k hcrt (by omega) hsame
    have hmem := (mem_cyclicAfter _ _ t hcrt).mpr ⟨ht, hne⟩
    unfold cyclicAfter at hmem
    simp only [List.mem_map, List.mem_range] at hmem
    obtain ⟨j, hj, hjt⟩ := hmem
    rw [← hjt]
    exact hdis j (by omega)

/-- Witness of C16: three threads, the active first one and the second
disabled, the third enabled. -/
theorem Executor.schedule_round_robin_witness :
    ∃ (ex' : Executor) (k : Nat), k < 3 ∧
      roundRobinExecutor.schedule 0 false = some (true, ex') ∧
      (ex'.getState 0).crtThreadIt = 2 ∧ (ex'.getState 0).crtThread.enabled = true := by
  obtain ⟨ex', k, h1, h2, h3, _, h5, _, _⟩ := Executor.schedule_round_robin
    roundRobinExecutor 0 false rfl (by decide) 2 (by decide) rfl (Or.inl rfl)
  have hev : roundRobinExecutor.schedule 0 false = some (true,
      roundRobinExecutor.setState 0 ((roundRobinExecutor.getState 0).scheduleNext 2)) := rfl
  rw [hev] at h2
  have hex : ex' = roundRobinExecutor.setState 0
      ((roundRobinExecutor.getState 0).scheduleNext 2) := by
    injection h2 with h2
    injection h2 with _ h2
    exact h2.symm
  refine ⟨ex', k, h1, ?_, ?_, h5⟩
  · rw [hev, hex]
  · rw [hex]; rfl

theorem Executor.terminateState_preemptions (e : Executor) (state : Nat) :
    (e.terminateState state).opts = e.opts ∧
      ∀ id : Nat, ((e.terminateState state).getState id).preemptions ≤
        (e.getState id).preemptions := by
  have hopts : (e.terminateState state).opts = e.opts := by
    unfold Executor.terminateState
    by_cases hin : state ∈ e.addedStates
    · simp only [hin, if_true]; rfl
    · simp only [hin, if_false]; rfl
  refine ⟨hopts, ?_⟩
  intro id
  by_cases hid : id = state
  · subst hid
    by_cases hin : id ∈ e.addedStates
    · have hf := (Executor.terminateState_frame e id).2.2.2.2.2
      rw [if_pos hin] at hf
      have hg : (e.terminateState id).getState id = {} := by
        unfold Executor.isAllocated at hf
        unfold Executor.getState
        cases h : (e.terminateState id).heap.getD id none with
        | none => rfl
        | some s => rw [h] at hf; cases hf
      rw [hg]
      exact Nat.zero_le _
    · have hheap : (e.terminateState id).heap = e.heap.set id
          (some ((e.getState id).setCrtThread
            { (e.getState id).crtThread with pc := (e.getState id).crtThread.prevPC })) := by
        unfold Executor.terminateState
        simp only [hin, if_false]
        rfl
      by_cases hlt : id < e.heap.length
      · have hg : (e.terminateState id).getState id =
            (e.getState id).setCrtThread
              { (e.getState id).crtThread with pc := (e.getState id).crtThread.prevPC } := by
          unfold Executor.getState
          rw [hheap, List.getD_eq_getElem?_getD, List.getElem?_set_self hlt]
          rfl
        rw [hg]
        exact Nat.le_refl _
      · have hg : (e.terminateState id).getState id = e.getState id := by
          unfold Executor.getState
          rw [hheap, List.set_eq_of_length_le (Nat.le_of_not_lt hlt)]
        rw [hg]
  · rw [Executor.getState_of_heap _ _ id
      ((Executor.terminateState_frame e state).2.2.2.1 id hid)]

theorem Executor.terminateStateOnError_preemptions (ex : Executor) (state : Nat)
    (message suffix info : String) (ex' : Executor)
    (h : ex.terminateStateOnError state message suffix info = some ex') :
    ex'.opts = ex.opts ∧
      ∀ id : Nat, (ex'.getState id).preemptions ≤ (ex.getState id).preemptions := by
  unfold Executor.terminateStateOnError at h
  by_cases hc : (ex.getState state).crtThreadIt = (ex.getState state).threads.length
  · simp only [hc, if_true] at h
    cases h
  · simp only [hc, if_false, Option.some.injEq] at h
    rw [← h]
    have key : ∀ e1 : Executor, e1.heap = ex.heap → e1.opts = ex.opts →
        (e1.terminateState state).opts = ex.opts ∧
          ∀ id : Nat, ((e1.terminateState state).getState id).preemptions ≤
            (ex.getState id).preemptions := by
      intro e1 hh ho
      obtain ⟨h1, h2⟩ := Executor.terminateState_preemptions e1 state
      refine ⟨h1.trans ho, fun id => ?_⟩
      have hg : e1.getState id = ex.getState id := by
        unfold Executor.getState
        rw [hh]
      rw [← hg]
      exact h2 id
    apply key
    · split <;> (try split) <;> (try split) <;> rfl
    · split <;> (try split) <;> (try split) <;> rfl

theorem Executor.getState_beyond (e : Executor) (id : Nat) (h : e.heap.length ≤ id) :
    e.getState id = {} := by
  unfold Executor.getState
  rw [List.getD_eq_getElem?_getD, List.getElem?_eq_none h]
  rfl

theorem Executor.SchedInv_preemptions (e0 : Executor) (state : Nat) (inc : Bool)
    (done : List Nat) (acc : Executor × StateId × ForkClass)
    (h : e0.SchedInv state inc done acc) :
    acc.1.opts = e0.opts ∧ acc.1.heap.length = e0.heap.length + done.length ∧
      (∀ id : Nat, id < e0.heap.length →
        (acc.1.getState id).preemptions = (e0.getState id).preemptions) ∧
      (∀ id : Nat, e0.heap.length ≤ id → id < acc.1.heap.length →
        acc.1.isAllocated id = true ∧
        (acc.1.getState id).preemptions =
          (if inc = true then (e0.getState state).preemptions + 1
            else (e0.getState state).preemptions) ∧
        ∃ it, done[id - e0.heap.length]? = some it ∧
          (acc.1.getState id).threads = (e0.getState state).threads ∧
          (acc.1.getState id).crtThreadIt =
            (e0.getState state).findThread ((e0.getState state).threads.getD it {}).tuid) := by
  obtain ⟨i1, i2, i3, i4, i5, i6, i7, i8, i9, i10, i11, i12, i13, i14⟩ := h
  refine ⟨i10, i1, ?_, ?_⟩
  · intro id hid
    by_cases hs : id = state
    · rw [hs, ExecutionState.cloneOf_eq _ _ i5]
    · rw [Executor.getState_of_heap _ _ id (i7 id hid hs)]
  · intro id hge hlt
    rw [i1] at hlt
    have hj : id - e0.heap.length < done.length := by omega
    have hget : done[id - e0.heap.length]? = some done[id - e0.heap.length] :=
      List.getElem?_eq_getElem hj
    obtain ⟨a1, node, a2⟩ := i6 (id - e0.heap.length) _ hget
    have hid : e0.heap.length + (id - e0.heap.length) = id := by omega
    rw [hid] at a1 a2
    refine ⟨a1, ?_, _, hget, ?_, ?_⟩
    · rw [a2]
    · rw [a2]
    · rw [a2]

theorem ExecutionState.crt_enabledAt (s : ExecutionState) (h : s.crtThread.enabled = true) :
    s.enabledAt s.crtThreadIt = true := h

theorem Executor.schedule_no_fork (ex : Executor) (state : Nat)
    (hcrt : (ex.getState state).crtThreadIt < (ex.getState state).threads.length)
    (hen : (ex.getState state).crtThread.enabled = true)
    (hp : ¬ (ex.getState state).preemptions < ex.opts.MaxPreemptions) :
    ex.schedule state false = some (true, ex) := by
  unfold Executor.schedule
  simp only [if_neg (ExecutionState.countP_enabled_ne _ _ hcrt
    (ExecutionState.crt_enabledAt _ hen))]
  rw [if_neg (by rw [hen]; simp)]
  simp only [hp, if_false]
  rfl

theorem Executor.schedule_preemptions_le (ex : Executor) (state : Nat) (yield b : Bool)
    (ex' : Executor) (hstate : ex.isAllocated state = true)
    (hcrt : (ex.getState state).crtThreadIt < (ex.getState state).threads.length)
    (h : ex.schedule state yield = some (b, ex'))
    (hle : ∀ id : Nat, (ex.getState id).preemptions ≤ ex.opts.MaxPreemptions) :
    ∀ id : Nat, (ex'.getState id).preemptions ≤ ex'.opts.MaxPreemptions := by
  have hlt := Executor.isAllocated_lt ex state hstate
  by_cases hcount : ((ex.getState state).threads.countP fun t => t.enabled) = 0
  · unfold Executor.schedule at h
    simp only [hcount, if_true] at h
    cases ht : ex.terminateStateOnError state " ******** hang (possible deadlock?)" "user.err" ""
      with
    | none => rw [ht] at h; cases h
    | some e1 =>
      rw [ht] at h
      simp only [Option.map_some', Option.some.injEq, Prod.mk.injEq] at h
      obtain ⟨h1, h2⟩ := Executor.terminateStateOnError_preemptions ex state _ _ _ e1 ht
      rw [← h.2, h1]
      intro id
      exact Nat.le_trans (h2 id) (hle id)
  · have hpos : 0 < (ex.getState state).threads.countP fun t => t.enabled := by omega
    rw [List.countP_pos_iff] at hpos
    obtain ⟨a, ha, hae⟩ := hpos
    obtain ⟨i, hi, hia⟩ := List.getElem_of_mem ha
    have he : (ex.getState state).enabledAt i = true := by
      unfold ExecutionState.enabledAt
      rw [List.getD_eq_getElem _ _ hi, hia]
      exact hae
    have fin : ∀ (e0 : Executor) (inc : Bool) (done : List Nat)
        (r : Executor × StateId × ForkClass),
        e0.opts = ex.opts →
        (∀ id : Nat, (e0.getState id).preemptions = (ex.getState id).preemptions) →
        (inc = true → (ex.getState state).preemptions < ex.opts.MaxPreemptions) →
        e0.SchedInv state inc done r →
        ∀ id : Nat, (r.1.getState id).preemptions ≤ r.1.opts.MaxPreemptions := by
      intro e0 inc done r ho hpre hinc hinv id
      obtain ⟨s1, s2, s3, s4⟩ := Executor.SchedInv_preemptions e0 state inc done r hinv
      rw [s1, ho]
      by_cases h1 : id < e0.heap.length
      · rw [s3 id h1, hpre]
        exact hle id
      · by_cases h2 : id < r.1.heap.length
        · rw [(s4 id (by omega) h2).2.1, hpre]
          cases inc with
          | false => exact hle state
          | true => exact hinc rfl
        · rw [Executor.getState_beyond _ id (by omega)]
          exact Nat.zero_le _
    by_cases hA : (!(ex.getState state).crtThread.enabled || yield) = true
    · obtain ⟨k, _, _, _, r, r1, r2⟩ :=
        Executor.schedule_advance ex state yield hstate hcrt i hi he hA
      rw [r1] at h
      simp only [Option.some.injEq, Prod.mk.injEq] at h
      rw [← h.2]
      refine fin (ex.setState state ((ex.getState state).scheduleNext
        (((ex.getState state).crtThreadIt + 1 + k) % (ex.getState state).threads.length)))
        false _ r rfl ?_ (fun hh => by cases hh) r2
      intro id
      by_cases hid : id = state
      · rw [hid, Executor.getState_setState_same ex state _ hlt]
        rfl
      · rw [Executor.getState_setState_ne ex state id _ hid]
    · have hB : (!(ex.getState state).crtThread.enabled || yield) = false := by
        cases hh : (!(ex.getState state).crtThread.enabled || yield)
        · rfl
        · exact absurd hh hA
      obtain ⟨r, r1, r2⟩ := Executor.schedule_stay ex state yield hstate hcrt hB
      rw [r1] at h
      simp only [Option.some.injEq, Prod.mk.injEq] at h
      rw [← h.2]
      exact fin ex _ _ r rfl (fun _ => rfl) (fun hh => of_decide_eq_true hh) r2

/-- Claim C17: bounded preemption.  With the active thread enabled and no
yield, `schedule` returns true; it creates a state only when the preemption
count of the state is below `MaxPreemptions`, and at or above the bound it
leaves the executor as it was; every state it creates is allocated with the
parent's count plus one, one for each other enabled thread, and the counts
of the older states are unchanged; when the thread keys are distinct and the
parent's count plus one reaches the bound, each child runs another enabled
thread and a further `schedule` call on it changes nothing.  Every
`schedule` call that returns keeps all preemption counts at or below the
bound. -/
theorem Executor.schedule_bounded_preemption (ex : Executor) (state : Nat)
    (hstate : ex.isAllocated state = true)
    (hcrt : (ex.getState state).crtThreadIt < (ex.getState state).threads.length) :
    ((ex.getState state).crtThread.enabled = true →
      ∃ ex', ex.schedule state false = some (true, ex') ∧
        (¬ (ex.getState state).preemptions < ex.opts.MaxPreemptions → ex' = ex) ∧
        (ex.heap.length < ex'.heap.length →
          (ex.getState state).preemptions < ex.opts.MaxPreemptions) ∧
        ex'.heap.length = ex.heap.length +
          (if (ex.getState state).preemptions < ex.opts.MaxPreemptions then
            ((cyclicAfter (ex.getState state).threads.length
              (ex.getState state).crtThreadIt).filter
                fun it => (ex.getState state).enabledAt it).length
            else 0) ∧
        (∀ id : Nat, id < ex.heap.length →
          (ex'.getState id).preemptions = (ex.getState id).preemptions) ∧
        (∀ id : Nat, ex.heap.length ≤ id → id < ex'.heap.length →
          ex'.isAllocated id = true ∧
          (ex'.getState id).preemptions = (ex.getState state).preemptions + 1) ∧
        (((ex.getState state).threads.map fun t => t.tuid).Nodup →
          ex.opts.MaxPreemptions ≤ (ex.getState state).preemptions + 1 →
          ∀ id : Nat, ex.heap.length ≤ id → id < ex'.heap.length →
            (ex'.getState id).crtThreadIt ≠ (ex.getState state).crtThreadIt ∧
            (ex'.getState id).crtThread.enabled = true ∧
            ex'.schedule id false = some (true, ex'))) ∧
    (∀ (yield b : Bool) (ex' : Executor), ex.schedule state yield = some (b, ex') →
      (∀ id : Nat, (ex.getState id).preemptions ≤ ex.opts.MaxPreemptions) →
      ∀ id : Nat, (ex'.getState id).preemptions ≤ ex'.opts.MaxPreemptions) := by
  refine ⟨?_, fun yield b ex' h hle =>
    Executor.schedule_preemptions_le ex state yield b ex' hstate hcrt h hle⟩
  intro hen
  by_cases hp : (ex.getState state).preemptions < ex.opts.MaxPreemptions
  · have hB : (!(ex.getState state).crtThread.enabled || false) = false := by rw [hen]; rfl
    obtain ⟨r, r1, r2⟩ := Executor.schedule_stay ex state false hstate hcrt hB
    rw [if_pos hp] at r2
    have hfil : (cyclicAfter (ex.getState state).threads.length
        (ex.getState state).crtThreadIt).filter
          (fun it => (ex.getState state).enabledAt it &&
            (!false || decide (it ≠ (ex.getState state).crtThreadIt))) =
        (cyclicAfter (ex.getState state).threads.length
          (ex.getState state).crtThreadIt).filter
            fun it => (ex.getState state).enabledAt it := by
      congr 1
      funext it
      simp
    rw [hfil] at r2
    obtain ⟨s1, s2, s3, s4⟩ := Executor.SchedInv_preemptions ex state _ _ r r2
    refine ⟨r.1, r1, fun hn => absurd hp hn, fun _ => hp, ?_, s3, ?_, ?_⟩
    · rw [if_pos hp]; exact s2
    · intro id h1 h2
      obtain ⟨a1, a2, _⟩ := s4 id h1 h2
      refine ⟨a1, ?_⟩
      rw [a2]
      simp only [hp, decide_True, if_true]
    · intro hnd hmax id h1 h2
      obtain ⟨a1, a2, it, a3, a4, a5⟩ := s4 id h1 h2
      have hmem := List.getElem?_mem a3
      rw [List.mem_filter] at hmem
      obtain ⟨hm1, hm2⟩ := hmem
      obtain ⟨hitlt, hitne⟩ := (mem_cyclicAfter _ _ it hcrt).mp hm1
      rw [ExecutionState.findThread_of_nodup _ it hitlt hnd] at a5
      have hcen : (r.1.getState id).crtThread.enabled = true := by
        unfold ExecutionState.crtThread
        rw [a5, a4]
        exact hm2
      refine ⟨by rw [a5]; exact hitne, hcen, ?_⟩
      refine Executor.schedule_no_fork r.1 id (by rw [a5, a4]; exact hitlt) hcen ?_
      rw [a2, s1]
      simp only [hp, decide_True, if_true]
      omega
  · have h1 := Executor.schedule_no_fork ex state hcrt hen hp
    refine ⟨ex, h1, fun _ => rfl, fun h => absurd h (Nat.lt_irrefl _), ?_, fun _ _ => rfl,
      fun id h2 h3 => absurd h3 (by omega), fun _ _ id h2 h3 => absurd h3 (by omega)⟩
    rw [if_neg hp]
    rfl

/-- Witness of C17: two enabled threads, bound one, scheduling from the
first thread: one state is created, active on the second thread with count
one, and a further call on it creates nothing. -/
theorem Executor.schedule_bounded_preemption_witness :
    ∃ ex', twoThreads.schedule 0 false = some (true, ex') ∧ ex'.heap.length = 2 ∧
      (ex'.getState 1).crtThreadIt = 1 ∧ (ex'.getState 1).preemptions = 1 ∧
      (ex'.getState 0).preemptions = 0 ∧ ex'.schedule 1 false = some (true, ex') := by
  obtain ⟨ex', h1, _, _, h4, h5, h6, h7⟩ :=
    (Executor.schedule_bounded_preemption twoThreads 0 rfl (by decide)).1 rfl
  have hlen : ex'.heap.length = 2 := by rw [h4]; rfl
  obtain ⟨_, h8⟩ := h6 1 (by decide) (by rw [hlen]; decide)
  obtain ⟨h9, _, h10⟩ := h7 (by decide) (by decide) 1 (by decide) (by rw [hlen]; decide)
  have hev : ∃ e, twoThreads.schedule 0 false = some (true, e) ∧
      (e.getState 1).crtThreadIt = 1 := ⟨_, rfl, rfl⟩
  obtain ⟨e, he1, he2⟩ := hev
  have hee : ex' = e := by
    rw [h1] at he1
    injection he1 with he1
    injection he1
  refine ⟨ex', h1, hlen, by rw [hee]; exact he2, h8, ?_, h10⟩
  rw [h5 0 (by decide)]
  rfl

theorem Executor.SchedInv_children (ex e0 : Executor) (state : Nat) (yield inc : Bool)
    (newIt : Nat) (r : Executor × StateId × ForkClass)
    (hnd : ((ex.getState state).threads.map fun t => t.tuid).Nodup)
    (hL : e0.heap.length = ex.heap.length) (hadd : e0.addedStates = ex.addedStates)
    (htree : e0.processTree = ex.processTree)
    (hg : e0.getState state = { ex.getState state with crtThreadIt := newIt })
    (hnew : newIt < (ex.getState state).threads.length)
    (hinv : e0.SchedInv state inc
      ((cyclicAfter (ex.getState state).threads.length newIt).filter
        (fun it => (ex.getState state).enabledAt it &&
          (!yield || decide (it ≠ (ex.getState state).crtThreadIt)))) r) :
    ∃ alts : List Nat, alts.Nodup ∧
      (∀ t : Nat, t ∈ alts ↔ t < (ex.getState state).threads.length ∧
        (ex.getState state).enabledAt t = true ∧ t ≠ (r.1.getState state).crtThreadIt ∧
        (yield = true → t ≠ (ex.getState state).crtThreadIt)) ∧
      r.1.heap.length = ex.heap.length + alts.length ∧
      (∀ id : Nat, id ∈ r.1.addedStates ↔
        id ∈ ex.addedStates ∨ (ex.heap.length ≤ id ∧ id < ex.heap.length + alts.length)) ∧
      (∀ (j it : Nat), alts[j]? = some it →
        r.1.isAllocated (ex.heap.length + j) = true ∧
        (r.1.getState (ex.heap.length + j)).threads = (ex.getState state).threads ∧
        (r.1.getState (ex.heap.length + j)).crtThreadIt = it) ∧
      r.1.processTree.forkClasses = ex.processTree.forkClasses ++
        (List.range alts.length).map (fun j =>
          (ex.heap.length + j,
            if j = 0 then ForkClass.KLEE_FORK_SCHEDULE else ForkClass.KLEE_FORK_MULTI)) := by
  obtain ⟨i1, i2, i3, i4, i5, i6, i7, i8, i9, i10, i11, i12, i13, i14⟩ := hinv
  rw [hL] at i1 i6 i8 i9
  rw [hadd] at i8
  rw [htree] at i9
  have hcl := ExecutionState.cloneOf_eq _ _ i5
  rw [hg] at hcl
  have hact : (r.1.getState state).crtThreadIt = newIt := by rw [hcl]
  refine ⟨_, (nodup_cyclicAfter _ _ hnew).filter _, ?_, i1, i8, ?_, i9⟩
  · intro t
    rw [List.mem_filter, mem_cyclicAfter _ _ t hnew, hact]
    simp only [Bool.and_eq_true, Bool.or_eq_true, Bool.not_eq_true', decide_eq_true_eq]
    constructor
    · rintro ⟨⟨a, b⟩, c, d⟩
      refine ⟨a, c, b, fun hy => ?_⟩
      rcases d with d | d
      · rw [hy] at d; cases d
      · exact d
    · rintro ⟨a, c, b, d⟩
      refine ⟨⟨a, b⟩, c, ?_⟩
      cases yield with
      | false => exact Or.inl rfl
      | true => exact Or.inr (d rfl)
  · intro j it hj
    obtain ⟨a1, node, a2⟩ := i6 j it hj
    have hmem := List.getElem?_mem hj
    rw [List.mem_filter, mem_cyclicAfter _ _ it hnew] at hmem
    refine ⟨a1, by rw [a2, hg], ?_⟩
    rw [a2, hg]
    exact ExecutionState.findThread_of_nodup
      { ex.getState state with crtThreadIt := newIt } it hmem.1.1 hnd

/-- Claim C18: one child per alternative thread.  When `schedule` forks (the
state advanced to another thread and fork-on-schedule is set, or it stayed on
its enabled thread with the preemption count below the bound) it returns true
and creates exactly one state for each position `alts` of the thread table:
the positions of the enabled threads other than the state's active thread
and, on yield, other than the previously active one, each once.  The child
number `j` sits at the fresh address `heap.length + j`, is pending in
`addedStates`, keeps the thread table and has the thread at `alts[j]` as its
active thread; the process tree records the first fork with the schedule class
and every later one with the multiple-schedule class. -/
theorem Executor.schedule_forks_one_child_per_thread (ex : Executor) (state : Nat)
    (yield : Bool) (hstate : ex.isAllocated state = true)
    (hcrt : (ex.getState state).crtThreadIt < (ex.getState state).threads.length)
    (i : Nat) (hi : i < (ex.getState state).threads.length)
    (he : (ex.getState state).enabledAt i = true)
    (hnd : ((ex.getState state).threads.map fun t => t.tuid).Nodup)
    (hfork : if (!(ex.getState state).crtThread.enabled || yield) = true then
      ex.opts.ForkOnSchedule = true
      else (ex.getState state).preemptions < ex.opts.MaxPreemptions) :
    ∃ (ex' : Executor) (alts : List Nat),
      ex.schedule state yield = some (true, ex') ∧ alts.Nodup ∧
      (∀ t : Nat, t ∈ alts ↔ t < (ex.getState state).threads.length ∧
        (ex.getState state).enabledAt t = true ∧ t ≠ (ex'.getState state).crtThreadIt ∧
        (yield = true → t ≠ (ex.getState state).crtThreadIt)) ∧
      ex'.heap.length = ex.heap.length + alts.length ∧
      (∀ id : Nat, id ∈ ex'.addedStates ↔
        id ∈ ex.addedStates ∨ (ex.heap.length ≤ id ∧ id < ex.heap.length + alts.length)) ∧
      (∀ (j it : Nat), alts[j]? = some it →
        ex'.isAllocated (ex.heap.length + j) = true ∧
        (ex'.getState (ex.heap.length + j)).threads = (ex.getState state).threads ∧
        (ex'.getState (ex.heap.length + j)).crtThreadIt = it) ∧
      ex'.processTree.forkClasses = ex.processTree.forkClasses ++
        (List.range alts.length).map (fun j =>
          (ex.heap.length + j,
            if j = 0 then ForkClass.KLEE_FORK_SCHEDULE else ForkClass.KLEE_FORK_MULTI)) := by
  have hlt := Executor.isAllocated_lt ex state hstate
  have hn : 0 < (ex.getState state).threads.length := by omega
  by_cases hA : (!(ex.getState state).crtThread.enabled || yield) = true
  · rw [if_pos hA] at hfork
    obtain ⟨k, _, _, _, r, r1, r2⟩ :=
      Executor.schedule_advance ex state yield hstate hcrt i hi he hA
    rw [if_pos hfork] at r2
    obtain ⟨alts, c⟩ := Executor.SchedInv_children ex _ state yield false _ r hnd
      (Executor.heap_length_setState _ _ _) rfl rfl
      (by rw [Executor.getState_setState_same ex state _ hlt]; rfl)
      (Nat.mod_lt _ hn) r2
    exact ⟨r.1, alts, r1, c⟩
  · rw [if_neg hA] at hfork
    have hB : (!(ex.getState state).crtThread.enabled || yield) = false := by
      cases hh : (!(ex.getState state).crtThread.enabled || yield)
      · rfl
      · exact absurd hh hA
    obtain ⟨r, r1, r2⟩ := Executor.schedule_stay ex state yield hstate hcrt hB
    rw [if_pos hfork] at r2
    obtain ⟨alts, c⟩ := Executor.SchedInv_children ex ex state yield _ _ r hnd rfl rfl rfl rfl
      hcrt r2
    exact ⟨r.1, alts, r1, c⟩

/-- Witness of C18: two enabled threads below the preemption bound; the one
child runs the second thread and its fork has the schedule class. -/
theorem Executor.schedule_forks_one_child_per_thread_witness :
    ∃ (ex' : Executor) (alts : List Nat),
      twoThreads.schedule 0 false = some (true, ex') ∧ alts = [1] ∧
      ex'.heap.length = 1 + alts.length ∧
      (ex'.getState 1).crtThreadIt = 1 ∧
      ex'.processTree.forkClasses = [(1, ForkClass.KLEE_FORK_SCHEDULE)] := by
  obtain ⟨ex', alts, h1, h2, h3, h4, _, h6, h7⟩ :=
    Executor.schedule_forks_one_child_per_thread twoThreads 0 false rfl (by decide) 0
      (by decide) rfl (by decide) (by decide)
  have hev : ∃ e, twoThreads.schedule 0 false = some (true, e) ∧
      (e.getState 0).crtThreadIt = 0 := ⟨_, rfl, rfl⟩
  obtain ⟨e, he1, he2⟩ := hev
  have hee : ex' = e := by
    rw [h1] at he1
    injection he1 with he1
    injection he1
  rw [hee, he2] at h3
  have hmem : ∀ t : Nat, t ∈ alts ↔ t = 1 := by
    intro t
    rw [h3 t]
    constructor
    · rintro ⟨a, _, c, _⟩
      have a' : t < 2 := a
      omega
    · rintro rfl
      exact ⟨by decide, rfl, by decide, fun h => by cases h⟩
  have halts : alts = [1] := by
    cases alts with
    | nil => exact absurd ((hmem 1).mpr rfl) (List.not_mem_nil _)
    | cons a l =>
      have ha : a = 1 := (hmem a).mp (List.mem_cons_self _ _)
      cases l with
      | nil => rw [ha]
      | cons b l =>
        have hb : b = 1 := (hmem b).mp (List.mem_cons_of_mem _ (List.mem_cons_self _ _))
        rw [ha, hb] at h2
        simp at h2
  refine ⟨ex', alts, h1, halts, h4, ?_, ?_⟩
  · have := (h6 0 1 (by rw [halts]; rfl)).2.2
    exact this
  · rw [h7, halts]
    rfl

theorem SeedInfo.binding_bind (si : SeedInfo) (array : Array) (values : List Nat) :
    (si.bind array values).binding array = values := by
  unfold SeedInfo.bind SeedInfo.binding
  simp only
  have key : ∀ l : List (Array × List Nat),
      (((if (l.any fun p => p.1 == array) = true then
          l.map fun p => if (p.1 == array) = true then (array, values) else p
        else l ++ [(array, values)]).find? fun p => p.1 == array).map fun p => p.2).getD [] =
        values := by
    intro l
    induction l with
    | nil => simp
    | cons p l ih =>
      by_cases hp : (p.1 == array) = true
      · have hp1 : p.1 = array := by simpa using hp
        simp [hp1]
      · have hp' : (p.1 == array) = false := by
          cases h : (p.1 == array)
          · rfl
          · exact absurd h hp
        by_cases ha : (l.any fun p => p.1 == array) = true
        · rw [if_pos ha] at ih
          simp only [List.any_cons, hp', Bool.false_or, ha, if_true, List.map_cons,
            Bool.false_eq_true, if_false, List.find?_cons]
          exact ih
        · rw [if_neg ha] at ih
          simp only [List.any_cons, hp', Bool.false_or, ha, Bool.false_eq_true, if_false,
            List.cons_append, List.find?_cons]
          exact ih
  exact key si.bindings

theorem Executor.seedBinding_congr (a b : Executor) (mo : MemoryObject) (array : Array)
    (h1 : a.opts = b.opts) (h2 : a.getNextInput = b.getNextInput) (si : SeedInfo) :
    a.seedBinding mo array si = b.seedBinding mo array si := by
  unfold Executor.seedBinding
  rw [h1, h2]

theorem Executor.seedBindings_congr (a b : Executor) (mo : MemoryObject) (array : Array)
    (h1 : a.opts = b.opts) (h2 : a.getNextInput = b.getNextInput) (seeds : List SeedInfo) :
    a.seedBindings mo array seeds = b.seedBindings mo array seeds := by
  induction seeds with
  | nil => rfl
  | cons si rest ih =>
    unfold Executor.seedBindings
    rw [Executor.seedBinding_congr a b mo array h1 h2 si, ih]

theorem Executor.seedBindings_at (ex : Executor) (mo : MemoryObject) (array : Array) :
    ∀ (seeds : List SeedInfo) (k : Nat) (si : SeedInfo), seeds[k]? = some si →
      (∀ (j : Nat) (sj : SeedInfo), j < k → seeds[j]? = some sj →
        (ex.seedBinding mo array sj).2 = none) →
      (ex.seedBindings mo array seeds).1[k]? = some (ex.seedBinding mo array si).1 ∧
      (∀ msg, (ex.seedBinding mo array si).2 = some msg →
        (ex.seedBindings mo array seeds).2 = some msg) := by
  intro seeds
  induction seeds with
  | nil => intro k si h; simp at h
  | cons s rest ih =>
    intro k si hk hprev
    cases k with
    | zero =>
      simp only [List.getElem?_cons_zero, Option.some.injEq] at hk
      subst hk
      unfold Executor.seedBindings
      cases h2 : (ex.seedBinding mo array s).2 with
      | none => simp [h2]
      | some m => simp [h2]
    | succ k =>
      simp only [List.getElem?_cons_succ] at hk
      have h0 := hprev 0 s (Nat.succ_pos _) (List.getElem?_cons_zero)
      obtain ⟨a1, a2⟩ := ih k si hk (fun j sj hj hsj => hprev (j + 1) sj (by omega)
        (by rw [List.getElem?_cons_succ]; exact hsj))
      unfold Executor.seedBindings
      simp only [h0, List.getElem?_cons_succ]
      exact ⟨a1, a2⟩

theorem Executor.terminateStateOnError_seedMap (ex : Executor) (state : Nat)
    (message suffix info : String) (ex' : Executor)
    (h : ex.terminateStateOnError state message suffix info = some ex') :
    ex'.seedMap = if state ∈ ex.addedStates then mapSet ex.seedMap state none
      else ex.seedMap := by
  unfold Executor.terminateStateOnError at h
  by_cases hc : (ex.getState state).crtThreadIt = (ex.getState state).threads.length
  · simp only [hc, if_true] at h
    cases h
  · simp only [hc, if_false, Option.some.injEq] at h
    rw [← h]
    have key : ∀ e1 : Executor, e1.seedMap = ex.seedMap → e1.addedStates = ex.addedStates →
        (e1.terminateState state).seedMap =
          if state ∈ ex.addedStates then mapSet ex.seedMap state none else ex.seedMap := by
      intro e1 hs ha
      unfold Executor.terminateState
      by_cases hin : state ∈ ex.addedStates
      · have hin1 : state ∈ e1.addedStates := by rw [ha]; exact hin
        simp only [hin, hin1, if_true]
        rw [← hs]
        rfl
      · have hin1 : state ∉ e1.addedStates := by rw [ha]; exact hin
        simp only [hin, hin1, if_false]
        rw [← hs]
        rfl
    apply key
    · split <;> (try split) <;> (try split) <;> rfl
    · split <;> (try split) <;> (try split) <;> rfl

theorem Options.seedSizeMismatch_iff (opts : Options) (numBytes size : Nat)
    (hne : numBytes ≠ size) :
    opts.seedSizeMismatch numBytes size = true ↔ opts.refusesSeed numBytes size := by
  unfold Options.seedSizeMismatch Options.refusesSeed
  cases opts.AllowSeedExtension <;> cases opts.ZeroSeedExtension <;>
    cases opts.AllowSeedTruncation <;> simp [hne]

theorem Executor.seedBinding_object (e : Executor) (mo : MemoryObject) (array : Array)
    (si si' : SeedInfo) (obj : KTestObject)
    (hobj : e.getNextInput si mo e.opts.NamedSeedMatching = (some obj, si'))
    (hne : obj.numBytes ≠ mo.size) :
    (e.opts.refusesSeed obj.numBytes mo.size →
      e.seedBinding mo array si = (si', some ("replace size mismatch: " ++ mo.name ++ "[" ++
        toString mo.size ++ "]" ++ " vs " ++ obj.name ++ "[" ++ toString obj.numBytes ++ "]" ++
        " in test\n"))) ∧
    (¬ e.opts.refusesSeed obj.numBytes mo.size →
      e.seedBinding mo array si = (si'.bind array
        ((List.range (min obj.numBytes mo.size)).map (fun i => obj.bytes.getD i 0) ++
          si'.binding array ++
          (if e.opts.ZeroSeedExtension = true then List.replicate (mo.size - obj.numBytes) 0
            else [])), none)) := by
  constructor
  · intro hP
    have hm := (Options.seedSizeMismatch_iff e.opts _ _ hne).mpr hP
    unfold Executor.seedBinding
    simp only [hobj, hm, if_true]
  · intro hP
    have hm : e.opts.seedSizeMismatch obj.numBytes mo.size = false := by
      cases h : e.opts.seedSizeMismatch obj.numBytes mo.size
      · rfl
      · exact absurd ((Options.seedSizeMismatch_iff e.opts _ _ hne).mp h) hP
    unfold Executor.seedBinding
    simp only [hobj, hm, Bool.false_eq_true, if_false]
    cases e.opts.ZeroSeedExtension <;> simp

theorem Executor.seedObject_spec (e : Executor) (state : Nat) (mo : MemoryObject)
    (array : Array) (seeds : List SeedInfo) (k : Nat) (si si' : SeedInfo) (obj : KTestObject)
    (hcrt : (e.getState state).crtThreadIt < (e.getState state).threads.length)
    (hseeds : e.seedMap state = some seeds) (hk : seeds[k]? = some si)
    (hprev : ∀ (j : Nat) (sj : SeedInfo), j < k → seeds[j]? = some sj →
      (e.seedBinding mo array sj).2 = none)
    (hobj : e.getNextInput si mo e.opts.NamedSeedMatching = (some obj, si'))
    (hne : obj.numBytes ≠ mo.size) :
    ∃ ex' : Executor, e.seedObject state mo array = some ex' ∧
      (ex'.seedMap state = some (e.seedBindings mo array seeds).1 ∨
        (ex'.seedMap state = none ∧ ex'.isTerminated state)) ∧
      (e.opts.refusesSeed obj.numBytes mo.size →
        ex'.isTerminated state ∧ (e.seedBindings mo array seeds).1[k]? = some si' ∧
        ex'.testCases = e.testCases ++ e.errorReport state
          ("replace size mismatch: " ++ mo.name ++ "[" ++ toString mo.size ++ "]" ++ " vs " ++
            obj.name ++ "[" ++ toString obj.numBytes ++ "]" ++ " in test\n") "user.err" "") ∧
      (¬ e.opts.refusesSeed obj.numBytes mo.size →
        (e.seedBindings mo array seeds).1[k]? = some (si'.bind array
          ((List.range (min obj.numBytes mo.size)).map (fun i => obj.bytes.getD i 0) ++
            si'.binding array ++
            (if e.opts.ZeroSeedExtension = true then List.replicate (mo.size - obj.numBytes) 0
              else [])))) := by
  obtain ⟨b1, b2⟩ := Executor.seedBinding_object e mo array si si' obj hobj hne
  obtain ⟨a1, a2⟩ := Executor.seedBindings_at e mo array seeds k si hk hprev
  have hterm : ∀ msg : String, ∃ ex', Executor.terminateStateOnError
      { e with seedMap := mapSet e.seedMap state (some (e.seedBindings mo array seeds).1) }
      state msg "user.err" "" = some ex' ∧ ex'.isTerminated state ∧
      ex'.testCases = e.testCases ++ e.errorReport state msg "user.err" "" ∧
      (ex'.seedMap state = some (e.seedBindings mo array seeds).1 ∨
        ex'.seedMap state = none) := by
    intro msg
    obtain ⟨ex', t1, _, _, _, _, t6, _, t8⟩ := Executor.terminateStateOnError_spec
      { e with seedMap := mapSet e.seedMap state (some (e.seedBindings mo array seeds).1) }
      state msg "user.err" "" (Nat.ne_of_lt hcrt)
    have t9 := Executor.terminateStateOnError_seedMap _ state msg "user.err" "" ex' t1
    refine ⟨ex', t1, t6, t8, ?_⟩
    rw [t9]
    split
    · right; simp [mapSet]
    · left; simp [mapSet]
  unfold Executor.seedObject
  rw [hseeds]
  simp only
  cases hr : (e.seedBindings mo array seeds).2 with
  | none =>
    refine ⟨_, rfl, Or.inl (by simp [mapSet]), ?_, ?_⟩
    · intro hP
      have := a2 _ (by rw [b1 hP])
      rw [hr] at this
      cases this
    · intro hP
      rw [a1, b2 hP]
  | some msg =>
    obtain ⟨ex', t1, t2, t3, t4⟩ := hterm msg
    refine ⟨ex', t1, ?_, ?_, ?_⟩
    · rcases t4 with h | h
      · exact Or.inl h
      · exact Or.inr ⟨h, t2⟩
    · intro hP
      have := a2 _ (by rw [b1 hP])
      rw [hr] at this
      simp only [Option.some.injEq] at this
      refine ⟨t2, by rw [a1, b1 hP], ?_⟩
      rw [t3, this]
    · intro hP
      rw [a1, b2 hP]

theorem digitChar_value (m : Nat) (h : m < 10) : (Nat.digitChar m).toNat - 48 = m := by
  interval_cases m <;> rfl

theorem toDigitsCore_value : ∀ (fuel n : Nat) (ds : List Char), n < fuel →
    ∃ l, Nat.toDigitsCore 10 fuel n ds = l ++ ds ∧ digitsValue l = n := by
  intro fuel
  induction fuel with
  | zero => intro n ds h; omega
  | succ fuel ih =>
    intro n ds h
    unfold Nat.toDigitsCore
    simp only
    by_cases h0 : n / 10 = 0
    · rw [if_pos h0]
      refine ⟨[Nat.digitChar (n % 10)], rfl, ?_⟩
      simp only [digitsValue, List.foldl_cons, List.foldl_nil, Nat.mul_zero, Nat.zero_add]
      rw [digitChar_value _ (Nat.mod_lt _ (by decide))]
      omega
    · rw [if_neg h0]
      obtain ⟨l, h1, h2⟩ := ih (n / 10) (Nat.digitChar (n % 10) :: ds) (by omega)
      refine ⟨l ++ [Nat.digitChar (n % 10)], by rw [h1]; simp, ?_⟩
      unfold digitsValue at h2 ⊢
      rw [List.foldl_append, h2]
      simp only [List.foldl_cons, List.foldl_nil]
      rw [digitChar_value _ (Nat.mod_lt _ (by decide))]
      omega

theorem toString_nat_injective (a b : Nat) (h : toString a = toString b) : a = b := by
  have h' : (Nat.toDigits 10 a).asString = (Nat.toDigits 10 b).asString := h
  have h2 : Nat.toDigits 10 a = Nat.toDigits 10 b := by
    have := congrArg String.data h'
    exact this
  unfold Nat.toDigits at h2
  obtain ⟨l1, e1, v1⟩ := toDigitsCore_value (a + 1) a [] (by omega)
  obtain ⟨l2, e2, v2⟩ := toDigitsCore_value (b + 1) b [] (by omega)
  rw [e1, e2] at h2
  simp only [List.append_nil] at h2
  rw [← v1, ← v2, h2]

theorem suffixed_injective (name : String) (a b : Nat)
    (h : name ++ "_" ++ toString a = name ++ "_" ++ toString b) : a = b := by
  have h1 := congrArg String.data h
  simp only [String.data_append, List.append_assoc] at h1
  have h2 := List.append_cancel_left (List.append_cancel_left h1)
  apply toString_nat_injective
  exact String.ext h2

theorem suffixed_ne (name : String) (a : Nat) : name ++ "_" ++ toString a ≠ name := by
  intro h
  have h1 := congrArg String.length h
  simp only [String.length_append] at h1
  have : "_".length = 1 := rfl
  omega

theorem ExecutionState.uniqueArrayName_none (names : List String) (name : String) :
    ∀ (fuel id : Nat) (u : String),
      ExecutionState.uniqueArrayName names name fuel id u = none →
      u ∈ names ∧ ∀ i, 1 ≤ i → i ≤ fuel → name ++ "_" ++ toString (id + i) ∈ names := by
  intro fuel
  induction fuel with
  | zero =>
    intro id u h
    unfold ExecutionState.uniqueArrayName at h
    by_cases hu : u ∈ names
    · exact ⟨hu, fun i h1 h2 => by omega⟩
    · simp [hu] at h
  | succ fuel ih =>
    intro id u h
    unfold ExecutionState.uniqueArrayName at h
    by_cases hu : u ∈ names
    · simp only [hu, not_true_eq_false, if_false] at h
      obtain ⟨a1, a2⟩ := ih (id + 1) _ h
      refine ⟨hu, fun i h1 h2 => ?_⟩
      by_cases hi : i = 1
      · rw [hi]; exact a1
      · have := a2 (i - 1) (by omega) (by omega)
        have e : id + 1 + (i - 1) = id + i := by omega
        rw [e] at this
        exact this
    · simp [hu] at h

theorem ExecutionState.uniqueArrayName_total (names : List String) (name : String) :
    ∃ r, ExecutionState.uniqueArrayName names name names.length 0 name = some r := by
  cases h : ExecutionState.uniqueArrayName names name names.length 0 name with
  | some r => exact ⟨r, rfl⟩
  | none =>
    exfalso
    obtain ⟨a1, a2⟩ := ExecutionState.uniqueArrayName_none names name _ _ _ h
    have hnd : (name :: (List.range names.length).map
        fun i => name ++ "_" ++ toString (i + 1)).Nodup := by
      rw [List.nodup_cons]
      constructor
      · intro hm
        rw [List.mem_map] at hm
        obtain ⟨i, _, hi⟩ := hm
        exact suffixed_ne name _ hi
      · refine List.Nodup.map_on ?_ (List.nodup_range _)
        intro a _ b _ hab
        have := suffixed_injective name _ _ hab
        omega
    have hsub : (name :: (List.range names.length).map
        fun i => name ++ "_" ++ toString (i + 1)) ⊆ names := by
      intro x hx
      rw [List.mem_cons] at hx
      rcases hx with hx | hx
      · rw [hx]; exact a1
      · rw [List.mem_map] at hx
        obtain ⟨i, hi, hxi⟩ := hx
        rw [← hxi]
        have := a2 (i + 1) (by omega) (by have := List.mem_range.mp hi; omega)
        rw [Nat.zero_add] at this
        exact this
    have hle := (List.Nodup.subperm hnd hsub).length_le
    simp at hle

theorem Executor.seed_policy_named (ex : Executor) (state : Nat) (mo : MemoryObject)
    (name : String) (shared : Bool) (uniqueName : String) (names : List String)
    (seeds : List SeedInfo) (k : Nat) (si si' : SeedInfo) (obj : KTestObject)
    (hstate : ex.isAllocated state = true)
    (hcrt : (ex.getState state).crtThreadIt < (ex.getState state).threads.length)
    (hreplay : ex.replayOut = false)
    (hname : ExecutionState.uniqueArrayName (ex.getState state).arrayNames name
      (ex.getState state).arrayNames.length 0 name = some (uniqueName, names))
    (hseeds : ex.seedMap state = some seeds) (hk : seeds[k]? = some si)
    (hprev : ∀ (j : Nat) (sj : SeedInfo), j < k → seeds[j]? = some sj →
      (ex.seedBinding mo { name := uniqueName, size := mo.size } sj).2 = none)
    (hobj : ex.getNextInput si mo ex.opts.NamedSeedMatching = (some obj, si'))
    (hne : obj.numBytes ≠ mo.size) :
    ∃ (ex' : Executor) (seeds' : List SeedInfo),
      ex.executeMakeSymbolic state mo name shared = some ex' ∧
      seeds' = (ex.seedBindings mo { name := uniqueName, size := mo.size } seeds).1 ∧
      (ex'.seedMap state = some seeds' ∨ (ex'.seedMap state = none ∧ ex'.isTerminated state)) ∧
      (ex.opts.refusesSeed obj.numBytes mo.size →
        ex'.isTerminated state ∧ seeds'[k]? = some si' ∧
        ex'.testCases = ex.testCases ++ ex.errorReport state
          ("replace size mismatch: " ++ mo.name ++ "[" ++ toString mo.size ++ "]" ++ " vs " ++
            obj.name ++ "[" ++ toString obj.numBytes ++ "]" ++ " in test\n") "user.err" "") ∧
      (¬ ex.opts.refusesSeed obj.numBytes mo.size →
        ∃ s : SeedInfo, seeds'[k]? = some s ∧
          s.binding { name := uniqueName, size := mo.size } =
            (List.range (min obj.numBytes mo.size)).map (fun i => obj.bytes.getD i 0) ++
              si'.binding { name := uniqueName, size := mo.size } ++
              (if ex.opts.ZeroSeedExtension = true then
                List.replicate (mo.size - obj.numBytes) 0
                else [])) := by
  have hlt := Executor.isAllocated_lt ex state hstate
  obtain ⟨e, he⟩ : ∃ e : Executor, e = ex.setState state
      ({ ex.getState state with arrayNames := names }.addSymbolic mo
        { name := uniqueName, size := mo.size }) := ⟨_, rfl⟩
  have hrun : ex.executeMakeSymbolic state mo name shared =
      e.seedObject state mo { name := uniqueName, size := mo.size } := by
    unfold Executor.executeMakeSymbolic
    simp only [hreplay, Bool.not_false, if_true]
    rw [hname, he]
  have hopts : e.opts = ex.opts := by rw [he]; rfl
  have hnext : e.getNextInput = ex.getNextInput := by rw [he]; rfl
  have hsm : e.seedMap = ex.seedMap := by rw [he]; rfl
  have htc : e.testCases = ex.testCases := by rw [he]; rfl
  have hg : e.getState state = { ex.getState state with arrayNames := names }.addSymbolic mo
      { name := uniqueName, size := mo.size } := by
    rw [he, Executor.getState_setState_same ex state _ hlt]
  have hrep : ∀ msg, e.errorReport state msg "user.err" "" =
      ex.errorReport state msg "user.err" "" := by
    intro msg
    unfold Executor.errorReport
    rw [hg, he]
    rfl
  have hsb := Executor.seedBindings_congr e ex mo { name := uniqueName, size := mo.size }
    hopts hnext seeds
  obtain ⟨ex', r1, r2, r3, r4⟩ := Executor.seedObject_spec e state mo
    { name := uniqueName, size := mo.size } seeds k si si' obj (by rw [hg]; exact hcrt)
    (by rw [hsm]; exact hseeds) hk
    (fun j sj hj hsj => by
      rw [Executor.seedBinding_congr e ex mo _ hopts hnext sj]; exact hprev j sj hj hsj)
    (by rw [hnext, hopts]; exact hobj) hne
  rw [hsb] at r2 r3 r4
  rw [hopts] at r3 r4
  refine ⟨ex', _, by rw [hrun]; exact r1, rfl, r2, ?_, ?_⟩
  · intro hP
    obtain ⟨c1, c2, c3⟩ := r3 hP
    refine ⟨c1, c2, ?_⟩
    rw [c3, htc, hrep]
  · intro hP
    exact ⟨_, r4 hP, SeedInfo.binding_bind _ _ _⟩

theorem Executor.seedBindings_quiet (ex : Executor) (mo : MemoryObject) (array : Array) :
    ∀ seeds : List SeedInfo,
      (∀ (j : Nat) (sj : SeedInfo), seeds[j]? = some sj →
        (ex.seedBinding mo array sj).2 = none) →
      (ex.seedBindings mo array seeds).2 = none := by
  intro seeds
  induction seeds with
  | nil => intro _; rfl
  | cons s rest ih =>
    intro hall
    have h0 := hall 0 s List.getElem?_cons_zero
    unfold Executor.seedBindings
    simp only [h0]
    exact ih (fun j sj hj => hall (j + 1) sj (by rw [List.getElem?_cons_succ]; exact hj))

theorem Executor.seed_policy_quiet (ex : Executor) (state : Nat) (mo : MemoryObject)
    (name : String) (shared : Bool) (uniqueName : String) (names : List String)
    (seeds : List SeedInfo) (hstate : ex.isAllocated state = true)
    (hreplay : ex.replayOut = false)
    (hname : ExecutionState.uniqueArrayName (ex.getState state).arrayNames name
      (ex.getState state).arrayNames.length 0 name = some (uniqueName, names))
    (hseeds : ex.seedMap state = some seeds)
    (hall : ∀ (j : Nat) (sj : SeedInfo), seeds[j]? = some sj →
      (ex.seedBinding mo { name := uniqueName, size := mo.size } sj).2 = none) :
    ∃ ex' : Executor, ex.executeMakeSymbolic state mo name shared = some ex' ∧
      ex'.seedMap state =
        some (ex.seedBindings mo { name := uniqueName, size := mo.size } seeds).1 ∧
      ex'.testCases = ex.testCases ∧ ex'.removedStates = ex.removedStates ∧
      ex'.isAllocated state = true := by
  obtain ⟨e, he⟩ : ∃ e : Executor, e = ex.setState state
      ({ ex.getState state with arrayNames := names }.addSymbolic mo
        { name := uniqueName, size := mo.size }) := ⟨_, rfl⟩
  have hrun : ex.executeMakeSymbolic state mo name shared =
      e.seedObject state mo { name := uniqueName, size := mo.size } := by
    unfold Executor.executeMakeSymbolic
    simp only [hreplay, Bool.not_false, if_true]
    rw [hname, he]
  have hopts : e.opts = ex.opts := by rw [he]; rfl
  have hnext : e.getNextInput = ex.getNextInput := by rw [he]; rfl
  have hsm : e.seedMap = ex.seedMap := by rw [he]; rfl
  have htc : e.testCases = ex.testCases := by rw [he]; rfl
  have hrs : e.removedStates = ex.removedStates := by rw [he]; rfl
  have hal : e.isAllocated state = true := by
    rw [he, Executor.isAllocated_setState ex state state _ hstate]
    exact hstate
  have hsb := Executor.seedBindings_congr e ex mo { name := uniqueName, size := mo.size }
    hopts hnext seeds
  have hq := Executor.seedBindings_quiet ex mo { name := uniqueName, size := mo.size } seeds hall
  rw [hrun]
  unfold Executor.seedObject
  rw [hsm, hseeds]
  simp only
  rw [hsb, hq]
  exact ⟨_, rfl, by simp [mapSet], htc, hrs, hal⟩

/-- Claim C19: the seed size mismatch policy.  In seed mode (no replay
output, the state has seeds), when a seed reached by the loop of
`executeMakeSymbolic` has a next input object whose `numBytes` differs from
the size of the memory object, the call returns (the name loop finds a
free name within its fuel) and: if the object is too
short with neither allow-seed-extension nor zero-seed-extension set, or too
long with allow-seed-truncation not set, the state is terminated through
`terminateStateOnError` with the message 'replace size mismatch' and the
suffix user.err, and the seed is left as `getNextInput` returned it, with no
binding added; otherwise the seed raises no error, it gets for the new array
the first min(numBytes, size) bytes of the object, put in front of what was
bound to the array, followed under zero-seed-extension by zeros up to the
size, and, unless a later seed of the state raises an error, the call does
not terminate the state: no test case is written, no state is queued for
removal, the state stays allocated and keeps its seeds. -/
theorem Executor.seed_size_mismatch_policy (ex : Executor) (state : Nat) (mo : MemoryObject)
    (name : String) (shared : Bool)
    (seeds : List SeedInfo) (k : Nat) (si si' : SeedInfo) (obj : KTestObject)
    (hstate : ex.isAllocated state = true)
    (hcrt : (ex.getState state).crtThreadIt < (ex.getState state).threads.length)
    (hreplay : ex.replayOut = false)
    (hseeds : ex.seedMap state = some seeds) (hk : seeds[k]? = some si)
    (hprev : ∀ (j : Nat) (sj : SeedInfo), j < k → seeds[j]? = some sj →
      ∀ array : Array, (ex.seedBinding mo array sj).2 = none)
    (hobj : ex.getNextInput si mo ex.opts.NamedSeedMatching = (some obj, si'))
    (hne : obj.numBytes ≠ mo.size) :
    ∃ (uniqueName : String) (names : List String) (ex' : Executor) (seeds' : List SeedInfo),
      ExecutionState.uniqueArrayName (ex.getState state).arrayNames name
        (ex.getState state).arrayNames.length 0 name = some (uniqueName, names) ∧
      ex.executeMakeSymbolic state mo name shared = some ex' ∧
      seeds' = (ex.seedBindings mo { name := uniqueName, size := mo.size } seeds).1 ∧
      (ex'.seedMap state = some seeds' ∨ (ex'.seedMap state = none ∧ ex'.isTerminated state)) ∧
      (ex.opts.refusesSeed obj.numBytes mo.size →
        ex'.isTerminated state ∧ seeds'[k]? = some si' ∧
        ex'.testCases = ex.testCases ++ ex.errorReport state
          ("replace size mismatch: " ++ mo.name ++ "[" ++ toString mo.size ++ "]" ++ " vs " ++
            obj.name ++ "[" ++ toString obj.numBytes ++ "]" ++ " in test\n") "user.err" "") ∧
      (¬ ex.opts.refusesSeed obj.numBytes mo.size →
        (∃ s : SeedInfo, seeds'[k]? = some s ∧
          s.binding { name := uniqueName, size := mo.size } =
            (List.range (min obj.numBytes mo.size)).map (fun i => obj.bytes.getD i 0) ++
              si'.binding { name := uniqueName, size := mo.size } ++
              (if ex.opts.ZeroSeedExtension = true then
                List.replicate (mo.size - obj.numBytes) 0
                else [])) ∧
        (ex.seedBinding mo { name := uniqueName, size := mo.size } si).2 = none ∧
        ((∀ (j : Nat) (sj : SeedInfo), k < j → seeds[j]? = some sj →
            ∀ array : Array, (ex.seedBinding mo array sj).2 = none) →
          ex'.seedMap state = some seeds' ∧ ex'.testCases = ex.testCases ∧
          ex'.removedStates = ex.removedStates ∧ ex'.isAllocated state = true ∧
          (ex'.isTerminated state ↔ ex.isTerminated state))) := by
  obtain ⟨⟨uniqueName, names⟩, hname⟩ :=
    ExecutionState.uniqueArrayName_total (ex.getState state).arrayNames name
  obtain ⟨ex', seeds', h1, h2, h3, h4, h5⟩ :=
    Executor.seed_policy_named ex state mo name shared uniqueName names
    seeds k si si' obj hstate hcrt hreplay hname hseeds hk
    (fun j sj hj hsj => hprev j sj hj hsj _) hobj hne
  refine ⟨uniqueName, names, ex', seeds', hname, h1, h2, h3, h4, ?_⟩
  intro hP
  have hsi : (ex.seedBinding mo { name := uniqueName, size := mo.size } si).2 = none := by
    rw [(Executor.seedBinding_object ex mo { name := uniqueName, size := mo.size } si si' obj
      hobj hne).2 hP]
  refine ⟨h5 hP, hsi, ?_⟩
  intro hlater
  obtain ⟨ex2, q1, q2, q3, q4, q5⟩ := Executor.seed_policy_quiet ex state mo name shared
    uniqueName names seeds hstate hreplay hname hseeds
    (fun j sj hsj => by
      rcases Nat.lt_trichotomy j k with hlt | heq | hgt
      · exact hprev j sj hlt hsj _
      · subst heq
        rw [hk] at hsj
        cases hsj
        exact hsi
      · exact hlater j sj hgt hsj _)
  rw [h1] at q1
  cases q1
  refine ⟨by rw [q2, h2], q3, q4, q5, ?_⟩
  unfold Executor.isTerminated
  rw [q4, q5, hstate]

/-- Witness of C19: a seed object of 4 bytes for a region of 8 bytes, with
extension and truncation not allowed, is a user error and no binding; with
seed extension allowed the state is not terminated and no test case is
written. -/
theorem Executor.seed_size_mismatch_policy_witness :
    (∃ ex' : Executor,
      seedReplayExecutor.executeMakeSymbolic 0 { size := 8, name := "buf" } "buf" false =
        some ex' ∧
      ex'.isTerminated 0 ∧
      ex'.seedMap 0 = some [{ assignment := 0 }] ∧
      ex'.testCases.map (fun t => t.suffix) = [some "user.err"]) ∧
    ∃ ex2 : Executor,
      seedExtensionExecutor.executeMakeSymbolic 0 { size := 8, name := "buf" } "buf" false =
        some ex2 ∧
      ¬ ex2.isTerminated 0 ∧ ex2.testCases = [] := by
  constructor
  · obtain ⟨uniqueName, names, ex', seeds', h0, h1, h2, h3, h4, _⟩ :=
      Executor.seed_size_mismatch_policy
      seedReplayExecutor 0 { size := 8, name := "buf" } "buf" false
      [{ assignment := 0 }] 0 { assignment := 0 } { assignment := 0 }
      { name := "buf", numBytes := 4, bytes := [1, 2, 3, 4] } rfl (by decide) rfl rfl rfl
      (fun j sj hj => absurd hj (Nat.not_lt_zero j)) rfl (by decide)
    obtain ⟨c1, c2, c3⟩ := h4 (Or.inl ⟨by decide, rfl, rfl⟩)
    have hev : ∃ e, seedReplayExecutor.executeMakeSymbolic 0 { size := 8, name := "buf" }
        "buf" false = some e ∧ e.seedMap 0 = some [{ assignment := 0 }] := ⟨_, rfl, rfl⟩
    obtain ⟨e, e1, e2⟩ := hev
    rw [h1] at e1
    injection e1 with e1
    refine ⟨ex', h1, c1, by rw [e1]; exact e2, ?_⟩
    rw [c3]
    rfl
  · obtain ⟨uniqueName, names, ex2, seeds', _, g1, _, _, _, g5⟩ :=
      Executor.seed_size_mismatch_policy
      seedExtensionExecutor 0 { size := 8, name := "buf" } "buf" false
      [{ assignment := 0 }] 0 { assignment := 0 } { assignment := 0 }
      { name := "buf", numBytes := 4, bytes := [1, 2, 3, 4] } rfl (by decide) rfl rfl rfl
      (fun j sj hj => absurd hj (Nat.not_lt_zero j)) rfl (by decide)
    have hnot : ¬ seedExtensionExecutor.opts.refusesSeed 4 8 := by
      rintro (⟨_, h, _⟩ | ⟨h, _⟩)
      · cases h
      · exact absurd h (by decide)
    obtain ⟨_, _, g6⟩ := g5 hnot
    obtain ⟨_, q2, _, _, q5⟩ := g6 (fun j sj hj hsj => by
      cases j with
      | zero => exact absurd hj (Nat.lt_irrefl 0)
      | succ j => simp at hsj)
    refine ⟨ex2, g1, ?_, q2⟩
    intro hterm
    rcases q5.mp hterm with h | h
    · cases h
    · cases h

/-! ## Flushed bytes and their caches -/

theorem ObjectState.getUpdates_congr (a b : ObjectState) (h1 : a.updates = b.updates)
    (h2 : a.size = b.size) : a.getUpdates.1 = b.getUpdates.1 := by
  unfold ObjectState.getUpdates
  rw [h1, h2]
  cases b.updates.root <;> rfl

theorem ObjectState.read8_value_congr (a b : ObjectState) (p : Nat)
    (st : Option ExecutionState) (sol : TimingSolver)
    (h1 : a.isByteConcrete p = b.isByteConcrete p) (h2 : a.concreteStore p = b.concreteStore p)
    (h3 : (a.knownSymbolics.bind fun ks => ks p) = (b.knownSymbolics.bind fun ks => ks p))
    (h4 : a.isByteFlushed p = b.isByteFlushed p) (h5 : a.updates = b.updates)
    (h6 : a.size = b.size) :
    (a.read8 p st sol).map Prod.fst = (b.read8 p st sol).map Prod.fst := by
  have hc : ∀ (x : ObjectState) (m : MemoryLog),
      ObjectState.isByteConcrete { x with memoryLog := m } p = x.isByteConcrete p :=
    fun _ _ => rfl
  have hf : ∀ (x : ObjectState) (m : MemoryLog),
      ObjectState.isByteFlushed { x with memoryLog := m } p = x.isByteFlushed p :=
    fun _ _ => rfl
  unfold ObjectState.read8
  simp only [hc, hf]
  rw [h1, h2, h3, h4]
  cases b.isByteConcrete p
  · simp only [Bool.false_eq_true, if_false]
    cases (b.knownSymbolics.bind fun ks => ks p) with
    | some v => rfl
    | none =>
      simp only
      cases b.isByteFlushed p
      · rfl
      · simp only [if_true, Option.map_some']
        exact congrArg (fun u => some (ReadExpr.create u
          (Expr.Constant (ConstantExpr.create p Expr.Int32))))
          (ObjectState.getUpdates_congr _ _ h5 h6)
  · rfl

theorem ObjectState.write8_known_frame (os : ObjectState) (o v p : Nat)
    (st : Option ExecutionState) (sol : TimingSolver) (hp : p ≠ o) :
    ((os.write8 o v st sol).knownSymbolics.bind fun ks => ks p) =
        (os.knownSymbolics.bind fun ks => ks p) ∧
      (os.write8 o v st sol).concreteStore p = os.concreteStore p := by
  unfold ObjectState.write8 ObjectState.markByteUnflushed ObjectState.markByteConcrete
    ObjectState.setKnownSymbolic
  rcases hc : os.concreteMask with _ | c <;> rcases hf : os.flushMask with _ | f <;>
    rcases hk : os.knownSymbolics with _ | k <;> simp [hp]

theorem ObjectState.write8Value_known_frame (os : ObjectState) (o p : Nat) (value : Expr)
    (st : Option ExecutionState) (sol : TimingSolver) (hp : p ≠ o) :
    ((os.write8Value o value st sol).knownSymbolics.bind fun ks => ks p) =
        (os.knownSymbolics.bind fun ks => ks p) ∧
      (os.write8Value o value st sol).concreteStore p = os.concreteStore p ∧
      (os.write8Value o value st sol).updates = os.updates := by
  unfold ObjectState.write8Value
  cases hv : value.asConstant with
  | some c =>
    exact ⟨(ObjectState.write8_known_frame os o _ p st sol hp).1,
      (ObjectState.write8_known_frame os o _ p st sol hp).2,
      (ObjectState.write8_frame os o _ st sol).2.1⟩
  | none =>
    unfold ObjectState.markByteUnflushed ObjectState.markByteSymbolic
      ObjectState.setKnownSymbolic
    rcases hc : os.concreteMask with _ | c <;> rcases hf : os.flushMask with _ | f <;>
      rcases hk : os.knownSymbolics with _ | k <;> simp [hp]

theorem ObjectState.write8Value_status_ne (os : ObjectState) (o p : Nat) (value : Expr)
    (st : Option ExecutionState) (sol : TimingSolver) (hp : p ≠ o) :
    (os.write8Value o value st sol).isByteConcrete p = os.isByteConcrete p ∧
      (os.write8Value o value st sol).isByteKnownSymbolic p = os.isByteKnownSymbolic p ∧
      (os.write8Value o value st sol).isByteFlushed p = os.isByteFlushed p := by
  cases hv : value.asConstant with
  | some c =>
    have h : os.write8Value o value st sol = os.write8 o c.getZExtValue st sol := by
      unfold ObjectState.write8Value
      rw [hv]
    rw [h]
    obtain ⟨a, b, c⟩ := ObjectState.write8_status os o c.getZExtValue st sol p
    rw [a, b, c]
    simp [hp]
  | none =>
    obtain ⟨a, b, c⟩ := ObjectState.write8Value_status os o value st sol p hv
    rw [a, b, c]
    simp [hp]

/-- Claim C28: a write at a constant offset touches one byte only.  After
`write8` at offset `o`, with a byte or with an expression as value, every
other offset `p` has the concrete, known-symbolic and flushed status it had
and `read8(p)` gives the same result (or fails as before), whatever state and
solver it is called with; the size and the update list of the object are
unchanged. -/
theorem ObjectState.write8_touches_one_byte (os : ObjectState) (o p v : Nat) (value : Expr)
    (st st' : Option ExecutionState) (sol sol' : TimingSolver) (hp : p ≠ o) :
    ((os.write8 o v st sol).isByteConcrete p = os.isByteConcrete p ∧
      (os.write8 o v st sol).isByteKnownSymbolic p = os.isByteKnownSymbolic p ∧
      (os.write8 o v st sol).isByteFlushed p = os.isByteFlushed p ∧
      ((os.write8 o v st sol).read8 p st' sol').map Prod.fst =
        (os.read8 p st' sol').map Prod.fst ∧
      (os.write8 o v st sol).size = os.size ∧ (os.write8 o v st sol).updates = os.updates) ∧
    ((os.write8Value o value st sol).isByteConcrete p = os.isByteConcrete p ∧
      (os.write8Value o value st sol).isByteKnownSymbolic p = os.isByteKnownSymbolic p ∧
      (os.write8Value o value st sol).isByteFlushed p = os.isByteFlushed p ∧
      ((os.write8Value o value st sol).read8 p st' sol').map Prod.fst =
        (os.read8 p st' sol').map Prod.fst ∧
      (os.write8Value o value st sol).size = os.size ∧
      (os.write8Value o value st sol).updates = os.updates) := by
  constructor
  · obtain ⟨a, b, c⟩ := ObjectState.write8_status os o v st sol p
    obtain ⟨d, e⟩ := ObjectState.write8_known_frame os o v p st sol hp
    obtain ⟨f, g, _⟩ := ObjectState.write8_frame os o v st sol
    have a' : (os.write8 o v st sol).isByteConcrete p = os.isByteConcrete p := by
      rw [a]; simp [hp]
    have b' : (os.write8 o v st sol).isByteKnownSymbolic p = os.isByteKnownSymbolic p := by
      rw [b]; simp [hp]
    have c' : (os.write8 o v st sol).isByteFlushed p = os.isByteFlushed p := by
      rw [c]; simp [hp]
    exact ⟨a', b', c', ObjectState.read8_value_congr _ _ p st' sol' a' e d c' g f, f, g⟩
  · obtain ⟨a', b', c'⟩ := ObjectState.write8Value_status_ne os o p value st sol hp
    obtain ⟨d, e, g⟩ := ObjectState.write8Value_known_frame os o p value st sol hp
    have f := ObjectState.write8Value_size os o value st sol
    exact ⟨a', b', c', ObjectState.read8_value_congr _ _ p st' sol' a' e d c' g f, f, g⟩

/-- Witness of C28: a write to byte 0 of the four-byte example object, seen
from byte 1, which holds a symbolic value. -/
theorem ObjectState.write8_touches_one_byte_witness :
    (exampleObject.write8 0 7 none silentSolver).isByteKnownSymbolic 1 = true ∧
      ((exampleObject.write8 0 7 none silentSolver).read8 1 none silentSolver).map Prod.fst =
        some symbolicByte ∧
      ((exampleObject.write8Value 0 symbolicByte none silentSolver).read8 1 none
        silentSolver).map Prod.fst = some symbolicByte := by
  obtain ⟨⟨_, h2, _, h4, _⟩, ⟨_, _, _, h8, _⟩⟩ :=
    ObjectState.write8_touches_one_byte exampleObject 0 1 7 symbolicByte none none
      silentSolver silentSolver (by decide)
  refine ⟨by rw [h2]; rfl, by rw [h4]; rfl, by rw [h8]; rfl⟩

/-! ## Resets of the access log -/

/-- Claim C26: local reset touches one group only.  On a log in concrete
form, `localReset(g)` keeps the log concrete with as many entries; an entry
whose recorded group is `g` gets thread id 0 and a cleared many-read bit and
keeps its group, read, write and many-group-read fields; an entry of another
group is unchanged. -/
theorem MemoryLog.localReset_touches_one_group (log : MemoryLog) (g : Nat)
    (hconc : log.isSymbolic = false) :
    (log.localReset g).isSymbolic = false ∧ (log.localReset g).size = log.size ∧
      (log.localReset g).concreteEntries.length = log.concreteEntries.length ∧
      ∀ b : Nat,
        ((log.entry b).wgid = g →
          ((log.localReset g).entry b).threadId = 0 ∧
          ((log.localReset g).entry b).manyRead = false ∧
          ((log.localReset g).entry b).wgid = (log.entry b).wgid ∧
          ((log.localReset g).entry b).read = (log.entry b).read ∧
          ((log.localReset g).entry b).write = (log.entry b).write ∧
          ((log.localReset g).entry b).wgManyRead = (log.entry b).wgManyRead) ∧
        ((log.entry b).wgid ≠ g → (log.localReset g).entry b = log.entry b) := by
  have hu : log.updates = none := by
    unfold MemoryLog.isSymbolic at hconc
    cases h : log.updates with
    | none => rfl
    | some u => rw [h] at hconc; cases hconc
  have hdef : log.localReset g = { log with concreteEntries := log.concreteEntries.map fun i =>
      if i.wgid = g then { i with threadId := 0, manyRead := false } else i } := by
    unfold MemoryLog.localReset
    rw [hu]
  have hentry : ∀ b : Nat, (log.localReset g).entry b =
      if (log.entry b).wgid = g then { log.entry b with threadId := 0, manyRead := false }
      else log.entry b := by
    intro b
    rw [hdef]
    unfold MemoryLog.entry
    simp only [List.getD_eq_getElem?_getD, List.getElem?_map]
    cases h : log.concreteEntries[b]? with
    | none =>
      simp only [Option.map_none', Option.getD_none]
      by_cases hg : ({} : MemoryLogEntry).wgid = g
      · rw [if_pos hg]
      · rw [if_neg hg]
    | some e => simp only [Option.map_some', Option.getD_some]
  refine ⟨?_, ?_, ?_, ?_⟩
  · rw [hdef]; exact hconc
  · rw [hdef]
  · rw [hdef]; simp
  · intro b
    constructor
    · intro hg
      rw [hentry b, if_pos hg]
      exact ⟨rfl, rfl, rfl, rfl, rfl, rfl⟩
    · intro hg
      rw [hentry b, if_neg hg]

/-- Witness of C26: the example log of two bytes, reset for group 1. -/
theorem MemoryLog.localReset_touches_one_group_witness :
    ((exampleLog.localReset 1).entry 0).threadId = 0 ∧
      ((exampleLog.localReset 1).entry 0).manyRead = false ∧
      ((exampleLog.localReset 1).entry 0).read = true ∧
      (exampleLog.localReset 1).entry 1 = { threadId := 4, wgid := 2, read := true } := by
  obtain ⟨_, _, _, h4⟩ := MemoryLog.localReset_touches_one_group exampleLog 1 rfl
  obtain ⟨a, b, _, d, _⟩ := (h4 0).1 rfl
  exact ⟨a, b, d, (h4 1).2 (by decide)⟩

/-! ## The lazily built update list -/

theorem lastWriteTo_dflt (i : Nat) (run : List UpdateNode) (d d' : ConstantExpr)
    (hrun : ∀ u, u ∈ run → u.isConcrete = true) (hne : writesTo i run ≠ []) :
    lastWriteTo i run d = lastWriteTo i run d' := by
  unfold lastWriteTo
  cases hl : (writesTo i run).getLast? with
  | none =>
    rw [List.getLast?_eq_none_iff] at hl
    exact absurd hl hne
  | some u =>
    have hu : u ∈ run := List.mem_of_mem_filter (List.mem_of_getLast?_eq_some hl)
    have hc := hrun u hu
    simp only [UpdateNode.isConcrete, Expr.isConstant, Bool.and_eq_true] at hc
    cases hv : u.value.asConstant with
    | none => rw [hv] at hc; cases hc.2
    | some v => simp only [hv, Option.getD_some]

theorem lastWriteTo_cons (i : Nat) (w : UpdateNode) (run : List UpdateNode)
    (Index Value d : ConstantExpr) (hi : w.index.asConstant = some Index)
    (hv : w.value.asConstant = some Value) (hrun : ∀ u, u ∈ run → u.isConcrete = true) :
    lastWriteTo i (w :: run) d =
      lastWriteTo i run (if Index.getZExtValue = i then Value else d) := by
  by_cases hidx : Index.getZExtValue = i
  · rw [if_pos hidx]
    by_cases hne : writesTo i run = []
    · unfold lastWriteTo
      have h1 : writesTo i (w :: run) = [w] := by
        unfold writesTo at hne ⊢
        rw [List.filter_cons]
        simp only [hi, hidx, beq_self_eq_true, if_true, hne]
      rw [h1, hne]
      simp [hv]
    · rw [← lastWriteTo_dflt i run d Value hrun hne]
      unfold lastWriteTo
      have h1 : writesTo i (w :: run) = w :: writesTo i run := by
        unfold writesTo
        rw [List.filter_cons]
        simp only [hi, hidx, beq_self_eq_true, if_true]
      rw [h1]
      cases hl : writesTo i run with
      | nil => exact absurd hl hne
      | cons a l => rw [List.getLast?_cons_cons]
  · rw [if_neg hidx]
    unfold lastWriteTo
    have h1 : writesTo i (w :: run) = writesTo i run := by
      unfold writesTo
      rw [List.filter_cons]
      simp [hi, hidx]
    rw [h1]

theorem pullConcreteWrites_spec : ∀ (ws : List UpdateNode) (Contents : List ConstantExpr),
    (pullConcreteWrites Contents ws).2 = ws.dropWhile UpdateNode.isConcrete ∧
      (pullConcreteWrites Contents ws).1.length = Contents.length ∧
      ∀ i, i < Contents.length →
        (pullConcreteWrites Contents ws).1[i]? =
          some (lastWriteTo i (ws.takeWhile UpdateNode.isConcrete)
            (Contents.getD i { value := 0, width := 8 })) := by
  intro ws
  induction ws with
  | nil =>
    intro Contents
    refine ⟨rfl, rfl, fun i hi => ?_⟩
    simp [pullConcreteWrites, lastWriteTo, writesTo, List.getD_eq_getElem?_getD,
      List.getElem?_eq_getElem hi]
  | cons w ws ih =>
    intro Contents
    cases hi : w.index.asConstant with
    | none =>
      have hc : w.isConcrete = false := by
        simp [UpdateNode.isConcrete, Expr.isConstant, hi]
      refine ⟨?_, ?_, fun i hlt => ?_⟩
      · simp [pullConcreteWrites, hi, List.dropWhile_cons, hc]
      · simp [pullConcreteWrites, hi]
      · simp [pullConcreteWrites, hi, List.takeWhile_cons, hc, lastWriteTo, writesTo,
          List.getD_eq_getElem?_getD, List.getElem?_eq_getElem hlt]
    | some Index =>
      cases hv : w.value.asConstant with
      | none =>
        have hc : w.isConcrete = false := by
          simp [UpdateNode.isConcrete, Expr.isConstant, hv]
        refine ⟨?_, ?_, fun i hlt => ?_⟩
        · simp [pullConcreteWrites, hi, hv, List.dropWhile_cons, hc]
        · simp [pullConcreteWrites, hi, hv]
        · simp [pullConcreteWrites, hi, hv, List.takeWhile_cons, hc, lastWriteTo, writesTo,
            List.getD_eq_getElem?_getD, List.getElem?_eq_getElem hlt]
      | some Value =>
        have hc : w.isConcrete = true := by
          simp [UpdateNode.isConcrete, Expr.isConstant, hi, hv]
        obtain ⟨a1, a2, a3⟩ := ih (Contents.set Index.getZExtValue Value)
        have hstep : pullConcreteWrites Contents (w :: ws) =
            pullConcreteWrites (Contents.set Index.getZExtValue Value) ws := by
          simp [pullConcreteWrites, hi, hv]
        rw [hstep]
        refine ⟨?_, ?_, fun i hlt => ?_⟩
        · rw [a1, List.dropWhile_cons, if_pos hc]
        · rw [a2, List.length_set]
        · rw [a3 i (by rw [List.length_set]; exact hlt)]
          rw [List.takeWhile_cons, if_pos hc]
          rw [lastWriteTo_cons i w _ Index Value _ hi hv
            (fun u hu => (List.mem_takeWhile_imp hu))]
          congr 2
          by_cases hidx : Index.getZExtValue = i
          · rw [if_pos hidx, ← hidx, List.getD_eq_getElem?_getD,
              List.getElem?_set_self (by rw [hidx]; exact hlt)]
            rfl
          · rw [if_neg hidx, List.getD_eq_getElem?_getD, List.getD_eq_getElem?_getD,
              List.getElem?_set_ne hidx]

theorem UpdateList.foldl_extend (ws : List UpdateNode) (ul : UpdateList) :
    ws.foldl (fun ul w => ul.extend w.index w.value) ul = .mk ul.root (ws.reverse ++ ul.head) := by
  induction ws generalizing ul with
  | nil => cases ul; rfl
  | cons w ws ih =>
    rw [List.foldl_cons, ih]
    cases w
    cases ul
    simp [UpdateList.extend, UpdateList.root, UpdateList.head, UpdateNode.index,
      UpdateNode.value]

theorem ObjectState.getUpdates_built (os : ObjectState) (hroot : os.updates.root = none) :
    os.getUpdates.1 = .mk (some
      { name := "const_arr", size := os.size,
        constantValues := (pullConcreteWrites
          (List.replicate os.size (ConstantExpr.create 0 Expr.Int8)) os.updates.head.reverse).1 })
      (os.updates.head.reverse.dropWhile UpdateNode.isConcrete).reverse := by
  unfold ObjectState.getUpdates
  rw [hroot]
  simp only
  rw [UpdateList.foldl_extend, (pullConcreteWrites_spec _ _).1]
  simp [UpdateList.root, UpdateList.head]

theorem ObjectState.getUpdates_rooted (a : ObjectState) (r : Array)
    (h : a.updates.root = some r) : a.getUpdates = (a.updates, a) := by
  unfold ObjectState.getUpdates
  rw [h]

/-- Claim C22: the update list is built lazily.  For an object without
backing array, `getUpdates` returns a list whose root is a constant array of
the object's size; its cell `i` holds the value of the last write to index
`i` in the longest leading run (oldest first) of recorded writes with a
constant index and a constant value, and the 8-bit zero when the run has no
write to `i`; the writes on top of the array are exactly the remaining
recorded writes, in their order.  The object keeps the list, and a later call
returns it unchanged. -/
theorem ObjectState.getUpdates_lazy (os : ObjectState) (hroot : os.updates.root = none) :
    ∃ array : Array, os.getUpdates.1.root = some array ∧ array.size = os.size ∧
      array.constantValues.length = os.size ∧
      (∀ i, i < os.size → array.constantValues[i]? =
        some (lastWriteTo i (os.updates.head.reverse.takeWhile UpdateNode.isConcrete)
          (ConstantExpr.create 0 Expr.Int8))) ∧
      os.getUpdates.1.head.reverse = os.updates.head.reverse.dropWhile UpdateNode.isConcrete ∧
      os.getUpdates.2 = { os with updates := os.getUpdates.1 } ∧
      os.getUpdates.2.getUpdates = (os.getUpdates.1, os.getUpdates.2) := by
  obtain ⟨_, p2, p3⟩ := pullConcreteWrites_spec os.updates.head.reverse
    (List.replicate os.size (ConstantExpr.create 0 Expr.Int8))
  have hb := ObjectState.getUpdates_built os hroot
  refine ⟨_, by rw [hb]; rfl, rfl, ?_, ?_, ?_, ObjectState.getUpdates_same os, ?_⟩
  · rw [p2, List.length_replicate]
  · intro i hi
    rw [p3 i (by rw [List.length_replicate]; exact hi)]
    congr 2
    rw [List.getD_eq_getElem?_getD, List.getElem?_replicate, if_pos hi]
    rfl
  · rw [hb]
    simp [UpdateList.head]
  · rw [ObjectState.getUpdates_same]
    exact ObjectState.getUpdates_rooted { os with updates := os.getUpdates.1 } _
      (by rw [hb]; rfl)

/-- Witness of C22: the constant write goes to the array, the symbolic write
stays on top. -/
theorem ObjectState.getUpdates_lazy_witness :
    ∃ array : Array, writtenObject.getUpdates.1.root = some array ∧
      array.constantValues[0]? = some { value := 0, width := 8 } ∧
      array.constantValues[1]? = some { value := 7, width := 8 } ∧
      writtenObject.getUpdates.1.head.reverse = [.mk symbolicByte symbolicByte] := by
  obtain ⟨array, h1, _, _, h4, h5, _⟩ := ObjectState.getUpdates_lazy writtenObject rfl
  refine ⟨array, h1, ?_, ?_, ?_⟩
  · rw [h4 0 (by decide)]; rfl
  · rw [h4 1 (by decide)]; rfl
  · rw [h5]; rfl

theorem replayWrites_append (eval : Expr → Nat) (a b : List UpdateNode) (init : Nat → Nat) :
    replayWrites eval (a ++ b) init = replayWrites eval b (replayWrites eval a init) := by
  unfold replayWrites
  rw [List.foldl_append]

theorem UpdateList.readAt_replay (eval : Expr → Nat) (root : Option Array) (i : Nat)
    (rest : List UpdateNode) :
    UpdateList.readAt eval (.mk root rest.reverse) i =
      replayWrites eval rest (fun j => UpdateList.readAt eval (.mk root []) j) i := by
  induction rest using List.reverseRecOn with
  | nil => rfl
  | append_singleton rest w ih =>
    rw [replayWrites_append, List.reverse_append]
    simp only [List.reverse_cons, List.reverse_nil, List.nil_append, List.singleton_append]
    unfold UpdateList.readAt at ih ⊢
    simp only [UpdateList.head, UpdateList.root, List.find?_cons] at ih ⊢
    by_cases hw : eval w.index = i
    · simp [hw, replayWrites]
    · have hw' : (eval w.index == i) = false := by simpa using hw
      rw [hw']
      simp only
      rw [ih]
      have hne : ¬ i = eval w.index := fun h => hw h.symm
      simp [replayWrites, hne]

theorem lastWriteTo_replay (eval : Expr → Nat)
    (heval : ∀ c : ConstantExpr, eval (.Constant c) = c.value) (i : Nat) :
    ∀ (run : List UpdateNode) (d : ConstantExpr) (init : Nat → Nat),
      (∀ u, u ∈ run → u.isConcrete = true) → init i = d.value →
      replayWrites eval run init i = (lastWriteTo i run d).value := by
  intro run
  induction run with
  | nil =>
    intro d init _ h
    simp [replayWrites, lastWriteTo, writesTo, h]
  | cons w run ih =>
    intro d init hrun h
    have hc := hrun w (List.mem_cons_self _ _)
    simp only [UpdateNode.isConcrete, Expr.isConstant, Bool.and_eq_true] at hc
    cases hi : w.index.asConstant with
    | none => rw [hi] at hc; cases hc.1
    | some Index =>
      cases hv : w.value.asConstant with
      | none => rw [hv] at hc; cases hc.2
      | some Value =>
        have hrun' : ∀ u, u ∈ run → u.isConcrete = true :=
          fun u hu => hrun u (List.mem_cons_of_mem _ hu)
        rw [lastWriteTo_cons i w run Index Value d hi hv hrun']
        have hwi : w.index = .Constant Index := by
          cases hx : w.index <;> rw [hx] at hi <;> simp [Expr.asConstant] at hi
          rw [hi]
        have hwv : w.value = .Constant Value := by
          cases hx : w.value <;> rw [hx] at hv <;> simp [Expr.asConstant] at hv
          rw [hv]
        have hstep : replayWrites eval (w :: run) init =
            replayWrites eval run
              (fun j => if j = eval w.index then eval w.value else init j) := rfl
        rw [hstep]
        apply ih _ _ hrun'
        rw [hwi, hwv, heval, heval]
        unfold ConstantExpr.getZExtValue
        by_cases hx : Index.value = i
        · simp [hx]
        · have hx' : ¬ i = Index.value := fun h => hx h.symm
          simp [hx, hx', h]

/-- Claim C29: `getUpdates` preserves the array contents.  For an object
without backing array whose recorded writes with a constant index stay below
the object's size, and under every evaluation of expressions that gives a
constant its value: reading any index from the update list that `getUpdates`
returns gives the value that replaying all recorded writes, oldest first,
over the all-zero array gives at that index. -/
theorem ObjectState.getUpdates_preserves_contents (os : ObjectState) (eval : Expr → Nat)
    (i : Nat) (hroot : os.updates.root = none)
    (heval : ∀ c : ConstantExpr, eval (.Constant c) = c.value)
    (hidx : ∀ w, w ∈ os.updates.head → ∀ k, w.index.asConstant = some k →
      k.getZExtValue < os.size) :
    UpdateList.readAt eval os.getUpdates.1 i =
      replayWrites eval os.updates.head.reverse (fun _ => 0) i := by
  obtain ⟨_, p2, p3⟩ := pullConcreteWrites_spec os.updates.head.reverse
    (List.replicate os.size (ConstantExpr.create 0 Expr.Int8))
  rw [ObjectState.getUpdates_built os hroot, UpdateList.readAt_replay]
  conv_rhs => rw [← List.takeWhile_append_dropWhile UpdateNode.isConcrete
    os.updates.head.reverse]
  rw [replayWrites_append]
  congr 1
  funext j
  have hrun : ∀ u, u ∈ os.updates.head.reverse.takeWhile UpdateNode.isConcrete →
      u.isConcrete = true := fun u hu => List.mem_takeWhile_imp hu
  rw [lastWriteTo_replay eval heval j _ (ConstantExpr.create 0 Expr.Int8) _ hrun rfl]
  have hnil : ∀ a : Array, UpdateList.readAt eval (.mk (some a) []) j =
      (a.constantValues.getD j { value := 0, width := 8 }).value := fun _ => rfl
  rw [hnil]
  simp only
  rw [List.length_replicate] at p2 p3
  by_cases hj : j < os.size
  · rw [List.getD_eq_getElem?_getD, p3 j hj]
    simp only [Option.getD_some]
    congr 2
    rw [List.getD_eq_getElem?_getD, List.getElem?_replicate, if_pos hj]
    rfl
  · rw [List.getD_eq_getElem?_getD, List.getElem?_eq_none (by rw [p2]; omega)]
    have hnone : writesTo j (os.updates.head.reverse.takeWhile UpdateNode.isConcrete) = [] := by
      unfold writesTo
      rw [List.filter_eq_nil_iff]
      intro u hu
      have hu' : u ∈ os.updates.head :=
        List.mem_reverse.mp ((List.takeWhile_sublist _).subset hu)
      cases hk : u.index.asConstant with
      | none => simp
      | some k =>
        have := hidx u hu' k hk
        simp only [beq_iff_eq]
        omega
    unfold lastWriteTo
    rw [hnone]
    rfl

/-- Witness of C29: the two-byte object with a constant and a symbolic write,
read at index 1 under an evaluation that sends the symbolic byte to 0. -/
theorem ObjectState.getUpdates_preserves_contents_witness :
    UpdateList.readAt constantEval writtenObject.getUpdates.1 1 = 7 := by
  rw [ObjectState.getUpdates_preserves_contents writtenObject constantEval 1 rfl
    (fun _ => rfl)
    (by
      intro w hw k hk
      have hw' : w ∈ [UpdateNode.mk symbolicByte symbolicByte,
          .mk (.Constant { value := 1, width := 32 })
            (.Constant { value := 7, width := 8 })] := hw
      simp only [List.mem_cons, List.mem_singleton, List.not_mem_nil, or_false] at hw'
      rcases hw' with h | h
      · rw [h] at hk; cases hk
      · rw [h] at hk
        injection hk with hk
        rw [← hk]
        decide)]
  rfl

/-! ## Explicit forks -/

theorem ExecutionState.setDestCell_spec (s : ExecutionState) (ki : KInstruction) (v : Expr)
    (sf : StackFrame) (hcrt : s.crtThreadIt < s.threads.length)
    (hsf : s.crtThread.stack.getLast? = some sf) (hdest : ki.dest < sf.locals.length) :
    ∃ s', s.setDestCell ki v = some s' ∧ s'.destCell ki = some v ∧
      s'.crtThreadIt = s.crtThreadIt ∧ s'.threads.length = s.threads.length ∧
      s'.ptreeNode = s.ptreeNode ∧ s'.constraints = s.constraints := by
  refine ⟨s.setCrtThread { s.crtThread with
      stack := s.crtThread.stack.dropLast ++
        [{ sf with locals := sf.locals.set ki.dest (some v) }] }, ?_, ?_, rfl, ?_, rfl, rfl⟩
  · unfold ExecutionState.setDestCell
    rw [if_pos hcrt, hsf]
    simp only
    rw [if_pos hdest]
  · unfold ExecutionState.destCell ExecutionState.crtThread ExecutionState.setCrtThread
    simp only [List.getD_eq_getElem?_getD, List.getElem?_set_self hcrt, Option.getD_some]
    simp [List.getLast?_append, List.getElem?_set_self hdest]
  · simp [ExecutionState.setCrtThread]

theorem Executor.bindLocal_spec (e : Executor) (state : Nat) (ki : KInstruction) (v : Expr)
    (sf : StackFrame) (hstate : e.isAllocated state = true)
    (hcrt : (e.getState state).crtThreadIt < (e.getState state).threads.length)
    (hsf : (e.getState state).crtThread.stack.getLast? = some sf)
    (hdest : ki.dest < sf.locals.length) :
    ∃ e', e.bindLocal ki state v = some e' ∧ e'.heap.length = e.heap.length ∧
      e'.addedStates = e.addedStates ∧ e'.processTree = e.processTree ∧
      (e'.getState state).destCell ki = some v ∧
      (e'.getState state).constraints = (e.getState state).constraints ∧
      (∀ id : Nat, e'.isAllocated id = e.isAllocated id) ∧
      (∀ id : Nat, id ≠ state → e'.getState id = e.getState id) := by
  obtain ⟨s', h1, h2, _, _, _, h6⟩ :=
    ExecutionState.setDestCell_spec (e.getState state) ki v sf hcrt hsf hdest
  have hlt := Executor.isAllocated_lt e state hstate
  refine ⟨e.setState state s', ?_, Executor.heap_length_setState _ _ _, rfl, rfl, ?_, ?_, ?_, ?_⟩
  · unfold Executor.bindLocal
    rw [h1]
  · rw [Executor.getState_setState_same e state _ hlt]; exact h2
  · rw [Executor.getState_setState_same e state _ hlt]; exact h6
  · intro id
    exact Executor.isAllocated_setState e state id _ hstate
  · intro id hid
    exact Executor.getState_setState_ne e state id _ hid

theorem Executor.executeFork_spec (ex : Executor) (state : Nat) (ki : KInstruction)
    (reason : ForkClass) (sf : StackFrame) (hstate : ex.isAllocated state = true)
    (hcrt : (ex.getState state).crtThreadIt < (ex.getState state).threads.length)
    (hsf : (ex.getState state).crtThread.stack.getLast? = some sf)
    (hdest : ki.dest < sf.locals.length) :
    (reason = ForkClass.KLEE_FORK_DEFAULT →
      ∃ ex', ex.executeFork state ki reason = some ex' ∧
        ex'.heap.length = ex.heap.length + 1 ∧
        ex'.isAllocated ex.heap.length = true ∧ ex.heap.length ∈ ex'.addedStates ∧
        (ex'.getState ex.heap.length).constraints = (ex.getState state).constraints ∧
        (ex'.getState ex.heap.length).destCell ki =
          some (.Constant (ConstantExpr.create 0 ki.typeWidth)) ∧
        (ex'.getState state).destCell ki =
          some (.Constant (ConstantExpr.create 1 ki.typeWidth))) ∧
    (reason ≠ ForkClass.KLEE_FORK_DEFAULT →
      ∃ ex', ex.executeFork state ki reason = some ex' ∧
        ex'.heap.length = ex.heap.length ∧ ex'.addedStates = ex.addedStates ∧
        ex'.processTree = ex.processTree ∧
        (ex'.getState state).destCell ki =
          some (.Constant (ConstantExpr.create 0 ki.typeWidth))) := by
  have hlt := Executor.isAllocated_lt ex state hstate
  constructor
  · intro hr
    obtain ⟨c1, c2, c3, c4, _, c6, c7, c8, _⟩ := Executor.cloneState_spec ex state
      (Executor.getForkTag (ex.getState state) reason) hstate
    obtain ⟨e, he⟩ : ∃ e, e = (ex.cloneState state
      (Executor.getForkTag (ex.getState state) reason)).2 := ⟨_, rfl⟩
    rw [← he] at c2 c3 c4 c6 c7 c8
    have hne : state ≠ ex.heap.length := Nat.ne_of_lt hlt
    obtain ⟨e1, b1, b2, b3, _, b5, b5', b6, b7⟩ := Executor.bindLocal_spec e ex.heap.length ki
      (.Constant (ConstantExpr.create 0 ki.typeWidth)) sf c7
      (by rw [c4]; exact hcrt) (by rw [c4]; exact hsf) hdest
    have hg1 : e1.getState state = e.getState state := b7 state hne
    obtain ⟨e2, d1, d2, d3, _, d5, _, d6, d7⟩ := Executor.bindLocal_spec e1 state ki
      (.Constant (ConstantExpr.create 1 ki.typeWidth)) sf (by rw [b6]; exact c6)
      (by rw [hg1, c3]; exact hcrt) (by rw [hg1, c3]; exact hsf) hdest
    refine ⟨e2, ?_, by rw [d2, b2, c2], by rw [d6, b6]; exact c7, ?_, ?_, ?_, d5⟩
    · unfold Executor.executeFork
      rw [if_pos hr]
      unfold Executor.forkReason
      simp only
      rw [c1, ← he, b1]
      exact d1
    · rw [d3, b3, c8, mem_setInsert]
      exact Or.inr rfl
    · rw [d7 _ (fun h => hne h.symm), b5', c4]
    · rw [d7 _ (fun h => hne h.symm)]
      exact b5
  · intro hr
    obtain ⟨e1, b1, b2, b3, b4, b5, _⟩ := Executor.bindLocal_spec ex state ki
      (.Constant (ConstantExpr.create 0 ki.typeWidth)) sf hstate hcrt hsf hdest
    refine ⟨e1, ?_, b2, b3, b4, b5⟩
    unfold Executor.executeFork
    rw [if_neg hr]
    exact b1

/-- Claim C27, what the code does: for a state whose running thread has the
destination register in its innermost frame, `executeFork` with reason
KLEE_FORK_DEFAULT forks the state once and binds 0 to the destination
register in the newly created state and 1 in the original state, the reverse
of what the claim says (`fork(state, reason)` returns the pair (newState,
lastState), and 0 goes to its first component); for any other reason it does
not fork and binds 0 in the only state. -/
theorem Executor.executeFork_return_values (ex : Executor) (state : Nat) (ki : KInstruction)
    (reason : ForkClass) (sf : StackFrame) (hstate : ex.isAllocated state = true)
    (hcrt : (ex.getState state).crtThreadIt < (ex.getState state).threads.length)
    (hsf : (ex.getState state).crtThread.stack.getLast? = some sf)
    (hdest : ki.dest < sf.locals.length) :
    (reason = ForkClass.KLEE_FORK_DEFAULT →
      ∃ ex', ex.executeFork state ki reason = some ex' ∧
        ex'.heap.length = ex.heap.length + 1 ∧
        ex'.isAllocated ex.heap.length = true ∧ ex.heap.length ∈ ex'.addedStates ∧
        (ex'.getState ex.heap.length).constraints = (ex.getState state).constraints ∧
        (ex'.getState ex.heap.length).destCell ki =
          some (.Constant (ConstantExpr.create 0 ki.typeWidth)) ∧
        (ex'.getState state).destCell ki =
          some (.Constant (ConstantExpr.create 1 ki.typeWidth))) ∧
    (reason ≠ ForkClass.KLEE_FORK_DEFAULT →
      ∃ ex', ex.executeFork state ki reason = some ex' ∧
        ex'.heap.length = ex.heap.length ∧ ex'.addedStates = ex.addedStates ∧
        ex'.processTree = ex.processTree ∧
        (ex'.getState state).destCell ki =
          some (.Constant (ConstantExpr.create 0 ki.typeWidth))) :=
  Executor.executeFork_spec ex state ki reason sf hstate hcrt hsf hdest

/-- Witness of C27: a state with one frame of two registers forks on register
1: the original state 0 reads 1 and the new state 1 reads 0. -/
theorem Executor.executeFork_return_values_witness :
    ∃ ex', forkingExecutor.executeFork 0 { dest := 1 } ForkClass.KLEE_FORK_DEFAULT =
        some ex' ∧
      ex'.heap.length = 2 ∧
      (ex'.getState 0).destCell { dest := 1 } = some (.Constant { value := 1, width := 32 }) ∧
      (ex'.getState 1).destCell { dest := 1 } = some (.Constant { value := 0, width := 32 }) := by
  obtain ⟨ex', h1, h2, _, _, _, h6, h7⟩ := (Executor.executeFork_return_values forkingExecutor 0
    { dest := 1 } ForkClass.KLEE_FORK_DEFAULT { locals := [none, none] } rfl (by decide) rfl
    (by decide)).1 rfl
  exact ⟨ex', h1, h2, h7, h6⟩

/-! ## Thread exit -/

theorem List.eraseIdx_set_self {α : Type} (l : List α) (i : Nat) (a : α) :
    (l.set i a).eraseIdx i = l.eraseIdx i := by
  induction l generalizing i with
  | nil => rfl
  | cons x xs ih =>
    cases i with
    | zero => rfl
    | succ i => simp [List.set, List.eraseIdx, ih]

theorem ExecutionState.eraseIdx_tuid (s : ExecutionState) (it : Nat)
    (hit : it < s.threads.length) (hnd : (s.threads.map fun t => t.tuid).Nodup) :
    ∀ t, t ∈ s.threads.eraseIdx it → t.tuid ≠ (s.threads.getD it {}).tuid := by
  intro t ht heq
  rw [List.mem_eraseIdx_iff_getElem?] at ht
  obtain ⟨j, hj, hjt⟩ := ht
  have hjlt : j < s.threads.length := by
    by_contra h
    rw [List.getElem?_eq_none (by omega)] at hjt
    cases hjt
  rw [List.getElem?_eq_getElem hjlt] at hjt
  injection hjt with hjt
  rw [List.getD_eq_getElem _ _ hit, ← hjt] at heq
  have hj' : j < (s.threads.map fun t => t.tuid).length := by simpa using hjlt
  have hit' : it < (s.threads.map fun t => t.tuid).length := by simpa using hit
  have h1 : (s.threads.map fun t => t.tuid)[j] = (s.threads.map fun t => t.tuid)[it] := by
    simp only [List.getElem_map]
    exact heq
  exact hj ((List.Nodup.getElem_inj_iff hnd).mp h1)

theorem Executor.executeThreadExit_spec (ex : Executor) (state : Nat) (i : Nat)
    (hstate : ex.isAllocated state = true)
    (hcrt : (ex.getState state).crtThreadIt < (ex.getState state).threads.length)
    (hi : i < (ex.getState state).threads.length) (hne : i ≠ (ex.getState state).crtThreadIt)
    (he : (ex.getState state).enabledAt i = true)
    (hnd : ((ex.getState state).threads.map fun t => t.tuid).Nodup) :
    ∃ ex', ex.executeThreadExit state = some ex' ∧
      ex'.isAllocated state = true ∧
      (ex'.getState state).threads =
        (ex.getState state).threads.eraseIdx (ex.getState state).crtThreadIt ∧
      (∀ t, t ∈ (ex'.getState state).threads → t.tuid ≠ (ex.getState state).crtThread.tuid) ∧
      (ex.opts.ForkOnSchedule = false → ex'.heap.length = ex.heap.length) ∧
      (∀ id : Nat, ex.heap.length ≤ id → id < ex'.heap.length →
        ex'.isAllocated id = true ∧
        (ex'.getState id).threads =
          (ex.getState state).threads.set (ex.getState state).crtThreadIt
            { (ex.getState state).crtThread with enabled := false } ∧
        ∃ t, t ∈ (ex'.getState id).threads ∧ t.tuid = (ex.getState state).crtThread.tuid ∧
          t.enabled = false) := by
  have hlt := Executor.isAllocated_lt ex state hstate
  obtain ⟨st1, hst1⟩ : ∃ s, s = (ex.getState state).setCrtThread
      { (ex.getState state).crtThread with enabled := false } := ⟨_, rfl⟩
  have hth1 : st1.threads = (ex.getState state).threads.set (ex.getState state).crtThreadIt
      { (ex.getState state).crtThread with enabled := false } := by rw [hst1]; rfl
  have hcrt1 : st1.crtThreadIt = (ex.getState state).crtThreadIt := by rw [hst1]; rfl
  have hlen1 : st1.threads.length = (ex.getState state).threads.length := by
    rw [hth1, List.length_set]
  obtain ⟨e1, he1⟩ : ∃ e, e = ex.setState state st1 := ⟨_, rfl⟩
  have hg1 : e1.getState state = st1 := by
    rw [he1]; exact Executor.getState_setState_same ex state _ hlt
  have hal1 : e1.isAllocated state = true := by
    rw [he1, Executor.isAllocated_setState ex state state _ hstate]; exact hstate
  have hL1 : e1.heap.length = ex.heap.length := by
    rw [he1]; exact Executor.heap_length_setState _ _ _
  have hopts1 : e1.opts = ex.opts := by rw [he1]; rfl
  have hen1 : (e1.getState state).enabledAt i = true := by
    rw [hg1]
    unfold ExecutionState.enabledAt at he ⊢
    rw [hth1, List.getD_eq_getElem?_getD, List.getElem?_set_ne (fun h => hne h.symm),
      ← List.getD_eq_getElem?_getD]
    exact he
  have hdis1 : (e1.getState state).crtThread.enabled = false := by
    rw [hg1]
    unfold ExecutionState.crtThread
    rw [hth1, hcrt1, List.getD_eq_getElem?_getD, List.getElem?_set_self hcrt]
    rfl
  obtain ⟨k, _, _, _, r, r1, r2⟩ := Executor.schedule_advance e1 state false hal1
    (by rw [hg1, hcrt1, hlen1]; exact hcrt) i (by rw [hg1, hlen1]; exact hi) hen1
    (by rw [hdis1]; rfl)
  obtain ⟨s1, s2, s3, s4⟩ := Executor.SchedInv_preemptions _ state _ _ r r2
  have hcl := ExecutionState.cloneOf_eq _ _ r2.2.2.2.2.1
  have hal := r2.2.2.2.1
  have hL0 : (e1.setState state ((e1.getState state).scheduleNext
      (((e1.getState state).crtThreadIt + 1 + k) % (e1.getState state).threads.length))).heap.length
      = ex.heap.length := by
    rw [Executor.heap_length_setState, hL1]
  have hg0 : (e1.setState state ((e1.getState state).scheduleNext
      (((e1.getState state).crtThreadIt + 1 + k) % (e1.getState state).threads.length))).getState
      state = (e1.getState state).scheduleNext
      (((e1.getState state).crtThreadIt + 1 + k) % (e1.getState state).threads.length) :=
    Executor.getState_setState_same e1 state _ (by rw [hL1]; exact hlt)
  have hthr : (r.1.getState state).threads = st1.threads := by
    rw [hcl, hg0, hg1]; rfl
  have hrlt : state < r.1.heap.length := Executor.isAllocated_lt _ _ hal
  have hrun : ex.executeThreadExit state = some (r.1.setState state
      ((r.1.getState state).terminateThread (ex.getState state).crtThreadIt)) := by
    unfold Executor.executeThreadExit
    have hn1 : ¬ (ex.getState state).threads.length = 1 := by omega
    have hn2 : ¬ ¬ (ex.getState state).threads.length > 1 := by omega
    simp only [hn1, hn2, if_false]
    rw [← hst1, ← he1, r1]
  refine ⟨_, hrun, ?_, ?_, ?_, ?_, ?_⟩
  · rw [Executor.isAllocated_setState _ state state _ hal]; exact hal
  · rw [Executor.getState_setState_same _ state _ hrlt]
    show (r.1.getState state).threads.eraseIdx _ = _
    rw [hthr, hth1, List.eraseIdx_set_self]
  · intro t ht
    rw [Executor.getState_setState_same _ state _ hrlt] at ht
    have ht' : t ∈ (r.1.getState state).threads.eraseIdx (ex.getState state).crtThreadIt := ht
    rw [hthr, hth1, List.eraseIdx_set_self] at ht'
    exact ExecutionState.eraseIdx_tuid _ _ hcrt hnd t ht'
  · intro hf
    rw [Executor.heap_length_setState, s2, hL0]
    rw [hopts1, hf]
    simp
  · intro id h1 h2
    rw [Executor.heap_length_setState] at h2
    have hid : id ≠ state := by
      intro h
      rw [h] at h1
      exact absurd hlt (Nat.not_lt.mpr h1)
    obtain ⟨a1, _, it, _, a4, _⟩ := s4 id (by rw [hL0]; exact h1) h2
    rw [hg0] at a4
    have a4' : (r.1.getState id).threads = st1.threads := by rw [a4, hg1]; rfl
    rw [Executor.isAllocated_setState _ state id _ hal,
      Executor.getState_setState_ne _ state id _ hid, a4', hth1]
    refine ⟨a1, rfl, { (ex.getState state).crtThread with enabled := false }, ?_, rfl, rfl⟩
    exact List.mem_iff_getElem?.mpr ⟨_, List.getElem?_set_self hcrt⟩

/-- Claim C23, what the code does: after `executeThreadExit` on a state with
distinct thread keys whose running thread is not the only one and in which
another thread is enabled, the call returns, and the exiting thread is gone
from the thread table of the original state only.  Every state that
`schedule` forked during the call (there is none without fork-on-schedule) is
allocated and still holds the exiting thread in its table, disabled:
`terminateThread` is applied to the original state alone. -/
theorem Executor.executeThreadExit_threads (ex : Executor) (state : Nat) (i : Nat)
    (hstate : ex.isAllocated state = true)
    (hcrt : (ex.getState state).crtThreadIt < (ex.getState state).threads.length)
    (hi : i < (ex.getState state).threads.length) (hne : i ≠ (ex.getState state).crtThreadIt)
    (he : (ex.getState state).enabledAt i = true)
    (hnd : ((ex.getState state).threads.map fun t => t.tuid).Nodup) :
    ∃ ex', ex.executeThreadExit state = some ex' ∧
      ex'.isAllocated state = true ∧
      (ex'.getState state).threads =
        (ex.getState state).threads.eraseIdx (ex.getState state).crtThreadIt ∧
      (∀ t, t ∈ (ex'.getState state).threads → t.tuid ≠ (ex.getState state).crtThread.tuid) ∧
      (ex.opts.ForkOnSchedule = false → ex'.heap.length = ex.heap.length) ∧
      (∀ id : Nat, ex.heap.length ≤ id → id < ex'.heap.length →
        ex'.isAllocated id = true ∧
        (ex'.getState id).threads =
          (ex.getState state).threads.set (ex.getState state).crtThreadIt
            { (ex.getState state).crtThread with enabled := false } ∧
        ∃ t, t ∈ (ex'.getState id).threads ∧ t.tuid = (ex.getState state).crtThread.tuid ∧
          t.enabled = false) :=
  Executor.executeThreadExit_spec ex state i hstate hcrt hi hne he hnd

/-- Witness of C23: three enabled threads under fork-on-schedule, the first
exits.  The original state keeps threads 2 and 3; the state forked for
thread 3 is live and still has the exited thread 1 in its table. -/
theorem Executor.executeThreadExit_threads_witness :
    ∃ ex', threeThreads.executeThreadExit 0 = some ex' ∧ ex'.heap.length = 2 ∧
      (ex'.getState 0).threads.map (fun t => t.tuid) = [(2, 0), (3, 0)] ∧
      ex'.isAllocated 1 = true ∧
      (ex'.getState 1).threads.map (fun t => (t.tuid, t.enabled)) =
        [((1, 0), false), ((2, 0), true), ((3, 0), true)] := by
  obtain ⟨ex', h1, _, h3, _, _, h6⟩ := Executor.executeThreadExit_threads threeThreads 0 1 rfl
    (by decide) (by decide) (by decide) rfl (by decide)
  have hev : ∃ e, threeThreads.executeThreadExit 0 = some e ∧ e.heap.length = 2 :=
    ⟨_, rfl, rfl⟩
  obtain ⟨e, e1, e2⟩ := hev
  have hlen : ex'.heap.length = 2 := by
    rw [h1] at e1
    injection e1 with e1
    rw [e1]; exact e2
  obtain ⟨a1, a2, _⟩ := h6 1 (by decide) (by rw [hlen]; decide)
  refine ⟨ex', h1, hlen, by rw [h3]; rfl, a1, by rw [a2]; rfl⟩

/-! ## The conditions of a switch -/

/-- Claim C25, what the code does: on a one-byte log that thread 1 of group 1
wrote, an access at offset 0 by thread 2 of the same group is flagged as a
race on the concrete path, for a read and for a write, and is not flagged on
the symbolic path (the same log after `makeSymbolic`, with a solver that is
exact on the query): the symbolic query asks for a thread mismatch and a
group mismatch together.  An access by thread 2 of another group is flagged
on both paths. -/
theorem MemoryLog.symbolic_check_misses_same_group_race :
    (writtenLog.logRead (some (threadState 2 1)) exactSolver 0 {}).1 = true ∧
      (writtenLog.makeSymbolic.logRead (some (threadState 2 1)) exactSolver 0 {}).1 = false ∧
      (writtenLog.logWrite (some (threadState 2 1)) exactSolver 0 {}).1 = true ∧
      (writtenLog.makeSymbolic.logWrite (some (threadState 2 1)) exactSolver 0 {}).1 = false ∧
      (writtenLog.logRead (some (threadState 2 2)) exactSolver 0 {}).1 = true ∧
      (writtenLog.makeSymbolic.logRead (some (threadState 2 2)) exactSolver 0 {}).1 = true := by
  refine ⟨rfl, ?_, rfl, ?_, rfl, ?_⟩ <;> decide

/-! ## Copies of object states -/

theorem ObjectHeap.storeMask_spec (masks : List BitArray) (ptr : Option Nat)
    (mask : Option BitArray) (hptr : ∀ b, ptr = some b → b < masks.length) :
    masks.length ≤ (ObjectHeap.storeMask masks ptr mask).1.length ∧
      (∀ b, (ObjectHeap.storeMask masks ptr mask).2 = some b →
        b < (ObjectHeap.storeMask masks ptr mask).1.length ∧
        (ptr = some b ∨ b = masks.length)) ∧
      (∀ a d, a < masks.length → (∀ b, ptr = some b → a ≠ b) →
        (ObjectHeap.storeMask masks ptr mask).1.getD a d = masks.getD a d) ∧
      ((ObjectHeap.storeMask masks ptr mask).2.map
          (fun a => (ObjectHeap.storeMask masks ptr mask).1.getD a (BitArray.new 0 true)) =
        mask) := by
  cases ptr with
  | none =>
    cases mask with
    | none =>
      refine ⟨Nat.le_refl _, ?_, fun _ _ _ _ => rfl, rfl⟩
      intro b hb; cases hb
    | some m =>
      refine ⟨by simp [ObjectHeap.storeMask], ?_, ?_, ?_⟩
      · intro b hb
        simp only [ObjectHeap.storeMask, Option.some.injEq] at hb
        subst hb
        exact ⟨by simp [ObjectHeap.storeMask], Or.inr rfl⟩
      · intro a d ha _
        simp [ObjectHeap.storeMask, List.getD_eq_getElem?_getD, List.getElem?_append_left ha]
      · simp [ObjectHeap.storeMask, List.getD_eq_getElem?_getD]
  | some p =>
    have hp := hptr p rfl
    cases mask with
    | none =>
      refine ⟨Nat.le_refl _, ?_, fun _ _ _ _ => rfl, rfl⟩
      intro b hb; cases hb
    | some m =>
      refine ⟨by simp [ObjectHeap.storeMask], ?_, ?_, ?_⟩
      · intro b hb
        simp only [ObjectHeap.storeMask, Option.some.injEq] at hb
        subst hb
        exact ⟨by simp [ObjectHeap.storeMask]; exact hp, Or.inl rfl⟩
      · intro a d _ hne
        have : p ≠ a := fun h => hne p rfl h.symm
        simp [ObjectHeap.storeMask, List.getD_eq_getElem?_getD, List.getElem?_set_ne this]
      · simp [ObjectHeap.storeMask, List.getD_eq_getElem?_getD, List.getElem?_set_self hp]

theorem ObjectHeap.storeSymbolics_spec (tables : List (Nat → Option Expr)) (ptr : Option Nat)
    (table : Option (Nat → Option Expr)) (hptr : ∀ b, ptr = some b → b < tables.length) :
    tables.length ≤ (ObjectHeap.storeSymbolics tables ptr table).1.length ∧
      (∀ b, (ObjectHeap.storeSymbolics tables ptr table).2 = some b →
        b < (ObjectHeap.storeSymbolics tables ptr table).1.length ∧
        (ptr = some b ∨ b = tables.length)) ∧
      (∀ a d, a < tables.length → (∀ b, ptr = some b → a ≠ b) →
        (ObjectHeap.storeSymbolics tables ptr table).1.getD a d = tables.getD a d) ∧
      ((ObjectHeap.storeSymbolics tables ptr table).2.map
          (fun a => (ObjectHeap.storeSymbolics tables ptr table).1.getD a fun _ => none) =
        table) := by
  cases ptr with
  | none =>
    cases table with
    | none =>
      refine ⟨Nat.le_refl _, ?_, fun _ _ _ _ => rfl, rfl⟩
      intro b hb; cases hb
    | some m =>
      refine ⟨by simp [ObjectHeap.storeSymbolics], ?_, ?_, ?_⟩
      · intro b hb
        simp only [ObjectHeap.storeSymbolics, Option.some.injEq] at hb
        subst hb
        exact ⟨by simp [ObjectHeap.storeSymbolics], Or.inr rfl⟩
      · intro a d ha _
        simp [ObjectHeap.storeSymbolics, List.getD_eq_getElem?_getD,
          List.getElem?_append_left ha]
      · simp [ObjectHeap.storeSymbolics, List.getD_eq_getElem?_getD]
  | some p =>
    have hp := hptr p rfl
    cases table with
    | none =>
      refine ⟨Nat.le_refl _, ?_, fun _ _ _ _ => rfl, rfl⟩
      intro b hb; cases hb
    | some m =>
      refine ⟨by simp [ObjectHeap.storeSymbolics], ?_, ?_, ?_⟩
      · intro b hb
        simp only [ObjectHeap.storeSymbolics, Option.some.injEq] at hb
        subst hb
        exact ⟨by simp [ObjectHeap.storeSymbolics]; exact hp, Or.inl rfl⟩
      · intro a d _ hne
        have : p ≠ a := fun h => hne p rfl h.symm
        simp [ObjectHeap.storeSymbolics, List.getD_eq_getElem?_getD,
          List.getElem?_set_ne this]
      · simp [ObjectHeap.storeSymbolics, List.getD_eq_getElem?_getD,
          List.getElem?_set_self hp]

theorem ObjectHeap.store_spec (h : ObjectHeap) (r c : ObjectStateRef) (os : ObjectState)
    (hsep : h.Separate r c) :
    (h.store c os).1.load r = h.load r ∧ (h.store c os).1.Separate r (h.store c os).2 ∧
      (h.store c os).1.Separate (h.store c os).2 r := by
  obtain ⟨⟨r1, r2, r3, r4, r5⟩, ⟨c1, c2, c3, c4, c5⟩, s1, s2, s3⟩ := hsep
  obtain ⟨cm, hcm⟩ : ∃ x, x = ObjectHeap.storeMask h.masks c.concreteMask os.concreteMask :=
    ⟨_, rfl⟩
  obtain ⟨fm, hfm⟩ : ∃ x, x = ObjectHeap.storeMask cm.1 c.flushMask os.flushMask := ⟨_, rfl⟩
  obtain ⟨ks, hks⟩ : ∃ x, x = ObjectHeap.storeSymbolics h.symbolics c.knownSymbolics
    os.knownSymbolics := ⟨_, rfl⟩
  obtain ⟨m1, m2, m3, _⟩ := ObjectHeap.storeMask_spec h.masks c.concreteMask os.concreteMask c2
  rw [← hcm] at m1 m2 m3
  obtain ⟨f1, f2, f3, _⟩ := ObjectHeap.storeMask_spec cm.1 c.flushMask os.flushMask
    (fun b hb => Nat.lt_of_lt_of_le (c3 b hb) m1)
  rw [← hfm] at f1 f2 f3
  obtain ⟨k1, k2, k3, _⟩ := ObjectHeap.storeSymbolics_spec h.symbolics c.knownSymbolics
    os.knownSymbolics c4
  rw [← hks] at k1 k2 k3
  obtain ⟨h1, hh1⟩ : ∃ x : ObjectHeap, x =
      { stores := h.stores.set c.concreteStore os.concreteStore
        masks := fm.1
        symbolics := ks.1 } := ⟨_, rfl⟩
  obtain ⟨c0, hc0⟩ : ∃ x : ObjectStateRef, x =
      { concreteStore := c.concreteStore
        concreteMask := cm.2
        flushMask := fm.2
        knownSymbolics := ks.2
        fields := os } := ⟨_, rfl⟩
  have hst : h.store c os = (h1, c0) := by
    rw [hh1, hc0]
    unfold ObjectHeap.store
    rw [hfm, hcm, hks]
  have hmask : ∀ a d, (r.concreteMask = some a ∨ r.flushMask = some a) →
      fm.1.getD a d = h.masks.getD a d := by
    intro a d ha
    have halt : a < h.masks.length := by
      rcases ha with h1 | h1
      · exact r2 a h1
      · exact r3 a h1
    rw [f3 a d (Nat.lt_of_lt_of_le halt m1) (fun b hb => s2 a b ha (Or.inr hb)),
      m3 a d halt (fun b hb => s2 a b ha (Or.inl hb))]
  have hsym : ∀ a d, r.knownSymbolics = some a → ks.1.getD a d = h.symbolics.getD a d := by
    intro a d ha
    exact k3 a d (r4 a ha) (fun b hb => s3 a b ha hb)
  have hvr : ObjectHeap.Valid h1 r := by
    rw [hh1]
    refine ⟨by simp only [List.length_set]; exact r1, ?_, ?_, ?_, r5⟩
    · intro a ha
      exact Nat.lt_of_lt_of_le (r2 a ha) (Nat.le_trans m1 f1)
    · intro a ha
      exact Nat.lt_of_lt_of_le (r3 a ha) (Nat.le_trans m1 f1)
    · intro a ha
      exact Nat.lt_of_lt_of_le (r4 a ha) k1
  have hvc : ObjectHeap.Valid h1 c0 := by
    rw [hh1, hc0]
    refine ⟨by simp only [List.length_set]; exact c1, ?_, ?_, ?_, ?_⟩
    · intro a ha
      exact Nat.lt_of_lt_of_le (m2 a ha).1 f1
    · intro a ha
      exact (f2 a ha).1
    · intro a ha
      exact (k2 a ha).1
    · intro a b ha hb
      have ha' : cm.2 = some a := ha
      have hb' : fm.2 = some b := hb
      rcases (m2 a ha').2 with h1 | h1 <;> rcases (f2 b hb').2 with h2 | h2
      · exact c5 a b h1 h2
      · have := (m2 a ha').1; omega
      · have := c3 b h2; omega
      · have := (m2 a ha').1; omega
  have hdis : ∀ a b, (r.concreteMask = some a ∨ r.flushMask = some a) →
      (cm.2 = some b ∨ fm.2 = some b) → a ≠ b := by
    intro a b ha hb
    have halt : a < h.masks.length := by
      rcases ha with h1 | h1
      · exact r2 a h1
      · exact r3 a h1
    rcases hb with hb | hb
    · rcases (m2 b hb).2 with h1 | h1
      · exact s2 a b ha (Or.inl h1)
      · omega
    · rcases (f2 b hb).2 with h1 | h1
      · exact s2 a b ha (Or.inr h1)
      · omega
  have hdis2 : ∀ a b, r.knownSymbolics = some a → ks.2 = some b → a ≠ b := by
    intro a b ha hb
    rcases (k2 b hb).2 with h1 | h1
    · exact s3 a b ha h1
    · have := r4 a ha; omega
  rw [hst]
  refine ⟨?_, ⟨hvr, hvc, ?_, ?_, ?_⟩, ⟨hvc, hvr, ?_, ?_, ?_⟩⟩
  rotate_left
  · rw [hc0]; exact s1
  · rw [hc0]; exact hdis
  · rw [hc0]; exact hdis2
  · rw [hc0]; exact fun h => s1 h.symm
  · rw [hc0]; exact fun a b ha hb => fun h => hdis b a hb ha h.symm
  · rw [hc0]; exact fun a b ha hb => fun h => hdis2 b a hb ha h.symm
  rw [hh1]
  unfold ObjectHeap.load
  simp only
  have e1 : (h.stores.set c.concreteStore os.concreteStore).getD r.concreteStore (fun _ => 0) =
      h.stores.getD r.concreteStore fun _ => 0 := by
    rw [List.getD_eq_getElem?_getD, List.getD_eq_getElem?_getD,
      List.getElem?_set_ne (fun h => s1 h.symm)]
  have e2 : (r.concreteMask.map fun a => fm.1.getD a (BitArray.new 0 true)) =
      r.concreteMask.map fun a => h.masks.getD a (BitArray.new 0 true) := by
    cases hx : r.concreteMask with
    | none => rfl
    | some a => simp only [Option.map_some']; rw [hmask a _ (Or.inl hx)]
  have e3 : (r.flushMask.map fun a => fm.1.getD a (BitArray.new 0 true)) =
      r.flushMask.map fun a => h.masks.getD a (BitArray.new 0 true) := by
    cases hx : r.flushMask with
    | none => rfl
    | some a => simp only [Option.map_some']; rw [hmask a _ (Or.inr hx)]
  have e4 : (r.knownSymbolics.map fun a => ks.1.getD a fun _ => none) =
      r.knownSymbolics.map fun a => h.symbolics.getD a fun _ => none := by
    cases hx : r.knownSymbolics with
    | none => rfl
    | some a => simp only [Option.map_some']; rw [hsym a _ hx]
  rw [e1, e2, e3, e4]

theorem ObjectHeap.write_spec (h h2 : ObjectHeap) (r c c2 : ObjectStateRef)
    (st : Option ExecutionState) (sol : TimingSolver) (w : ObjectWrite)
    (hsep : h.Separate r c) (hw : h.write c st sol w = some (h2, c2)) :
    h2.load r = h.load r ∧ h2.Separate r c2 ∧ h2.Separate c2 r := by
  cases w with
  | constant offset value =>
    simp only [ObjectHeap.write, ObjectHeap.write8, Option.some.injEq] at hw
    have := ObjectHeap.store_spec h r c ((h.load c).write8 offset value st sol) hsep
    rw [hw] at this
    exact this
  | value offset value =>
    simp only [ObjectHeap.write, ObjectHeap.write8Value, Option.some.injEq] at hw
    have := ObjectHeap.store_spec h r c ((h.load c).write8Value offset value st sol) hsep
    rw [hw] at this
    exact this
  | symbolic offset value =>
    simp only [ObjectHeap.write, ObjectHeap.write8Expr] at hw
    split at hw
    · cases hw
    · rename_i os hos
      simp only [Option.some.injEq] at hw
      have := ObjectHeap.store_spec h r c os hsep
      rw [hw] at this
      exact this

theorem ObjectHeap.load_extend (h : ObjectHeap) (r : ObjectStateRef) (xs : List (Nat → Nat))
    (ys : List BitArray) (zs : List (Nat → Option Expr)) (hv : h.Valid r) :
    ObjectHeap.Valid ⟨h.stores ++ xs, h.masks ++ ys, h.symbolics ++ zs⟩ r ∧
      ObjectHeap.load ⟨h.stores ++ xs, h.masks ++ ys, h.symbolics ++ zs⟩ r = h.load r := by
  obtain ⟨r1, r2, r3, r4, r5⟩ := hv
  have hold : ∀ {α : Type} (l m : List α) (d : α) (a : Nat), a < l.length →
      (l ++ m).getD a d = l.getD a d := by
    intro α l m d a ha
    rw [List.getD_eq_getElem?_getD, List.getD_eq_getElem?_getD, List.getElem?_append_left ha]
  refine ⟨⟨?_, ?_, ?_, ?_, r5⟩, ?_⟩
  · simp only [List.length_append]; omega
  · intro a ha
    have := r2 a ha
    simp only [List.length_append]; omega
  · intro a ha
    have := r3 a ha
    simp only [List.length_append]; omega
  · intro a ha
    have := r4 a ha
    simp only [List.length_append]; omega
  · unfold ObjectHeap.load
    simp only
    rw [hold _ _ _ _ r1]
    have e2 : (r.concreteMask.map fun a => (h.masks ++ ys).getD a (BitArray.new 0 true)) =
        r.concreteMask.map fun a => h.masks.getD a (BitArray.new 0 true) := by
      cases hx : r.concreteMask with
      | none => rfl
      | some a => simp only [Option.map_some']; rw [hold _ _ _ _ (r2 a hx)]
    have e3 : (r.flushMask.map fun a => (h.masks ++ ys).getD a (BitArray.new 0 true)) =
        r.flushMask.map fun a => h.masks.getD a (BitArray.new 0 true) := by
      cases hx : r.flushMask with
      | none => rfl
      | some a => simp only [Option.map_some']; rw [hold _ _ _ _ (r3 a hx)]
    have e4 : (r.knownSymbolics.map fun a => (h.symbolics ++ zs).getD a fun _ => none) =
        r.knownSymbolics.map fun a => h.symbolics.getD a fun _ => none := by
      cases hx : r.knownSymbolics with
      | none => rfl
      | some a => simp only [Option.map_some']; rw [hold _ _ _ _ (r4 a hx)]
    rw [e2, e3, e4]

theorem ObjectHeap.copy_spec (h h1 : ObjectHeap) (r c : ObjectStateRef) (garbage : Nat → Nat)
    (hv : h.Valid r) (hc : h.copy r garbage = some (h1, c)) :
    (h.load r).copy garbage = some (h1.load c) ∧ h1.load r = h.load r ∧ h1.Separate r c := by
  have hv0 := hv
  obtain ⟨r1, r2, r3, r4, r5⟩ := hv
  unfold ObjectHeap.copy at hc
  split at hc
  · cases hc
  · rename_i os hos
    rw [hos]
    have hget2 : ∀ (l : List BitArray) (x y d : BitArray),
        (l ++ [x] ++ [y]).getD l.length d = x := by
      intro l x y d
      rw [List.append_assoc, List.getD_eq_getElem?_getD, List.getElem?_append_right (le_refl _)]
      simp
    have hget3 : ∀ (l : List BitArray) (x y d : BitArray),
        (l ++ [x] ++ [y]).getD (l ++ [x]).length d = y := by
      intro l x y d
      rw [List.getD_eq_getElem?_getD, List.getElem?_append_right (le_refl _)]
      simp
    obtain ⟨o1, o2, o3, o4, o5, o6, o7, o8, o9, o10, o11, o12⟩ := os
    cases o5 <;> cases o6 <;> cases o7 <;>
      simp only [Option.some.injEq, Prod.mk.injEq] at hc <;>
      obtain ⟨rfl, rfl⟩ := hc <;>
      refine ⟨?_, ?_, ?_, ?_, ?_, ?_, ?_⟩
    all_goals first
      | (simp [ObjectHeap.load, List.getD_eq_getElem?_getD]; done)
      | (simp only [ObjectHeap.load, Option.map_some', Option.map_none', hget2, hget3]
         simp [List.getD_eq_getElem?_getD]; done)
      | (rename_i v; simpa using (ObjectHeap.load_extend h r [o4] [] [v] hv0).2)
      | (rename_i v; simpa using (ObjectHeap.load_extend h r [o4] [] [v] hv0).1)
      | (rename_i v; simpa using (ObjectHeap.load_extend h r [o4] [v] [] hv0).2)
      | (rename_i v; simpa using (ObjectHeap.load_extend h r [o4] [v] [] hv0).1)
      | (rename_i v w; simpa using (ObjectHeap.load_extend h r [o4] [v] [w] hv0).2)
      | (rename_i v w; simpa using (ObjectHeap.load_extend h r [o4] [v] [w] hv0).1)
      | (rename_i v w; simpa using (ObjectHeap.load_extend h r [o4] [v, w] [] hv0).2)
      | (rename_i v w; simpa using (ObjectHeap.load_extend h r [o4] [v, w] [] hv0).1)
      | (rename_i u v w; simpa using (ObjectHeap.load_extend h r [o4] [u, v] [w] hv0).2)
      | (rename_i u v w; simpa using (ObjectHeap.load_extend h r [o4] [u, v] [w] hv0).1)
      | (simpa using (ObjectHeap.load_extend h r [o4] [] [] hv0).2)
      | (simpa using (ObjectHeap.load_extend h r [o4] [] [] hv0).1)
      | (simp [ObjectHeap.Valid]; done)
      | (simp only; omega)
      | (intro a b ha hb
         rcases ha with ha | ha <;> [have hl := r2 a ha; have hl := r3 a ha] <;>
           simp at hb <;> omega)
      | (intro a b ha hb
         have hl := r4 a ha
         simp at hb
         all_goals omega)

theorem ObjectHeap.store_load (h : ObjectHeap) (c : ObjectStateRef) (os : ObjectState)
    (hv : h.Valid c) : (h.store c os).1.load (h.store c os).2 = os := by
  obtain ⟨c1, c2, c3, c4, c5⟩ := hv
  obtain ⟨cm, hcm⟩ : ∃ x, x = ObjectHeap.storeMask h.masks c.concreteMask os.concreteMask :=
    ⟨_, rfl⟩
  obtain ⟨fm, hfm⟩ : ∃ x, x = ObjectHeap.storeMask cm.1 c.flushMask os.flushMask := ⟨_, rfl⟩
  obtain ⟨ks, hks⟩ : ∃ x, x = ObjectHeap.storeSymbolics h.symbolics c.knownSymbolics
    os.knownSymbolics := ⟨_, rfl⟩
  obtain ⟨m1, m2, m3, m4⟩ := ObjectHeap.storeMask_spec h.masks c.concreteMask os.concreteMask c2
  rw [← hcm] at m1 m2 m3 m4
  obtain ⟨f1, f2, f3, f4⟩ := ObjectHeap.storeMask_spec cm.1 c.flushMask os.flushMask
    (fun b hb => Nat.lt_of_lt_of_le (c3 b hb) m1)
  rw [← hfm] at f1 f2 f3 f4
  obtain ⟨k1, k2, k3, k4⟩ := ObjectHeap.storeSymbolics_spec h.symbolics c.knownSymbolics
    os.knownSymbolics c4
  rw [← hks] at k1 k2 k3 k4
  have hst : h.store c os = (
      { stores := h.stores.set c.concreteStore os.concreteStore
        masks := fm.1
        symbolics := ks.1 },
      { concreteStore := c.concreteStore
        concreteMask := cm.2
        flushMask := fm.2
        knownSymbolics := ks.2
        fields := os }) := by
    unfold ObjectHeap.store
    rw [hfm, hcm, hks]
  rw [hst]
  unfold ObjectHeap.load
  simp only
  have e1 : (h.stores.set c.concreteStore os.concreteStore).getD c.concreteStore (fun _ => 0) =
      os.concreteStore := by
    rw [List.getD_eq_getElem?_getD, List.getElem?_set_self c1]
    rfl
  have e2 : (cm.2.map fun a => fm.1.getD a (BitArray.new 0 true)) = os.concreteMask := by
    rw [← m4]
    cases hx : cm.2 with
    | none => rfl
    | some a =>
      simp only [Option.map_some']
      have ha := m2 a hx
      rw [f3 a _ ha.1]
      intro b hb
      rcases ha.2 with h1 | h1
      · exact c5 a b h1 hb
      · have := c3 b hb
        omega
  have e4 : (ks.2.map fun a => ks.1.getD a fun _ => none) = os.knownSymbolics := k4
  rw [e1, e2, f4, e4]

theorem ObjectHeap.Separate_symm (h : ObjectHeap) (r c : ObjectStateRef)
    (hsep : h.Separate r c) : h.Separate c r := by
  obtain ⟨a1, a2, a3, a4, a5⟩ := hsep
  exact ⟨a2, a1, fun e => a3 e.symm, fun a b ha hb e => a4 b a hb ha e.symm,
    fun a b ha hb e => a5 b a hb ha e.symm⟩

theorem ObjectHeap.write_load (h h2 : ObjectHeap) (c c2 : ObjectStateRef)
    (st : Option ExecutionState) (sol : TimingSolver) (w : ObjectWrite)
    (hv : h.Valid c) (hw : h.write c st sol w = some (h2, c2)) :
    (h.load c).writeByte st sol w = some (h2.load c2) := by
  cases w with
  | constant offset value =>
    simp only [ObjectHeap.write, ObjectHeap.write8, Option.some.injEq] at hw
    have := ObjectHeap.store_load h c ((h.load c).write8 offset value st sol) hv
    rw [hw] at this
    simp only [ObjectState.writeByte, this]
  | value offset value =>
    simp only [ObjectHeap.write, ObjectHeap.write8Value, Option.some.injEq] at hw
    have := ObjectHeap.store_load h c ((h.load c).write8Value offset value st sol) hv
    rw [hw] at this
    simp only [ObjectState.writeByte, this]
  | symbolic offset value =>
    simp only [ObjectHeap.write, ObjectHeap.write8Expr] at hw
    split at hw
    · cases hw
    · rename_i os hos
      simp only [Option.some.injEq] at hw
      have := ObjectHeap.store_load h c os hv
      rw [hw] at this
      simp only [ObjectState.writeByte, hos, this]

theorem ObjectHeap.writesBoth_spec (st : Option ExecutionState) (sol : TimingSolver)
    (ws : List (Bool × ObjectWrite)) :
    ∀ (h h2 : ObjectHeap) (r c r2 c2 : ObjectStateRef), h.Separate r c →
      h.writesBoth r c st sol ws = some (h2, r2, c2) →
      (h.load r).writeSequence st sol (writesOn true ws) = some (h2.load r2) ∧
        (h.load c).writeSequence st sol (writesOn false ws) = some (h2.load c2) := by
  induction ws with
  | nil =>
    intro h h2 r c r2 c2 _ hw
    simp only [ObjectHeap.writesBoth, Option.some.injEq, Prod.mk.injEq] at hw
    obtain ⟨rfl, rfl, rfl⟩ := hw
    exact ⟨rfl, rfl⟩
  | cons w ws ih =>
    intro h h2 r c r2 c2 hsep hw
    obtain ⟨b, w⟩ := w
    cases b with
    | true =>
      simp only [ObjectHeap.writesBoth] at hw
      split at hw
      · cases hw
      · rename_i p hp
        obtain ⟨h1, r1⟩ := p
        obtain ⟨e1, s1, s2⟩ := ObjectHeap.write_spec h h1 c r r1 st sol w
          (ObjectHeap.Separate_symm h r c hsep) hp
        have e2 := ObjectHeap.write_load h h1 r r1 st sol w hsep.1 hp
        obtain ⟨i1, i2⟩ := ih h1 h2 r1 c r2 c2 s2 hw
        have t1 : writesOn true ((true, w) :: ws) = w :: writesOn true ws := rfl
        have t2 : writesOn false ((true, w) :: ws) = writesOn false ws := rfl
        rw [t1, t2, ObjectState.writeSequence, e2, ← e1]
        exact ⟨i1, i2⟩
    | false =>
      simp only [ObjectHeap.writesBoth] at hw
      split at hw
      · cases hw
      · rename_i p hp
        obtain ⟨h1, c1⟩ := p
        obtain ⟨e1, s1, s2⟩ := ObjectHeap.write_spec h h1 r c c1 st sol w hsep hp
        have e2 := ObjectHeap.write_load h h1 c c1 st sol w hsep.2.1 hp
        obtain ⟨i1, i2⟩ := ih h1 h2 r c1 r2 c2 s1 hw
        have t1 : writesOn true ((false, w) :: ws) = writesOn true ws := rfl
        have t2 : writesOn false ((false, w) :: ws) = w :: writesOn false ws := rfl
        rw [t1, t2, ObjectState.writeSequence, e2, ← e1]
        exact ⟨i1, i2⟩

theorem ObjectState.copy_same (os os' : ObjectState) (garbage : Nat → Nat)
    (h : os.copy garbage = some os') (offset : Nat) (hlt : offset < os.size)
    (st : Option ExecutionState) (sol : TimingSolver) :
    (os'.read8 offset st sol).map Prod.fst = (os.read8 offset st sol).map Prod.fst ∧
      os'.isByteConcrete offset = os.isByteConcrete offset ∧
      os'.isByteKnownSymbolic offset = os.isByteKnownSymbolic offset ∧
      os'.isByteFlushed offset = os.isByteFlushed offset := by
  unfold ObjectState.copy at h
  split at h
  · cases h
  · injection h with h
    subst h
    have hk : ∀ k : Option (Nat → Option Expr),
        ((k.map fun ks i => if i < os.size then ks i else none).bind fun ks => ks offset) =
          k.bind fun ks => ks offset := by
      intro k
      cases k with
      | none => rfl
      | some ks => simp only [Option.map_some', Option.some_bind, if_pos hlt]
    refine ⟨ObjectState.read8_value_congr _ _ offset st sol rfl ?_ (hk _) rfl rfl rfl, rfl, ?_,
      rfl⟩
    · simp only [if_pos hlt]
    · unfold ObjectState.isByteKnownSymbolic
      cases os.knownSymbolics with
      | none => rfl
      | some ks => simp only [Option.map_some', if_pos hlt]

/-- Claim C24: a copied object state is an independent snapshot.  For a source
that is laid out in memory and is not read-only, the copy constructor returns
a copy and leaves the source as it was.  At every offset below the size the
copy has the same `read8` value and the same concrete, known-symbolic and
flushed status as the source.  After any sequence of later `write8` calls
(constant or symbolic offset, constant or symbolic value) to the source and to
the copy, in any order, each object is what its own writes alone make of it;
so writes to the copy alone leave the source unchanged, and writes to the
source alone leave the copy unchanged. -/
theorem ObjectHeap.copy_is_independent (h : ObjectHeap) (r : ObjectStateRef)
    (garbage : Nat → Nat) (hv : h.Valid r) (hro : (h.load r).readOnly = false) :
    ∃ h1 c, h.copy r garbage = some (h1, c) ∧ h1.load r = h.load r ∧
      (∀ offset st sol, offset < (h.load r).size →
        ((h1.load c).read8 offset st sol).map Prod.fst =
            ((h1.load r).read8 offset st sol).map Prod.fst ∧
          (h1.load c).isByteConcrete offset = (h1.load r).isByteConcrete offset ∧
          (h1.load c).isByteKnownSymbolic offset = (h1.load r).isByteKnownSymbolic offset ∧
          (h1.load c).isByteFlushed offset = (h1.load r).isByteFlushed offset) ∧
      ∀ st sol ws h2 r2 c2, h1.writesBoth r c st sol ws = some (h2, r2, c2) →
        (h1.load r).writeSequence st sol (writesOn true ws) = some (h2.load r2) ∧
          (h1.load c).writeSequence st sol (writesOn false ws) = some (h2.load c2) ∧
          (writesOn true ws = [] → h2.load r2 = h1.load r) ∧
          (writesOn false ws = [] → h2.load c2 = h1.load c) := by
  have hsome : ∃ p, h.copy r garbage = some p := by
    unfold ObjectHeap.copy ObjectState.copy
    rw [hro]
    exact ⟨_, rfl⟩
  obtain ⟨⟨h1, c⟩, hc⟩ := hsome
  obtain ⟨e1, e2, hsep⟩ := ObjectHeap.copy_spec h h1 r c garbage hv hc
  refine ⟨h1, c, hc, e2, ?_, ?_⟩
  · intro offset st sol hlt
    rw [e2]
    exact ObjectState.copy_same _ _ garbage e1 offset hlt st sol
  · intro st sol ws h2 r2 c2 hw
    obtain ⟨w1, w2⟩ := ObjectHeap.writesBoth_spec st sol ws h1 h2 r c r2 c2 hsep hw
    refine ⟨w1, w2, ?_, ?_⟩
    · intro hnil
      rw [hnil] at w1
      simp only [ObjectState.writeSequence, Option.some.injEq] at w1
      exact w1.symm
    · intro hnil
      rw [hnil] at w2
      simp only [ObjectState.writeSequence, Option.some.injEq] at w2
      exact w2.symm

/-- Witness of C24: the copy of the four-byte example object, whose byte 1
holds a symbolic value. -/
theorem ObjectHeap.copy_is_independent_witness :
    exampleHeap.1.Valid exampleHeap.2 ∧ (exampleHeap.1.load exampleHeap.2).readOnly = false ∧
      ∃ h1 c, exampleHeap.1.copy exampleHeap.2 (fun _ => 0) = some (h1, c) ∧
        h1.load exampleHeap.2 = exampleHeap.1.load exampleHeap.2 ∧
        ((h1.load c).read8 1 none silentSolver).map Prod.fst =
          ((h1.load exampleHeap.2).read8 1 none silentSolver).map Prod.fst := by
  have hcm : exampleHeap.2.concreteMask = some 0 := rfl
  have hfm : exampleHeap.2.flushMask = none := rfl
  have hks : exampleHeap.2.knownSymbolics = some 0 := rfl
  have hv : exampleHeap.1.Valid exampleHeap.2 := by
    refine ⟨by decide, ?_, ?_, ?_, ?_⟩
    · intro a ha
      rw [hcm] at ha
      cases ha
      decide
    · intro a ha
      rw [hfm] at ha
      cases ha
    · intro a ha
      rw [hks] at ha
      cases ha
      decide
    · intro a b _ hb
      rw [hfm] at hb
      cases hb
  obtain ⟨h1, c, hc, e, hs, _⟩ :=
    ObjectHeap.copy_is_independent exampleHeap.1 exampleHeap.2 (fun _ => 0) hv rfl
  exact ⟨hv, rfl, h1, c, hc, e, (hs 1 none silentSolver (by decide)).1⟩

end klee
